import Mathlib

/-!
# libvata2: nondeterministic finite automata — shallow embedding and verified properties

The definitions below follow `include/vata2/nfa.hh` and `src/nfa/nfa.cc`.

Modelling conventions.

* `State` and `Symbol` are `uintptr_t` in the source and `Nat` here.  The only arithmetic
  the kernel performs on them is `++cnt_state` on counters that start at `0` and count
  allocated states, so wrap-around would need `2^64` live states; it is not modelled.
* `std::set<State>` (`StateSet`) is an ascending duplicate-free list; `set_insert` is
  `std::set::insert`.
* `std::unordered_map<K, V>` is an association list.  The C++ standard leaves the iteration
  order of an unordered map unspecified; the model iterates in insertion order.  Every theorem
  about an input automaton is stated for an arbitrary well-formed table, i.e. for any order
  of its entries.
* `std::unordered_set<State>` is a list in insertion order (only membership is observed).
* `while` loops that the type system cannot see terminating take a `fuel` argument and return
  `none` when it runs out; termination is proved separately by exhibiting enough fuel.
-/

namespace Vata2

abbrev State := Nat
abbrev Symbol := Nat
/-- The `std::set<State>` of the source: ascending, no duplicates. -/
abbrev StateSet := List State
/-- The `std::unordered_map<Symbol, StateSet>` of the source. -/
abbrev PostSymb := List (Symbol × StateSet)
/-- The `std::unordered_map<State, PostSymb>` of the source. -/
abbrev StateToPostMap := List (State × PostSymb)
abbrev Path := List State
abbrev Word := List Symbol
/-- The `std::unordered_map<std::pair<State, State>, State>` of the source. -/
abbrev ProductMap := List ((State × State) × State)
/-- The `std::unordered_map<StateSet, State>` of the source. -/
abbrev SubsetMap := List (StateSet × State)

/-- A transition `(src, symb, tgt)`. -/
structure Trans where
  src : State
  symb : Symbol
  tgt : State
deriving DecidableEq

/-! ## Containers -/

/-- The member function `std::set::insert(x)`: ordered insertion, a no-op when `x` is present. -/
def set_insert (x : Nat) : List Nat → List Nat
  | [] => [x]
  | y :: ys =>
    if x < y then x :: y :: ys
    else if x = y then y :: ys
    else y :: set_insert x ys

/-- The range form `s.insert(first, last)` of `std::set::insert`. -/
def set_insert_all (xs : List Nat) (s : List Nat) : List Nat :=
  xs.foldl (fun acc x => set_insert x acc) s

/-- Modelled from the spec: `Vata2::util::haskey` (declared in `vata2/util.hh`, which is not
among the sources): membership of a key in a container. -/
def haskey {α : Type} [DecidableEq α] (s : List α) (x : α) : Bool :=
  decide (x ∈ s)

/-- Modelled from the spec: `Vata2::util::are_disjoint` (declared in `vata2/util.hh`, which is
not among the sources): the two sets have no common element. -/
def are_disjoint (a b : List Nat) : Bool :=
  a.all (fun x => !haskey b x)

/-- Lookup `m.find(k)` in an unordered map; `none` stands for `m.end()`. -/
def umap_find {κ β : Type} [DecidableEq κ] (m : List (κ × β)) (k : κ) : Option β :=
  match m with
  | [] => none
  | (k', v) :: rest => if k' = k then some v else umap_find rest k

/-- Assignment through an iterator or reference to the entry with key `k`
(`it->second = v`); the table is unchanged when there is no such entry. -/
def umap_replace {κ β : Type} [DecidableEq κ] (m : List (κ × β)) (k : κ) (v : β) :
    List (κ × β) :=
  match m with
  | [] => []
  | (k', v') :: rest =>
    if k' = k then (k', v) :: rest else (k', v') :: umap_replace rest k v

/-- The call `m.insert({k, v})`: adds the entry when the key is absent and leaves the table
alone otherwise.  Returns the table, the value now stored under `k` (`it->second`) and the
`inserted` flag. -/
def umap_insert {κ β : Type} [DecidableEq κ] (m : List (κ × β)) (k : κ) (v : β) :
    List (κ × β) × β × Bool :=
  match umap_find m k with
  | some v' => (m, v', false)
  | none => (m ++ [(k, v)], v, true)

/-- The subscript `m[k]` used as an rvalue: the stored value, or a value-initialised one that
is inserted when the key is absent.  Returns the table and the value. -/
def umap_index {κ β : Type} [DecidableEq κ] (m : List (κ × β)) (k : κ) (dflt : β) :
    List (κ × β) × β :=
  match umap_find m k with
  | some v => (m, v)
  | none => (m ++ [(k, dflt)], dflt)

/-- The assignment `m[k] = v`: overwrite or insert. -/
def umap_assign {κ β : Type} [DecidableEq κ] (m : List (κ × β)) (k : κ) (v : β) :
    List (κ × β) :=
  match umap_find m k with
  | some _ => umap_replace m k v
  | none => m ++ [(k, v)]

/-! ## The NFA store -/

/-- The `struct Nfa`: the transition table and the initial and final sets. -/
structure Nfa where
  transitions : StateToPostMap := []
  initialstates : StateSet := []
  finalstates : StateSet := []
deriving DecidableEq

namespace Nfa

def add_initial (A : Nfa) (state : State) : Nfa :=
  { A with initialstates := set_insert state A.initialstates }

def has_initial (A : Nfa) (state : State) : Bool :=
  haskey A.initialstates state

def add_final (A : Nfa) (state : State) : Nfa :=
  { A with finalstates := set_insert state A.finalstates }

def has_final (A : Nfa) (state : State) : Bool :=
  haskey A.finalstates state

/-- `Nfa::add_trans(const Trans&)`. -/
def add_trans (A : Nfa) (trans : Trans) : Nfa :=
  match umap_find A.transitions trans.src with
  | some post =>
    match umap_find post trans.symb with
    | some tgts =>
      let post' := umap_replace post trans.symb (set_insert trans.tgt tgts)
      { A with transitions := umap_replace A.transitions trans.src post' }
    | none =>
      let post' := post ++ [(trans.symb, [trans.tgt])]
      { A with transitions := umap_replace A.transitions trans.src post' }
  | none =>
    { A with transitions := A.transitions ++ [(trans.src, [(trans.symb, [trans.tgt])])] }

/-- `Nfa::has_trans(const Trans&)`. -/
def has_trans (A : Nfa) (trans : Trans) : Bool :=
  match umap_find A.transitions trans.src with
  | none => false
  | some post =>
    match umap_find post trans.symb with
    | none => false
    | some tgts => haskey tgts trans.tgt

/-- `Nfa::trans_size()`. -/
def trans_size (A : Nfa) : Nat :=
  A.transitions.foldl
    (fun cnt sp => sp.2.foldl (fun cnt st => cnt + st.2.length) cnt) 0

/-- `Nfa::post(State)`: the post map of a state, `none` for the null pointer. -/
def post (A : Nfa) (state : State) : Option PostSymb :=
  umap_find A.transitions state

/-- `Nfa::operator[](State)`: the post map of a state, `EMPTY_POST` when there is none. -/
def index (A : Nfa) (state : State) : PostSymb :=
  match A.post state with
  | none => []
  | some post_s => post_s

/-- `Nfa::post(const StateSet&, Symbol)`: the post of a set of states over a symbol. -/
def post_macro (A : Nfa) (macrostate : StateSet) (sym : Symbol) : StateSet :=
  macrostate.foldl
    (fun result state =>
      match A.post state with
      | none => result
      | some post_s =>
        match umap_find post_s sym with
        | none => result
        | some tgts => set_insert_all tgts result)
    []

/-- The sequence of transitions visited by `for (const auto& trans : aut)`, i.e. by
`const_iterator` from `begin()` to `end()`: the three-level nesting flattened. -/
def trans_list (A : Nfa) : List Trans :=
  A.transitions.flatMap
    (fun sp => sp.2.flatMap (fun st => st.2.map (fun tgt => Trans.mk sp.1 st.1 tgt)))

end Nfa

/-- The loop of `is_in_lang` over the remaining symbols of the word. -/
def is_in_lang_loop (aut : Nfa) : StateSet → Word → Bool
  | cur, [] => !are_disjoint cur aut.finalstates
  | cur, sym :: rest =>
    let cur' := aut.post_macro cur sym
    if cur'.isEmpty then false else is_in_lang_loop aut cur' rest

/-- `Vata2::Nfa::is_in_lang`. -/
def is_in_lang (aut : Nfa) (word : Word) : Bool :=
  is_in_lang_loop aut aut.initialstates word

/-! ## Class invariant and the language of an automaton -/

/-- The invariant of a `PostSymb` stored in the table: at least one symbol entry, one entry
per symbol (it is a map), and every target set non-empty and ascending without duplicates
(it is a `std::set`). -/
def PostSymb_wf (post : PostSymb) : Prop :=
  post ≠ [] ∧ (post.map Prod.fst).Nodup ∧
    ∀ st ∈ post, st.2 ≠ [] ∧ st.2.Sorted (· < ·)

instance (post : PostSymb) : Decidable (PostSymb_wf post) :=
  inferInstanceAs (Decidable (_ ∧ _ ∧ _))

/-- The values the C++ type `Nfa` can hold: the transition table has one entry per source
state, every entry satisfies `PostSymb_wf`, and the initial and final sets are `std::set`s. -/
def Nfa.WF (A : Nfa) : Prop :=
  (A.transitions.map Prod.fst).Nodup ∧ (∀ sp ∈ A.transitions, PostSymb_wf sp.2) ∧
    A.initialstates.Sorted (· < ·) ∧ A.finalstates.Sorted (· < ·)

instance (A : Nfa) : Decidable A.WF :=
  inferInstanceAs (Decidable (_ ∧ _ ∧ _ ∧ _))

/-- Runs of a labelled transition relation `T` over any type of states: `Reach T q w q'`
says that `w` labels a sequence of `T`-steps from `q` to `q'`. -/
def Reach {κ : Type} (T : κ → Symbol → κ → Prop) : κ → Word → κ → Prop
  | q, [], q' => q = q'
  | q, a :: w, q' => ∃ r, T q a r ∧ Reach T r w q'

/-- The words accepted by a transition system with initial states `I`, final states `F` and
transition relation `T`. -/
def Acc {κ : Type} (I F : κ → Prop) (T : κ → Symbol → κ → Prop) (w : Word) : Prop :=
  ∃ q0, I q0 ∧ ∃ qf, F qf ∧ Reach T q0 w qf

/-- The transition relation of an automaton, as `has_trans` reports it. -/
def Nfa.trel (A : Nfa) : State → Symbol → State → Prop :=
  fun q a r => A.has_trans ⟨q, a, r⟩ = true

/-- There is a run of `A` from `q` to `q'` reading the word: a sequence of transitions
`has_trans` accepts, labelled by the symbols of the word in order. -/
def Nfa.reach (A : Nfa) : State → Word → State → Prop :=
  Reach A.trel

/-- The word is in the language of `A`: some run from an initial state to a final state
reads it. -/
def Nfa.accepts (A : Nfa) (w : Word) : Prop :=
  ∃ q0 ∈ A.initialstates, ∃ qf ∈ A.finalstates, A.reach q0 w qf

/-- The state occurs in the automaton: as an initial state, as a final state, or as source or
target of a transition. -/
def Nfa.has_state (A : Nfa) (q : State) : Prop :=
  q ∈ A.initialstates ∨ q ∈ A.finalstates ∨
    ∃ t, A.has_trans t = true ∧ (t.src = q ∨ t.tgt = q)

/-! ## Loops -/

/-- A `while (cond) body` loop.  `none` means that the fuel ran out before the condition
became false. -/
def while_loop {σ : Type} (cond : σ → Bool) (body : σ → σ) : Nat → σ → Option σ
  | 0, _ => none
  | fuel + 1, s => if cond s then while_loop cond body fuel (body s) else some s

/-- A `while (cond) body` loop whose body may leave the function (`return`, `throw`, a failed
`assert`): the body answers `.error r` to leave with `r` and `.ok s` to go on.  `none` means
that the fuel ran out. -/
def while_loop_exit {σ ρ : Type} (cond : σ → Bool) (body : σ → Except ρ σ) :
    Nat → σ → Option (Except ρ σ)
  | 0, _ => none
  | fuel + 1, s =>
    if cond s then
      match body s with
      | .error r => some (.error r)
      | .ok s' => while_loop_exit cond body fuel s'
    else some (.ok s)

/-- The two ways the kernel can stop without returning. -/
inductive Fault where
  | assertion_failed
  | null_dereference
deriving DecidableEq

/-- The call `s.insert(x)` on a `std::unordered_set`: the set and the `inserted` flag. -/
def uset_insert {α : Type} [DecidableEq α] (s : List α) (x : α) : List α × Bool :=
  if x ∈ s then (s, false) else (s ++ [x], true)

/-- Construction of a `std::unordered_set` from a range, and range insertion. -/
def uset_insert_all {α : Type} [DecidableEq α] (xs : List α) (s : List α) : List α :=
  xs.foldl (fun acc x => (uset_insert acc x).1) s

/-- The common inner loop of the forward traversals:
`for (tgt_state : stateset) { if (processed.insert(tgt_state).second) worklist.push_back(tgt_state); }`
on the pair `(worklist, processed)`. -/
def bfs_push (stateset : StateSet) (wp : List State × List State) : List State × List State :=
  stateset.foldl
    (fun wp tgt_state =>
      let ins := uset_insert wp.2 tgt_state
      if ins.2 then (wp.1 ++ [tgt_state], ins.1) else (wp.1, ins.1))
    wp

/-! ## Alphabets -/

/-- The alphabet classes of `nfa.hh`.  `on_the_fly` borrows a caller-owned name-to-symbol map
and has a counter; `enum` owns its map; `char` and `direct` have no data. -/
inductive Alphabet where
  | on_the_fly (symbol_map : List (String × Symbol)) (cnt_symbol : Symbol)
  | direct
  | char
  | enum (symbol_map : List (String × Symbol))

/-- The library algorithm `std::set_difference` on two ascending duplicate-free ranges: the
elements of the first that are not in the second, in order. -/
def set_difference (a b : List Nat) : List Nat :=
  a.filter (fun x => !haskey b x)

namespace Alphabet

/-- `Alphabet::get_symbols` and its overrides; the base class throws. -/
def get_symbols : Alphabet → Except String (List Symbol)
  | on_the_fly symbol_map _ => .ok (symbol_map.map Prod.snd)
  | direct => .error "Unimplemented"
  | char => .ok (List.range 256)
  | enum symbol_map => .ok (symbol_map.map Prod.snd)

/-- `Alphabet::get_complement` and its overrides; the base class throws. -/
def get_complement : Alphabet → List Symbol → Except String (List Symbol)
  | on_the_fly symbol_map _, syms =>
    let symbols_alphabet := set_insert_all (symbol_map.map Prod.snd) []
    .ok (set_difference symbols_alphabet syms)
  | direct, _ => .error "Unimplemented"
  | char, syms =>
    let symbols_alphabet := set_insert_all (List.range 256) []
    .ok (set_difference symbols_alphabet syms)
  | enum symbol_map, syms =>
    let symbols_alphabet := set_insert_all (symbol_map.map Prod.snd) []
    .ok (set_difference symbols_alphabet syms)

end Alphabet

/-! ## State disjointness and unions -/

/-- `Vata2::Nfa::are_state_disjoint`. -/
def are_state_disjoint (lhs rhs : Nfa) : Bool :=
  let lhs_states : List State := uset_insert_all lhs.initialstates []
  let lhs_states := uset_insert_all lhs.finalstates lhs_states
  let lhs_states :=
    lhs.trans_list.foldl (fun acc trans => uset_insert_all [trans.src, trans.tgt] acc) lhs_states
  if rhs.initialstates.any (fun rhs_st => haskey lhs_states rhs_st) then false
  else if rhs.finalstates.any (fun rhs_st => haskey lhs_states rhs_st) then false
  else if rhs.trans_list.any
      (fun trans => haskey lhs_states trans.src || haskey lhs_states trans.tgt) then false
  else true

/-- `Vata2::Nfa::union_norename(Nfa* result, lhs, rhs)`: the value of `*result` after the
call, given its value before. -/
def union_norename_into (result lhs rhs : Nfa) : Nfa :=
  let result := { result with
    initialstates := set_insert_all lhs.initialstates result.initialstates }
  let result := { result with
    initialstates := set_insert_all rhs.initialstates result.initialstates }
  let result := { result with
    finalstates := set_insert_all lhs.finalstates result.finalstates }
  let result := { result with
    finalstates := set_insert_all rhs.finalstates result.finalstates }
  let result := lhs.trans_list.foldl Nfa.add_trans result
  rhs.trans_list.foldl Nfa.add_trans result

/-- The inline `union_norename(lhs, rhs)` of `nfa.hh`: starts from a fresh automaton. -/
def union_norename (lhs rhs : Nfa) : Nfa :=
  union_norename_into {} lhs rhs

/-- The captured variables `cnt` and `dict` of the lambda `transl` in `union_rename`. -/
structure RenameState where
  cnt : State
  dict : List (State × State)

/-- The lambda `transl` of `union_rename`: the translated state and the updated captures. -/
def transl (c : RenameState) (st : State) : State × RenameState :=
  let it_bool := umap_insert c.dict st c.cnt
  let cnt := if it_bool.2.2 then c.cnt + 1 else c.cnt
  (it_bool.2.1, { cnt := cnt, dict := it_bool.1 })

/-- The template `copy_state_map(result, src, f)` for a function object `f` with mutable
captures of type `τ`.  C++ leaves the order in which the two arguments `f(tr.src)` and
`f(tr.tgt)` of `add_trans` are evaluated unspecified; `src_first` selects it. -/
def copy_state_map {τ : Type} (src_first : Bool) (result : Nfa) (src : Nfa)
    (f : τ → State → State × τ) (c : τ) : Nfa × τ :=
  let rc := src.initialstates.foldl
    (fun (rc : Nfa × τ) st =>
      let r := f rc.2 st
      (rc.1.add_initial r.1, r.2))
    (result, c)
  let rc := src.finalstates.foldl
    (fun (rc : Nfa × τ) st =>
      let r := f rc.2 st
      (rc.1.add_final r.1, r.2))
    rc
  src.trans_list.foldl
    (fun (rc : Nfa × τ) tr =>
      if src_first then
        let r₁ := f rc.2 tr.src
        let r₂ := f r₁.2 tr.tgt
        (rc.1.add_trans ⟨r₁.1, tr.symb, r₂.1⟩, r₂.2)
      else
        let r₂ := f rc.2 tr.tgt
        let r₁ := f r₂.2 tr.src
        (rc.1.add_trans ⟨r₁.1, tr.symb, r₂.1⟩, r₁.2))
    rc

/-- `Vata2::Nfa::union_rename`. -/
def union_rename (src_first : Bool) (lhs rhs : Nfa) : Nfa :=
  let result : Nfa := {}
  let c : RenameState := { cnt := 0, dict := [] }
  let rc := copy_state_map src_first result lhs transl c
  let c := { rc.2 with dict := [] }
  let rc := copy_state_map src_first rc.1 rhs transl c
  rc.1

/-! ## Product and subset constructions -/

/-- The local variables of the worklist loops of `intersection` and `determinize`: the
automaton under construction, the product map or subset map, the counter for names of new
states, and the worklist of (key, result state) entries. -/
structure WorkState (κ : Type) where
  result : Nfa
  map : List (κ × State)
  cnt_state : State
  worklist : List (κ × State)

/-- The step shared by both constructions: `map->insert({key, cnt_state})`; when the key is
new, push it on the worklist and increment the counter; then
`result->add_trans(src, symb, it->second)`. -/
def visit_succ {κ : Type} [DecidableEq κ] (src : State) (symb : Symbol) (key : κ)
    (st : WorkState κ) : WorkState κ :=
  let it_bool := umap_insert st.map key st.cnt_state
  let st :=
    if it_bool.2.2 then
      { st with
        map := it_bool.1
        worklist := st.worklist ++ [(key, st.cnt_state)]
        cnt_state := st.cnt_state + 1 }
    else st
  { st with result := st.result.add_trans ⟨src, symb, it_bool.2.1⟩ }

/-- The first loop of `intersection`: translate the pairs of initial states. -/
def intersection_init (result lhs rhs : Nfa) (prod_map : ProductMap) :
    WorkState (State × State) :=
  lhs.initialstates.foldl
    (fun st lhs_st =>
      rhs.initialstates.foldl
        (fun st rhs_st =>
          { result := st.result.add_initial st.cnt_state
            map := (umap_insert st.map (lhs_st, rhs_st) st.cnt_state).1
            worklist := st.worklist ++ [((lhs_st, rhs_st), st.cnt_state)]
            cnt_state := st.cnt_state + 1 })
        st)
    { result := result, map := prod_map, cnt_state := 0, worklist := [] }

/-- One iteration of the `while (!worklist.empty())` loop of `intersection`. -/
def intersection_body (lhs rhs : Nfa) (st : WorkState (State × State)) :
    WorkState (State × State) :=
  match st.worklist with
  | [] => st
  | ((lhs_st, rhs_st), res_st) :: rest =>
    let st := { st with worklist := rest }
    let st :=
      if haskey lhs.finalstates lhs_st && haskey rhs.finalstates rhs_st then
        { st with result := st.result.add_final res_st }
      else st
    lhs.trans_list.foldl
      (fun st lhs_tr =>
        if lhs_tr.src = lhs_st then
          rhs.trans_list.foldl
            (fun st rhs_tr =>
              if rhs_tr.src = rhs_st then
                if lhs_tr.symb = rhs_tr.symb then
                  visit_succ res_st lhs_tr.symb (lhs_tr.tgt, rhs_tr.tgt) st
                else st
              else st)
            st
        else st)
      st

/-- `Vata2::Nfa::intersection(Nfa* result, lhs, rhs, ProductMap* prod_map)`: the values of
`*result` and of the product map after the call.  `prod_map = none` is the null pointer, for
which the function allocates an empty map. -/
def intersection_into (fuel : Nat) (result lhs rhs : Nfa) (prod_map : Option ProductMap) :
    Option (Nfa × ProductMap) :=
  let prod_map := match prod_map with
    | none => []
    | some m => m
  (while_loop (fun st => !st.worklist.isEmpty) (intersection_body lhs rhs) fuel
    (intersection_init result lhs rhs prod_map)).map (fun st => (st.result, st.map))

/-- The inline `intersection(lhs, rhs)` of `nfa.hh` with the default null `prod_map`. -/
def intersection (fuel : Nat) (lhs rhs : Nfa) : Option Nfa :=
  (intersection_into fuel {} lhs rhs none).map Prod.fst

/-- The post of a macrostate as `determinize` computes it:
`for (s : state_set) for (symb_post_pair : aut[s]) post_symb[symb].insert(post.begin(), post.end())`. -/
def determinize_post_symb (aut : Nfa) (state_set : StateSet) : PostSymb :=
  state_set.foldl
    (fun post_symb s =>
      (aut.index s).foldl
        (fun post_symb symb_post_pair =>
          let mv := umap_index post_symb symb_post_pair.1 []
          umap_replace mv.1 symb_post_pair.1 (set_insert_all symb_post_pair.2 mv.2))
        post_symb)
    []

/-- One iteration of the `while (!worklist.empty())` loop of `determinize`. -/
def determinize_body (aut : Nfa) (st : WorkState StateSet) : WorkState StateSet :=
  match st.worklist with
  | [] => st
  | (state_set, new_state) :: rest =>
    let st := { st with worklist := rest }
    let st :=
      if !are_disjoint state_set aut.finalstates then
        { st with result := st.result.add_final new_state }
      else st
    (determinize_post_symb aut state_set).foldl
      (fun st it => visit_succ new_state it.1 it.2 st)
      st

/-- `Vata2::Nfa::determinize(Nfa* result, aut, SubsetMap* subset_map, State* last_state_num)`:
the value of `*result`, the subset map and the value stored in `*last_state_num`.
`subset_map = none` is the null pointer, for which the function allocates an empty map. -/
def determinize_into (fuel : Nat) (result aut : Nfa) (subset_map : Option SubsetMap) :
    Option (Nfa × SubsetMap × State) :=
  let subset_map := match subset_map with
    | none => []
    | some m => m
  let cnt_state := 0
  let it_bool_pair := umap_insert subset_map aut.initialstates cnt_state
  let result := { result with initialstates := [cnt_state] }
  let worklist := [(aut.initialstates, cnt_state)]
  let cnt_state := cnt_state + 1
  (while_loop (fun st => !st.worklist.isEmpty) (determinize_body aut) fuel
    { result := result, map := it_bool_pair.1, cnt_state := cnt_state, worklist := worklist }).map
    (fun st => (st.result, st.map, st.cnt_state - 1))

/-- The inline `determinize(aut)` of `nfa.hh` with the default null pointers. -/
def determinize (fuel : Nat) (aut : Nfa) : Option Nfa :=
  (determinize_into fuel {} aut none).map (fun r => r.1)

/-! ## Reversal and minimization -/

/-- `Vata2::Nfa::revert(Nfa* result, aut)`. -/
def revert_into (result aut : Nfa) : Nfa :=
  let result := { result with initialstates := aut.finalstates }
  let result := { result with finalstates := aut.initialstates }
  aut.trans_list.foldl
    (fun result trans => result.add_trans ⟨trans.tgt, trans.symb, trans.src⟩)
    result

/-- The inline `revert(aut)` of `nfa.hh`. -/
def revert (aut : Nfa) : Nfa :=
  revert_into {} aut

/-- `Vata2::Nfa::minimize(Nfa* result, aut, params)` assigns `*result`, and so does the
inline `minimize(aut, params)`; `params` is ignored. -/
def minimize (fuel : Nat) (aut : Nfa) (_params : List (String × String)) : Option Nfa :=
  match determinize fuel (revert aut) with
  | none => none
  | some tmp => determinize fuel (revert tmp)

/-! ## Emptiness and counterexamples -/

/-- The local variables of the loop of `is_lang_empty`. -/
structure EmptyState where
  worklist : List State
  processed : List State
  paths : List (State × State)

/-- The subscript `paths[s]` read as a value.  On a missing key `std::map::operator[]` stores
and returns the value-initialised state `0`, so every later read of that key also gives `0`:
reading with default `0` is the same observation. -/
def paths_get (paths : List (State × State)) (s : State) : State :=
  match umap_find paths s with
  | some t => t
  | none => 0

/-- The inner loop of `is_lang_empty` over one target set: newly seen targets are pushed and
get `state` as predecessor; for the others the invariant `haskey(paths, tgt_state)` is
asserted. -/
def is_lang_empty_push (state : State) :
    StateSet → EmptyState → Except Fault EmptyState
  | [], st => .ok st
  | tgt_state :: rest, st =>
    let ins := uset_insert st.processed tgt_state
    if ins.2 then
      is_lang_empty_push state rest
        { worklist := st.worklist ++ [tgt_state]
          processed := ins.1
          paths := umap_assign st.paths tgt_state state }
    else if (umap_find st.paths tgt_state).isSome then
      is_lang_empty_push state rest { st with processed := ins.1 }
    else .error Fault.assertion_failed

/-- The loop `for (symb_stateset : aut[state])` of `is_lang_empty`. -/
def is_lang_empty_scan (state : State) : PostSymb → EmptyState → Except Fault EmptyState
  | [], st => .ok st
  | symb_stateset :: rest, st =>
    match is_lang_empty_push state symb_stateset.2 st with
    | .error e => .error e
    | .ok st' => is_lang_empty_scan state rest st'

/-- One iteration of the `while (!worklist.empty())` loop of `is_lang_empty`.  The loop is
left with `.error (.ok (state, paths))` at the `return false` (the counterexample is built
from these two by `is_lang_empty`) and with `.error (.error _)` at a failed assertion. -/
def is_lang_empty_body (aut : Nfa) (st : EmptyState) :
    Except (Except Fault (State × List (State × State))) EmptyState :=
  match st.worklist with
  | [] => .ok st
  | state :: rest =>
    if haskey aut.finalstates state then .error (.ok (state, st.paths))
    else
      match is_lang_empty_scan state (aut.index state) { st with worklist := rest } with
      | .error e => .error (.error e)
      | .ok st' => .ok st'

/-- The loop `while (paths[state] != state) { state = paths[state]; cex->push_back(state); }`
on the pair `(state, *cex)`. -/
def unwind_path (paths : List (State × State)) (fuel : Nat) (state : State) (cex : Path) :
    Option (State × Path) :=
  while_loop (fun sc => decide (paths_get paths sc.1 ≠ sc.1))
    (fun sc => (paths_get paths sc.1, sc.2 ++ [paths_get paths sc.1])) fuel (state, cex)

/-- `Vata2::Nfa::is_lang_empty(aut, Path* cex)`.  `cex = none` is the null pointer, otherwise
`cex` holds the value of `*cex` before the call; the result is the returned boolean and the
value of `*cex` after the call. -/
def is_lang_empty (fuel : Nat) (aut : Nfa) (cex : Option Path) :
    Option (Except Fault (Bool × Option Path)) :=
  let worklist := aut.initialstates
  let processed := uset_insert_all aut.initialstates []
  let paths := worklist.foldl (fun paths s => umap_assign paths s s) []
  match while_loop_exit (fun st => !st.worklist.isEmpty) (is_lang_empty_body aut) fuel
      { worklist := worklist, processed := processed, paths := paths } with
  | none => none
  | some (.ok _) => some (.ok (true, cex))
  | some (.error (.error e)) => some (.error e)
  | some (.error (.ok (state, paths))) =>
    match cex with
    | none => some (.ok (false, none))
    | some _ =>
      match unwind_path paths fuel state [state] with
      | none => none
      | some sc => some (.ok (false, some sc.2.reverse))

/-- The search of `get_word_for_path` in `*postCur` for the first symbol whose target set
contains `newSt`. -/
def find_symbol (postCur : PostSymb) (newSt : State) : Option Symbol :=
  match postCur with
  | [] => none
  | symbolMap :: rest =>
    if haskey symbolMap.2 newSt then some symbolMap.1 else find_symbol rest newSt

/-- The loop of `get_word_for_path` over `path[1..]`.  `aut.post(cur)` is dereferenced
without a null check. -/
def get_word_for_path_loop (aut : Nfa) : State → Path → Word → Except Fault (Word × Bool)
  | _, [], word => .ok (word, true)
  | cur, newSt :: rest, word =>
    match aut.post cur with
    | none => .error Fault.null_dereference
    | some postCur =>
      match find_symbol postCur newSt with
      | none => .ok ([], false)
      | some symb => get_word_for_path_loop aut newSt rest (word ++ [symb])

/-- `Vata2::Nfa::get_word_for_path`. -/
def get_word_for_path (aut : Nfa) (path : Path) : Except Fault (Word × Bool) :=
  match path with
  | [] => .ok ([], true)
  | cur :: rest => get_word_for_path_loop aut cur rest []

/-- `Vata2::Nfa::is_lang_empty_cex(aut, Word* cex)` for a non-null `cex` holding `cex`
before the call: the returned boolean and the value of `*cex` after the call. -/
def is_lang_empty_cex (fuel : Nat) (aut : Nfa) (cex : Word) :
    Option (Except Fault (Bool × Word)) :=
  match is_lang_empty fuel aut (some []) with
  | none => none
  | some (.error e) => some (.error e)
  | some (.ok (true, _)) => some (.ok (true, cex))
  | some (.ok (false, path)) =>
    match get_word_for_path aut (path.getD []) with
    | .error e => some (.error e)
    | .ok (word, consistent) =>
      if consistent then some (.ok (false, word)) else some (.error Fault.assertion_failed)

/-! ## Completion -/

/-- The local variables of the loop of `make_complete`; the automaton is mutated in place. -/
structure CompleteState where
  aut : Nfa
  worklist : List State
  processed : List State

/-- The loop `for (symb_stateset : (*aut)[state])` of `make_complete` on
`(used_symbols, (worklist, processed))`. -/
def make_complete_scan (post : PostSymb) (wp : List State × List State) :
    List Symbol × List State × List State :=
  post.foldl
    (fun acc symb_stateset =>
      (set_insert symb_stateset.1 acc.1, bfs_push symb_stateset.2 acc.2))
    ([], wp)

/-- One iteration of the `while (!worklist.empty())` loop of `make_complete`; `.error` is
the exception of `get_complement`. -/
def make_complete_body (alphabet : Alphabet) (sink_state : State) (st : CompleteState) :
    Except String CompleteState :=
  match st.worklist with
  | [] => .ok st
  | state :: rest =>
    let scan := make_complete_scan (st.aut.index state) (rest, st.processed)
    match alphabet.get_complement scan.1 with
    | .error e => .error e
    | .ok unused_symbols =>
      .ok { aut := unused_symbols.foldl
              (fun aut symb => aut.add_trans ⟨state, symb, sink_state⟩) st.aut
            worklist := scan.2.1
            processed := scan.2.2 }

/-- `Vata2::Nfa::make_complete(Nfa* aut, alphabet, sink_state)`: the value of `*aut` after
the call, or the exception thrown. -/
def make_complete (fuel : Nat) (aut : Nfa) (alphabet : Alphabet) (sink_state : State) :
    Option (Except String Nfa) :=
  let worklist := aut.initialstates
  let processed := uset_insert_all aut.initialstates []
  let worklist := worklist ++ [sink_state]
  let processed := (uset_insert processed sink_state).1
  match while_loop_exit (fun st => !st.worklist.isEmpty)
      (make_complete_body alphabet sink_state) fuel
      { aut := aut, worklist := worklist, processed := processed } with
  | none => none
  | some (.error e) => some (.error e)
  | some (.ok st) => some (.ok st.aut)

/-- The loop `for (symb_stateset : aut[state])` of `is_complete` on
`(n, (worklist, processed))`; `.error` is the exception thrown. -/
def is_complete_scan (symbs : List Symbol) :
    PostSymb → Nat × List State × List State → Except String (Nat × List State × List State)
  | [], acc => .ok acc
  | symb_stateset :: rest, acc =>
    if !haskey symbs symb_stateset.1 then
      .error "is_complete: encountered a symbol that is not in the provided alphabet"
    else is_complete_scan symbs rest (acc.1 + 1, bfs_push symb_stateset.2 acc.2)

/-- One iteration of the `while (!worklist.empty())` loop of `is_complete` on
`(worklist, processed)`; the loop is left with `.error (.ok false)` at `return false` and
with `.error (.error _)` at the exception. -/
def is_complete_body (aut : Nfa) (symbs : List Symbol) (wp : List State × List State) :
    Except (Except String Bool) (List State × List State) :=
  match wp.1 with
  | [] => .ok wp
  | state :: rest =>
    match is_complete_scan symbs (aut.index state) (0, rest, wp.2) with
    | .error e => .error (.error e)
    | .ok acc => if symbs.length ≠ acc.1 then .error (.ok false) else .ok acc.2

/-- `Vata2::Nfa::is_complete(aut, alphabet)`: the returned boolean or the exception. -/
def is_complete (fuel : Nat) (aut : Nfa) (alphabet : Alphabet) :
    Option (Except String Bool) :=
  match alphabet.get_symbols with
  | .error e => some (.error e)
  | .ok symbs_ls =>
    let symbs := uset_insert_all symbs_ls []
    let worklist := aut.initialstates
    let processed := uset_insert_all aut.initialstates []
    match while_loop_exit (fun wp => !wp.1.isEmpty) (is_complete_body aut symbs) fuel
        (worklist, processed) with
    | none => none
    | some (.error r) => some r
    | some (.ok _) => some (.ok true)

/-! ## Removal of epsilon transitions -/

/-- The body of the initialisation loop of `remove_epsilon`: the source state gets a closure
holding itself, and the target of an epsilon transition is added to it. -/
def eps_closure_init_step (epsilon : Symbol) (eps_closure : List (State × StateSet))
    (trans : Trans) : List (State × StateSet) :=
  let it_ins_pair := umap_insert eps_closure trans.src [trans.src]
  if trans.symb = epsilon then
    umap_replace it_ins_pair.1 trans.src (set_insert trans.tgt it_ins_pair.2.1)
  else it_ins_pair.1

/-- The loop `for (auto trans : aut)` that initialises `eps_closure` in `remove_epsilon`. -/
def eps_closure_init (aut : Nfa) (epsilon : Symbol) : List (State × StateSet) :=
  aut.trans_list.foldl (eps_closure_init_step epsilon) []

/-- The body of the loop `for (auto trans : aut)` inside the fixpoint loop of
`remove_epsilon`, on `(eps_closure, changed)`. -/
def eps_closure_step (epsilon : Symbol) (ec : List (State × StateSet) × Bool)
    (trans : Trans) : List (State × StateSet) × Bool :=
  if trans.symb = epsilon then
    let src := umap_index ec.1 trans.src []
    let tgt := umap_index src.1 trans.tgt []
    let upd := tgt.2.foldl
      (fun (acc : StateSet × Bool) st =>
        if haskey acc.1 st then acc else (set_insert st acc.1, true))
      (src.2, ec.2)
    (umap_replace tgt.1 trans.src upd.1, upd.2)
  else ec

/-- One pass `for (auto trans : aut)` of the fixpoint loop of `remove_epsilon` on
`(eps_closure, changed)`. -/
def eps_closure_pass (aut : Nfa) (epsilon : Symbol)
    (ec : List (State × StateSet) × Bool) : List (State × StateSet) × Bool :=
  aut.trans_list.foldl (eps_closure_step epsilon) ec

/-- The construction loop of `remove_epsilon` for one state of the closure of `src_state`. -/
def remove_epsilon_add (aut : Nfa) (epsilon : Symbol) (src_state eps_cl_state : State)
    (result : Nfa) : Nfa :=
  let result := if aut.has_final eps_cl_state then result.add_final src_state else result
  (aut.index eps_cl_state).foldl
    (fun result symb_set =>
      if symb_set.1 = epsilon then result
      else
        symb_set.2.foldl
          (fun result tgt_state => result.add_trans ⟨src_state, symb_set.1, tgt_state⟩)
          result)
    result

/-- `Vata2::Nfa::remove_epsilon(Nfa* result, aut, epsilon)`. -/
def remove_epsilon_into (fuel : Nat) (result aut : Nfa) (epsilon : Symbol) : Option Nfa :=
  match while_loop (fun ec => ec.2) (fun ec => eps_closure_pass aut epsilon (ec.1, false)) fuel
      (eps_closure_init aut epsilon, true) with
  | none => none
  | some ec =>
    let result := { result with
      initialstates := set_insert_all aut.initialstates result.initialstates }
    let result := { result with
      finalstates := set_insert_all aut.finalstates result.finalstates }
    some (ec.1.foldl
      (fun result state_closure_pair =>
        state_closure_pair.2.foldl
          (fun result eps_cl_state =>
            remove_epsilon_add aut epsilon state_closure_pair.1 eps_cl_state result)
          result)
      result)

/-- The inline `remove_epsilon(aut, epsilon)` of `nfa.hh`. -/
def remove_epsilon (fuel : Nat) (aut : Nfa) (epsilon : Symbol) : Option Nfa :=
  remove_epsilon_into fuel {} aut epsilon

/-! ## Auxiliary notions used in the proofs -/

/-- The dictionary of a `RenameState` read as a function on states. -/
def rn_lookup (c : RenameState) (q : State) : State :=
  match umap_find c.dict q with
  | some v => v
  | none => 0

/-- The captures `c'` extend `c`: the counter did not decrease and every entry is kept. -/
def RenameState.Ext (c c' : RenameState) : Prop :=
  c.cnt ≤ c'.cnt ∧ ∀ k v, umap_find c.dict k = some v → umap_find c'.dict k = some v

/-- The invariant of the captures of `transl` since the dictionary was last cleared at
counter value `b`: the stored identifiers lie in `[b, cnt)` and are pairwise distinct. -/
def RenameState.Inv (b : Nat) (c : RenameState) : Prop :=
  b ≤ c.cnt ∧ (∀ k v, umap_find c.dict k = some v → b ≤ v ∧ v < c.cnt) ∧
    ∀ k k' v, umap_find c.dict k = some v → umap_find c.dict k' = some v → k = k'

/-- The template `copy_state_map` for a function without captures. -/
def copy_pure (f : State → State) (result src : Nfa) : Nfa :=
  let result := src.initialstates.foldl (fun R st => R.add_initial (f st)) result
  let result := src.finalstates.foldl (fun R st => R.add_final (f st)) result
  src.trans_list.foldl (fun R tr => R.add_trans ⟨f tr.src, tr.symb, f tr.tgt⟩) result

/-- The loop `for (symb_stateset : post) for (tgt_state : symb_stateset.second) ...` of the
forward traversals, on `(worklist, processed)`: `bfs_push` for every target set of a post map. -/
def bfs_push_post (post : PostSymb) (wp : List State × List State) :
    List State × List State :=
  post.foldl (fun wp symb_stateset => bfs_push symb_stateset.2 wp) wp

/-- A duplicate-free list of the states that occur in an automaton. -/
def Nfa.state_list (A : Nfa) : List State :=
  A.trans_list.foldl (fun acc trans => uset_insert_all [trans.src, trans.tgt] acc)
    (uset_insert_all A.finalstates (uset_insert_all A.initialstates []))

/-- The invariant of the loop of `make_complete` called on `A` with an alphabet whose
symbols are `symbs`: the automaton only gained transitions into the sink over symbols of the
alphabet; every processed state that has left the worklist is complete and has all its
successors processed. -/
structure MakeCompleteInv (A : Nfa) (symbs : List Symbol) (sink : State)
    (st : CompleteState) : Prop where
  wf : st.aut.WF
  init_eq : st.aut.initialstates = A.initialstates
  fin_eq : st.aut.finalstates = A.finalstates
  mono : ∀ t, A.has_trans t = true → st.aut.has_trans t = true
  sound : ∀ t, st.aut.has_trans t = true →
    A.has_trans t = true ∨ (t.tgt = sink ∧ t.symb ∈ symbs)
  done_complete : ∀ q ∈ st.processed, q ∉ st.worklist →
    ∀ a ∈ symbs, ∃ r, st.aut.has_trans ⟨q, a, r⟩ = true
  done_closed : ∀ q ∈ st.processed, q ∉ st.worklist →
    ∀ t, st.aut.has_trans t = true → t.src = q → t.tgt ∈ st.processed
  init_sub : ∀ q ∈ A.initialstates, q ∈ st.processed
  sink_mem : sink ∈ st.processed
  wl_sub : ∀ q ∈ st.worklist, q ∈ st.processed
  nodup : st.processed.Nodup
  univ : ∀ q ∈ st.processed, q ∈ sink :: A.state_list

/-- The predecessor map `paths` leads from the state back to an initial state: either the
state is its own predecessor and initial, or its predecessor is another state with a
transition to it that is itself rooted. -/
inductive Rooted (A : Nfa) (paths : List (State × State)) : State → Prop where
  | root (q : State) : umap_find paths q = some q → q ∈ A.initialstates → Rooted A paths q
  | step (q p : State) (a : Symbol) : umap_find paths q = some p → p ≠ q →
      A.has_trans ⟨p, a, q⟩ = true → Rooted A paths p → Rooted A paths q

/-- The invariant of the loop of `is_lang_empty`. -/
structure EmptyInv (A : Nfa) (st : EmptyState) : Prop where
  wl_sub : ∀ q ∈ st.worklist, q ∈ st.processed
  nodup : st.processed.Nodup
  keys_iff : ∀ q, q ∈ st.processed ↔ ∃ p, umap_find st.paths q = some p
  rooted : ∀ q ∈ st.processed, Rooted A st.paths q
  done : ∀ q ∈ st.processed, q ∉ st.worklist →
    q ∉ A.finalstates ∧ ∀ a r, A.has_trans ⟨q, a, r⟩ = true → r ∈ st.processed
  init_sub : ∀ q ∈ A.initialstates, q ∈ st.processed

/-- A sequence of states in which every state has a transition to the next one. -/
def Nfa.is_path (A : Nfa) (path : Path) : Prop :=
  path.Chain' (fun p q => ∃ a, A.has_trans ⟨p, a, q⟩ = true)

/-- The common shape of one iteration of the worklist loops of `intersection` and
`determinize`: pop an entry, mark the result state final when the key is final, and visit
the successors of the key.  `intersection_body` and `determinize_body` are instances. -/
def explore_body {κ : Type} [DecidableEq κ] (isFinal : κ → Bool)
    (succ : κ → List (Symbol × κ)) (st : WorkState κ) : WorkState κ :=
  match st.worklist with
  | [] => st
  | (key, res_st) :: rest =>
    let st := { st with worklist := rest }
    let st := if isFinal key then { st with result := st.result.add_final res_st } else st
    (succ key).foldl (fun st sk => visit_succ res_st sk.1 sk.2 st) st

/-- The invariant of the worklist loops of `intersection` and `determinize`, for keys with
finality test `isFinal`, successor lists `succ`, initial keys `inits` and a finite universe
`U` of keys.  `cur` is the key whose successors are being visited, if any: the `done` clause
is not claimed for it. -/
structure ExploreInv {κ : Type} [DecidableEq κ] (isFinal : κ → Bool)
    (succ : κ → List (Symbol × κ)) (inits U : List κ) (cur : Option κ)
    (st : WorkState κ) : Prop where
  wf : st.result.WF
  id_lt : ∀ k v, umap_find st.map k = some v → v < st.cnt_state
  id_inj : ∀ k k' v, umap_find st.map k = some v → umap_find st.map k' = some v → k = k'
  wl_mem : ∀ kv ∈ st.worklist, umap_find st.map kv.1 = some kv.2
  init_iff : ∀ x, x ∈ st.result.initialstates ↔ ∃ k ∈ inits, umap_find st.map k = some x
  init_mem : ∀ k ∈ inits, ∃ x, umap_find st.map k = some x
  final_sound : ∀ x ∈ st.result.finalstates,
    ∃ k, umap_find st.map k = some x ∧ isFinal k = true
  trans_sound : ∀ t, st.result.has_trans t = true →
    ∃ k k', umap_find st.map k = some t.src ∧ umap_find st.map k' = some t.tgt ∧
      (t.symb, k') ∈ succ k
  keys_nodup : (st.map.map Prod.fst).Nodup
  keys_univ : ∀ k ∈ st.map.map Prod.fst, k ∈ U
  done : ∀ k i, umap_find st.map k = some i → (k, i) ∉ st.worklist → some k ≠ cur →
    (isFinal k = true → i ∈ st.result.finalstates) ∧
    ∀ a k', (a, k') ∈ succ k →
      ∃ i', umap_find st.map k' = some i' ∧ st.result.has_trans ⟨i, a, i'⟩ = true

/-- How the state of a worklist loop grows while the successors of a key are visited. -/
structure ExploreGrow {κ : Type} [DecidableEq κ] (st st' : WorkState κ) : Prop where
  map_ext : ∀ k v, umap_find st.map k = some v → umap_find st'.map k = some v
  trans_mono : ∀ t, st.result.has_trans t = true → st'.result.has_trans t = true
  fin_eq : st'.result.finalstates = st.result.finalstates
  wl_sub : ∀ kv ∈ st.worklist, kv ∈ st'.worklist
  meas : st'.worklist.length + st.map.length = st.worklist.length + st'.map.length

/-- The successors of a pair of states in the product of two automata, in the order in which
the nested loops of `intersection` visit them. -/
def prod_succ (lhs rhs : Nfa) (key : State × State) : List (Symbol × (State × State)) :=
  lhs.trans_list.flatMap (fun lhs_tr =>
    if lhs_tr.src = key.1 then
      rhs.trans_list.flatMap (fun rhs_tr =>
        if rhs_tr.src = key.2 then
          if lhs_tr.symb = rhs_tr.symb then [(lhs_tr.symb, (lhs_tr.tgt, rhs_tr.tgt))] else []
        else [])
    else [])

/-- The statement `post_symb[symb].insert(post.begin(), post.end())` of `determinize`. -/
def post_symb_add (post_symb : PostSymb) (symb_post_pair : Symbol × StateSet) : PostSymb :=
  let mv := umap_index post_symb symb_post_pair.1 []
  umap_replace mv.1 symb_post_pair.1 (set_insert_all symb_post_pair.2 mv.2)

/-- The closure stored for a state in the map `eps_closure`, empty when there is no entry. -/
def cl_of (m : List (State × StateSet)) (s : State) : StateSet :=
  match umap_find m s with
  | some c => c
  | none => []

/-- The state `t` is reachable from `s` by zero or more `eps`-transitions. -/
def EpsReach (A : Nfa) (eps : Symbol) (s t : State) : Prop :=
  ∃ v : Word, A.reach s v t ∧ ∀ a ∈ v, a = eps

/-- What holds of the map `eps_closure` of `remove_epsilon` from the start: the keys are
distinct, and every closure is a set of states of `A` that are reachable from the key by
`eps`-transitions. -/
structure EpsBase (A : Nfa) (eps : Symbol) (m : List (State × StateSet)) : Prop where
  keys_nodup : (m.map Prod.fst).Nodup
  sorted : ∀ s, (cl_of m s).Sorted (· < ·)
  elems : ∀ s, ∀ t ∈ cl_of m s, A.has_state t
  sound : ∀ s, ∀ t ∈ cl_of m s, EpsReach A eps s t

/-- The invariant of the map `eps_closure` of `remove_epsilon` during the fixpoint loop. -/
structure EpsInv (A : Nfa) (eps : Symbol) (m : List (State × StateSet)) : Prop where
  base : EpsBase A eps m
  self : ∀ s a r, A.has_trans ⟨s, a, r⟩ = true → s ∈ cl_of m s
  direct : ∀ s r, A.has_trans ⟨s, eps, r⟩ = true → r ∈ cl_of m s

/-- The closures are closed under the `eps`-transitions: the closure of the target of an
`eps`-transition is contained in the closure of its source. -/
def EpsClosed (A : Nfa) (eps : Symbol) (m : List (State × StateSet)) : Prop :=
  ∀ s r, A.has_trans ⟨s, eps, r⟩ = true → ∀ t ∈ cl_of m r, t ∈ cl_of m s

/-- The sum over the states of `A` of the sizes of their closures: the quantity that grows
in every pass of the fixpoint loop that changes something. -/
def eps_size (A : Nfa) (m : List (State × StateSet)) : Nat :=
  (A.state_list.map (fun x => (cl_of m x).length)).sum

/-- The automaton `R'` is `R` with the final states `Fin` and the transitions `Tr` added. -/
structure Adds (R R' : Nfa) (Fin : State → Prop) (Tr : Trans → Prop) : Prop where
  init_eq : R'.initialstates = R.initialstates
  fin_iff : ∀ x, x ∈ R'.finalstates ↔ x ∈ R.finalstates ∨ Fin x
  trans_iff : ∀ t, R'.has_trans t = true ↔ R.has_trans t = true ∨ Tr t
  wf : R.WF → R'.WF

/-! ## Example automata

The automata of the end-to-end scenarios of the specification (with the symbol `a` coded
`0` and `b` coded `1`), used to instantiate the theorems below. -/

/-- Scenario S1: initial `{0}`, final `{1}`, transitions `{(0,a,1)}`. -/
def nfa_S1 : Nfa :=
  { transitions := [(0, [(0, [1])])], initialstates := [0], finalstates := [1] }

/-- Scenario S3, left: initial `{0}`, final `{2}`, transitions `{(0,a,1),(1,a,2)}`. -/
def nfa_S3_lhs : Nfa :=
  { transitions := [(0, [(0, [1])]), (1, [(0, [2])])], initialstates := [0],
    finalstates := [2] }

/-- Scenario S3, right: initial `{0}`, final `{1}`, transitions `{(0,a,1),(1,a,0)}`. -/
def nfa_S3_rhs : Nfa :=
  { transitions := [(0, [(0, [1])]), (1, [(0, [0])])], initialstates := [0],
    finalstates := [1] }

/-- The right automaton of scenario S3 on the states `3` and `4`, disjoint from the left
one. -/
def nfa_S3_rhs_shifted : Nfa :=
  { transitions := [(3, [(0, [4])]), (4, [(0, [3])])], initialstates := [3],
    finalstates := [4] }

/-- Scenario S5: initial `{0}`, final `{1}`, transitions `{(0,ε,1)}` with `ε` coded `0`. -/
def nfa_S5 : Nfa :=
  { transitions := [(0, [(0, [1])])], initialstates := [0], finalstates := [1] }

/-- Scenario S6: initial `{0,1}`, final `{2}`, transitions `{(0,a,2),(1,b,2)}`. -/
def nfa_S6 : Nfa :=
  { transitions := [(0, [(0, [2])]), (1, [(1, [2])])], initialstates := [0, 1],
    finalstates := [2] }

/-- Scenario S4: initial `{0}`, final `{0}`, transitions `{(0,a,0)}`. -/
def nfa_S4 : Nfa :=
  { transitions := [(0, [(0, [0])])], initialstates := [0], finalstates := [0] }

/-- An automaton with the single state `0`, initial and final, and no transition. -/
def nfa_eps : Nfa :=
  { transitions := [], initialstates := [0], finalstates := [0] }

/-- The enumerated alphabet `{a}`. -/
def alphabet_a : Alphabet := Alphabet.enum [("a", 0)]

/-- The enumerated alphabet `{a, b}`. -/
def alphabet_ab : Alphabet := Alphabet.enum [("a", 0), ("b", 1)]

end Vata2

namespace Vata2

/-! ## Prefix membership -/

/-- The loop of `is_prfx_in_lang` over the remaining symbols of the word. -/
def is_prfx_in_lang_loop (aut : Nfa) : StateSet → Word → Bool
  | cur, [] => !are_disjoint cur aut.finalstates
  | cur, sym :: rest =>
    if !are_disjoint cur aut.finalstates then true
    else
      let cur' := aut.post_macro cur sym
      if cur'.isEmpty then false else is_prfx_in_lang_loop aut cur' rest

/-- `Vata2::Nfa::is_prfx_in_lang`. -/
def is_prfx_in_lang (aut : Nfa) (word : Word) : Bool :=
  is_prfx_in_lang_loop aut aut.initialstates word

/-! ## Determinism -/

/-- The loop `for (const auto& trans : aut)` of `is_deterministic`.  `post.at(symb)` throws
`std::out_of_range` when the key is absent; the text of that exception is left to the
implementation of the standard library and is rendered as `"std::out_of_range"`. -/
def is_deterministic_loop (aut : Nfa) : List Trans → Except String Bool
  | [] => .ok true
  | tr :: rest =>
    let post := aut.index tr.src
    match umap_find post tr.symb with
    | none => .error "std::out_of_range"
    | some tgts => if tgts.length != 1 then .ok false else is_deterministic_loop aut rest

/-- `Vata2::Nfa::is_deterministic`. -/
def is_deterministic (aut : Nfa) : Except String Bool :=
  if aut.initialstates.length != 1 then .ok false
  else is_deterministic_loop aut aut.trans_list

/-! ## The transition iterator -/

/-- A failed `assert(b)` stops the program. -/
def assert_that (b : Bool) : Except Fault Unit :=
  if b then .ok () else .error .assertion_failed

/-- Dereferencing a container iterator.  An iterator is modelled by the entries from its
position to the end of its container, so that `++it` is the tail and `it == c.end()` is
emptiness; dereferencing an iterator that is at the end is reported as a fault. -/
def deref {α : Type} : List α → Except Fault α
  | [] => .error .null_dereference
  | x :: _ => .ok x

namespace Nfa

/-- `Nfa::const_iterator`: the pointer to the automaton (`none` is `nullptr`), the three
nested container iterators, the current transition and the end flag. -/
structure const_iterator where
  nfa : Option Nfa := none
  stpmIt : StateToPostMap := []
  psIt : PostSymb := []
  ssIt : StateSet := []
  trans : Trans := ⟨0, 0, 0⟩
  is_end : Bool := false

namespace const_iterator

/-- `const_iterator::refresh_trans`. -/
def refresh_trans (it : const_iterator) : Except Fault const_iterator := do
  let sp ← deref it.stpmIt
  let st ← deref it.psIt
  let tgt ← deref it.ssIt
  pure { it with trans := ⟨sp.1, st.1, tgt⟩ }

/-- `Nfa::const_iterator::for_begin`. -/
def for_begin (nfa : Nfa) : Except Fault const_iterator := do
  let result : const_iterator := {}
  if nfa.transitions.isEmpty then
    pure { result with is_end := true }
  else
    let result := { result with nfa := some nfa }
    let result := { result with stpmIt := nfa.transitions }
    let post := (← deref result.stpmIt).2
    assert_that (!post.isEmpty)
    let result := { result with psIt := post }
    let state_set := (← deref result.psIt).2
    assert_that (!state_set.isEmpty)
    let result := { result with ssIt := state_set }
    refresh_trans result

/-- `Nfa::const_iterator::for_end`. -/
def for_end (_nfa : Nfa) : const_iterator :=
  { is_end := true }

/-- `Nfa::const_iterator::operator++`. -/
def increment (it : const_iterator) : Except Fault const_iterator := do
  assert_that it.nfa.isSome
  let it := { it with ssIt := it.ssIt.tail }
  let state_set := (← deref it.psIt).2
  assert_that (!state_set.isEmpty)
  if !it.ssIt.isEmpty then
    refresh_trans it
  else
    -- out of state set
    let it := { it with psIt := it.psIt.tail }
    let post_map := (← deref it.stpmIt).2
    assert_that (!post_map.isEmpty)
    if !it.psIt.isEmpty then
      let new_state_set := (← deref it.psIt).2
      assert_that (!new_state_set.isEmpty)
      let it := { it with ssIt := new_state_set }
      refresh_trans it
    else
      -- out of post map
      let it := { it with stpmIt := it.stpmIt.tail }
      assert_that (!(match it.nfa with
        | some nfa => nfa.transitions.isEmpty
        | none => true))
      if !it.stpmIt.isEmpty then
        let new_post_map := (← deref it.stpmIt).2
        assert_that (!new_post_map.isEmpty)
        let it := { it with psIt := new_post_map }
        let new_state_set := (← deref it.psIt).2
        assert_that (!new_state_set.isEmpty)
        let it := { it with ssIt := new_state_set }
        refresh_trans it
      else
        -- out of transitions
        pure { it with is_end := true }

/-- The loop `for (; it != end(); ++it)` collecting `*it`.  By `operator==` an iterator
differs from `end()` exactly when its `is_end` flag is not set. -/
def collect : Nat → const_iterator → List Trans → Option (Except Fault (List Trans))
  | 0, _, _ => none
  | fuel + 1, it, acc =>
    if it.is_end then some (.ok acc)
    else
      match it.increment with
      | .error f => some (.error f)
      | .ok it' => collect fuel it' (acc ++ [it.trans])

end const_iterator

/-- The sequence of transitions that `for (const auto& trans : aut)` visits, computed by
running the iterator from `begin()` to `end()`. -/
def iteration (fuel : Nat) (A : Nfa) : Option (Except Fault (List Trans)) :=
  match const_iterator.for_begin A with
  | .error f => some (.error f)
  | .ok it => const_iterator.collect fuel it []

end Nfa

/-! ## Parsed sections, serialization and construction -/

/-- The `std::unordered_map<std::string, State>` of the source. -/
abbrev StringToStateMap := List (String × State)
/-- The `std::unordered_map<std::string, Symbol>` of the source. -/
abbrev StringToSymbolMap := List (String × Symbol)
/-- The `std::unordered_map<State, std::string>` of the source. -/
abbrev StateToStringMap := List (State × String)
/-- The `std::unordered_map<Symbol, std::string>` of the source. -/
abbrev SymbolToStringMap := List (Symbol × String)

/-- Modelled from the spec: `Vata2::Parser::ParsedSection` (declared in `vata2/parser.hh`,
which is not among the sources): a typed header, a dictionary from keys to lists of strings
and a body that is a list of token rows. -/
structure ParsedSection where
  type : String := ""
  dict : List (String × List String) := []
  body : List (List String) := []
deriving DecidableEq

/-- The constant `Vata2::Nfa::TYPE_NFA`. -/
def TYPE_NFA : String := "NFA"

/-- The library function `std::to_string` on an unsigned integer: its decimal digits. -/
def std_to_string (n : Nat) : String := Nat.repr n

/-- Functions that the kernel calls and that are declared outside the sources: the stream
extraction `std::istringstream(str) >> symb` of the standard library, the conversion of a
`char` to a `Symbol`, and `std::to_string` on a vector of strings from `vata2/util.hh`.
A `std::string` is a `String` here, one `Char` for every `char`. -/
structure LibFns where
  stream_extract : String → Symbol
  char_to_symbol : Char → Symbol
  vec_to_string : List String → String

namespace Alphabet

/-- `Alphabet::translate_symb` and its overrides: the symbol and the alphabet after the call,
or the message of the exception thrown. -/
def translate_symb (lib : LibFns) : Alphabet → String → Except String (Symbol × Alphabet)
  | on_the_fly symbol_map cnt_symbol, str =>
    let it_insert_pair := umap_insert symbol_map str cnt_symbol
    if it_insert_pair.2.2 then .ok (cnt_symbol, on_the_fly it_insert_pair.1 (cnt_symbol + 1))
    else .ok (it_insert_pair.2.1, on_the_fly it_insert_pair.1 cnt_symbol)
  | direct, str => .ok (lib.stream_extract str, direct)
  | char, str =>
    match str.data with
    | [c0, c1, c2] =>
      if (c0 = Char.ofNat 39 ∧ c2 = Char.ofNat 39) ∨ (c0 = Char.ofNat 34 ∧ c2 = Char.ofNat 34)
      then .ok (lib.char_to_symbol c1, char)
      else .ok (lib.stream_extract str, char)
    | _ => .ok (lib.stream_extract str, char)
  | enum symbol_map, str =>
    match umap_find symbol_map str with
    | none => .error ("unknown symbol '" ++ str ++ "'")
    | some symb => .ok (symb, enum symbol_map)

end Alphabet

/-- The lambda `state_namer` of `serialize`; `none` is the null `state_map`. -/
def state_namer (state_map : Option StateToStringMap) (st : State) : Bool × String :=
  match state_map with
  | none => (true, "q" ++ std_to_string st)
  | some m =>
    match umap_find m st with
    | some name => (true, name)
    | none => (false, "")

/-- The lambda `symbol_namer` of `serialize`; `none` is the null `symbol_map`. -/
def symbol_namer (symbol_map : Option SymbolToStringMap) (sym : Symbol) : Bool × String :=
  match symbol_map with
  | none => (true, "a" ++ std_to_string sym)
  | some m =>
    match umap_find m sym with
    | some name => (true, name)
    | none => (false, "")

/-- The loops `for (State s : aut.initialstates)` and `for (State s : aut.finalstates)` of
`serialize`, appending to the vector of names. -/
def serialize_states (state_map : Option StateToStringMap) :
    List State → List String → Except String (List String)
  | [], states => .ok states
  | s :: rest, states =>
    let bsp := state_namer state_map s
    if !bsp.1 then .error ("cannot translate state " ++ std_to_string s)
    else serialize_states state_map rest (states ++ [bsp.2])

/-- The loop `for (const auto& trans : aut)` of `serialize`, appending to `parsec.body`. -/
def serialize_body (symbol_map : Option SymbolToStringMap)
    (state_map : Option StateToStringMap) :
    List Trans → List (List String) → Except String (List (List String))
  | [], body => .ok body
  | tr :: rest, body =>
    let src_bsp := state_namer state_map tr.src
    if !src_bsp.1 then .error ("cannot translate state " ++ std_to_string tr.src)
    else
      let tgt_bsp := state_namer state_map tr.tgt
      if !tgt_bsp.1 then .error ("cannot translate state " ++ std_to_string tr.tgt)
      else
        let sym_bsp := symbol_namer symbol_map tr.symb
        if !sym_bsp.1 then .error ("cannot translate symbol " ++ std_to_string tr.symb)
        else
          serialize_body symbol_map state_map rest
            (body ++ [[src_bsp.2, sym_bsp.2, tgt_bsp.2]])

/-- `Vata2::Nfa::serialize(aut, symbol_map, state_map)`: the section, or the message of the
`std::runtime_error` thrown. -/
def serialize (aut : Nfa) (symbol_map : Option SymbolToStringMap)
    (state_map : Option StateToStringMap) : Except String ParsedSection := do
  let parsec : ParsedSection := {}
  let parsec := { parsec with type := TYPE_NFA }
  let init_states ← serialize_states state_map aut.initialstates []
  let parsec := { parsec with dict := umap_assign parsec.dict "Initial" init_states }
  let fin_states ← serialize_states state_map aut.finalstates []
  let parsec := { parsec with dict := umap_assign parsec.dict "Final" fin_states }
  let body ← serialize_body symbol_map state_map aut.trans_list parsec.body
  pure { parsec with body := body }

/-- The lambda `get_state_name` of `construct`, on its captures: the state map and the
counter `cnt_state`. -/
def get_state_name (c : StringToStateMap × State) (str : String) :
    State × (StringToStateMap × State) :=
  let it_insert_pair := umap_insert c.1 str c.2
  if it_insert_pair.2.2 then (c.2, (it_insert_pair.1, c.2 + 1))
  else (it_insert_pair.2.1, (it_insert_pair.1, c.2))

/-- The loop `for (const auto& str : it->second)` of `construct` for the key `"Initial"`. -/
def construct_initial (strs : List String) (ac : Nfa × (StringToStateMap × State)) :
    Nfa × (StringToStateMap × State) :=
  strs.foldl
    (fun ac str =>
      let r := get_state_name ac.2 str
      (ac.1.add_initial r.1, r.2))
    ac

/-- The loop `for (const auto& str : it->second)` of `construct` for the key `"Final"`. -/
def construct_final (strs : List String) (ac : Nfa × (StringToStateMap × State)) :
    Nfa × (StringToStateMap × State) :=
  strs.foldl
    (fun ac str =>
      let r := get_state_name ac.2 str
      (ac.1.add_final r.1, r.2))
    ac

/-- The loop `for (const auto& body_line : parsec.body)` of `construct`. -/
def construct_body (lib : LibFns) :
    List (List String) → Nfa × Alphabet × (StringToStateMap × State) →
      Except String (Nfa × Alphabet × (StringToStateMap × State))
  | [], st => .ok st
  | body_line :: rest, (aut, alphabet, c) =>
    if body_line.length != 3 then
      if body_line.length == 2 then
        .error ("Epsilon transitions not supported: " ++ lib.vec_to_string body_line)
      else
        .error ("Invalid transition: " ++ lib.vec_to_string body_line)
    else
      let src := get_state_name c (body_line.getD 0 "")
      match alphabet.translate_symb lib (body_line.getD 1 "") with
      | .error e => .error e
      | .ok (symbol, alphabet) =>
        let tgt := get_state_name src.2 (body_line.getD 2 "")
        construct_body lib rest (aut.add_trans ⟨src.1, symbol, tgt.1⟩, alphabet, tgt.2)

/-- `Vata2::Nfa::construct(Nfa* aut, parsec, Alphabet* alphabet, StringToStateMap* state_map)`:
the automaton, the alphabet and the state map after the call, or the message of the
exception thrown.  `state_map = none` is the null pointer, for which the function allocates
an empty map (and deletes it before it returns). -/
def construct_into (lib : LibFns) (aut : Nfa) (parsec : ParsedSection) (alphabet : Alphabet)
    (state_map : Option StringToStateMap) :
    Except String (Nfa × Alphabet × StringToStateMap) :=
  if parsec.type != TYPE_NFA then
    .error ("construct" ++ ": expecting type \"" ++ TYPE_NFA ++ "\"")
  else
    let state_map := match state_map with
      | none => []
      | some m => m
    let cnt_state := 0
    let ac := (aut, (state_map, cnt_state))
    let ac := match umap_find parsec.dict "Initial" with
      | some strs => construct_initial strs ac
      | none => ac
    let ac := match umap_find parsec.dict "Final" with
      | some strs => construct_final strs ac
      | none => ac
    match construct_body lib parsec.body (ac.1, alphabet, ac.2) with
    | .error e => .error e
    | .ok r => .ok (r.1, r.2.1, r.2.2.1)

/-- `Vata2::Nfa::construct(Nfa* aut, parsec, StringToSymbolMap* symbol_map, state_map)`: the
automaton, the symbol map and the state map after the call.  A null `symbol_map` is replaced
by a new empty map; the map is wrapped in an `OnTheFlyAlphabet` whose counter starts at `0`. -/
def construct_symbol_map (lib : LibFns) (aut : Nfa) (parsec : ParsedSection)
    (symbol_map : Option StringToSymbolMap) (state_map : Option StringToStateMap) :
    Except String (Nfa × StringToSymbolMap × StringToStateMap) :=
  let symbol_map := match symbol_map with
    | none => []
    | some m => m
  let alphabet := Alphabet.on_the_fly symbol_map 0
  match construct_into lib aut parsec alphabet state_map with
  | .error e => .error e
  | .ok r =>
    match r.2.1 with
    | Alphabet.on_the_fly m _ => .ok (r.1, m, r.2.2)
    | _ => .ok (r.1, symbol_map, r.2.2)

/-- The inline `construct(parsec, symbol_map, state_map)` of `nfa.hh` with the default null
pointers. -/
def construct (lib : LibFns) (parsec : ParsedSection) : Except String Nfa :=
  match construct_symbol_map lib {} parsec none none with
  | .error e => .error e
  | .ok r => .ok r.1

/-! ## Auxiliary notions used in the proofs about construction -/

/-- The alphabet throws on the symbol token: only the enumerated alphabet does, for a name
that is not in its map. -/
def Alphabet.rejects : Alphabet → String → Bool
  | Alphabet.enum symbol_map, str => (umap_find symbol_map str).isNone
  | _, _ => false

/-- The message with which `construct` leaves at a body row that it cannot process. -/
def construct_row_error (lib : LibFns) (row : List String) : String :=
  if row.length = 2 then "Epsilon transitions not supported: " ++ lib.vec_to_string row
  else if row.length = 3 then "unknown symbol '" ++ row.getD 1 "" ++ "'"
  else "Invalid transition: " ++ lib.vec_to_string row

/-- The number that a list of decimal digit characters denotes, most significant digit first,
continuing from the value `n` of the digits read so far. -/
def decimal_value (n : Nat) (ds : List Char) : Nat :=
  ds.foldl (fun acc c => acc * 10 + (c.toNat - 48)) n

/-- The captures `c'` of `get_state_name` extend `c`: every entry is kept. -/
def InternExt (c c' : StringToStateMap × State) : Prop :=
  ∀ k v, umap_find c.1 k = some v → umap_find c'.1 k = some v

/-- The invariant of the captures of `get_state_name` when the map starts empty with the
counter at `0`: the stored identifiers are below the counter and pairwise distinct. -/
def InternInv (c : StringToStateMap × State) : Prop :=
  (∀ k v, umap_find c.1 k = some v → v < c.2) ∧
    ∀ k k' v, umap_find c.1 k = some v → umap_find c.1 k' = some v → k = k'

/-- A name map read as a function, `0` for a name without an entry. -/
def intern_lookup (c : StringToStateMap × State) (k : String) : State :=
  match umap_find c.1 k with
  | some v => v
  | none => 0

/-- One iteration of the body loop of `construct` for a row of three tokens and an on-the-fly
alphabet, on the automaton, the captures of `get_state_name` and the map and counter of the
alphabet. -/
def construct_row_step
    (s : Nfa × ((StringToStateMap × State) × (StringToSymbolMap × Symbol)))
    (row : List String) :
    Nfa × ((StringToStateMap × State) × (StringToSymbolMap × Symbol)) :=
  let src := get_state_name s.2.1 (row.getD 0 "")
  let sym := get_state_name s.2.2 (row.getD 1 "")
  let tgt := get_state_name src.2 (row.getD 2 "")
  (s.1.add_trans ⟨src.1, sym.1, tgt.1⟩, (tgt.2, sym.2))

/-- The automaton built by adding the images of the initial states, of the final states and
of the transitions of `A` under a renaming `f` of states and `g` of symbols. -/
def rename_build (f : State → State) (g : Symbol → Symbol) (A : Nfa) : Nfa :=
  A.trans_list.foldl (fun (R : Nfa) t => R.add_trans ⟨f t.src, g t.symb, f t.tgt⟩)
    (A.finalstates.foldl (fun (R : Nfa) s => R.add_final (f s))
      (A.initialstates.foldl (fun (R : Nfa) s => R.add_initial (f s)) {}))

/-! ## Auxiliary notions used in the proofs about the iterator -/

/-- The transitions stored under one source state, in the order of the nested containers. -/
def post_trans_list (src : State) (post : PostSymb) : List Trans :=
  post.flatMap (fun st => st.2.map (fun tgt => Trans.mk src st.1 tgt))

/-- The transitions an iterator that is not at the end still has to visit, the current one
included. -/
def Nfa.const_iterator.remaining (it : Nfa.const_iterator) : List Trans :=
  match it.stpmIt, it.psIt with
  | sp :: stpm, st :: ps =>
    it.ssIt.map (fun tgt => Trans.mk sp.1 st.1 tgt) ++ post_trans_list sp.1 ps ++
      stpm.flatMap (fun sp => post_trans_list sp.1 sp.2)
  | _, _ => []

/-- The iterator is at a transition of a table without empty containers. -/
structure Nfa.const_iterator.Valid (it : Nfa.const_iterator) : Prop where
  not_end : it.is_end = false
  nfa_ne : ∃ nfa, it.nfa = some nfa ∧ nfa.transitions ≠ []
  at_trans : ∃ sp stpm st ps tgt ss, it.stpmIt = sp :: stpm ∧ it.psIt = st :: ps ∧
    it.ssIt = tgt :: ss ∧ it.trans = ⟨sp.1, st.1, tgt⟩
  stpm_ne : ∀ sp ∈ it.stpmIt, sp.2 ≠ [] ∧ ∀ st ∈ sp.2, st.2 ≠ []
  ps_ne : ∀ st ∈ it.psIt, st.2 ≠ []

/-! ## Examples for serialization and construction -/

/-- Initial `{0}`, final `{1}`, one transition `(0, 1, 1)`: the only symbol has code `1`. -/
def nfa_sym1 : Nfa :=
  { transitions := [(0, [(1, [1])])], initialstates := [0], finalstates := [1] }

/-- One choice of the functions declared outside the sources, for evaluating examples. -/
def lib_plain : LibFns :=
  { stream_extract := fun _ => 0
    char_to_symbol := fun c => c.toNat
    vec_to_string := fun row => String.intercalate " " row }

end Vata2

namespace Vata2

/-! ## Construction of an enumerated alphabet -/

/-- The loop of the constructor `EnumAlphabet(first, last)` on the map and the counter `cnt`:
`symbol_map.insert({*first, cnt++})`, leaving with an exception when nothing was inserted. -/
def EnumAlphabet_loop : List String → StringToSymbolMap × Nat → Except String StringToSymbolMap
  | [], mc => .ok mc.1
  | name :: rest, mc =>
    let ins := umap_insert mc.1 name mc.2
    if !ins.2.2 then .error "multiple occurrence of the same symbol"
    else EnumAlphabet_loop rest (ins.1, mc.2 + 1)

/-- The constructor `EnumAlphabet(first, last)` (and `EnumAlphabet(initializer_list)`): the
alphabet built from a list of names, or the message of the exception thrown. -/
def EnumAlphabet_from (names : List String) : Except String Alphabet :=
  match EnumAlphabet_loop names ([], 0) with
  | .error e => .error e
  | .ok symbol_map => .ok (Alphabet.enum symbol_map)

/-! ## Conversion of characters to symbols -/

/-- The conversion of a `char` to `Symbol`, i.e. to a 64-bit `uintptr_t`, performed by
`return str[1];` in `CharAlphabet::translate_symb`.  Whether plain `char` is signed is left
to the implementation (it is signed on x86); `char_signed` selects it.  A `char` holding the
byte `b` has the value `b`, or `b - 256` when `char` is signed and `b ≥ 128`, and the
conversion to the unsigned type is modulo `2 ^ 64`. -/
def char_to_uintptr (char_signed : Bool) (c : Char) : Symbol :=
  let b := c.toNat % 256
  if char_signed && decide (128 ≤ b) then (2 ^ 64 - 256 + b) % 2 ^ 64 else b

/-- The functions declared outside the sources, with the conversion of `char` fixed by the
signedness of plain `char`. -/
def lib_char (char_signed : Bool) : LibFns :=
  { lib_plain with char_to_symbol := char_to_uintptr char_signed }

/-- The three-character string made of `x` between two copies of the character `q`. -/
def quoted (q x : Char) : String := String.mk [q, x, q]

/-! ## Further examples -/

/-- Initial `{0}`, transitions `{(0, 0, 1), (1, 2, 1)}`: state `0` lacks the symbol `1`, and
state `1` has a transition over the symbol `2`. -/
def nfa_foreign : Nfa :=
  { transitions := [(0, [(0, [1])]), (1, [(2, [1])])], initialstates := [0], finalstates := [] }

/-- The transitions `(1, 0, 0)` and `(0, 0, 0)`, added in this order. -/
def nfa_order : Nfa :=
  Nfa.add_trans (Nfa.add_trans {} ⟨1, 0, 0⟩) ⟨0, 0, 0⟩

/-- The transitions `(0, 0, 0)` and `(1, 0, 0)`, added in this order. -/
def nfa_order_rev : Nfa :=
  Nfa.add_trans (Nfa.add_trans {} ⟨0, 0, 0⟩) ⟨1, 0, 0⟩

/-! ## Auxiliary notions used in the proofs about the order of iteration -/

/-- The elements with the same key are contiguous in `l`: whenever `t`, `u`, `t'` occur in
this order and `t` and `t'` have the same key, `u` has that key too. -/
def Grouped {β κ : Type} (k : β → κ) (l : List β) : Prop :=
  ∀ t u t', List.Sublist [t, u, t'] l → k t = k t' → k u = k t

/-- The order the claim of a fully sorted iteration speaks of: ascending by source state,
then by symbol, then by target state. -/
def Trans.lex_lt (t t' : Trans) : Prop :=
  t.src < t'.src ∨ (t.src = t'.src ∧ (t.symb < t'.symb ∨ (t.symb = t'.symb ∧ t.tgt < t'.tgt)))

instance (t t' : Trans) : Decidable (Trans.lex_lt t t') :=
  inferInstanceAs (Decidable (_ ∨ _))

end Vata2

namespace Vata2

/-! ## Forward reachability -/

/-- One iteration of the `while (!worklist.empty())` loop of `get_fwd_reach_states` on
`(worklist, processed)`. -/
def get_fwd_reach_states_body (aut : Nfa) (wp : List State × List State) :
    List State × List State :=
  match wp.1 with
  | [] => wp
  | state :: rest =>
    (aut.index state).foldl (fun wp symb_stateset => bfs_push symb_stateset.2 wp) (rest, wp.2)

/-- `Vata2::Nfa::get_fwd_reach_states(aut)`: the unordered set `processed` at the end. -/
def get_fwd_reach_states (fuel : Nat) (aut : Nfa) : Option (List State) :=
  let worklist := aut.initialstates
  let processed := uset_insert_all aut.initialstates []
  (while_loop (fun wp => !wp.1.isEmpty) (get_fwd_reach_states_body aut) fuel
    (worklist, processed)).map Prod.snd

/-! ## Auxiliary notions used in the proofs about the product and subset maps -/

/-- What the worklist loops of `intersection` and `determinize` maintain besides
`ExploreInv`: the identifiers below the counter are all in use, every identifier in the map
is a state of the automaton under construction, every key in the map is reachable from an
initial key along the successor relation, and the initial keys have the first identifiers. -/
structure ExploreExtra {κ : Type} [DecidableEq κ] (succ : κ → List (Symbol × κ))
    (inits : List κ) (st : WorkState κ) : Prop where
  surj : ∀ v, v < st.cnt_state → ∃ k, umap_find st.map k = some v
  occ : ∀ k v, umap_find st.map k = some v → st.result.has_state v
  reach : ∀ k v, umap_find st.map k = some v →
    ∃ k0 ∈ inits, ∃ w, Reach (fun k a k' => (a, k') ∈ succ k) k0 w k
  init_lt : ∀ k ∈ inits, ∃ v, umap_find st.map k = some v ∧ v < inits.length

/-! ## Auxiliary notions used in the proofs about the state dictionary of `construct` -/

/-- The state names of a parsed section in the order in which `construct` passes them to
`get_state_name`: the names under `Initial`, the names under `Final`, and the first and the
third token of every body row. -/
def state_names (parsec : ParsedSection) : List String :=
  (match umap_find parsec.dict "Initial" with
    | some strs => strs
    | none => []) ++
  (match umap_find parsec.dict "Final" with
    | some strs => strs
    | none => []) ++
  parsec.body.flatMap (fun body_line => [body_line.getD 0 "", body_line.getD 2 ""])

/-- The captures of `get_state_name` after it has been called on a list of names. -/
def intern_all (names : List String) (c : StringToStateMap × State) :
    StringToStateMap × State :=
  names.foldl (fun c str => (get_state_name c str).2) c

/-! ## Auxiliary notions used in the proofs about the length of the emptiness witness -/

/-- The chain of predecessors in `paths` leads from the state back to an initial state in
`n` steps, each along a transition. -/
inductive RootedLen (A : Nfa) (paths : List (State × State)) : State → Nat → Prop where
  | root (q : State) : umap_find paths q = some q → q ∈ A.initialstates →
      RootedLen A paths q 0
  | step (q p : State) (a : Symbol) (n : Nat) : umap_find paths q = some p → p ≠ q →
      A.has_trans ⟨p, a, q⟩ = true → RootedLen A paths p n → RootedLen A paths q (n + 1)

/-- The part of the invariant of the loop of `is_lang_empty` that makes the traversal
breadth-first: the chain of predecessors of a processed state is no longer than any run
from an initial state to it, and the worklist holds states of one chain length followed by
states of the next. -/
structure EmptyLevInv (A : Nfa) (st : EmptyState) : Prop where
  lev : ∀ q ∈ st.processed, ∃ n, RootedLen A st.paths q n ∧
    ∀ q0 ∈ A.initialstates, ∀ w, A.reach q0 w q → n ≤ w.length
  queue : ∃ k l₁ l₂, st.worklist = l₁ ++ l₂ ∧ (∀ q ∈ l₁, RootedLen A st.paths q k) ∧
    (∀ q ∈ l₂, RootedLen A st.paths q (k + 1))

/-! ## Auxiliary notions used in the proofs about minimization -/

/-- What the proofs about `minimize` use of a run of `determinize` on `aut` that returned
the automaton `D` and the subset map `sm`. -/
structure DetFacts (aut D : Nfa) (sm : SubsetMap) : Prop where
  wf : D.WF
  init_eq : D.initialstates = [0]
  init_key : umap_find sm aut.initialstates = some 0
  functional : ∀ s a t t', D.has_trans ⟨s, a, t⟩ = true → D.has_trans ⟨s, a, t'⟩ = true →
    t = t'
  states : ∀ x, D.has_state x ↔ ∃ S, umap_find sm S = some x
  id_inj : ∀ S S' x, umap_find sm S = some x → umap_find sm S' = some x → S = S'
  sorted : ∀ S x, umap_find sm S = some x → S.Sorted (· < ·)
  final_iff : ∀ S x, umap_find sm S = some x →
    (x ∈ D.finalstates ↔ ∃ q ∈ S, q ∈ aut.finalstates)
  key_reach : ∀ S x, umap_find sm S = some x →
    ∃ w, Reach (fun k a k' => (a, k') ∈ determinize_post_symb aut k) aut.initialstates w S
  sound : ∀ S x w y, umap_find sm S = some x → D.reach x w y →
    ∃ S', Reach (fun k a k' => (a, k') ∈ determinize_post_symb aut k) S w S' ∧
      umap_find sm S' = some y
  complete : ∀ S x w S', umap_find sm S = some x →
    Reach (fun k a k' => (a, k') ∈ determinize_post_symb aut k) S w S' →
    ∃ y, D.reach x w y ∧ umap_find sm S' = some y

end Vata2

namespace Vata2

/-! ## Basic facts about the containers -/

theorem mem_set_insert (x y : Nat) (l : List Nat) :
    y ∈ set_insert x l ↔ y = x ∨ y ∈ l := by
  induction l with
  | nil => simp [set_insert]
  | cons z zs ih =>
    unfold set_insert
    split_ifs with h1 h2
    · simp
    · subst h2; simp
    · simp [ih]; tauto

theorem set_insert_ne_nil (x : Nat) (l : List Nat) : set_insert x l ≠ [] := by
  intro h
  have : x ∈ set_insert x l := (mem_set_insert x x l).2 (Or.inl rfl)
  rw [h] at this
  exact absurd this (List.not_mem_nil _)

theorem sorted_set_insert (x : Nat) (l : List Nat) (h : l.Sorted (· < ·)) :
    (set_insert x l).Sorted (· < ·) := by
  induction l with
  | nil => simp [set_insert]
  | cons z zs ih =>
    unfold set_insert
    have hz := List.sorted_cons.1 h
    split_ifs with h1 h2
    · refine List.sorted_cons.2 ⟨?_, h⟩
      intro b hb
      rcases List.mem_cons.1 hb with rfl | hb
      · exact h1
      · exact lt_trans h1 (hz.1 b hb)
    · exact h
    · refine List.sorted_cons.2 ⟨?_, ih hz.2⟩
      intro b hb
      rcases (mem_set_insert x b zs).1 hb with rfl | hb
      · omega
      · exact hz.1 b hb

theorem mem_set_insert_all (xs s : List Nat) (y : Nat) :
    y ∈ set_insert_all xs s ↔ y ∈ xs ∨ y ∈ s := by
  unfold set_insert_all
  induction xs generalizing s with
  | nil => simp
  | cons x xs ih =>
    simp only [List.foldl_cons, List.mem_cons]
    rw [ih, mem_set_insert]
    tauto

theorem sorted_set_insert_all (xs s : List Nat) (h : s.Sorted (· < ·)) :
    (set_insert_all xs s).Sorted (· < ·) := by
  unfold set_insert_all
  induction xs generalizing s with
  | nil => simpa using h
  | cons x xs ih =>
    simp only [List.foldl_cons]
    exact ih _ (sorted_set_insert x s h)

/-- Two ascending duplicate-free lists with the same members are the same list. -/
theorem sorted_ext {l₁ l₂ : List Nat} (h₁ : l₁.Sorted (· < ·)) (h₂ : l₂.Sorted (· < ·))
    (h : ∀ x, x ∈ l₁ ↔ x ∈ l₂) : l₁ = l₂ := by
  apply List.eq_of_perm_of_sorted _ h₁ h₂
  exact (List.perm_ext_iff_of_nodup h₁.nodup h₂.nodup).2 h

theorem set_insert_of_mem {x : Nat} {l : List Nat} (h : l.Sorted (· < ·)) (hx : x ∈ l) :
    set_insert x l = l := by
  apply sorted_ext (sorted_set_insert x l h) h
  intro y
  rw [mem_set_insert]
  constructor
  · rintro (rfl | hy)
    · exact hx
    · exact hy
  · exact Or.inr

theorem set_insert_all_nil_of_sorted {l : List Nat} (h : l.Sorted (· < ·)) :
    set_insert_all l [] = l := by
  apply sorted_ext (sorted_set_insert_all l [] (List.sorted_nil)) h
  intro y
  simp [mem_set_insert_all]

theorem haskey_iff {α : Type} [DecidableEq α] (s : List α) (x : α) :
    haskey s x = true ↔ x ∈ s := by
  simp [haskey]

theorem are_disjoint_eq_false_iff (a b : List Nat) :
    are_disjoint a b = false ↔ ∃ x ∈ a, x ∈ b := by
  unfold are_disjoint
  rw [← Bool.not_eq_true, List.all_eq_true]
  simp [haskey]

theorem are_disjoint_eq_true_iff (a b : List Nat) :
    are_disjoint a b = true ↔ ∀ x ∈ a, x ∉ b := by
  unfold are_disjoint
  rw [List.all_eq_true]
  simp [haskey]

/-! ### Unordered maps -/

section umap
variable {κ β : Type} [DecidableEq κ]

@[simp] theorem umap_find_nil (k : κ) : umap_find ([] : List (κ × β)) k = none := rfl

@[simp] theorem umap_find_cons (k' : κ) (v : β) (rest : List (κ × β)) (k : κ) :
    umap_find ((k', v) :: rest) k = if k' = k then some v else umap_find rest k := rfl

@[simp] theorem umap_replace_nil (k : κ) (v : β) :
    umap_replace ([] : List (κ × β)) k v = [] := rfl

@[simp] theorem umap_replace_cons (k' : κ) (v' : β) (rest : List (κ × β)) (k : κ) (v : β) :
    umap_replace ((k', v') :: rest) k v =
      if k' = k then (k', v) :: rest else (k', v') :: umap_replace rest k v := rfl

theorem umap_find_some_mem {m : List (κ × β)} {k : κ} {v : β}
    (h : umap_find m k = some v) : (k, v) ∈ m := by
  induction m with
  | nil => simp [umap_find] at h
  | cons e rest ih =>
    obtain ⟨k', v'⟩ := e
    unfold umap_find at h
    split_ifs at h with hk
    · cases h; subst hk; simp
    · exact List.mem_cons_of_mem _ (ih h)

theorem umap_find_eq_none_iff {m : List (κ × β)} {k : κ} :
    umap_find m k = none ↔ k ∉ m.map Prod.fst := by
  induction m with
  | nil => simp [umap_find]
  | cons e rest ih =>
    obtain ⟨k', v'⟩ := e
    unfold umap_find
    split_ifs with hk
    · subst hk; simp
    · rw [ih]; simp only [List.map_cons, List.mem_cons, not_or]
      constructor
      · intro h; exact ⟨fun h' => hk h'.symm, h⟩
      · intro h; exact h.2

theorem umap_find_isSome_iff {m : List (κ × β)} {k : κ} :
    (∃ v, umap_find m k = some v) ↔ k ∈ m.map Prod.fst := by
  rw [← not_iff_not, ← umap_find_eq_none_iff]
  cases umap_find m k <;> simp

theorem umap_find_of_mem {m : List (κ × β)} {k : κ} {v : β}
    (hnd : (m.map Prod.fst).Nodup) (h : (k, v) ∈ m) : umap_find m k = some v := by
  induction m with
  | nil => simp at h
  | cons e rest ih =>
    obtain ⟨k', v'⟩ := e
    simp only [List.map_cons, List.nodup_cons] at hnd
    unfold umap_find
    rcases List.mem_cons.1 h with heq | hmem
    · cases heq; simp
    · have : k' ≠ k := by
        rintro rfl
        exact hnd.1 (List.mem_map.2 ⟨(k', v), hmem, rfl⟩)
      simp [this, ih hnd.2 hmem]

theorem umap_find_append (m m' : List (κ × β)) (k : κ) :
    umap_find (m ++ m') k =
      match umap_find m k with
      | some v => some v
      | none => umap_find m' k := by
  induction m with
  | nil => simp [umap_find]
  | cons e rest ih =>
    obtain ⟨k', v'⟩ := e
    simp only [List.cons_append, umap_find_cons]
    split_ifs with hk
    · rfl
    · exact ih

theorem umap_find_replace_self {m : List (κ × β)} {k : κ} {v₀ : β} (v : β)
    (h : umap_find m k = some v₀) : umap_find (umap_replace m k v) k = some v := by
  induction m with
  | nil => simp [umap_find] at h
  | cons e rest ih =>
    obtain ⟨k', v'⟩ := e
    unfold umap_find at h
    unfold umap_replace
    split_ifs at h ⊢ with hk
    · simp [umap_find, hk]
    · simp [umap_find, hk, ih h]

theorem umap_find_replace_ne {m : List (κ × β)} {k k' : κ} (v : β) (h : k' ≠ k) :
    umap_find (umap_replace m k v) k' = umap_find m k' := by
  induction m with
  | nil => simp [umap_find, umap_replace]
  | cons e rest ih =>
    obtain ⟨k₁, v₁⟩ := e
    unfold umap_replace
    split_ifs with hk
    · subst hk
      have : ¬ k₁ = k' := fun h' => h h'.symm
      simp [umap_find, this]
    · unfold umap_find
      split_ifs
      · rfl
      · exact ih

theorem umap_replace_keys (m : List (κ × β)) (k : κ) (v : β) :
    (umap_replace m k v).map Prod.fst = m.map Prod.fst := by
  induction m with
  | nil => simp [umap_replace]
  | cons e rest ih =>
    obtain ⟨k₁, v₁⟩ := e
    unfold umap_replace
    split_ifs with hk
    · simp
    · simp [ih]

theorem mem_umap_replace {m : List (κ × β)} {k : κ} {v : β} {e : κ × β}
    (h : e ∈ umap_replace m k v) : e ∈ m ∨ e = (k, v) := by
  induction m with
  | nil => simp [umap_replace] at h
  | cons e₁ rest ih =>
    obtain ⟨k₁, v₁⟩ := e₁
    unfold umap_replace at h
    split_ifs at h with hk
    · rcases List.mem_cons.1 h with rfl | h
      · right; rw [hk]
      · left; exact List.mem_cons_of_mem _ h
    · rcases List.mem_cons.1 h with rfl | h
      · left; simp
      · rcases ih h with h | h
        · left; exact List.mem_cons_of_mem _ h
        · right; exact h

end umap

end Vata2

namespace Vata2

/-! ## The NFA store: transitions -/

/-! ### Runs of labelled transition systems -/

section reach
variable {κ κ' : Type}

@[simp] theorem Reach_nil (T : κ → Symbol → κ → Prop) (q q' : κ) :
    Reach T q [] q' ↔ q = q' := Iff.rfl

@[simp] theorem Reach_cons (T : κ → Symbol → κ → Prop) (q q' : κ) (a : Symbol) (w : Word) :
    Reach T q (a :: w) q' ↔ ∃ r, T q a r ∧ Reach T r w q' := Iff.rfl

theorem Reach_append_iff {T : κ → Symbol → κ → Prop} {q s : κ} {u v : Word} :
    Reach T q (u ++ v) s ↔ ∃ r, Reach T q u r ∧ Reach T r v s := by
  induction u generalizing q with
  | nil => simp
  | cons a u ih =>
    simp only [List.cons_append, Reach_cons, ih]
    constructor
    · rintro ⟨p, hp, r, h1, h2⟩; exact ⟨r, ⟨p, hp, h1⟩, h2⟩
    · rintro ⟨r, ⟨p, hp, h1⟩, h2⟩; exact ⟨p, hp, r, h1, h2⟩

/-- Forward simulation: if every step of `T₁` from a state related by `S` is matched by a
step of `T₂` to a related state, runs of `T₁` are matched by runs of `T₂`. -/
theorem Reach_sim {T₁ : κ → Symbol → κ → Prop} {T₂ : κ' → Symbol → κ' → Prop}
    (S : κ → κ' → Prop)
    (hstep : ∀ q a r x, S q x → T₁ q a r → ∃ y, T₂ x a y ∧ S r y)
    {q q' : κ} {x : κ'} {w : Word} (hS : S q x) (h : Reach T₁ q w q') :
    ∃ y, Reach T₂ x w y ∧ S q' y := by
  induction w generalizing q x with
  | nil =>
    simp only [Reach_nil] at h
    subst h
    exact ⟨x, rfl, hS⟩
  | cons a w ih =>
    obtain ⟨r, hr, hrest⟩ := h
    obtain ⟨y, hy, hSy⟩ := hstep q a r x hS hr
    obtain ⟨z, hz, hSz⟩ := ih hSy hrest
    exact ⟨z, ⟨y, hy, hz⟩, hSz⟩

/-- Language inclusion from a forward simulation. -/
theorem Acc_sim {I₁ F₁ : κ → Prop} {T₁ : κ → Symbol → κ → Prop}
    {I₂ F₂ : κ' → Prop} {T₂ : κ' → Symbol → κ' → Prop} (S : κ → κ' → Prop)
    (hinit : ∀ q, I₁ q → ∃ x, I₂ x ∧ S q x)
    (hfin : ∀ q x, S q x → F₁ q → F₂ x)
    (hstep : ∀ q a r x, S q x → T₁ q a r → ∃ y, T₂ x a y ∧ S r y)
    {w : Word} (h : Acc I₁ F₁ T₁ w) : Acc I₂ F₂ T₂ w := by
  obtain ⟨q0, hq0, qf, hqf, hr⟩ := h
  obtain ⟨x0, hx0, hS⟩ := hinit q0 hq0
  obtain ⟨y, hy, hSy⟩ := Reach_sim S hstep hS hr
  exact ⟨x0, hx0, y, hfin qf y hSy hqf, hy⟩

end reach

namespace Nfa

theorem has_trans_iff (A : Nfa) (t : Trans) :
    A.has_trans t = true ↔
      ∃ post tgts, umap_find A.transitions t.src = some post ∧
        umap_find post t.symb = some tgts ∧ t.tgt ∈ tgts := by
  unfold has_trans
  cases h1 : umap_find A.transitions t.src with
  | none => simp
  | some post =>
    cases h2 : umap_find post t.symb with
    | none => simp [h2]
    | some tgts => simp [h2, haskey]

theorem add_trans_transitions_of_none {A : Nfa} {t : Trans}
    (h1 : umap_find A.transitions t.src = none) :
    (A.add_trans t).transitions = A.transitions ++ [(t.src, [(t.symb, [t.tgt])])] := by
  simp [add_trans, h1]

theorem add_trans_transitions_of_some_none {A : Nfa} {t : Trans} {post : PostSymb}
    (h1 : umap_find A.transitions t.src = some post) (h2 : umap_find post t.symb = none) :
    (A.add_trans t).transitions =
      umap_replace A.transitions t.src (post ++ [(t.symb, [t.tgt])]) := by
  simp [add_trans, h1, h2]

theorem add_trans_transitions_of_some_some {A : Nfa} {t : Trans} {post : PostSymb}
    {tgts : StateSet}
    (h1 : umap_find A.transitions t.src = some post) (h2 : umap_find post t.symb = some tgts) :
    (A.add_trans t).transitions =
      umap_replace A.transitions t.src (umap_replace post t.symb (set_insert t.tgt tgts)) := by
  simp [add_trans, h1, h2]

@[simp] theorem add_trans_initialstates (A : Nfa) (t : Trans) :
    (A.add_trans t).initialstates = A.initialstates := by
  unfold add_trans
  split
  · split <;> rfl
  · rfl

@[simp] theorem add_trans_finalstates (A : Nfa) (t : Trans) :
    (A.add_trans t).finalstates = A.finalstates := by
  unfold add_trans
  split
  · split <;> rfl
  · rfl

/-- After `add_trans t` the automaton has exactly the old transitions and `t`. -/
theorem has_trans_add_trans (A : Nfa) (t t' : Trans) :
    (A.add_trans t).has_trans t' = true ↔ t' = t ∨ A.has_trans t' = true := by
  obtain ⟨s', a', q'⟩ := t'
  rw [has_trans_iff, has_trans_iff]
  cases h1 : umap_find A.transitions t.src with
  | none =>
    rw [add_trans_transitions_of_none h1]
    simp only [umap_find_append]
    by_cases hs : s' = t.src
    · subst hs
      simp only [h1, umap_find_cons, if_true, umap_find_nil]
      by_cases ha : a' = t.symb
      · subst ha
        obtain ⟨s, a, q⟩ := t
        simp
      · have ha' : ¬ t.symb = a' := fun h => ha h.symm
        obtain ⟨s, a, q⟩ := t
        simp only at ha ha'
        simp [ha, ha']
    · have hs' : ¬ t.src = s' := fun h => hs h.symm
      obtain ⟨s, a, q⟩ := t
      simp only at hs hs'
      simp only [umap_find_cons, hs', if_false, umap_find_nil, Trans.mk.injEq, hs, false_and,
        false_or]
      cases umap_find A.transitions s' <;> simp
  | some post =>
    cases h2 : umap_find post t.symb with
    | none =>
      rw [add_trans_transitions_of_some_none h1 h2]
      by_cases hs : s' = t.src
      · subst hs
        simp only [umap_find_replace_self _ h1, h1, umap_find_append, Option.some.injEq,
          exists_and_left, exists_eq_left']
        by_cases ha : a' = t.symb
        · subst ha
          obtain ⟨s, a, q⟩ := t
          simp only at h2
          simp [h2]
        · have ha' : ¬ t.symb = a' := fun h => ha h.symm
          obtain ⟨s, a, q⟩ := t
          simp only at ha ha'
          simp only [umap_find_cons, ha', if_false, umap_find_nil, Trans.mk.injEq, ha,
            false_and, and_false, false_or]
          cases umap_find post a' <;> simp
      · simp only [umap_find_replace_ne _ hs]
        obtain ⟨s, a, q⟩ := t
        simp only at hs
        simp [hs]
    | some tgts =>
      rw [add_trans_transitions_of_some_some h1 h2]
      by_cases hs : s' = t.src
      · subst hs
        simp only [umap_find_replace_self _ h1, h1, Option.some.injEq,
          exists_and_left, exists_eq_left']
        by_cases ha : a' = t.symb
        · subst ha
          obtain ⟨s, a, q⟩ := t
          simp only at h2
          simp only [umap_find_replace_self _ h2, h2, Option.some.injEq, exists_eq_left',
            mem_set_insert, Trans.mk.injEq, true_and]
        · simp only [umap_find_replace_ne _ ha]
          obtain ⟨s, a, q⟩ := t
          simp only at ha
          simp [ha]
      · simp only [umap_find_replace_ne _ hs]
        obtain ⟨s, a, q⟩ := t
        simp only at hs
        simp [hs]

/-- Folding `add_trans` over a list adds exactly the transitions of the list. -/
theorem has_trans_foldl_add_trans (ts : List Trans) (A : Nfa) (t' : Trans) :
    (ts.foldl add_trans A).has_trans t' = true ↔ t' ∈ ts ∨ A.has_trans t' = true := by
  induction ts generalizing A with
  | nil => simp
  | cons t ts ih =>
    simp only [List.foldl_cons, List.mem_cons]
    rw [ih, has_trans_add_trans]
    tauto

theorem mem_trans_list (A : Nfa) (t : Trans) :
    t ∈ A.trans_list ↔
      ∃ post tgts, (t.src, post) ∈ A.transitions ∧ (t.symb, tgts) ∈ post ∧ t.tgt ∈ tgts := by
  obtain ⟨s, a, q⟩ := t
  unfold trans_list
  simp only [List.mem_flatMap, List.mem_map, Trans.mk.injEq, Prod.exists]
  constructor
  · rintro ⟨s', post, h1, a', tgts, h2, q', h3, rfl, rfl, rfl⟩
    exact ⟨post, tgts, h1, h2, h3⟩
  · rintro ⟨post, tgts, h1, h2, h3⟩
    exact ⟨s, post, h1, a, tgts, h2, q, h3, rfl, rfl, rfl⟩

/-- In a well-formed automaton the iteration visits exactly the transitions that `has_trans`
reports. -/
theorem mem_trans_list_iff {A : Nfa} (h : A.WF) (t : Trans) :
    t ∈ A.trans_list ↔ A.has_trans t = true := by
  rw [mem_trans_list, has_trans_iff]
  constructor
  · rintro ⟨post, tgts, h1, h2, h3⟩
    exact ⟨post, tgts, umap_find_of_mem h.1 h1, umap_find_of_mem (h.2.1 _ h1).2.1 h2, h3⟩
  · rintro ⟨post, tgts, h1, h2, h3⟩
    exact ⟨post, tgts, umap_find_some_mem h1, umap_find_some_mem h2, h3⟩

theorem has_trans_of_mem_trans_list {A : Nfa} (h : A.WF) {t : Trans} (ht : t ∈ A.trans_list) :
    A.has_trans t = true :=
  (mem_trans_list_iff h t).1 ht

/-! ### The class invariant is preserved -/

theorem wf_empty : ({} : Nfa).WF := by
  refine ⟨?_, ?_, ?_, ?_⟩ <;> simp

theorem add_trans_wf {A : Nfa} (h : A.WF) (t : Trans) : (A.add_trans t).WF := by
  obtain ⟨hk, he, hi, hf⟩ := h
  unfold WF
  rw [add_trans_initialstates, add_trans_finalstates]
  cases h1 : umap_find A.transitions t.src with
  | none =>
    rw [add_trans_transitions_of_none h1]
    refine ⟨?_, ?_, hi, hf⟩
    · simp only [List.map_append, List.map_cons, List.map_nil]
      rw [List.nodup_append]
      refine ⟨hk, by simp, ?_⟩
      intro x hx hx'
      simp only [List.mem_singleton] at hx'
      subst hx'
      exact (umap_find_eq_none_iff.1 h1) hx
    · intro sp hsp
      simp only [List.mem_append, List.mem_singleton] at hsp
      rcases hsp with hsp | rfl
      · exact he sp hsp
      · refine ⟨by simp, by simp, ?_⟩
        intro st hst
        simp only [List.mem_singleton] at hst
        subst hst
        simp
  | some post =>
    have hpost : PostSymb_wf post := he _ (umap_find_some_mem h1)
    cases h2 : umap_find post t.symb with
    | none =>
      rw [add_trans_transitions_of_some_none h1 h2]
      refine ⟨?_, ?_, hi, hf⟩
      · simp only [umap_replace_keys]; exact hk
      · intro sp hsp
        rcases mem_umap_replace hsp with hsp | rfl
        · exact he sp hsp
        · refine ⟨by simp, ?_, ?_⟩
          · simp only [List.map_append, List.map_cons, List.map_nil]
            rw [List.nodup_append]
            refine ⟨hpost.2.1, by simp, ?_⟩
            intro x hx hx'
            simp only [List.mem_singleton] at hx'
            subst hx'
            exact (umap_find_eq_none_iff.1 h2) hx
          · intro st hst
            simp only [List.mem_append, List.mem_singleton] at hst
            rcases hst with hst | rfl
            · exact hpost.2.2 st hst
            · simp
    | some tgts =>
      rw [add_trans_transitions_of_some_some h1 h2]
      refine ⟨?_, ?_, hi, hf⟩
      · simp only [umap_replace_keys]; exact hk
      · intro sp hsp
        rcases mem_umap_replace hsp with hsp | rfl
        · exact he sp hsp
        · refine ⟨?_, ?_, ?_⟩
          · intro hnil
            have := congrArg (List.map Prod.fst) hnil
            rw [umap_replace_keys] at this
            exact hpost.1 (List.map_eq_nil_iff.1 this)
          · simp only [umap_replace_keys]; exact hpost.2.1
          · intro st hst
            rcases mem_umap_replace hst with hst | rfl
            · exact hpost.2.2 st hst
            · exact ⟨set_insert_ne_nil _ _,
                sorted_set_insert _ _ (hpost.2.2 _ (umap_find_some_mem h2)).2⟩

theorem foldl_add_trans_wf (ts : List Trans) {A : Nfa} (h : A.WF) :
    (ts.foldl add_trans A).WF := by
  induction ts generalizing A with
  | nil => exact h
  | cons t ts ih => exact ih (add_trans_wf h t)

@[simp] theorem foldl_add_trans_initialstates (ts : List Trans) (A : Nfa) :
    (ts.foldl add_trans A).initialstates = A.initialstates := by
  induction ts generalizing A with
  | nil => rfl
  | cons t ts ih => simp [ih]

@[simp] theorem foldl_add_trans_finalstates (ts : List Trans) (A : Nfa) :
    (ts.foldl add_trans A).finalstates = A.finalstates := by
  induction ts generalizing A with
  | nil => rfl
  | cons t ts ih => simp [ih]

theorem add_final_wf {A : Nfa} (h : A.WF) (s : State) : (A.add_final s).WF :=
  ⟨h.1, h.2.1, h.2.2.1, sorted_set_insert _ _ h.2.2.2⟩

theorem add_initial_wf {A : Nfa} (h : A.WF) (s : State) : (A.add_initial s).WF :=
  ⟨h.1, h.2.1, sorted_set_insert _ _ h.2.2.1, h.2.2.2⟩

@[simp] theorem add_final_has_trans (A : Nfa) (s : State) (t : Trans) :
    (A.add_final s).has_trans t = A.has_trans t := rfl

@[simp] theorem add_initial_has_trans (A : Nfa) (s : State) (t : Trans) :
    (A.add_initial s).has_trans t = A.has_trans t := rfl

/-! ### Runs and the membership test -/


theorem mem_post_macro_step (A : Nfa) (a : Symbol) (acc : StateSet) (q s : State) :
    (s ∈ (match A.post q with
        | none => acc
        | some post_s =>
          match umap_find post_s a with
          | none => acc
          | some tgts => set_insert_all tgts acc)) ↔
      s ∈ acc ∨ A.has_trans ⟨q, a, s⟩ = true := by
  unfold post has_trans
  cases h1 : umap_find A.transitions q with
  | none => simp
  | some post_s =>
    cases h2 : umap_find post_s a with
    | none => simp [h2]
    | some tgts =>
      simp only [h2, mem_set_insert_all, haskey, decide_eq_true_eq]
      tauto

theorem mem_post_macro (A : Nfa) (M : StateSet) (a : Symbol) (s : State) :
    s ∈ A.post_macro M a ↔ ∃ q ∈ M, A.has_trans ⟨q, a, s⟩ = true := by
  unfold post_macro
  suffices H : ∀ acc : StateSet,
      s ∈ M.foldl (fun result state =>
        match A.post state with
        | none => result
        | some post_s =>
          match umap_find post_s a with
          | none => result
          | some tgts => set_insert_all tgts result) acc ↔
      s ∈ acc ∨ ∃ q ∈ M, A.has_trans ⟨q, a, s⟩ = true by
    simpa using H []
  induction M with
  | nil => intro acc; simp
  | cons q M ih =>
    intro acc
    simp only [List.foldl_cons, List.mem_cons, exists_eq_or_imp]
    rw [ih, mem_post_macro_step]
    tauto

theorem sorted_post_macro (A : Nfa) (M : StateSet) (a : Symbol) :
    (A.post_macro M a).Sorted (· < ·) := by
  unfold post_macro
  suffices H : ∀ acc : StateSet, acc.Sorted (· < ·) →
      (M.foldl (fun result state =>
        match A.post state with
        | none => result
        | some post_s =>
          match umap_find post_s a with
          | none => result
          | some tgts => set_insert_all tgts result) acc).Sorted (· < ·) from
    H [] List.sorted_nil
  induction M with
  | nil => intro acc h; simpa using h
  | cons q M ih =>
    intro acc h
    simp only [List.foldl_cons]
    apply ih
    cases A.post q with
    | none => exact h
    | some post_s =>
      cases h2 : umap_find post_s a with
      | none => simpa [h2] using h
      | some tgts => simpa [h2] using sorted_set_insert_all _ _ h

@[simp] theorem reach_nil (A : Nfa) (q q' : State) : A.reach q [] q' ↔ q = q' := Iff.rfl

@[simp] theorem reach_cons (A : Nfa) (q q' : State) (a : Symbol) (w : Word) :
    A.reach q (a :: w) q' ↔ ∃ r, A.has_trans ⟨q, a, r⟩ = true ∧ A.reach r w q' := Iff.rfl

theorem accepts_iff_Acc (A : Nfa) (w : Word) :
    A.accepts w ↔ Acc (· ∈ A.initialstates) (· ∈ A.finalstates) A.trel w := Iff.rfl

end Nfa

theorem is_in_lang_loop_iff (aut : Nfa) (cur : StateSet) (w : Word) :
    is_in_lang_loop aut cur w = true ↔
      ∃ q ∈ cur, ∃ qf ∈ aut.finalstates, aut.reach q w qf := by
  induction w generalizing cur with
  | nil =>
    simp only [is_in_lang_loop, Bool.not_eq_true', are_disjoint_eq_false_iff, Nfa.reach_nil]
    constructor
    · rintro ⟨x, hx, hx'⟩; exact ⟨x, hx, x, hx', rfl⟩
    · rintro ⟨x, hx, y, hy, rfl⟩; exact ⟨x, hx, hy⟩
  | cons a w ih =>
    simp only [is_in_lang_loop, Nfa.reach_cons]
    split_ifs with he
    · simp only [Bool.false_eq_true, false_iff]
      rintro ⟨q, hq, qf, _, r, hr, _⟩
      have : r ∈ aut.post_macro cur a := (Nfa.mem_post_macro aut cur a r).2 ⟨q, hq, hr⟩
      rw [List.isEmpty_iff.1 he] at this
      exact absurd this (List.not_mem_nil _)
    · rw [ih]
      constructor
      · rintro ⟨r, hr, qf, hqf, hreach⟩
        obtain ⟨q, hq, hqr⟩ := (Nfa.mem_post_macro aut cur a r).1 hr
        exact ⟨q, hq, qf, hqf, r, hqr, hreach⟩
      · rintro ⟨q, hq, qf, hqf, r, hqr, hreach⟩
        exact ⟨r, (Nfa.mem_post_macro aut cur a r).2 ⟨q, hq, hqr⟩, qf, hqf, hreach⟩

/-- The membership test decides the language: `is_in_lang` answers `true` exactly on the
words read by a run from an initial to a final state. -/
theorem is_in_lang_iff (aut : Nfa) (w : Word) :
    is_in_lang aut w = true ↔ aut.accepts w :=
  is_in_lang_loop_iff aut aut.initialstates w

/-- Two automata with the same accepted words get the same answers from `is_in_lang`. -/
theorem is_in_lang_congr {A B : Nfa} {w v : Word} (h : A.accepts w ↔ B.accepts v) :
    is_in_lang A w = is_in_lang B v := by
  rw [Bool.eq_iff_iff, is_in_lang_iff, is_in_lang_iff]
  exact h

end Vata2

namespace Vata2

/-! ## Loops: invariants, termination, fuel monotonicity -/

section loops
variable {σ ρ : Type}

theorem while_loop_mono {cond : σ → Bool} {body : σ → σ} {n m : Nat} {s s' : σ}
    (h : while_loop cond body n s = some s') (hnm : n ≤ m) :
    while_loop cond body m s = some s' := by
  induction n generalizing m s with
  | zero => simp [while_loop] at h
  | succ n ih =>
    obtain ⟨m, rfl⟩ : ∃ k, m = k + 1 := ⟨m - 1, by omega⟩
    simp only [while_loop] at h ⊢
    split_ifs at h ⊢ with hc
    · exact ih h (by omega)
    · exact h

theorem while_loop_inv {cond : σ → Bool} {body : σ → σ} (I : σ → Prop)
    (hstep : ∀ s, I s → cond s = true → I (body s)) {n : Nat} {s s' : σ}
    (hs : I s) (h : while_loop cond body n s = some s') : I s' ∧ cond s' = false := by
  induction n generalizing s with
  | zero => simp [while_loop] at h
  | succ n ih =>
    simp only [while_loop] at h
    split_ifs at h with hc
    · exact ih (hstep s hs hc) h
    · cases h
      exact ⟨hs, by simpa using hc⟩

theorem while_loop_terminates {cond : σ → Bool} {body : σ → σ} (I : σ → Prop) (μ : σ → Nat)
    (hstep : ∀ s, I s → cond s = true → I (body s))
    (hdec : ∀ s, I s → cond s = true → μ (body s) < μ s) {s : σ} (hs : I s) {n : Nat}
    (hn : μ s < n) : ∃ s', while_loop cond body n s = some s' := by
  induction n generalizing s with
  | zero => omega
  | succ n ih =>
    simp only [while_loop]
    split_ifs with hc
    · exact ih (hstep s hs hc) (by have := hdec s hs hc; omega)
    · exact ⟨s, rfl⟩

theorem while_loop_exit_mono {cond : σ → Bool} {body : σ → Except ρ σ} {n m : Nat} {s : σ}
    {r : Except ρ σ} (h : while_loop_exit cond body n s = some r) (hnm : n ≤ m) :
    while_loop_exit cond body m s = some r := by
  induction n generalizing m s with
  | zero => simp [while_loop_exit] at h
  | succ n ih =>
    obtain ⟨m, rfl⟩ : ∃ k, m = k + 1 := ⟨m - 1, by omega⟩
    simp only [while_loop_exit] at h ⊢
    split_ifs at h ⊢ with hc
    · cases hb : body s with
      | error e => simpa [hb] using h
      | ok s₁ =>
        simp only [hb] at h ⊢
        exact ih h (by omega)
    · exact h

/-- What a finished loop with exits tells: either it ran to completion, and then the
invariant holds together with the negated condition, or the body left from a state satisfying
the invariant and the condition. -/
theorem while_loop_exit_inv {cond : σ → Bool} {body : σ → Except ρ σ} (I : σ → Prop)
    (hstep : ∀ s s', I s → cond s = true → body s = .ok s' → I s') {n : Nat} {s : σ}
    {r : Except ρ σ} (hs : I s) (h : while_loop_exit cond body n s = some r) :
    (∀ s', r = .ok s' → I s' ∧ cond s' = false) ∧
      (∀ e, r = .error e → ∃ s₀, I s₀ ∧ cond s₀ = true ∧ body s₀ = .error e) := by
  induction n generalizing s with
  | zero => simp [while_loop_exit] at h
  | succ n ih =>
    simp only [while_loop_exit] at h
    split_ifs at h with hc
    · cases hb : body s with
      | error e =>
        simp only [hb, Option.some.injEq] at h
        subst h
        refine ⟨fun s' h' => (by cases h'), fun e' h' => ?_⟩
        cases h'
        exact ⟨s, hs, hc, hb⟩
      | ok s₁ =>
        simp only [hb] at h
        exact ih (hstep s s₁ hs hc hb) h
    · cases h
      refine ⟨fun s' h' => ?_, fun e' h' => by cases h'⟩
      cases h'
      exact ⟨hs, by simpa using hc⟩

theorem while_loop_exit_terminates {cond : σ → Bool} {body : σ → Except ρ σ} (I : σ → Prop)
    (μ : σ → Nat)
    (hstep : ∀ s s', I s → cond s = true → body s = .ok s' → I s')
    (hdec : ∀ s s', I s → cond s = true → body s = .ok s' → μ s' < μ s) {s : σ} (hs : I s)
    {n : Nat} (hn : μ s < n) : ∃ r, while_loop_exit cond body n s = some r := by
  induction n generalizing s with
  | zero => omega
  | succ n ih =>
    simp only [while_loop_exit]
    split_ifs with hc
    · cases hb : body s with
      | error e => exact ⟨_, rfl⟩
      | ok s₁ =>
        exact ih (hstep s s₁ hs hc hb) (by have := hdec s s₁ hs hc hb; omega)
    · exact ⟨_, rfl⟩

end loops

end Vata2

namespace Vata2

/-! ## State disjointness and the union without renaming -/

theorem mem_uset_insert {α : Type} [DecidableEq α] (s : List α) (x y : α) :
    y ∈ (uset_insert s x).1 ↔ y = x ∨ y ∈ s := by
  unfold uset_insert
  split_ifs with h
  · constructor
    · exact Or.inr
    · rintro (rfl | h')
      · exact h
      · exact h'
  · simp only [List.mem_append, List.mem_singleton]
    tauto

theorem uset_insert_snd {α : Type} [DecidableEq α] (s : List α) (x : α) :
    (uset_insert s x).2 = true ↔ x ∉ s := by
  unfold uset_insert
  split_ifs with h <;> simp [h]

theorem mem_uset_insert_all {α : Type} [DecidableEq α] (xs s : List α) (y : α) :
    y ∈ uset_insert_all xs s ↔ y ∈ xs ∨ y ∈ s := by
  unfold uset_insert_all
  induction xs generalizing s with
  | nil => simp
  | cons x xs ih =>
    simp only [List.foldl_cons, List.mem_cons]
    rw [ih, mem_uset_insert]
    tauto

theorem nodup_uset_insert {α : Type} [DecidableEq α] {s : List α} (h : s.Nodup) (x : α) :
    (uset_insert s x).1.Nodup := by
  unfold uset_insert
  split_ifs with hx
  · exact h
  · rw [List.nodup_append]
    refine ⟨h, List.nodup_singleton x, ?_⟩
    intro a ha ha'
    simp only [List.mem_singleton] at ha'
    subst ha'
    exact hx ha

theorem nodup_uset_insert_all {α : Type} [DecidableEq α] (xs : List α) {s : List α}
    (h : s.Nodup) : (uset_insert_all xs s).Nodup := by
  unfold uset_insert_all
  induction xs generalizing s with
  | nil => simpa using h
  | cons x xs ih =>
    simp only [List.foldl_cons]
    exact ih (nodup_uset_insert h x)

theorem has_state_iff {A : Nfa} (h : A.WF) (q : State) :
    A.has_state q ↔
      q ∈ A.initialstates ∨ q ∈ A.finalstates ∨
        ∃ t ∈ A.trans_list, t.src = q ∨ t.tgt = q := by
  unfold Nfa.has_state
  simp only [Nfa.mem_trans_list_iff h]

theorem mem_states_foldl (ts : List Trans) (acc : List State) (q : State) :
    q ∈ ts.foldl (fun acc trans => uset_insert_all [trans.src, trans.tgt] acc) acc ↔
      q ∈ acc ∨ ∃ t ∈ ts, t.src = q ∨ t.tgt = q := by
  induction ts generalizing acc with
  | nil => simp
  | cons t ts ih =>
    simp only [List.foldl_cons, List.mem_cons, exists_eq_or_imp]
    rw [ih, mem_uset_insert_all]
    simp only [List.mem_cons, List.mem_singleton, List.not_mem_nil, or_false]
    have e1 : q = t.src ↔ t.src = q := eq_comm
    have e2 : q = t.tgt ↔ t.tgt = q := eq_comm
    rw [e1, e2]
    generalize (∃ t ∈ ts, t.src = q ∨ t.tgt = q) = P
    tauto

/-- `are_state_disjoint` answers `true` exactly when no state occurs in both automata. -/
theorem are_state_disjoint_iff {L R : Nfa} (hL : L.WF) (hR : R.WF) :
    are_state_disjoint L R = true ↔ ∀ q, L.has_state q → ¬ R.has_state q := by
  have key : ∀ q, q ∈ L.trans_list.foldl
      (fun acc trans => uset_insert_all [trans.src, trans.tgt] acc)
      (uset_insert_all L.finalstates (uset_insert_all L.initialstates [])) ↔ L.has_state q := by
    intro q
    rw [mem_states_foldl, mem_uset_insert_all, mem_uset_insert_all, has_state_iff hL]
    simp only [List.not_mem_nil, or_false]
    constructor
    · rintro ((h | h) | h)
      · exact Or.inr (Or.inl h)
      · exact Or.inl h
      · exact Or.inr (Or.inr h)
    · rintro (h | h | h)
      · exact Or.inl (Or.inr h)
      · exact Or.inl (Or.inl h)
      · exact Or.inr h
  simp only [are_state_disjoint, haskey]
  simp only [has_state_iff hR]
  constructor
  · intro h q hq hqR
    have hq' := (key q).2 hq
    split_ifs at h with h1 h2 h3
    rcases hqR with hqR | hqR | ⟨t, ht, hqR | hqR⟩
    · exact h1 (List.any_eq_true.2 ⟨q, hqR, by simpa using hq'⟩)
    · exact h2 (List.any_eq_true.2 ⟨q, hqR, by simpa using hq'⟩)
    · subst hqR
      exact h3 (List.any_eq_true.2 ⟨t, ht, by simp [hq']⟩)
    · subst hqR
      exact h3 (List.any_eq_true.2 ⟨t, ht, by simp [hq']⟩)
  · intro h
    split_ifs with h1 h2 h3
    · obtain ⟨q, hq, hq'⟩ := List.any_eq_true.1 h1
      exact absurd (Or.inl hq) (h q ((key q).1 (by simpa using hq')))
    · obtain ⟨q, hq, hq'⟩ := List.any_eq_true.1 h2
      exact absurd (Or.inr (Or.inl hq)) (h q ((key q).1 (by simpa using hq')))
    · obtain ⟨t, ht, ht'⟩ := List.any_eq_true.1 h3
      simp only [Bool.or_eq_true, decide_eq_true_eq] at ht'
      rcases ht' with ht' | ht'
      · exact absurd (Or.inr (Or.inr ⟨t, ht, Or.inl rfl⟩)) (h _ ((key _).1 ht'))
      · exact absurd (Or.inr (Or.inr ⟨t, ht, Or.inr rfl⟩)) (h _ ((key _).1 ht'))
    · rfl

/-- The language of the union of two transition systems whose states are kept apart by the
predicates `O₁` and `O₂`. -/
theorem Acc_union {I₁ F₁ I₂ F₂ I F : State → Prop} {T₁ T₂ T : State → Symbol → State → Prop}
    (O₁ O₂ : State → Prop)
    (hi : ∀ q, I q ↔ I₁ q ∨ I₂ q) (hf : ∀ q, F q ↔ F₁ q ∨ F₂ q)
    (ht : ∀ q a r, T q a r ↔ T₁ q a r ∨ T₂ q a r)
    (hI₁ : ∀ q, I₁ q → O₁ q) (hF₁ : ∀ q, F₁ q → O₁ q)
    (hT₁ : ∀ q a r, T₁ q a r → O₁ q ∧ O₁ r)
    (hI₂ : ∀ q, I₂ q → O₂ q) (hF₂ : ∀ q, F₂ q → O₂ q)
    (hT₂ : ∀ q a r, T₂ q a r → O₂ q ∧ O₂ r)
    (hd : ∀ q, O₁ q → ¬ O₂ q) (w : Word) :
    Acc I F T w ↔ Acc I₁ F₁ T₁ w ∨ Acc I₂ F₂ T₂ w := by
  constructor
  · rintro ⟨q0, hq0, qf, hqf, hr⟩
    rcases (hi q0).1 hq0 with h0 | h0
    · left
      have sim := @Reach_sim _ _ T T₁ (fun x q => x = q ∧ O₁ q)
        (fun q a r x hS hstep => by
          obtain ⟨rfl, hO⟩ := hS
          rcases (ht q a r).1 hstep with h | h
          · exact ⟨r, h, rfl, (hT₁ q a r h).2⟩
          · exact absurd (hT₂ q a r h).1 (hd q hO))
      obtain ⟨y, hy, hS⟩ := sim (⟨rfl, hI₁ q0 h0⟩ : q0 = q0 ∧ O₁ q0) hr
      obtain ⟨rfl, hO⟩ := hS
      rcases (hf qf).1 hqf with h | h
      · exact ⟨q0, h0, qf, h, hy⟩
      · exact absurd (hF₂ qf h) (hd qf hO)
    · right
      have sim := @Reach_sim _ _ T T₂ (fun x q => x = q ∧ O₂ q)
        (fun q a r x hS hstep => by
          obtain ⟨rfl, hO⟩ := hS
          rcases (ht q a r).1 hstep with h | h
          · exact absurd hO (hd q (hT₁ q a r h).1)
          · exact ⟨r, h, rfl, (hT₂ q a r h).2⟩)
      obtain ⟨y, hy, hS⟩ := sim (⟨rfl, hI₂ q0 h0⟩ : q0 = q0 ∧ O₂ q0) hr
      obtain ⟨rfl, hO⟩ := hS
      rcases (hf qf).1 hqf with h | h
      · exact absurd hO (hd qf (hF₁ qf h))
      · exact ⟨q0, h0, qf, h, hy⟩
  · rintro (h | h)
    · exact Acc_sim (fun q x => x = q) (fun q hq => ⟨q, (hi q).2 (Or.inl hq), rfl⟩)
        (fun q x hS hq => by rw [hS]; exact (hf q).2 (Or.inl hq))
        (fun q a r x hS hstep => by rw [hS]; exact ⟨r, (ht q a r).2 (Or.inl hstep), rfl⟩) h
    · exact Acc_sim (fun q x => x = q) (fun q hq => ⟨q, (hi q).2 (Or.inr hq), rfl⟩)
        (fun q x hS hq => by rw [hS]; exact (hf q).2 (Or.inr hq))
        (fun q a r x hS hstep => by rw [hS]; exact ⟨r, (ht q a r).2 (Or.inr hstep), rfl⟩) h

theorem union_norename_into_initialstates (result lhs rhs : Nfa) (q : State) :
    q ∈ (union_norename_into result lhs rhs).initialstates ↔
      q ∈ lhs.initialstates ∨ q ∈ rhs.initialstates ∨ q ∈ result.initialstates := by
  simp only [union_norename_into, Nfa.foldl_add_trans_initialstates, mem_set_insert_all]
  tauto

theorem union_norename_into_finalstates (result lhs rhs : Nfa) (q : State) :
    q ∈ (union_norename_into result lhs rhs).finalstates ↔
      q ∈ lhs.finalstates ∨ q ∈ rhs.finalstates ∨ q ∈ result.finalstates := by
  simp only [union_norename_into, Nfa.foldl_add_trans_finalstates, mem_set_insert_all]
  tauto

theorem union_norename_into_has_trans (result lhs rhs : Nfa) (t : Trans) :
    (union_norename_into result lhs rhs).has_trans t = true ↔
      t ∈ lhs.trans_list ∨ t ∈ rhs.trans_list ∨ result.has_trans t = true := by
  simp only [union_norename_into, Nfa.has_trans_foldl_add_trans]
  have : ∀ (a b : StateSet), Nfa.has_trans
      { transitions := result.transitions, initialstates := a, finalstates := b } t =
      result.has_trans t := fun _ _ => rfl
  rw [this]
  tauto

theorem union_norename_into_wf {result : Nfa} (h : result.WF) (lhs rhs : Nfa) :
    (union_norename_into result lhs rhs).WF := by
  unfold union_norename_into
  apply Nfa.foldl_add_trans_wf
  apply Nfa.foldl_add_trans_wf
  exact ⟨h.1, h.2.1, sorted_set_insert_all _ _ (sorted_set_insert_all _ _ h.2.2.1),
    sorted_set_insert_all _ _ (sorted_set_insert_all _ _ h.2.2.2)⟩

theorem union_norename_wf (lhs rhs : Nfa) : (union_norename lhs rhs).WF :=
  union_norename_into_wf Nfa.wf_empty lhs rhs

theorem has_trans_empty (t : Trans) : ({} : Nfa).has_trans t = false := rfl

/-- The union without renaming: the three components of the result are the unions, and for
state-disjoint arguments so is the language. -/
theorem union_norename_spec {A B : Nfa} (hA : A.WF) (hB : B.WF) :
    (∀ q, q ∈ (union_norename A B).initialstates ↔
        q ∈ A.initialstates ∨ q ∈ B.initialstates) ∧
    (∀ q, q ∈ (union_norename A B).finalstates ↔ q ∈ A.finalstates ∨ q ∈ B.finalstates) ∧
    (∀ t, (union_norename A B).has_trans t = true ↔
        A.has_trans t = true ∨ B.has_trans t = true) ∧
    (∀ t, t ∈ (union_norename A B).trans_list ↔ t ∈ A.trans_list ∨ t ∈ B.trans_list) ∧
    (are_state_disjoint A B = true →
      ∀ w, (union_norename A B).accepts w ↔ A.accepts w ∨ B.accepts w) := by
  have hi : ∀ q, q ∈ (union_norename A B).initialstates ↔
      q ∈ A.initialstates ∨ q ∈ B.initialstates := by
    intro q
    rw [union_norename, union_norename_into_initialstates]
    simp
  have hf : ∀ q, q ∈ (union_norename A B).finalstates ↔
      q ∈ A.finalstates ∨ q ∈ B.finalstates := by
    intro q
    rw [union_norename, union_norename_into_finalstates]
    simp
  have ht : ∀ t, (union_norename A B).has_trans t = true ↔
      A.has_trans t = true ∨ B.has_trans t = true := by
    intro t
    rw [union_norename, union_norename_into_has_trans, has_trans_empty,
      Nfa.mem_trans_list_iff hA, Nfa.mem_trans_list_iff hB]
    simp
  refine ⟨hi, hf, ht, ?_, ?_⟩
  · intro t
    rw [Nfa.mem_trans_list_iff (union_norename_wf A B), ht,
      Nfa.mem_trans_list_iff hA, Nfa.mem_trans_list_iff hB]
  · intro hd w
    have hd' := (are_state_disjoint_iff hA hB).1 hd
    simp only [Nfa.accepts_iff_Acc]
    exact Acc_union A.has_state B.has_state hi hf (fun q a r => ht ⟨q, a, r⟩)
      (fun q h => Or.inl h) (fun q h => Or.inr (Or.inl h))
      (fun q a r h => ⟨Or.inr (Or.inr ⟨_, h, Or.inl rfl⟩), Or.inr (Or.inr ⟨_, h, Or.inr rfl⟩)⟩)
      (fun q h => Or.inl h) (fun q h => Or.inr (Or.inl h))
      (fun q a r h => ⟨Or.inr (Or.inr ⟨_, h, Or.inl rfl⟩), Or.inr (Or.inr ⟨_, h, Or.inr rfl⟩)⟩)
      hd' w

/-- C8: for state-disjoint automata `A` and `B`, `union_norename(A, B)` accepts a word iff
`A` or `B` does, and its initial set, final set and transition set are the unions of those
of `A` and `B`. -/
theorem union_norename_correct (A B : Nfa) (hA : A.WF) (hB : B.WF)
    (hd : are_state_disjoint A B = true) :
    (∀ w, is_in_lang (union_norename A B) w = true ↔
        (is_in_lang A w = true ∨ is_in_lang B w = true)) ∧
    (∀ q, q ∈ (union_norename A B).initialstates ↔
        q ∈ A.initialstates ∨ q ∈ B.initialstates) ∧
    (∀ q, q ∈ (union_norename A B).finalstates ↔ q ∈ A.finalstates ∨ q ∈ B.finalstates) ∧
    (∀ t, t ∈ (union_norename A B).trans_list ↔ t ∈ A.trans_list ∨ t ∈ B.trans_list) ∧
    (∀ t, (union_norename A B).has_trans t = true ↔
        A.has_trans t = true ∨ B.has_trans t = true) := by
  obtain ⟨hi, hf, ht, hl, hacc⟩ := union_norename_spec hA hB
  refine ⟨?_, hi, hf, hl, ht⟩
  intro w
  simp only [is_in_lang_iff]
  exact hacc hd w

theorem union_norename_correct_witness :
    nfa_S3_lhs.WF ∧ nfa_S3_rhs_shifted.WF ∧
    are_state_disjoint nfa_S3_lhs nfa_S3_rhs_shifted = true ∧
    ((∀ w, is_in_lang (union_norename nfa_S3_lhs nfa_S3_rhs_shifted) w = true ↔
        (is_in_lang nfa_S3_lhs w = true ∨ is_in_lang nfa_S3_rhs_shifted w = true)) ∧
    (∀ q, q ∈ (union_norename nfa_S3_lhs nfa_S3_rhs_shifted).initialstates ↔
        q ∈ nfa_S3_lhs.initialstates ∨ q ∈ nfa_S3_rhs_shifted.initialstates) ∧
    (∀ q, q ∈ (union_norename nfa_S3_lhs nfa_S3_rhs_shifted).finalstates ↔
        q ∈ nfa_S3_lhs.finalstates ∨ q ∈ nfa_S3_rhs_shifted.finalstates) ∧
    (∀ t, t ∈ (union_norename nfa_S3_lhs nfa_S3_rhs_shifted).trans_list ↔
        t ∈ nfa_S3_lhs.trans_list ∨ t ∈ nfa_S3_rhs_shifted.trans_list) ∧
    (∀ t, (union_norename nfa_S3_lhs nfa_S3_rhs_shifted).has_trans t = true ↔
        nfa_S3_lhs.has_trans t = true ∨ nfa_S3_rhs_shifted.has_trans t = true)) :=
  ⟨by decide, by decide, by decide,
    union_norename_correct nfa_S3_lhs nfa_S3_rhs_shifted (by decide) (by decide) (by decide)⟩

end Vata2

namespace Vata2

/-! ## The union with renaming -/

theorem umap_find_append_single {κ β : Type} [DecidableEq κ] (m : List (κ × β)) (k₀ : κ)
    (v₀ : β) (k : κ) (v : β) :
    umap_find (m ++ [(k₀, v₀)]) k = some v ↔
      umap_find m k = some v ∨ (umap_find m k = none ∧ k₀ = k ∧ v₀ = v) := by
  rw [umap_find_append]
  cases h : umap_find m k with
  | some v' => simp
  | none =>
    by_cases hk : k₀ = k
    · simp [hk]
    · simp [hk]

theorem RenameState.Ext.refl (c : RenameState) : RenameState.Ext c c :=
  ⟨le_refl _, fun _ _ h => h⟩

theorem RenameState.Ext.trans {c₁ c₂ c₃ : RenameState} (h₁ : RenameState.Ext c₁ c₂)
    (h₂ : RenameState.Ext c₂ c₃) : RenameState.Ext c₁ c₃ :=
  ⟨le_trans h₁.1 h₂.1, fun k v h => h₂.2 k v (h₁.2 k v h)⟩

theorem rn_lookup_of_find {c : RenameState} {q v : State}
    (h : umap_find c.dict q = some v) : rn_lookup c q = v := by
  simp [rn_lookup, h]

theorem transl_of_some {c : RenameState} {st v : State} (h : umap_find c.dict st = some v) :
    transl c st = (v, c) := by
  simp [transl, umap_insert, h]

theorem transl_of_none {c : RenameState} {st : State} (h : umap_find c.dict st = none) :
    transl c st = (c.cnt, { cnt := c.cnt + 1, dict := c.dict ++ [(st, c.cnt)] }) := by
  simp [transl, umap_insert, h]

/-- One call of `transl`: the captures are extended, the invariant is kept, and the returned
identifier is the one now stored for the state. -/
theorem transl_spec (c : RenameState) (st : State) :
    RenameState.Ext c (transl c st).2 ∧
      umap_find (transl c st).2.dict st = some (transl c st).1 ∧
      ∀ b, RenameState.Inv b c → RenameState.Inv b (transl c st).2 := by
  cases h : umap_find c.dict st with
  | some v =>
    rw [transl_of_some h]
    exact ⟨RenameState.Ext.refl c, h, fun b hb => hb⟩
  | none =>
    rw [transl_of_none h]
    refine ⟨⟨Nat.le_succ _, ?_⟩, ?_, ?_⟩
    · intro k v hk
      exact (umap_find_append_single _ _ _ _ _).2 (Or.inl hk)
    · exact (umap_find_append_single _ _ _ _ _).2 (Or.inr ⟨h, rfl, rfl⟩)
    · rintro b ⟨hb, hv, hinj⟩
      refine ⟨Nat.le_succ_of_le hb, ?_, ?_⟩
      · intro k v hk
        rcases (umap_find_append_single _ _ _ _ _).1 hk with hk | ⟨_, _, rfl⟩
        · have := hv k v hk
          exact ⟨this.1, Nat.lt_succ_of_lt this.2⟩
        · exact ⟨hb, Nat.lt_succ_self _⟩
      · intro k k' v hk hk'
        rcases (umap_find_append_single _ _ _ _ _).1 hk with hk | ⟨_, rfl, rfl⟩
        · rcases (umap_find_append_single _ _ _ _ _).1 hk' with hk' | ⟨_, rfl, rfl⟩
          · exact hinj k k' v hk hk'
          · exact absurd (hv k _ hk).2 (lt_irrefl _)
        · rcases (umap_find_append_single _ _ _ _ _).1 hk' with hk' | ⟨_, rfl, _⟩
          · exact absurd (hv k' _ hk').2 (lt_irrefl _)
          · rfl

/-- A loop whose body translates states with `transl` computes what the same loop computes
with the final dictionary used as a pure function from the start. -/
theorem foldl_transl_spec {X : Type} (step : Nfa × RenameState → X → Nfa × RenameState)
    (pure : RenameState → Nfa → X → Nfa) (keys : X → List State)
    (hstep : ∀ R c x,
      RenameState.Ext c (step (R, c) x).2 ∧
      (∀ b, RenameState.Inv b c → RenameState.Inv b (step (R, c) x).2) ∧
      (∀ q ∈ keys x, ∃ v, umap_find (step (R, c) x).2.dict q = some v) ∧
      (∀ c'', RenameState.Ext (step (R, c) x).2 c'' → (step (R, c) x).1 = pure c'' R x))
    (l : List X) (R : Nfa) (c : RenameState) :
    RenameState.Ext c (l.foldl step (R, c)).2 ∧
      (∀ b, RenameState.Inv b c → RenameState.Inv b (l.foldl step (R, c)).2) ∧
      (∀ x ∈ l, ∀ q ∈ keys x, ∃ v, umap_find (l.foldl step (R, c)).2.dict q = some v) ∧
      (∀ c'', RenameState.Ext (l.foldl step (R, c)).2 c'' →
        (l.foldl step (R, c)).1 = l.foldl (pure c'') R) := by
  induction l generalizing R c with
  | nil =>
    exact ⟨RenameState.Ext.refl c, fun _ h => h, fun x hx => absurd hx (List.not_mem_nil _),
      fun _ _ => rfl⟩
  | cons x l ih =>
    simp only [List.foldl_cons]
    obtain ⟨h1, h2, h3, h4⟩ := hstep R c x
    have e : step (R, c) x = ((step (R, c) x).1, (step (R, c) x).2) := rfl
    rw [e]
    obtain ⟨i1, i2, i3, i4⟩ := ih (step (R, c) x).1 (step (R, c) x).2
    refine ⟨h1.trans i1, fun b hb => i2 b (h2 b hb), ?_, ?_⟩
    · intro y hy q hq
      rcases List.mem_cons.1 hy with rfl | hy
      · obtain ⟨v, hv⟩ := h3 q hq
        exact ⟨v, i1.2 q v hv⟩
      · exact i3 y hy q hq
    · intro c'' hc''
      rw [i4 c'' hc'', h4 c'' (i1.trans hc'')]

theorem copy_state_map_spec (src_first : Bool) (result src : Nfa) (c : RenameState) :
    RenameState.Ext c (copy_state_map src_first result src transl c).2 ∧
      (∀ b, RenameState.Inv b c →
        RenameState.Inv b (copy_state_map src_first result src transl c).2) ∧
      (∀ q, (q ∈ src.initialstates ∨ q ∈ src.finalstates ∨
          ∃ t ∈ src.trans_list, t.src = q ∨ t.tgt = q) →
        ∃ v, umap_find (copy_state_map src_first result src transl c).2.dict q = some v) ∧
      (copy_state_map src_first result src transl c).1 =
        copy_pure (rn_lookup (copy_state_map src_first result src transl c).2) result src := by
  obtain ⟨step1, hstep1⟩ : ∃ f : Nfa × RenameState → State → Nfa × RenameState,
      f = fun rc st => ((rc.1.add_initial (transl rc.2 st).1), (transl rc.2 st).2) := ⟨_, rfl⟩
  obtain ⟨step2, hstep2⟩ : ∃ f : Nfa × RenameState → State → Nfa × RenameState,
      f = fun rc st => ((rc.1.add_final (transl rc.2 st).1), (transl rc.2 st).2) := ⟨_, rfl⟩
  obtain ⟨step3, hstep3⟩ : ∃ f : Nfa × RenameState → Trans → Nfa × RenameState,
      f = fun rc tr =>
      if src_first then
        let r₁ := transl rc.2 tr.src
        let r₂ := transl r₁.2 tr.tgt
        (rc.1.add_trans ⟨r₁.1, tr.symb, r₂.1⟩, r₂.2)
      else
        let r₂ := transl rc.2 tr.tgt
        let r₁ := transl r₂.2 tr.src
        (rc.1.add_trans ⟨r₁.1, tr.symb, r₂.1⟩, r₁.2) := ⟨_, rfl⟩
  obtain ⟨pure1, hpure1⟩ : ∃ f : RenameState → Nfa → State → Nfa,
      f = fun c'' R st => R.add_initial (rn_lookup c'' st) := ⟨_, rfl⟩
  obtain ⟨pure2, hpure2⟩ : ∃ f : RenameState → Nfa → State → Nfa,
      f = fun c'' R st => R.add_final (rn_lookup c'' st) := ⟨_, rfl⟩
  obtain ⟨pure3, hpure3⟩ : ∃ f : RenameState → Nfa → Trans → Nfa,
      f = fun c'' R tr => R.add_trans ⟨rn_lookup c'' tr.src, tr.symb, rn_lookup c'' tr.tgt⟩ :=
    ⟨_, rfl⟩
  have s1 := foldl_transl_spec step1 pure1 (fun st => [st])
    (fun R c x => by
      subst hstep1 hpure1
      obtain ⟨t1, t2, t3⟩ := transl_spec c x
      refine ⟨t1, t3, ?_, ?_⟩
      · intro q hq
        simp only [List.mem_singleton] at hq
        subst hq
        exact ⟨_, t2⟩
      · intro c'' hc''
        simp only
        rw [rn_lookup_of_find (hc''.2 _ _ t2)])
  have s2 := foldl_transl_spec step2 pure2 (fun st => [st])
    (fun R c x => by
      subst hstep2 hpure2
      obtain ⟨t1, t2, t3⟩ := transl_spec c x
      refine ⟨t1, t3, ?_, ?_⟩
      · intro q hq
        simp only [List.mem_singleton] at hq
        subst hq
        exact ⟨_, t2⟩
      · intro c'' hc''
        simp only
        rw [rn_lookup_of_find (hc''.2 _ _ t2)])
  have s3 := foldl_transl_spec step3 pure3 (fun tr => [tr.src, tr.tgt])
    (fun R c x => by
      subst hstep3 hpure3
      cases src_first with
      | true =>
        simp only [if_true]
        obtain ⟨t1, t2, t3⟩ := transl_spec c x.src
        obtain ⟨u1, u2, u3⟩ := transl_spec (transl c x.src).2 x.tgt
        refine ⟨t1.trans u1, fun b hb => u3 b (t3 b hb), ?_, ?_⟩
        · intro q hq
          simp only [List.mem_cons, List.mem_singleton, List.not_mem_nil, or_false] at hq
          rcases hq with rfl | rfl
          · exact ⟨_, u1.2 _ _ t2⟩
          · exact ⟨_, u2⟩
        · intro c'' hc''
          rw [rn_lookup_of_find (hc''.2 _ _ (u1.2 _ _ t2)), rn_lookup_of_find (hc''.2 _ _ u2)]
      | false =>
        simp only [Bool.false_eq_true, if_false]
        obtain ⟨t1, t2, t3⟩ := transl_spec c x.tgt
        obtain ⟨u1, u2, u3⟩ := transl_spec (transl c x.tgt).2 x.src
        refine ⟨t1.trans u1, fun b hb => u3 b (t3 b hb), ?_, ?_⟩
        · intro q hq
          simp only [List.mem_cons, List.mem_singleton, List.not_mem_nil, or_false] at hq
          rcases hq with rfl | rfl
          · exact ⟨_, u2⟩
          · exact ⟨_, u1.2 _ _ t2⟩
        · intro c'' hc''
          rw [rn_lookup_of_find (hc''.2 _ _ (u1.2 _ _ t2)), rn_lookup_of_find (hc''.2 _ _ u2)])
  have hdef : copy_state_map src_first result src transl c =
      List.foldl step3 (List.foldl step2 (List.foldl step1 (result, c) src.initialstates)
        src.finalstates) src.trans_list := by
    subst hstep1 hstep2 hstep3
    rfl
  have hpure : ∀ c'', copy_pure (rn_lookup c'') result src =
      List.foldl (pure3 c'') (List.foldl (pure2 c'') (List.foldl (pure1 c'') result
        src.initialstates) src.finalstates) src.trans_list := by
    intro c''
    subst hpure1 hpure2 hpure3
    rfl
  rw [hdef, hpure]
  obtain ⟨a1, a2, a3, a4⟩ := s1 src.initialstates result c
  generalize List.foldl step1 (result, c) src.initialstates = rc1 at a1 a2 a3 a4 ⊢
  obtain ⟨rc1R, rc1c⟩ := rc1
  obtain ⟨b1, b2, b3, b4⟩ := s2 src.finalstates rc1R rc1c
  generalize List.foldl step2 (rc1R, rc1c) src.finalstates = rc2 at b1 b2 b3 b4 ⊢
  obtain ⟨rc2R, rc2c⟩ := rc2
  obtain ⟨c1, c2, c3, c4⟩ := s3 src.trans_list rc2R rc2c
  generalize List.foldl step3 (rc2R, rc2c) src.trans_list = rc3 at c1 c2 c3 c4 ⊢
  simp only at a1 a2 a3 a4 b1 b2 b3 b4
  refine ⟨a1.trans (b1.trans c1), fun b hb => c2 b (b2 b (a2 b hb)), ?_, ?_⟩
  · rintro q (hq | hq | ⟨t, ht, hq⟩)
    · obtain ⟨v, hv⟩ := a3 q hq q (List.mem_singleton_self q)
      exact ⟨v, c1.2 _ _ (b1.2 _ _ hv)⟩
    · obtain ⟨v, hv⟩ := b3 q hq q (List.mem_singleton_self q)
      exact ⟨v, c1.2 _ _ hv⟩
    · apply c3 t ht q
      rcases hq with rfl | rfl <;> simp
  · rw [c4 _ (RenameState.Ext.refl _), b4 _ c1, a4 _ (b1.trans c1)]

/-! ### Copying under a pure renaming -/

theorem foldl_add_initial (f : State → State) (l : List State) (R : Nfa) :
    (∀ x, x ∈ (l.foldl (fun R st => R.add_initial (f st)) R).initialstates ↔
        x ∈ R.initialstates ∨ ∃ q, q ∈ l ∧ x = f q) ∧
      (l.foldl (fun R st => R.add_initial (f st)) R).finalstates = R.finalstates ∧
      (l.foldl (fun R st => R.add_initial (f st)) R).transitions = R.transitions ∧
      (R.WF → (l.foldl (fun R st => R.add_initial (f st)) R).WF) := by
  induction l generalizing R with
  | nil => simp
  | cons q l ih =>
    simp only [List.foldl_cons, List.mem_cons]
    obtain ⟨h1, h2, h3, h4⟩ := ih (R.add_initial (f q))
    refine ⟨?_, by rw [h2]; rfl, by rw [h3]; rfl, fun h => h4 (Nfa.add_initial_wf h _)⟩
    intro x
    rw [h1]
    simp only [Nfa.add_initial, mem_set_insert]
    constructor
    · rintro ((rfl | h) | ⟨q', hq', rfl⟩)
      · exact Or.inr ⟨q, Or.inl rfl, rfl⟩
      · exact Or.inl h
      · exact Or.inr ⟨q', Or.inr hq', rfl⟩
    · rintro (h | ⟨q', rfl | hq', rfl⟩)
      · exact Or.inl (Or.inr h)
      · exact Or.inl (Or.inl rfl)
      · exact Or.inr ⟨q', hq', rfl⟩

theorem foldl_add_final (f : State → State) (l : List State) (R : Nfa) :
    (∀ x, x ∈ (l.foldl (fun R st => R.add_final (f st)) R).finalstates ↔
        x ∈ R.finalstates ∨ ∃ q, q ∈ l ∧ x = f q) ∧
      (l.foldl (fun R st => R.add_final (f st)) R).initialstates = R.initialstates ∧
      (l.foldl (fun R st => R.add_final (f st)) R).transitions = R.transitions ∧
      (R.WF → (l.foldl (fun R st => R.add_final (f st)) R).WF) := by
  induction l generalizing R with
  | nil => simp
  | cons q l ih =>
    simp only [List.foldl_cons, List.mem_cons]
    obtain ⟨h1, h2, h3, h4⟩ := ih (R.add_final (f q))
    refine ⟨?_, by rw [h2]; rfl, by rw [h3]; rfl, fun h => h4 (Nfa.add_final_wf h _)⟩
    intro x
    rw [h1]
    simp only [Nfa.add_final, mem_set_insert]
    constructor
    · rintro ((rfl | h) | ⟨q', hq', rfl⟩)
      · exact Or.inr ⟨q, Or.inl rfl, rfl⟩
      · exact Or.inl h
      · exact Or.inr ⟨q', Or.inr hq', rfl⟩
    · rintro (h | ⟨q', rfl | hq', rfl⟩)
      · exact Or.inl (Or.inr h)
      · exact Or.inl (Or.inl rfl)
      · exact Or.inr ⟨q', hq', rfl⟩

theorem has_trans_congr {A B : Nfa} (h : A.transitions = B.transitions) (t : Trans) :
    A.has_trans t = B.has_trans t := by
  unfold Nfa.has_trans
  rw [h]

theorem foldl_add_trans_map {X : Type} (g : X → Trans) (l : List X) (R : Nfa) :
    l.foldl (fun R x => R.add_trans (g x)) R = (l.map g).foldl Nfa.add_trans R := by
  rw [List.foldl_map]

/-- What `copy_state_map` builds for a pure renaming `f`. -/
theorem copy_pure_spec (f : State → State) (R A : Nfa) :
    (∀ x, x ∈ (copy_pure f R A).initialstates ↔
        x ∈ R.initialstates ∨ ∃ q, q ∈ A.initialstates ∧ x = f q) ∧
    (∀ x, x ∈ (copy_pure f R A).finalstates ↔
        x ∈ R.finalstates ∨ ∃ q, q ∈ A.finalstates ∧ x = f q) ∧
    (∀ t, (copy_pure f R A).has_trans t = true ↔
        R.has_trans t = true ∨ ∃ t' ∈ A.trans_list, t = ⟨f t'.src, t'.symb, f t'.tgt⟩) ∧
    (R.WF → (copy_pure f R A).WF) := by
  obtain ⟨i1, i2, i3, i4⟩ := foldl_add_initial f A.initialstates R
  obtain ⟨f1, f2, f3, f4⟩ := foldl_add_final f A.finalstates
    (A.initialstates.foldl (fun R st => R.add_initial (f st)) R)
  unfold copy_pure
  simp only [foldl_add_trans_map]
  refine ⟨?_, ?_, ?_, ?_⟩
  · intro x
    rw [Nfa.foldl_add_trans_initialstates, f2, i1]
  · intro x
    rw [Nfa.foldl_add_trans_finalstates, f1, i2]
  · intro t
    rw [Nfa.has_trans_foldl_add_trans, has_trans_congr (f3.trans i3)]
    simp only [List.mem_map]
    constructor
    · rintro (⟨t', ht', rfl⟩ | h)
      · exact Or.inr ⟨t', ht', rfl⟩
      · exact Or.inl h
    · rintro (h | ⟨t', ht', rfl⟩)
      · exact Or.inr h
      · exact Or.inl ⟨t', ht', rfl⟩
  · intro h
    exact Nfa.foldl_add_trans_wf _ (f4 (i4 h))

/-- Renaming the states of a transition system by a function that is injective on its
states does not change the accepted words. -/
theorem Acc_rename {I F : State → Prop} {T : State → Symbol → State → Prop}
    (f : State → State) (O : State → Prop)
    (hinj : ∀ q q', O q → O q' → f q = f q' → q = q')
    (hI : ∀ q, I q → O q) (hF : ∀ q, F q → O q) (hT : ∀ q a r, T q a r → O q ∧ O r)
    (w : Word) :
    Acc (fun x => ∃ q, I q ∧ x = f q) (fun x => ∃ q, F q ∧ x = f q)
      (fun x a y => ∃ q r, T q a r ∧ x = f q ∧ y = f r) w ↔ Acc I F T w := by
  constructor
  · intro h
    refine Acc_sim (fun x q => x = f q ∧ O q) ?_ ?_ ?_ h
    · rintro x ⟨q, hq, rfl⟩
      exact ⟨q, hq, rfl, hI q hq⟩
    · rintro x q ⟨rfl, hO⟩ ⟨q', hq', he⟩
      rw [hinj q q' hO (hF q' hq') he]
      exact hq'
    · rintro x a y q ⟨rfl, hO⟩ ⟨q', r', hT', he, rfl⟩
      have := hinj q q' hO (hT q' a r' hT').1 he
      subst this
      exact ⟨r', hT', rfl, (hT q a r' hT').2⟩
  · intro h
    refine Acc_sim (fun q x => x = f q) ?_ ?_ ?_ h
    · intro q hq
      exact ⟨f q, ⟨q, hq, rfl⟩, rfl⟩
    · rintro q x rfl hq
      exact ⟨q, hq, rfl⟩
    · rintro q a r x rfl hstep
      exact ⟨f r, ⟨q, r, hstep, rfl, rfl⟩, rfl⟩

theorem rename_inv_initial : RenameState.Inv 0 { cnt := 0, dict := [] } :=
  ⟨le_refl _, fun _ _ h => by simp at h, fun _ _ _ h => by simp at h⟩

theorem rename_inv_clear (c : RenameState) : RenameState.Inv c.cnt { c with dict := [] } :=
  ⟨le_refl _, fun _ _ h => by simp at h, fun _ _ _ h => by simp at h⟩

/-- The language of `union_rename`, for either order of evaluation of the two translations
of a transition. -/
theorem union_rename_accepts (src_first : Bool) {A B : Nfa} (hA : A.WF) (hB : B.WF)
    (w : Word) :
    (union_rename src_first A B).accepts w ↔ A.accepts w ∨ B.accepts w := by
  obtain ⟨a1, a2, a3, a4⟩ := copy_state_map_spec src_first {} A { cnt := 0, dict := [] }
  have hdef : union_rename src_first A B =
      (copy_state_map src_first (copy_state_map src_first {} A transl
        { cnt := 0, dict := [] }).1 B transl
        { (copy_state_map src_first {} A transl { cnt := 0, dict := [] }).2 with
          dict := [] }).1 := rfl
  rw [hdef]
  generalize copy_state_map src_first {} A transl { cnt := 0, dict := [] } = rc1
    at a1 a2 a3 a4 ⊢
  obtain ⟨R1, c1⟩ := rc1
  simp only at a1 a2 a3 a4 ⊢
  obtain ⟨b1, b2, b3, b4⟩ := copy_state_map_spec src_first R1 B { c1 with dict := [] }
  generalize copy_state_map src_first R1 B transl { c1 with dict := [] } = rc2
    at b1 b2 b3 b4 ⊢
  obtain ⟨R2, c2⟩ := rc2
  simp only at b1 b2 b3 b4 ⊢
  have inv1 := a2 0 rename_inv_initial
  have inv2 := b2 c1.cnt (rename_inv_clear c1)
  obtain ⟨p1, p2, p3, _⟩ := copy_pure_spec (rn_lookup c1) {} A
  obtain ⟨q1, q2, q3, _⟩ := copy_pure_spec (rn_lookup c2) R1 B
  rw [← a4] at p1 p2 p3
  rw [← b4] at q1 q2 q3
  -- the states of `A` and `B` are keys of the respective dictionaries
  have keyA : ∀ q, A.has_state q → ∃ v, umap_find c1.dict q = some v := fun q hq =>
    a3 q ((has_state_iff hA q).1 hq)
  have keyB : ∀ q, B.has_state q → ∃ v, umap_find c2.dict q = some v := fun q hq =>
    b3 q ((has_state_iff hB q).1 hq)
  have ltA : ∀ q, A.has_state q → rn_lookup c1 q < c1.cnt := by
    intro q hq
    obtain ⟨v, hv⟩ := keyA q hq
    rw [rn_lookup_of_find hv]
    exact (inv1.2.1 q v hv).2
  have geB : ∀ q, B.has_state q → c1.cnt ≤ rn_lookup c2 q := by
    intro q hq
    obtain ⟨v, hv⟩ := keyB q hq
    rw [rn_lookup_of_find hv]
    exact (inv2.2.1 q v hv).1
  have injA : ∀ q q', A.has_state q → A.has_state q' → rn_lookup c1 q = rn_lookup c1 q' →
      q = q' := by
    intro q q' hq hq' he
    obtain ⟨v, hv⟩ := keyA q hq
    obtain ⟨v', hv'⟩ := keyA q' hq'
    rw [rn_lookup_of_find hv, rn_lookup_of_find hv'] at he
    subst he
    exact inv1.2.2 q q' v hv hv'
  have injB : ∀ q q', B.has_state q → B.has_state q' → rn_lookup c2 q = rn_lookup c2 q' →
      q = q' := by
    intro q q' hq hq' he
    obtain ⟨v, hv⟩ := keyB q hq
    obtain ⟨v', hv'⟩ := keyB q' hq'
    rw [rn_lookup_of_find hv, rn_lookup_of_find hv'] at he
    subst he
    exact inv2.2.2 q q' v hv hv'
  have stA : ∀ q a r, A.trel q a r → A.has_state q ∧ A.has_state r := fun q a r h =>
    ⟨Or.inr (Or.inr ⟨_, h, Or.inl rfl⟩), Or.inr (Or.inr ⟨_, h, Or.inr rfl⟩)⟩
  have stB : ∀ q a r, B.trel q a r → B.has_state q ∧ B.has_state r := fun q a r h =>
    ⟨Or.inr (Or.inr ⟨_, h, Or.inl rfl⟩), Or.inr (Or.inr ⟨_, h, Or.inr rfl⟩)⟩
  rw [Nfa.accepts_iff_Acc, Nfa.accepts_iff_Acc, Nfa.accepts_iff_Acc,
    ← Acc_rename (rn_lookup c1) A.has_state injA (fun q h => Or.inl h)
      (fun q h => Or.inr (Or.inl h)) stA w,
    ← Acc_rename (rn_lookup c2) B.has_state injB (fun q h => Or.inl h)
      (fun q h => Or.inr (Or.inl h)) stB w]
  refine Acc_union (fun x => x < c1.cnt) (fun x => c1.cnt ≤ x) ?_ ?_ ?_ ?_ ?_ ?_ ?_ ?_ ?_
    (fun x h => Nat.not_le.2 h) w
  · intro x
    rw [q1, p1]
    simp
  · intro x
    rw [q2, p2]
    simp
  · intro x a y
    show R2.has_trans ⟨x, a, y⟩ = true ↔ _
    rw [q3, p3, has_trans_empty]
    simp only [Bool.false_eq_true, false_or, Trans.mk.injEq]
    constructor
    · rintro (⟨t', ht', rfl, rfl, rfl⟩ | ⟨t', ht', rfl, rfl, rfl⟩)
      · exact Or.inl ⟨t'.src, t'.tgt, (Nfa.mem_trans_list_iff hA t').1 ht', rfl, rfl⟩
      · exact Or.inr ⟨t'.src, t'.tgt, (Nfa.mem_trans_list_iff hB t').1 ht', rfl, rfl⟩
    · rintro (⟨q, r, h, rfl, rfl⟩ | ⟨q, r, h, rfl, rfl⟩)
      · exact Or.inl ⟨⟨q, a, r⟩, (Nfa.mem_trans_list_iff hA _).2 h, rfl, rfl, rfl⟩
      · exact Or.inr ⟨⟨q, a, r⟩, (Nfa.mem_trans_list_iff hB _).2 h, rfl, rfl, rfl⟩
  · rintro x ⟨q, hq, rfl⟩
    exact ltA q (Or.inl hq)
  · rintro x ⟨q, hq, rfl⟩
    exact ltA q (Or.inr (Or.inl hq))
  · rintro x a y ⟨q, r, h, rfl, rfl⟩
    exact ⟨ltA q (stA q a r h).1, ltA r (stA q a r h).2⟩
  · rintro x ⟨q, hq, rfl⟩
    exact geB q (Or.inl hq)
  · rintro x ⟨q, hq, rfl⟩
    exact geB q (Or.inr (Or.inl hq))
  · rintro x a y ⟨q, r, h, rfl, rfl⟩
    exact ⟨geB q (stB q a r h).1, geB r (stB q a r h).2⟩

/-- C7: for every pair of automata `A`, `B` (with arbitrary, possibly overlapping state
identifiers) and every word `w`, `union_rename(A, B)` accepts `w` iff `A` or `B` does; this
holds for both orders in which C++ may evaluate the two translated arguments of
`add_trans`. -/
theorem union_rename_correct (src_first : Bool) (A B : Nfa) (hA : A.WF) (hB : B.WF)
    (w : Word) :
    is_in_lang (union_rename src_first A B) w = true ↔
      (is_in_lang A w = true ∨ is_in_lang B w = true) := by
  simp only [is_in_lang_iff]
  exact union_rename_accepts src_first hA hB w

theorem union_rename_correct_witness :
    nfa_S3_lhs.WF ∧ nfa_S3_rhs.WF ∧
    (is_in_lang (union_rename true nfa_S3_lhs nfa_S3_rhs) [0] = true ↔
      (is_in_lang nfa_S3_lhs [0] = true ∨ is_in_lang nfa_S3_rhs [0] = true)) :=
  ⟨by decide, by decide,
    union_rename_correct true nfa_S3_lhs nfa_S3_rhs (by decide) (by decide) [0]⟩

end Vata2

namespace Vata2

/-! ## Forward traversal: the common inner loops -/

theorem bfs_push_nil (wp : List State × List State) : bfs_push [] wp = wp := rfl

theorem bfs_push_cons (x : State) (xs : List State) (wp : List State × List State) :
    bfs_push (x :: xs) wp =
      bfs_push xs (if x ∈ wp.2 then wp else (wp.1 ++ [x], wp.2 ++ [x])) := by
  unfold bfs_push
  simp only [List.foldl_cons, uset_insert]
  by_cases h : x ∈ wp.2 <;> simp [h]

/-- The effect of `bfs_push` on the worklist and the processed set. -/
theorem bfs_push_spec (tgts : List State) (wl pr : List State) :
    (∀ x, x ∈ (bfs_push tgts (wl, pr)).2 ↔ x ∈ pr ∨ x ∈ tgts) ∧
    (∀ x, x ∈ (bfs_push tgts (wl, pr)).1 → x ∈ wl ∨ (x ∈ tgts ∧ x ∉ pr)) ∧
    (∀ x, x ∈ wl → x ∈ (bfs_push tgts (wl, pr)).1) ∧
    (∀ x, x ∈ (bfs_push tgts (wl, pr)).2 → x ∈ pr ∨ x ∈ (bfs_push tgts (wl, pr)).1) ∧
    (pr.Nodup → (bfs_push tgts (wl, pr)).2.Nodup) ∧
    (bfs_push tgts (wl, pr)).1.length + pr.length =
      wl.length + (bfs_push tgts (wl, pr)).2.length := by
  induction tgts generalizing wl pr with
  | nil =>
    rw [bfs_push_nil]
    exact ⟨fun x => by simp, fun x hx => Or.inl hx, fun x hx => hx, fun x hx => Or.inl hx,
      fun h => h, rfl⟩
  | cons t tgts ih =>
    rw [bfs_push_cons]
    by_cases h : t ∈ pr
    · simp only [h, if_true]
      obtain ⟨h1, h2, h3, h4, h5, h6⟩ := ih wl pr
      refine ⟨?_, ?_, h3, h4, h5, h6⟩
      · intro x
        rw [h1]
        simp only [List.mem_cons]
        constructor
        · rintro (hx | hx)
          · exact Or.inl hx
          · exact Or.inr (Or.inr hx)
        · rintro (hx | rfl | hx)
          · exact Or.inl hx
          · exact Or.inl h
          · exact Or.inr hx
      · intro x hx
        rcases h2 x hx with hx | ⟨hx, hx'⟩
        · exact Or.inl hx
        · exact Or.inr ⟨List.mem_cons_of_mem _ hx, hx'⟩
    · simp only [h, if_false]
      obtain ⟨h1, h2, h3, h4, h5, h6⟩ := ih (wl ++ [t]) (pr ++ [t])
      refine ⟨?_, ?_, ?_, ?_, ?_, ?_⟩
      · intro x
        rw [h1]
        simp only [List.mem_append, List.mem_singleton, List.mem_cons]
        tauto
      · intro x hx
        rcases h2 x hx with hx | ⟨hx, hx'⟩
        · simp only [List.mem_append, List.mem_singleton] at hx
          rcases hx with hx | rfl
          · exact Or.inl hx
          · exact Or.inr ⟨List.mem_cons_self _ _, h⟩
        · simp only [List.mem_append, List.mem_singleton, not_or] at hx'
          exact Or.inr ⟨List.mem_cons_of_mem _ hx, hx'.1⟩
      · intro x hx
        exact h3 x (List.mem_append_left _ hx)
      · intro x hx
        rcases h4 x hx with hx | hx
        · simp only [List.mem_append, List.mem_singleton] at hx
          rcases hx with hx | rfl
          · exact Or.inl hx
          · exact Or.inr (h3 x (by simp))
        · exact Or.inr hx
      · intro hnd
        apply h5
        rw [List.nodup_append]
        refine ⟨hnd, List.nodup_singleton _, ?_⟩
        intro a ha ha'
        simp only [List.mem_singleton] at ha'
        subst ha'
        exact h ha
      · simp only [List.length_append, List.length_singleton] at h6
        omega

theorem bfs_push_post_nil (wp : List State × List State) : bfs_push_post [] wp = wp := rfl

theorem bfs_push_post_cons (e : Symbol × StateSet) (post : PostSymb)
    (wp : List State × List State) :
    bfs_push_post (e :: post) wp = bfs_push_post post (bfs_push e.2 wp) := rfl

/-- The effect of pushing all targets of a post map. -/
theorem bfs_push_post_spec (post : PostSymb) (wl pr : List State) :
    (∀ x, x ∈ (bfs_push_post post (wl, pr)).2 ↔ x ∈ pr ∨ ∃ e ∈ post, x ∈ e.2) ∧
    (∀ x, x ∈ (bfs_push_post post (wl, pr)).1 → x ∈ wl ∨ ((∃ e ∈ post, x ∈ e.2) ∧ x ∉ pr)) ∧
    (∀ x, x ∈ wl → x ∈ (bfs_push_post post (wl, pr)).1) ∧
    (∀ x, x ∈ (bfs_push_post post (wl, pr)).2 →
      x ∈ pr ∨ x ∈ (bfs_push_post post (wl, pr)).1) ∧
    (pr.Nodup → (bfs_push_post post (wl, pr)).2.Nodup) ∧
    (bfs_push_post post (wl, pr)).1.length + pr.length =
      wl.length + (bfs_push_post post (wl, pr)).2.length := by
  induction post generalizing wl pr with
  | nil =>
    rw [bfs_push_post_nil]
    exact ⟨fun x => by simp, fun x hx => Or.inl hx, fun x hx => hx, fun x hx => Or.inl hx,
      fun h => h, rfl⟩
  | cons e post ih =>
    rw [bfs_push_post_cons]
    obtain ⟨b1, b2, b3, b4, b5, b6⟩ := bfs_push_spec e.2 wl pr
    generalize bfs_push e.2 (wl, pr) = wp1 at b1 b2 b3 b4 b5 b6 ⊢
    obtain ⟨wl1, pr1⟩ := wp1
    simp only at b1 b2 b3 b4 b5 b6
    obtain ⟨h1, h2, h3, h4, h5, h6⟩ := ih wl1 pr1
    refine ⟨?_, ?_, ?_, ?_, ?_, ?_⟩
    · intro x
      rw [h1, b1]
      simp only [List.mem_cons, exists_eq_or_imp]
      tauto
    · intro x hx
      rcases h2 x hx with hx | ⟨hx, hx'⟩
      · rcases b2 x hx with hx | ⟨hx, hx'⟩
        · exact Or.inl hx
        · exact Or.inr ⟨⟨e, List.mem_cons_self _ _, hx⟩, hx'⟩
      · obtain ⟨e', he', hxe⟩ := hx
        exact Or.inr ⟨⟨e', List.mem_cons_of_mem _ he', hxe⟩,
          fun hp => hx' ((b1 x).2 (Or.inl hp))⟩
    · intro x hx
      exact h3 x (b3 x hx)
    · intro x hx
      rcases h4 x hx with hx | hx
      · rcases b4 x hx with hx | hx
        · exact Or.inl hx
        · exact Or.inr (h3 x hx)
      · exact Or.inr hx
    · intro hnd
      exact h5 (b5 hnd)
    · omega

/-! ### The list of states of an automaton -/

theorem mem_state_list {A : Nfa} (h : A.WF) (q : State) :
    q ∈ A.state_list ↔ A.has_state q := by
  unfold Nfa.state_list
  rw [mem_states_foldl, mem_uset_insert_all, mem_uset_insert_all, has_state_iff h]
  simp only [List.not_mem_nil, or_false]
  constructor
  · rintro ((hq | hq) | hq)
    · exact Or.inr (Or.inl hq)
    · exact Or.inl hq
    · exact Or.inr (Or.inr hq)
  · rintro (hq | hq | hq)
    · exact Or.inl (Or.inr hq)
    · exact Or.inl (Or.inl hq)
    · exact Or.inr hq

theorem length_le_of_nodup_subset {α : Type} {l₁ l₂ : List α} (hnd : l₁.Nodup)
    (hsub : ∀ x ∈ l₁, x ∈ l₂) : l₁.length ≤ l₂.length :=
  (List.Nodup.subperm hnd hsub).length_le

/-- A set of states closed under the transitions contains everything reachable from it. -/
theorem Reach_closed {κ : Type} {T : κ → Symbol → κ → Prop} (P : κ → Prop)
    (h : ∀ q a r, P q → T q a r → P r) {q q' : κ} {w : Word} (hq : P q)
    (hr : Reach T q w q') : P q' := by
  induction w generalizing q with
  | nil => simp only [Reach_nil] at hr; subst hr; exact hq
  | cons a w ih =>
    obtain ⟨r, hr1, hr2⟩ := hr
    exact ih (h q a r hq hr1) hr2

/-- The targets listed in the post map of a state are exactly its successors. -/
theorem mem_index_iff (A : Nfa) (q : State) (x : State) :
    (∃ e ∈ A.index q, x ∈ e.2) → ∃ a, (∃ tg, (a, tg) ∈ A.index q ∧ x ∈ tg) := by
  rintro ⟨⟨a, tg⟩, he, hx⟩
  exact ⟨a, tg, he, hx⟩

theorem has_trans_of_mem_index {A : Nfa} (h : A.WF) {q : State} {a : Symbol} {tg : StateSet}
    {x : State} (he : (a, tg) ∈ A.index q) (hx : x ∈ tg) : A.has_trans ⟨q, a, x⟩ = true := by
  unfold Nfa.index Nfa.post at he
  cases h1 : umap_find A.transitions q with
  | none => simp [h1] at he
  | some post =>
    simp only [h1] at he
    rw [Nfa.has_trans_iff]
    exact ⟨post, tg, h1, umap_find_of_mem (h.2.1 _ (umap_find_some_mem h1)).2.1 he, hx⟩

theorem mem_index_of_has_trans {A : Nfa} {q : State} {a : Symbol} {x : State}
    (ht : A.has_trans ⟨q, a, x⟩ = true) : ∃ tg, (a, tg) ∈ A.index q ∧ x ∈ tg := by
  rw [Nfa.has_trans_iff] at ht
  obtain ⟨post, tg, h1, h2, h3⟩ := ht
  refine ⟨tg, ?_, h3⟩
  unfold Nfa.index Nfa.post
  simp only at h1
  simp only [h1]
  exact umap_find_some_mem h2

theorem index_keys_nodup {A : Nfa} (h : A.WF) (q : State) :
    ((A.index q).map Prod.fst).Nodup := by
  unfold Nfa.index Nfa.post
  cases h1 : umap_find A.transitions q with
  | none => simp
  | some post => exact (h.2.1 _ (umap_find_some_mem h1)).2.1

theorem index_tgts_ne_nil {A : Nfa} (h : A.WF) {q : State} {e : Symbol × StateSet}
    (he : e ∈ A.index q) : e.2 ≠ [] := by
  unfold Nfa.index Nfa.post at he
  cases h1 : umap_find A.transitions q with
  | none => simp [h1] at he
  | some post =>
    simp only [h1] at he
    exact ((h.2.1 _ (umap_find_some_mem h1)).2.2 e he).1

/-- In a well-formed automaton a symbol is a key of the post map of `q` exactly when `q` has
a transition over it. -/
theorem mem_index_keys_iff {A : Nfa} (h : A.WF) (q : State) (a : Symbol) :
    a ∈ (A.index q).map Prod.fst ↔ ∃ r, A.has_trans ⟨q, a, r⟩ = true := by
  constructor
  · intro ha
    obtain ⟨⟨a', tg⟩, he, rfl⟩ := List.mem_map.1 ha
    obtain ⟨x, hx⟩ := List.exists_mem_of_ne_nil _ (index_tgts_ne_nil h he)
    exact ⟨x, has_trans_of_mem_index h he hx⟩
  · rintro ⟨r, hr⟩
    obtain ⟨tg, he, _⟩ := mem_index_of_has_trans hr
    exact List.mem_map.2 ⟨(a, tg), he, rfl⟩

end Vata2

namespace Vata2

/-! ## Completion -/

theorem mem_set_difference (a b : List Nat) (x : Nat) :
    x ∈ set_difference a b ↔ x ∈ a ∧ x ∉ b := by
  simp [set_difference, haskey]

/-- For the alphabets that can enumerate their symbols, the complement is the ascending
list of the symbols that are not in the given set. -/
theorem get_complement_of_get_symbols {alphabet : Alphabet} {symbs : List Symbol}
    (h : alphabet.get_symbols = .ok symbs) (used : List Symbol) :
    alphabet.get_complement used = .ok (set_difference (set_insert_all symbs []) used) := by
  cases alphabet with
  | on_the_fly m c =>
    simp only [Alphabet.get_symbols, Except.ok.injEq] at h
    subst h
    rfl
  | direct => simp [Alphabet.get_symbols] at h
  | char =>
    simp only [Alphabet.get_symbols, Except.ok.injEq] at h
    subst h
    rfl
  | enum m =>
    simp only [Alphabet.get_symbols, Except.ok.injEq] at h
    subst h
    rfl

theorem make_complete_scan_eq (post : PostSymb) (wp : List State × List State) :
    make_complete_scan post wp =
      (set_insert_all (post.map Prod.fst) [], bfs_push_post post wp) := by
  unfold make_complete_scan
  suffices H : ∀ (used : List Symbol) (wp : List State × List State),
      post.foldl (fun (acc : List Symbol × List State × List State) symb_stateset =>
        (set_insert symb_stateset.1 acc.1, bfs_push symb_stateset.2 acc.2)) (used, wp) =
      (set_insert_all (post.map Prod.fst) used, bfs_push_post post wp) from H [] wp
  induction post with
  | nil => intro used wp; rfl
  | cons e post ih =>
    intro used wp
    simp only [List.foldl_cons, List.map_cons]
    rw [ih]
    rfl

theorem make_complete_body_eq {alphabet : Alphabet} {symbs : List Symbol}
    (h : alphabet.get_symbols = .ok symbs) (sink : State) (st : CompleteState)
    {state : State} {rest : List State} (hw : st.worklist = state :: rest) :
    make_complete_body alphabet sink st =
      .ok { aut := ((set_difference (set_insert_all symbs [])
                (set_insert_all ((st.aut.index state).map Prod.fst) [])).map
                  (fun symb => Trans.mk state symb sink)).foldl Nfa.add_trans st.aut
            worklist := (bfs_push_post (st.aut.index state) (rest, st.processed)).1
            processed := (bfs_push_post (st.aut.index state) (rest, st.processed)).2 } := by
  unfold make_complete_body
  rw [hw]
  simp only [make_complete_scan_eq, get_complement_of_get_symbols h, foldl_add_trans_map]

/-- The body of the loop of `make_complete` keeps the invariant and decreases the measure. -/
theorem make_complete_body_inv {A : Nfa} {alphabet : Alphabet} {symbs : List Symbol}
    (hsy : alphabet.get_symbols = .ok symbs) (hA : A.WF) (sink : State) (st : CompleteState)
    (hI : MakeCompleteInv A symbs sink st) (hc : (!st.worklist.isEmpty) = true) :
    ∃ st', make_complete_body alphabet sink st = .ok st' ∧
      MakeCompleteInv A symbs sink st' ∧
      st'.worklist.length + ((sink :: A.state_list).length - st'.processed.length) <
        st.worklist.length + ((sink :: A.state_list).length - st.processed.length) := by
  obtain ⟨state, rest, hw⟩ : ∃ state rest, st.worklist = state :: rest := by
    cases hwl : st.worklist with
    | nil => simp [hwl] at hc
    | cons x xs => exact ⟨x, xs, rfl⟩
  refine ⟨_, make_complete_body_eq hsy sink st hw, ?_, ?_⟩
  · obtain ⟨p1, p2, p3, p4, p5, p6⟩ := bfs_push_post_spec (st.aut.index state) rest st.processed
    have hnew : ∀ t, (((set_difference (set_insert_all symbs [])
          (set_insert_all ((st.aut.index state).map Prod.fst) [])).map
            (fun symb => Trans.mk state symb sink)).foldl Nfa.add_trans st.aut).has_trans t = true ↔
        (t.src = state ∧ t.tgt = sink ∧ t.symb ∈ symbs ∧
          t.symb ∉ (st.aut.index state).map Prod.fst) ∨ st.aut.has_trans t = true := by
      intro t
      rw [Nfa.has_trans_foldl_add_trans]
      simp only [List.mem_map, mem_set_difference, mem_set_insert_all, List.not_mem_nil,
        or_false]
      constructor
      · rintro (⟨a, ⟨ha, ha'⟩, rfl⟩ | h)
        · exact Or.inl ⟨rfl, rfl, ha, ha'⟩
        · exact Or.inr h
      · rintro (⟨h1, h2, h3, h4⟩ | h)
        · refine Or.inl ⟨t.symb, ⟨h3, h4⟩, ?_⟩
          cases t
          simp only at h1 h2
          subst h1 h2
          rfl
        · exact Or.inr h
    have hstate_pr : state ∈ st.processed := hI.wl_sub state (by rw [hw]; simp)
    exact
      { wf := Nfa.foldl_add_trans_wf _ hI.wf
        init_eq := by simp only [Nfa.foldl_add_trans_initialstates]; exact hI.init_eq
        fin_eq := by simp only [Nfa.foldl_add_trans_finalstates]; exact hI.fin_eq
        mono := fun t ht => (hnew t).2 (Or.inr (hI.mono t ht))
        sound := by
          intro t ht
          rcases (hnew t).1 ht with ⟨_, h2, h3, _⟩ | h
          · exact Or.inr ⟨h2, h3⟩
          · exact hI.sound t h
        done_complete := by
          intro q hq hqw a ha
          simp only at hq hqw
          have hqrest : q ∉ rest := fun h => hqw (p3 q h)
          have hqpr : q ∈ st.processed := by
            rcases p4 q hq with h | h
            · exact h
            · exact absurd h hqw
          by_cases hqs : q = state
          · subst hqs
            by_cases hk : a ∈ (st.aut.index q).map Prod.fst
            · obtain ⟨r, hr⟩ := (mem_index_keys_iff hI.wf q a).1 hk
              exact ⟨r, (hnew _).2 (Or.inr hr)⟩
            · exact ⟨sink, (hnew _).2 (Or.inl ⟨rfl, rfl, ha, hk⟩)⟩
          · have : q ∉ st.worklist := by
              rw [hw]
              simp only [List.mem_cons, not_or]
              exact ⟨hqs, hqrest⟩
            obtain ⟨r, hr⟩ := hI.done_complete q hqpr this a ha
            exact ⟨r, (hnew _).2 (Or.inr hr)⟩
        done_closed := by
          intro q hq hqw t ht hsrc
          simp only at hq hqw ⊢
          have hqrest : q ∉ rest := fun h => hqw (p3 q h)
          have hqpr : q ∈ st.processed := by
            rcases p4 q hq with h | h
            · exact h
            · exact absurd h hqw
          rcases (hnew t).1 ht with ⟨_, h2, _, _⟩ | h
          · rw [h2]
            exact (p1 sink).2 (Or.inl hI.sink_mem)
          · by_cases hqs : q = state
            · subst hqs
              obtain ⟨tg, he, hx⟩ := mem_index_of_has_trans
                (show st.aut.has_trans ⟨q, t.symb, t.tgt⟩ = true by
                  rw [← hsrc]; exact h)
              exact (p1 _).2 (Or.inr ⟨_, he, hx⟩)
            · have : q ∉ st.worklist := by
                rw [hw]
                simp only [List.mem_cons, not_or]
                exact ⟨hqs, hqrest⟩
              exact (p1 _).2 (Or.inl (hI.done_closed q hqpr this t h hsrc))
        init_sub := fun q hq => (p1 q).2 (Or.inl (hI.init_sub q hq))
        sink_mem := (p1 sink).2 (Or.inl hI.sink_mem)
        wl_sub := by
          intro q hq
          simp only at hq ⊢
          rcases p2 q hq with h | ⟨h, _⟩
          · exact (p1 q).2 (Or.inl (hI.wl_sub q (by rw [hw]; exact List.mem_cons_of_mem _ h)))
          · exact (p1 q).2 (Or.inr h)
        nodup := p5 hI.nodup
        univ := by
          intro q hq
          simp only at hq
          rcases (p1 q).1 hq with h | ⟨⟨a, tg⟩, he, hx⟩
          · exact hI.univ q h
          · have ht := has_trans_of_mem_index hI.wf he hx
            rcases hI.sound _ ht with h | ⟨h, _⟩
            · exact List.mem_cons_of_mem _
                ((mem_state_list hA q).2 (Or.inr (Or.inr ⟨_, h, Or.inr rfl⟩)))
            · simp only at h
              rw [h]
              exact List.mem_cons_self _ _ }
  · obtain ⟨p1, p2, p3, p4, p5, p6⟩ := bfs_push_post_spec (st.aut.index state) rest st.processed
    have hle : (bfs_push_post (st.aut.index state) (rest, st.processed)).2.length ≤
        (sink :: A.state_list).length := by
      apply length_le_of_nodup_subset (p5 hI.nodup)
      intro q hq
      rcases (p1 q).1 hq with h | ⟨⟨a, tg⟩, he, hx⟩
      · exact hI.univ q h
      · have ht := has_trans_of_mem_index hI.wf he hx
        rcases hI.sound _ ht with h | ⟨h, _⟩
        · exact List.mem_cons_of_mem _
            ((mem_state_list hA q).2 (Or.inr (Or.inr ⟨_, h, Or.inr rfl⟩)))
        · simp only at h
          rw [h]
          exact List.mem_cons_self _ _
    have hle' : st.processed.length ≤ (sink :: A.state_list).length :=
      length_le_of_nodup_subset hI.nodup hI.univ
    have hwl : st.worklist.length = rest.length + 1 := by rw [hw]; rfl
    generalize (sink :: A.state_list).length = N at hle hle' ⊢
    dsimp only
    omega

theorem make_complete_init_inv {A : Nfa} (hA : A.WF) (symbs : List Symbol) (sink : State) :
    MakeCompleteInv A symbs sink
      { aut := A, worklist := A.initialstates ++ [sink],
        processed := (uset_insert (uset_insert_all A.initialstates []) sink).1 } := by
  have hmem : ∀ q, q ∈ (uset_insert (uset_insert_all A.initialstates []) sink).1 ↔
      q = sink ∨ q ∈ A.initialstates := by
    intro q
    rw [mem_uset_insert, mem_uset_insert_all]
    simp
  have hdone : ∀ q, q ∈ (uset_insert (uset_insert_all A.initialstates []) sink).1 →
      ¬ q ∉ A.initialstates ++ [sink] := by
    intro q hq hn
    apply hn
    rcases (hmem q).1 hq with rfl | h
    · simp
    · exact List.mem_append_left _ h
  exact
    { wf := hA
      init_eq := rfl
      fin_eq := rfl
      mono := fun t h => h
      sound := fun t h => Or.inl h
      done_complete := fun q hq hqw => absurd hqw (hdone q hq)
      done_closed := fun q hq hqw => absurd hqw (hdone q hq)
      init_sub := fun q hq => (hmem q).2 (Or.inr hq)
      sink_mem := (hmem sink).2 (Or.inl rfl)
      wl_sub := by
        intro q hq
        simp only [List.mem_append, List.mem_singleton] at hq
        exact (hmem q).2 hq.symm
      nodup := nodup_uset_insert (nodup_uset_insert_all _ List.nodup_nil) _
      univ := by
        intro q hq
        rcases (hmem q).1 hq with rfl | h
        · exact List.mem_cons_self _ _
        · exact List.mem_cons_of_mem _ ((mem_state_list hA q).2 (Or.inl h)) }

/-- `make_complete` terminates on every well-formed automaton and every alphabet that can
enumerate its symbols; the result has the same initial and final sets, keeps every
transition, gains only transitions into the sink over symbols of the alphabet, and every
state reachable from an initial state has a transition over every symbol of the alphabet. -/
theorem make_complete_spec {A : Nfa} {alphabet : Alphabet} {symbs : List Symbol}
    (hA : A.WF) (hsy : alphabet.get_symbols = .ok symbs) (sink : State) :
    ∃ fuel A', (∀ n, fuel ≤ n → make_complete n A alphabet sink = some (.ok A')) ∧
      A'.WF ∧ A'.initialstates = A.initialstates ∧ A'.finalstates = A.finalstates ∧
      (∀ t, A.has_trans t = true → A'.has_trans t = true) ∧
      (∀ t, A'.has_trans t = true → A.has_trans t = true ∨ (t.tgt = sink ∧ t.symb ∈ symbs)) ∧
      (∀ q0 ∈ A'.initialstates, ∀ w q, A'.reach q0 w q →
        ∀ a ∈ symbs, ∃ r, A'.has_trans ⟨q, a, r⟩ = true) := by
  have hstep : ∀ s s', MakeCompleteInv A symbs sink s → (!s.worklist.isEmpty) = true →
      make_complete_body alphabet sink s = .ok s' → MakeCompleteInv A symbs sink s' := by
    intro s s' hI hc hb
    obtain ⟨s'', hb', hI', _⟩ := make_complete_body_inv hsy hA sink s hI hc
    rw [hb] at hb'
    cases hb'
    exact hI'
  have hdec : ∀ s s', MakeCompleteInv A symbs sink s → (!s.worklist.isEmpty) = true →
      make_complete_body alphabet sink s = .ok s' →
      s'.worklist.length + ((sink :: A.state_list).length - s'.processed.length) <
        s.worklist.length + ((sink :: A.state_list).length - s.processed.length) := by
    intro s s' hI hc hb
    obtain ⟨s'', hb', _, hlt⟩ := make_complete_body_inv hsy hA sink s hI hc
    rw [hb] at hb'
    cases hb'
    exact hlt
  have hinit := make_complete_init_inv hA symbs sink
  obtain ⟨fuel, r, hr⟩ : ∃ fuel r, while_loop_exit (fun st => !st.worklist.isEmpty)
      (make_complete_body alphabet sink) fuel
      { aut := A, worklist := A.initialstates ++ [sink],
        processed := (uset_insert (uset_insert_all A.initialstates []) sink).1 } = some r :=
    ⟨_, @while_loop_exit_terminates _ _ (fun st => !st.worklist.isEmpty)
      (make_complete_body alphabet sink) (MakeCompleteInv A symbs sink)
      (fun s => s.worklist.length + ((sink :: A.state_list).length - s.processed.length))
      hstep hdec _ hinit _ (Nat.lt_succ_self _)⟩
  obtain ⟨hok, herr⟩ := while_loop_exit_inv (MakeCompleteInv A symbs sink) hstep hinit hr
  cases r with
  | error e =>
    obtain ⟨s₀, hI₀, hc₀, hb₀⟩ := herr e rfl
    obtain ⟨s'', hb', _, _⟩ := make_complete_body_inv hsy hA sink s₀ hI₀ hc₀
    rw [hb₀] at hb'
    cases hb'
  | ok st =>
    obtain ⟨hI, hc⟩ := hok st rfl
    have hwl : st.worklist = [] := by
      cases hwl : st.worklist with
      | nil => rfl
      | cons x xs => simp [hwl] at hc
    refine ⟨fuel, st.aut, ?_, hI.wf, hI.init_eq, hI.fin_eq, hI.mono, hI.sound, ?_⟩
    · intro n hn
      unfold make_complete
      simp only
      rw [while_loop_exit_mono hr hn]
    · intro q0 hq0 w q hreach a ha
      have hq : q ∈ st.processed := by
        refine Reach_closed (fun q => q ∈ st.processed) ?_
          (hI.init_sub q0 (by rw [← hI.init_eq]; exact hq0)) hreach
        intro q a r hq hT
        exact hI.done_closed q hq (by rw [hwl]; simp) _ hT rfl
      exact hI.done_complete q hq (by rw [hwl]; simp) a ha

end Vata2

namespace Vata2

/-! ## Completeness check -/

theorem is_complete_scan_eq (symbs : List Symbol) (post : PostSymb)
    (acc : Nat × List State × List State) (h : ∀ e ∈ post, e.1 ∈ symbs) :
    is_complete_scan symbs post acc = .ok (acc.1 + post.length, bfs_push_post post acc.2) := by
  induction post generalizing acc with
  | nil => rfl
  | cons e post ih =>
    unfold is_complete_scan
    have he : haskey symbs e.1 = true := (haskey_iff _ _).2 (h e (List.mem_cons_self _ _))
    simp only [he, Bool.not_true, Bool.false_eq_true, if_false]
    rw [ih _ (fun e' he' => h e' (List.mem_cons_of_mem _ he'))]
    simp only [List.length_cons, bfs_push_post_cons]
    congr 2
    omega

/-- A state with a transition over exactly the symbols of the alphabet has as many symbol
entries as the alphabet has symbols. -/
theorem index_length_eq {B : Nfa} (hB : B.WF) {symbs : List Symbol} {q : State}
    (hcov : ∀ a r, B.has_trans ⟨q, a, r⟩ = true → a ∈ symbs)
    (hcomp : ∀ a ∈ symbs, ∃ r, B.has_trans ⟨q, a, r⟩ = true) :
    (B.index q).length = (uset_insert_all symbs []).length := by
  have h1 : ((B.index q).map Prod.fst).Perm (uset_insert_all symbs []) := by
    rw [List.perm_ext_iff_of_nodup (index_keys_nodup hB q)
      (nodup_uset_insert_all _ List.nodup_nil)]
    intro a
    rw [mem_index_keys_iff hB, mem_uset_insert_all]
    simp only [List.not_mem_nil, or_false]
    constructor
    · rintro ⟨r, hr⟩
      exact hcov a r hr
    · exact hcomp a
  have := h1.length_eq
  simpa using this

theorem reachable_has_state {B : Nfa} {q0 q : State} {w : Word} (h0 : q0 ∈ B.initialstates)
    (hr : B.reach q0 w q) : B.has_state q := by
  refine Reach_closed (fun q => B.has_state q) ?_ (Or.inl h0) hr
  intro q a r _ hT
  exact Or.inr (Or.inr ⟨_, hT, Or.inr rfl⟩)

/-- `is_complete` terminates with `true` on a well-formed automaton whose reachable states
have transitions over exactly the symbols of the alphabet. -/
theorem is_complete_of_complete {B : Nfa} {alphabet : Alphabet} {symbs : List Symbol}
    (hB : B.WF) (hsy : alphabet.get_symbols = .ok symbs)
    (hcov : ∀ q0 ∈ B.initialstates, ∀ w q, B.reach q0 w q →
      ∀ a r, B.has_trans ⟨q, a, r⟩ = true → a ∈ symbs)
    (hcomp : ∀ q0 ∈ B.initialstates, ∀ w q, B.reach q0 w q →
      ∀ a ∈ symbs, ∃ r, B.has_trans ⟨q, a, r⟩ = true) :
    ∃ fuel, ∀ n, fuel ≤ n → is_complete n B alphabet = some (.ok true) := by
  obtain ⟨I, hIdef⟩ : ∃ I : List State × List State → Prop, I = fun wp =>
      (∀ q ∈ wp.1, q ∈ wp.2) ∧ wp.2.Nodup ∧
      ∀ q ∈ wp.2, ∃ q0 ∈ B.initialstates, ∃ w, B.reach q0 w q := ⟨_, rfl⟩
  have hbody : ∀ wp, I wp → (!wp.1.isEmpty) = true →
      ∃ wp', is_complete_body B (uset_insert_all symbs []) wp = .ok wp' ∧ I wp' ∧
        wp'.1.length + (B.state_list.length - wp'.2.length) <
          wp.1.length + (B.state_list.length - wp.2.length) := by
    intro wp hI hc
    subst hIdef
    obtain ⟨wl, pr⟩ := wp
    obtain ⟨h1, h2, h3⟩ := hI
    simp only at h1 h2 h3 hc
    obtain ⟨state, rest, rfl⟩ : ∃ state rest, wl = state :: rest := by
      cases wl with
      | nil => simp at hc
      | cons x xs => exact ⟨x, xs, rfl⟩
    obtain ⟨q0, hq0, w, hw⟩ := h3 state (h1 state (List.mem_cons_self _ _))
    have hscan := is_complete_scan_eq (uset_insert_all symbs []) (B.index state)
      (0, rest, pr) (by
        intro e he
        rw [mem_uset_insert_all]
        left
        obtain ⟨x, hx⟩ := List.exists_mem_of_ne_nil _ (index_tgts_ne_nil hB he)
        exact hcov q0 hq0 w state hw e.1 x (has_trans_of_mem_index hB (a := e.1) he hx))
    have hlen := index_length_eq hB (hcov q0 hq0 w state hw) (hcomp q0 hq0 w state hw)
    obtain ⟨p1, p2, p3, p4, p5, p6⟩ := bfs_push_post_spec (B.index state) rest pr
    have hgood : ∀ q ∈ (bfs_push_post (B.index state) (rest, pr)).2,
        ∃ q0 ∈ B.initialstates, ∃ w, B.reach q0 w q := by
      intro q hq
      rcases (p1 q).1 hq with h | ⟨⟨a, tg⟩, he, hx⟩
      · exact h3 q h
      · refine ⟨q0, hq0, w ++ [a], ?_⟩
        exact Reach_append_iff.2 ⟨state, hw, q, has_trans_of_mem_index hB he hx, rfl⟩
    refine ⟨bfs_push_post (B.index state) (rest, pr), ?_, ⟨?_, p5 h2, hgood⟩, ?_⟩
    · unfold is_complete_body
      simp only [hscan, Nat.zero_add, hlen, ne_eq, not_true_eq_false, if_false]
    · intro q hq
      rcases p2 q hq with h | ⟨h, _⟩
      · exact (p1 q).2 (Or.inl (h1 q (List.mem_cons_of_mem _ h)))
      · exact (p1 q).2 (Or.inr h)
    · have hsub : ∀ pr' : List State, pr'.Nodup →
          (∀ q ∈ pr', ∃ q0 ∈ B.initialstates, ∃ w, B.reach q0 w q) →
          pr'.length ≤ B.state_list.length := by
        intro pr' hnd hg
        apply length_le_of_nodup_subset hnd
        intro q hq
        obtain ⟨q0, hq0, w, hw⟩ := hg q hq
        exact (mem_state_list hB q).2 (reachable_has_state hq0 hw)
      have l1 := hsub _ (p5 h2) hgood
      have l2 := hsub pr h2 h3
      simp only [List.length_cons]
      omega
  have hstep : ∀ s s', I s → (!s.1.isEmpty) = true →
      is_complete_body B (uset_insert_all symbs []) s = .ok s' → I s' := by
    intro s s' hI hc hb
    obtain ⟨s'', hb', hI', _⟩ := hbody s hI hc
    rw [hb] at hb'
    cases hb'
    exact hI'
  have hdec : ∀ s s', I s → (!s.1.isEmpty) = true →
      is_complete_body B (uset_insert_all symbs []) s = .ok s' →
      s'.1.length + (B.state_list.length - s'.2.length) <
        s.1.length + (B.state_list.length - s.2.length) := by
    intro s s' hI hc hb
    obtain ⟨s'', hb', _, hlt⟩ := hbody s hI hc
    rw [hb] at hb'
    cases hb'
    exact hlt
  have hinit : I (B.initialstates, uset_insert_all B.initialstates []) := by
    subst hIdef
    refine ⟨?_, nodup_uset_insert_all _ List.nodup_nil, ?_⟩
    · intro q hq
      exact (mem_uset_insert_all _ _ _).2 (Or.inl hq)
    · intro q hq
      rw [mem_uset_insert_all] at hq
      simp only [List.not_mem_nil, or_false] at hq
      exact ⟨q, hq, [], rfl⟩
  obtain ⟨fuel, r, hr⟩ : ∃ fuel r, while_loop_exit (fun wp => !wp.1.isEmpty)
      (is_complete_body B (uset_insert_all symbs [])) fuel
      (B.initialstates, uset_insert_all B.initialstates []) = some r :=
    ⟨_, @while_loop_exit_terminates _ _ (fun wp => !wp.1.isEmpty)
      (is_complete_body B (uset_insert_all symbs [])) I
      (fun s => s.1.length + (B.state_list.length - s.2.length))
      hstep hdec _ hinit _ (Nat.lt_succ_self _)⟩
  obtain ⟨hok, herr⟩ := while_loop_exit_inv I hstep hinit hr
  refine ⟨fuel, fun n hn => ?_⟩
  unfold is_complete
  simp only [hsy]
  rw [while_loop_exit_mono hr hn]
  cases r with
  | error e =>
    obtain ⟨s₀, hI₀, hc₀, hb₀⟩ := herr e rfl
    obtain ⟨s'', hb', _, _⟩ := hbody s₀ hI₀ hc₀
    rw [hb₀] at hb'
    cases hb'
  | ok st => rfl

/-- Adding transitions into a state from which no final state can be reached does not change
the language. -/
theorem reach_sink_split {A A' : Nfa} {sink : State}
    (hsound : ∀ t, A'.has_trans t = true → A.has_trans t = true ∨ t.tgt = sink)
    {q qf : State} {w : Word} (h : A'.reach q w qf) :
    A.reach q w qf ∨ ∃ w', A.reach sink w' qf := by
  induction w generalizing q with
  | nil => exact Or.inl h
  | cons a w ih =>
    obtain ⟨r, hr, hrest⟩ := h
    rcases ih hrest with h1 | h1
    · rcases hsound _ hr with h2 | h2
      · exact Or.inl ⟨r, h2, h1⟩
      · simp only at h2
        subst h2
        exact Or.inr ⟨w, h1⟩
    · exact Or.inr h1

theorem make_complete_accepts {A A' : Nfa} {sink : State}
    (hi : A'.initialstates = A.initialstates) (hf : A'.finalstates = A.finalstates)
    (hmono : ∀ t, A.has_trans t = true → A'.has_trans t = true)
    (hsound : ∀ t, A'.has_trans t = true → A.has_trans t = true ∨ t.tgt = sink)
    (hsink : ∀ w qf, qf ∈ A.finalstates → ¬ A.reach sink w qf) (w : Word) :
    A'.accepts w ↔ A.accepts w := by
  constructor
  · rintro ⟨q0, hq0, qf, hqf, hr⟩
    rw [hi] at hq0
    rw [hf] at hqf
    rcases reach_sink_split hsound hr with h | ⟨w', h⟩
    · exact ⟨q0, hq0, qf, hqf, h⟩
    · exact absurd h (hsink w' qf hqf)
  · intro h
    rw [Nfa.accepts_iff_Acc] at h ⊢
    refine Acc_sim (fun q x => x = q) ?_ ?_ ?_ h
    · intro q hq
      exact ⟨q, by rw [hi]; exact hq, rfl⟩
    · rintro q x rfl hq
      rw [hf]
      exact hq
    · rintro q a r x rfl hT
      exact ⟨r, hmono _ hT, rfl⟩

/-- A state without outgoing transitions that is not final reaches no final state. -/
theorem no_reach_of_post_none {A : Nfa} {sink : State} (hp : A.post sink = none)
    (hf : sink ∉ A.finalstates) : ∀ w qf, qf ∈ A.finalstates → ¬ A.reach sink w qf := by
  intro w qf hqf hr
  cases w with
  | nil =>
    simp only [Nfa.reach_nil] at hr
    subst hr
    exact hf hqf
  | cons a w =>
    obtain ⟨r, hr, _⟩ := hr
    obtain ⟨post, _, h1, _⟩ := (Nfa.has_trans_iff A _).1 hr
    unfold Nfa.post at hp
    rw [hp] at h1
    cases h1

/-- C9: for a well-formed automaton `A`, an alphabet that enumerates its symbols and covers
the symbols of `A`, and any state `sink`, `make_complete` terminates; in its result every
state reachable from an initial state has an outgoing transition for every symbol of the
alphabet, and `is_complete` returns `true` on it. -/
theorem make_complete_is_complete (A : Nfa) (alphabet : Alphabet) (symbs : List Symbol)
    (sink : State) (hA : A.WF) (hsy : alphabet.get_symbols = .ok symbs)
    (hcov : ∀ t, A.has_trans t = true → t.symb ∈ symbs) :
    ∃ fuel A', (∀ n, fuel ≤ n → make_complete n A alphabet sink = some (.ok A')) ∧
      (∀ q0 ∈ A.initialstates, ∀ w q, A'.reach q0 w q →
        ∀ a ∈ symbs, ∃ r, A'.has_trans ⟨q, a, r⟩ = true) ∧
      ∃ fuel', ∀ n, fuel' ≤ n → is_complete n A' alphabet = some (.ok true) := by
  obtain ⟨fuel, A', h1, hwf, hi, hf, hmono, hsound, hcomp⟩ := make_complete_spec hA hsy sink
  refine ⟨fuel, A', h1, ?_, ?_⟩
  · intro q0 hq0
    exact hcomp q0 (by rw [hi]; exact hq0)
  · apply is_complete_of_complete hwf hsy
    · intro q0 _ w q _ a r hT
      rcases hsound _ hT with h | ⟨_, h⟩
      · exact hcov _ h
      · exact h
    · exact hcomp

theorem make_complete_is_complete_witness :
    nfa_S3_lhs.WF ∧ alphabet_ab.get_symbols = .ok [0, 1] ∧
    (∀ t, nfa_S3_lhs.has_trans t = true → t.symb ∈ [0, 1]) ∧
    ∃ fuel A', (∀ n, fuel ≤ n → make_complete n nfa_S3_lhs alphabet_ab 7 = some (.ok A')) ∧
      (∀ q0 ∈ nfa_S3_lhs.initialstates, ∀ w q, A'.reach q0 w q →
        ∀ a ∈ [0, 1], ∃ r, A'.has_trans ⟨q, a, r⟩ = true) ∧
      ∃ fuel', ∀ n, fuel' ≤ n → is_complete n A' alphabet_ab = some (.ok true) :=
  have hcov : ∀ t, nfa_S3_lhs.has_trans t = true → t.symb ∈ [0, 1] := by
    intro t ht
    have := (Nfa.mem_trans_list_iff (by decide) t).2 ht
    simp only [nfa_S3_lhs, Nfa.trans_list, List.flatMap_cons, List.flatMap_nil, List.map_cons,
      List.map_nil, List.append_nil, List.singleton_append, List.mem_cons, List.mem_singleton,
      List.not_mem_nil, or_false] at this
    rcases this with rfl | rfl <;> simp
  ⟨by decide, rfl, hcov,
    make_complete_is_complete nfa_S3_lhs alphabet_ab [0, 1] 7 (by decide) rfl hcov⟩

/-- C10 (as stated) fails: completing the automaton that accepts only the empty word with
its own final state as sink makes it accept `a`. -/
theorem make_complete_lang_counterexample :
    nfa_eps.WF ∧ alphabet_a.get_symbols = .ok [0] ∧
    (∀ t, nfa_eps.has_trans t = true → t.symb ∈ [0]) ∧
    make_complete 3 nfa_eps alphabet_a 0 = some (.ok nfa_S4) ∧
    is_in_lang nfa_eps [0] = false ∧ is_in_lang nfa_S4 [0] = true :=
  ⟨by decide, rfl, fun t ht => by simp [nfa_eps, Nfa.has_trans] at ht, rfl, by decide,
    by decide⟩

/-- C10 (amended): for a well-formed automaton `A`, an alphabet that enumerates its symbols
and a state `sink` from which no final state of `A` is reachable, `make_complete` terminates
and `is_in_lang` gives the same answer on every word before and after it. -/
theorem make_complete_lang_preserved (A : Nfa) (alphabet : Alphabet) (symbs : List Symbol)
    (sink : State) (hA : A.WF) (hsy : alphabet.get_symbols = .ok symbs)
    (hsink : ∀ w qf, qf ∈ A.finalstates → ¬ A.reach sink w qf) :
    ∃ fuel A', (∀ n, fuel ≤ n → make_complete n A alphabet sink = some (.ok A')) ∧
      ∀ w, is_in_lang A' w = is_in_lang A w := by
  obtain ⟨fuel, A', h1, _, hi, hf, hmono, hsound, _⟩ := make_complete_spec hA hsy sink
  refine ⟨fuel, A', h1, fun w => ?_⟩
  apply is_in_lang_congr
  exact make_complete_accepts hi hf hmono
    (fun t ht => (hsound t ht).imp id (fun h => h.1)) hsink w

theorem make_complete_lang_preserved_witness :
    nfa_S3_lhs.WF ∧ alphabet_ab.get_symbols = .ok [0, 1] ∧
    (∀ w qf, qf ∈ nfa_S3_lhs.finalstates → ¬ nfa_S3_lhs.reach 7 w qf) ∧
    ∃ fuel A', (∀ n, fuel ≤ n → make_complete n nfa_S3_lhs alphabet_ab 7 = some (.ok A')) ∧
      ∀ w, is_in_lang A' w = is_in_lang nfa_S3_lhs w :=
  ⟨by decide, rfl, no_reach_of_post_none (by decide) (by decide),
    make_complete_lang_preserved nfa_S3_lhs alphabet_ab [0, 1] 7 (by decide) rfl
      (no_reach_of_post_none (by decide) (by decide))⟩

end Vata2

namespace Vata2

/-! ## Emptiness: the traversal with predecessors -/

theorem umap_find_assign {κ β : Type} [DecidableEq κ] (m : List (κ × β)) (k : κ) (v : β)
    (k' : κ) :
    umap_find (umap_assign m k v) k' = if k' = k then some v else umap_find m k' := by
  unfold umap_assign
  cases h : umap_find m k with
  | some v₀ =>
    simp only
    by_cases hk : k' = k
    · subst hk
      simp [umap_find_replace_self v h]
    · simp [hk, umap_find_replace_ne v hk]
  | none =>
    simp only [umap_find_append]
    by_cases hk : k' = k
    · subst hk
      simp [h]
    · have hk' : ¬ k = k' := fun e => hk e.symm
      simp only [hk, if_false, umap_find_cons, hk', umap_find_nil]
      cases umap_find m k' <;> rfl

theorem Rooted.mono {A : Nfa} {paths paths' : List (State × State)} {q : State}
    (h : Rooted A paths q)
    (hext : ∀ x p, umap_find paths x = some p → umap_find paths' x = some p) :
    Rooted A paths' q := by
  induction h with
  | root q h1 h2 => exact Rooted.root q (hext _ _ h1) h2
  | step q p a h1 h2 h3 _ ih => exact Rooted.step q p a (hext _ _ h1) h2 h3 ih

theorem Rooted.reachable {A : Nfa} {paths : List (State × State)} {q : State}
    (h : Rooted A paths q) : ∃ q0 ∈ A.initialstates, ∃ w, A.reach q0 w q := by
  induction h with
  | root q _ h2 => exact ⟨q, h2, [], rfl⟩
  | step q p a _ _ h3 _ ih =>
    obtain ⟨q0, hq0, w, hw⟩ := ih
    exact ⟨q0, hq0, w ++ [a], Reach_append_iff.2 ⟨p, hw, q, h3, rfl⟩⟩

/-- The part of the invariant that the inner loops of `is_lang_empty` maintain. -/
theorem is_lang_empty_push_spec {A : Nfa} (state : State) (tgts : StateSet) (st : EmptyState)
    (hkeys : ∀ q, q ∈ st.processed ↔ ∃ p, umap_find st.paths q = some p)
    (hroot : ∀ q ∈ st.processed, Rooted A st.paths q)
    (hstate : state ∈ st.processed)
    (htg : ∀ t ∈ tgts, ∃ a, A.has_trans ⟨state, a, t⟩ = true) :
    ∃ st', is_lang_empty_push state tgts st = .ok st' ∧
      (∀ q, q ∈ st'.processed ↔ ∃ p, umap_find st'.paths q = some p) ∧
      (∀ q ∈ st'.processed, Rooted A st'.paths q) ∧
      (st'.worklist, st'.processed) = bfs_push tgts (st.worklist, st.processed) := by
  induction tgts generalizing st with
  | nil => exact ⟨st, rfl, hkeys, hroot, rfl⟩
  | cons t tgts ih =>
    unfold is_lang_empty_push
    rw [bfs_push_cons]
    by_cases ht : t ∈ st.processed
    · have hins : (uset_insert st.processed t) = (st.processed, false) := by
        simp [uset_insert, ht]
      obtain ⟨p, hp⟩ := (hkeys t).1 ht
      simp only [hins, Bool.false_eq_true, if_false, hp, Option.isSome_some, if_true, ht]
      exact ih st hkeys hroot hstate (fun t' ht' => htg t' (List.mem_cons_of_mem _ ht'))
    · have hins : (uset_insert st.processed t) = (st.processed ++ [t], true) := by
        simp [uset_insert, ht]
      simp only [hins, if_true, ht, if_false]
      have hnone : umap_find st.paths t = none := by
        cases h : umap_find st.paths t with
        | none => rfl
        | some p => exact absurd ((hkeys t).2 ⟨p, h⟩) ht
      have hext : ∀ x p, umap_find st.paths x = some p →
          umap_find (umap_assign st.paths t state) x = some p := by
        intro x p hx
        rw [umap_find_assign]
        have : x ≠ t := by
          rintro rfl
          rw [hnone] at hx
          cases hx
        simp [this, hx]
      obtain ⟨a, ha⟩ := htg t (List.mem_cons_self _ _)
      have hne : state ≠ t := by
        rintro rfl
        exact ht hstate
      apply ih
      · intro q
        simp only [List.mem_append, List.mem_singleton, umap_find_assign]
        by_cases hq : q = t
        · subst hq
          simp
        · simp only [hq, or_false, if_false]
          exact hkeys q
      · intro q hq
        simp only [List.mem_append, List.mem_singleton] at hq
        rcases hq with hq | rfl
        · exact (hroot q hq).mono hext
        · refine Rooted.step q state a ?_ hne ha ((hroot state hstate).mono hext)
          simp [umap_find_assign]
      · exact List.mem_append_left _ hstate
      · exact fun t' ht' => htg t' (List.mem_cons_of_mem _ ht')

theorem is_lang_empty_scan_spec {A : Nfa} (state : State) (post : PostSymb) (st : EmptyState)
    (hkeys : ∀ q, q ∈ st.processed ↔ ∃ p, umap_find st.paths q = some p)
    (hroot : ∀ q ∈ st.processed, Rooted A st.paths q)
    (hstate : state ∈ st.processed)
    (htg : ∀ e ∈ post, ∀ t ∈ e.2, ∃ a, A.has_trans ⟨state, a, t⟩ = true) :
    ∃ st', is_lang_empty_scan state post st = .ok st' ∧
      (∀ q, q ∈ st'.processed ↔ ∃ p, umap_find st'.paths q = some p) ∧
      (∀ q ∈ st'.processed, Rooted A st'.paths q) ∧
      (st'.worklist, st'.processed) = bfs_push_post post (st.worklist, st.processed) := by
  induction post generalizing st with
  | nil => exact ⟨st, rfl, hkeys, hroot, rfl⟩
  | cons e post ih =>
    unfold is_lang_empty_scan
    obtain ⟨st1, h1, k1, r1, e1⟩ := is_lang_empty_push_spec state e.2 st hkeys hroot hstate
      (htg e (List.mem_cons_self _ _))
    simp only [h1]
    have hstate1 : state ∈ st1.processed := by
      have := (bfs_push_spec e.2 st.worklist st.processed).1 state
      rw [← e1] at this
      exact this.2 (Or.inl hstate)
    obtain ⟨st2, h2, k2, r2, e2⟩ := ih st1 k1 r1 hstate1
      (fun e' he' => htg e' (List.mem_cons_of_mem _ he'))
    refine ⟨st2, h2, k2, r2, ?_⟩
    rw [e2, e1, bfs_push_post_cons]

/-- One iteration of the loop of `is_lang_empty` from a state satisfying the invariant:
either the popped state is final and the loop is left with it, or the iteration completes,
keeps the invariant and decreases the measure; no assertion fails. -/
theorem is_lang_empty_body_spec {A : Nfa} (hA : A.WF) (st : EmptyState)
    (hI : EmptyInv A st) (hc : (!st.worklist.isEmpty) = true) :
    (∃ state, state ∈ A.finalstates ∧ Rooted A st.paths state ∧
        is_lang_empty_body A st = .error (.ok (state, st.paths))) ∨
    (∃ st', is_lang_empty_body A st = .ok st' ∧ EmptyInv A st' ∧
      st'.worklist.length + (A.state_list.length - st'.processed.length) <
        st.worklist.length + (A.state_list.length - st.processed.length)) := by
  obtain ⟨state, rest, hw⟩ : ∃ state rest, st.worklist = state :: rest := by
    cases hwl : st.worklist with
    | nil => simp [hwl] at hc
    | cons x xs => exact ⟨x, xs, rfl⟩
  have hstate : state ∈ st.processed := hI.wl_sub state (by rw [hw]; simp)
  unfold is_lang_empty_body
  rw [hw]
  simp only
  by_cases hfin : state ∈ A.finalstates
  · left
    exact ⟨state, hfin, hI.rooted state hstate, by simp [haskey, hfin]⟩
  · right
    have hk : haskey A.finalstates state = false := by simp [haskey, hfin]
    simp only [hk, Bool.false_eq_true, if_false]
    obtain ⟨st', h1, k1, r1, e1⟩ := is_lang_empty_scan_spec (A := A) state (A.index state)
      { st with worklist := rest } hI.keys_iff hI.rooted hstate
      (fun e he t ht => ⟨e.1, has_trans_of_mem_index hA (a := e.1) he ht⟩)
    simp only [h1]
    obtain ⟨p1, p2, p3, p4, p5, p6⟩ := bfs_push_post_spec (A.index state) rest st.processed
    rw [← e1] at p1 p2 p3 p4 p5 p6
    simp only at p1 p2 p3 p4 p5 p6
    have hsub : ∀ s : EmptyState, s.processed.Nodup → (∀ q ∈ s.processed, Rooted A s.paths q) →
        s.processed.length ≤ A.state_list.length := by
      intro s hnd hg
      apply length_le_of_nodup_subset hnd
      intro q hq
      obtain ⟨q0, hq0, w, hw⟩ := (hg q hq).reachable
      exact (mem_state_list hA q).2 (reachable_has_state hq0 hw)
    refine ⟨st', rfl, ?_, ?_⟩
    · exact
        { wl_sub := by
            intro q hq
            rcases p2 q hq with h | ⟨h, _⟩
            · exact (p1 q).2 (Or.inl (hI.wl_sub q (by rw [hw]; exact List.mem_cons_of_mem _ h)))
            · exact (p1 q).2 (Or.inr h)
          nodup := p5 hI.nodup
          keys_iff := k1
          rooted := r1
          done := by
            intro q hq hqw
            have hqrest : q ∉ rest := fun h => hqw (p3 q h)
            have hqpr : q ∈ st.processed := by
              rcases p4 q hq with h | h
              · exact h
              · exact absurd h hqw
            by_cases hqs : q = state
            · subst hqs
              refine ⟨hfin, fun a r hr => ?_⟩
              obtain ⟨tg, he, hx⟩ := mem_index_of_has_trans hr
              exact (p1 r).2 (Or.inr ⟨_, he, hx⟩)
            · have : q ∉ st.worklist := by
                rw [hw]
                simp only [List.mem_cons, not_or]
                exact ⟨hqs, hqrest⟩
              obtain ⟨d1, d2⟩ := hI.done q hqpr this
              exact ⟨d1, fun a r hr => (p1 r).2 (Or.inl (d2 a r hr))⟩
          init_sub := fun q hq => (p1 q).2 (Or.inl (hI.init_sub q hq)) }
    · have l1 := hsub st' (p5 hI.nodup) r1
      have l2 := hsub st hI.nodup hI.rooted
      have h6 : st'.worklist.length + st.processed.length =
          rest.length + st'.processed.length := p6
      simp only [List.length_cons]
      omega

theorem paths_init_find (l : List State) (acc : List (State × State)) (q : State) :
    umap_find (l.foldl (fun paths s => umap_assign paths s s) acc) q =
      if q ∈ l then some q else umap_find acc q := by
  induction l generalizing acc with
  | nil => simp
  | cons x l ih =>
    simp only [List.foldl_cons, List.mem_cons]
    rw [ih, umap_find_assign]
    by_cases h1 : q ∈ l
    · simp [h1]
    · by_cases h2 : q = x
      · simp [h2]
      · simp [h1, h2]

theorem is_lang_empty_init_inv (A : Nfa) :
    EmptyInv A
      { worklist := A.initialstates, processed := uset_insert_all A.initialstates [],
        paths := A.initialstates.foldl (fun paths s => umap_assign paths s s) [] } := by
  have hmem : ∀ q, q ∈ uset_insert_all A.initialstates [] ↔ q ∈ A.initialstates := by
    intro q
    rw [mem_uset_insert_all]
    simp
  exact
    { wl_sub := fun q hq => (hmem q).2 hq
      nodup := nodup_uset_insert_all _ List.nodup_nil
      keys_iff := by
        intro q
        rw [hmem, paths_init_find]
        by_cases h : q ∈ A.initialstates <;> simp [h]
      rooted := by
        intro q hq
        have hq' := (hmem q).1 hq
        exact Rooted.root q (by rw [paths_init_find]; simp [hq']) hq'
      done := fun q hq hqw => absurd ((hmem q).1 hq) hqw
      init_sub := fun q hq => (hmem q).2 hq }

end Vata2

namespace Vata2

/-! ## Emptiness: the counterexample -/

theorem paths_get_of_find {paths : List (State × State)} {q p : State}
    (h : umap_find paths q = some p) : paths_get paths q = p := by
  simp [paths_get, h]

/-- Unwinding the predecessor map from a rooted state terminates; the states appended to
`cex` form, with the start state, a backward chain of transitions ending in an initial
state. -/
theorem unwind_path_spec {A : Nfa} {paths : List (State × State)} {q : State}
    (h : Rooted A paths q) :
    ∃ (l : List State) (root : State),
      (q :: l).getLast? = some root ∧ root ∈ A.initialstates ∧
      List.Chain (fun x y => ∃ a, A.has_trans ⟨y, a, x⟩ = true) q l ∧
      ∃ fuel, ∀ n, fuel ≤ n → ∀ acc, unwind_path paths n q acc = some (root, acc ++ l) := by
  induction h with
  | root q h1 h2 =>
    refine ⟨[], q, rfl, h2, List.Chain.nil, 1, ?_⟩
    intro n hn acc
    obtain ⟨k, rfl⟩ : ∃ k, n = k + 1 := ⟨n - 1, by omega⟩
    simp [unwind_path, while_loop, paths_get_of_find h1]
  | step q p a h1 h2 h3 _ ih =>
    obtain ⟨l, root, hl, hroot, hch, fuel, hf⟩ := ih
    refine ⟨p :: l, root, ?_, hroot, List.Chain.cons ⟨a, h3⟩ hch, fuel + 1, ?_⟩
    · rw [List.getLast?_cons_cons]
      exact hl
    · intro n hn acc
      obtain ⟨k, rfl⟩ : ∃ k, n = k + 1 := ⟨n - 1, by omega⟩
      have := hf k (by omega) (acc ++ [p])
      unfold unwind_path at this ⊢
      simp only [while_loop, paths_get_of_find h1, ne_eq, h2, not_false_eq_true, decide_True,
        if_true]
      rw [this]
      simp

theorem find_symbol_spec (post : PostSymb) (newSt : State)
    (h : ∃ e ∈ post, newSt ∈ e.2) :
    ∃ symb tg, find_symbol post newSt = some symb ∧ (symb, tg) ∈ post ∧ newSt ∈ tg := by
  induction post with
  | nil => simp at h
  | cons e post ih =>
    unfold find_symbol
    by_cases he : newSt ∈ e.2
    · exact ⟨e.1, e.2, by simp [haskey, he], List.mem_cons_self _ _, he⟩
    · have : ∃ e' ∈ post, newSt ∈ e'.2 := by
        obtain ⟨e', he', hx⟩ := h
        rcases List.mem_cons.1 he' with rfl | he'
        · exact absurd hx he
        · exact ⟨e', he', hx⟩
      obtain ⟨symb, tg, h1, h2, h3⟩ := ih this
      exact ⟨symb, tg, by simp [haskey, he, h1], List.mem_cons_of_mem _ h2, h3⟩

/-- Along a sequence of states connected by transitions `get_word_for_path` dereferences no
null post, reports consistency and returns a word that labels a run along the sequence. -/
theorem get_word_for_path_loop_spec {A : Nfa} (hA : A.WF) (cur : State) (rest : Path)
    (acc : Word)
    (h : List.Chain (fun p q => ∃ a, A.has_trans ⟨p, a, q⟩ = true) cur rest) :
    ∃ w, get_word_for_path_loop A cur rest acc = .ok (acc ++ w, true) ∧
      w.length = rest.length ∧
      ∀ qf, (cur :: rest).getLast? = some qf → A.reach cur w qf := by
  induction rest generalizing cur acc with
  | nil =>
    refine ⟨[], by simp [get_word_for_path_loop], rfl, ?_⟩
    intro qf hqf
    simp only [List.getLast?_singleton, Option.some.injEq] at hqf
    exact hqf
  | cons nx rest ih =>
    rw [List.chain_cons] at h
    obtain ⟨⟨a, ha⟩, hch⟩ := h
    obtain ⟨post, tgts, h1, h2, h3⟩ := (Nfa.has_trans_iff A _).1 ha
    simp only at h1 h2 h3
    obtain ⟨symb, tg, f1, f2, f3⟩ := find_symbol_spec post nx
      ⟨(a, tgts), umap_find_some_mem h2, h3⟩
    have hpost : PostSymb_wf post := hA.2.1 _ (umap_find_some_mem h1)
    have hstep : A.has_trans ⟨cur, symb, nx⟩ = true :=
      (Nfa.has_trans_iff A _).2 ⟨post, tg, h1, umap_find_of_mem hpost.2.1 f2, f3⟩
    obtain ⟨w, hw, hlen, hreach⟩ := ih nx (acc ++ [symb]) hch
    refine ⟨symb :: w, ?_, by simp [hlen], ?_⟩
    · unfold get_word_for_path_loop
      simp only [Nfa.post, h1, f1, hw]
      simp
    · intro qf hqf
      rw [List.getLast?_cons_cons] at hqf
      exact ⟨nx, hstep, hreach qf hqf⟩

theorem get_word_for_path_spec {A : Nfa} (hA : A.WF) {path : Path} (hp : A.is_path path)
    {q0 qf : State} (h0 : path.head? = some q0) (hf : path.getLast? = some qf) :
    ∃ w, get_word_for_path A path = .ok (w, true) ∧ w.length + 1 = path.length ∧
      A.reach q0 w qf := by
  cases path with
  | nil => simp at h0
  | cons cur rest =>
    simp only [List.head?_cons, Option.some.injEq] at h0
    subst h0
    obtain ⟨w, hw, hlen, hreach⟩ := get_word_for_path_loop_spec hA cur rest []
      (by unfold Nfa.is_path at hp; exact hp)
    refine ⟨w, ?_, by simp [hlen], hreach qf hf⟩
    simpa [get_word_for_path] using hw

theorem is_lang_empty_mono {A : Nfa} {cex : Option Path} {n m : Nat}
    {r : Except Fault (Bool × Option Path)} (h : is_lang_empty n A cex = some r)
    (hnm : n ≤ m) : is_lang_empty m A cex = some r := by
  unfold is_lang_empty at h ⊢
  simp only at h ⊢
  cases hl : while_loop_exit (fun st => !st.worklist.isEmpty) (is_lang_empty_body A) n
      { worklist := A.initialstates, processed := uset_insert_all A.initialstates [],
        paths := A.initialstates.foldl (fun paths s => umap_assign paths s s) [] } with
  | none => simp [hl] at h
  | some res =>
    rw [while_loop_exit_mono hl hnm]
    rw [hl] at h
    cases res with
    | ok st => exact h
    | error e =>
      cases e with
      | error f => exact h
      | ok sp =>
        obtain ⟨state, paths⟩ := sp
        simp only at h ⊢
        cases cex with
        | none => exact h
        | some c =>
          simp only at h ⊢
          cases hu : unwind_path paths n state [state] with
          | none => simp [hu] at h
          | some sc =>
            have : unwind_path paths m state [state] = some sc := by
              unfold unwind_path at hu ⊢
              exact while_loop_mono hu hnm
            rw [this]
            rw [hu] at h
            exact h

/-- Total correctness of `is_lang_empty`: it terminates without a failed assertion; it
answers `true` when no word is accepted, and otherwise answers `false` and, for a non-null
`cex`, stores a sequence of states that starts in an initial state, ends in a final state
and follows transitions. -/
theorem is_lang_empty_spec {A : Nfa} (hA : A.WF) (cex : Option Path) :
    ((∀ w, ¬ A.accepts w) ∧
      ∃ fuel, ∀ n, fuel ≤ n → is_lang_empty n A cex = some (.ok (true, cex))) ∨
    (∃ path q0 qf, path.head? = some q0 ∧ q0 ∈ A.initialstates ∧
      path.getLast? = some qf ∧ qf ∈ A.finalstates ∧ A.is_path path ∧
      ∃ fuel, ∀ n, fuel ≤ n →
        is_lang_empty n A cex = some (.ok (false, cex.map (fun _ => path)))) := by
  have hstep : ∀ s s', EmptyInv A s → (!s.worklist.isEmpty) = true →
      is_lang_empty_body A s = .ok s' → EmptyInv A s' := by
    intro s s' hI hc hb
    rcases is_lang_empty_body_spec hA s hI hc with ⟨state, _, _, hb'⟩ | ⟨s'', hb', hI', _⟩
    · rw [hb] at hb'
      cases hb'
    · rw [hb] at hb'
      cases hb'
      exact hI'
  have hdec : ∀ s s', EmptyInv A s → (!s.worklist.isEmpty) = true →
      is_lang_empty_body A s = .ok s' →
      s'.worklist.length + (A.state_list.length - s'.processed.length) <
        s.worklist.length + (A.state_list.length - s.processed.length) := by
    intro s s' hI hc hb
    rcases is_lang_empty_body_spec hA s hI hc with ⟨state, _, _, hb'⟩ | ⟨s'', hb', _, hlt⟩
    · rw [hb] at hb'
      cases hb'
    · rw [hb] at hb'
      cases hb'
      exact hlt
  have hinit := is_lang_empty_init_inv A
  obtain ⟨fuel, r, hr⟩ : ∃ fuel r, while_loop_exit (fun st => !st.worklist.isEmpty)
      (is_lang_empty_body A) fuel
      { worklist := A.initialstates, processed := uset_insert_all A.initialstates [],
        paths := A.initialstates.foldl (fun paths s => umap_assign paths s s) [] } = some r :=
    ⟨_, @while_loop_exit_terminates _ _ (fun st => !st.worklist.isEmpty)
      (is_lang_empty_body A) (EmptyInv A)
      (fun s => s.worklist.length + (A.state_list.length - s.processed.length))
      hstep hdec _ hinit _ (Nat.lt_succ_self _)⟩
  obtain ⟨hok, herr⟩ := while_loop_exit_inv (EmptyInv A) hstep hinit hr
  cases r with
  | ok st =>
    left
    obtain ⟨hI, hc⟩ := hok st rfl
    have hwl : st.worklist = [] := by
      cases hwl : st.worklist with
      | nil => rfl
      | cons x xs => simp [hwl] at hc
    refine ⟨?_, fuel, fun n hn => ?_⟩
    · rintro w ⟨q0, hq0, qf, hqf, hreach⟩
      have hq : qf ∈ st.processed := by
        refine Reach_closed (fun q => q ∈ st.processed) ?_ (hI.init_sub q0 hq0) hreach
        intro q a r hq hT
        exact (hI.done q hq (by rw [hwl]; simp)).2 a r hT
      exact (hI.done qf hq (by rw [hwl]; simp)).1 hqf
    · unfold is_lang_empty
      simp only
      rw [while_loop_exit_mono hr hn]
  | error e =>
    obtain ⟨s₀, hI₀, hc₀, hb₀⟩ := herr e rfl
    rcases is_lang_empty_body_spec hA s₀ hI₀ hc₀ with ⟨state, hfin, hroot, hb'⟩ | ⟨s'', hb', _, _⟩
    · rw [hb₀] at hb'
      cases hb'
      right
      obtain ⟨l, root, hl, hrootin, hch, fuel', hf'⟩ := unwind_path_spec hroot
      refine ⟨(state :: l).reverse, root, state, ?_, hrootin, ?_, hfin, ?_, max fuel fuel', ?_⟩
      · rw [List.head?_reverse]
        exact hl
      · rw [List.getLast?_reverse]
        rfl
      · unfold Nfa.is_path
        rw [List.chain'_reverse]
        exact hch
      · intro n hn
        unfold is_lang_empty
        simp only
        rw [while_loop_exit_mono hr (le_trans (le_max_left _ _) hn)]
        simp only
        cases cex with
        | none => rfl
        | some c =>
          simp only
          rw [hf' n (le_trans (le_max_right _ _) hn) [state]]
          rfl
    · rw [hb₀] at hb'
      cases hb'

end Vata2

namespace Vata2

theorem is_lang_empty_cex_mono {A : Nfa} {cex : Word} {n m : Nat}
    {r : Except Fault (Bool × Word)} (h : is_lang_empty_cex n A cex = some r) (hnm : n ≤ m) :
    is_lang_empty_cex m A cex = some r := by
  unfold is_lang_empty_cex at h ⊢
  cases hl : is_lang_empty n A (some []) with
  | none => simp [hl] at h
  | some res =>
    rw [is_lang_empty_mono hl hnm]
    rw [hl] at h
    exact h

/-- What `is_lang_empty_cex` computes once the fuel suffices. -/
theorem is_lang_empty_cex_spec {A : Nfa} (hA : A.WF) (cex : Word) :
    ((∀ w, ¬ A.accepts w) ∧
      ∃ fuel, ∀ n, fuel ≤ n → is_lang_empty_cex n A cex = some (.ok (true, cex))) ∨
    (∃ w, A.accepts w ∧
      ∃ fuel, ∀ n, fuel ≤ n → is_lang_empty_cex n A cex = some (.ok (false, w))) := by
  rcases is_lang_empty_spec hA (some []) with ⟨hemp, fuel, hf⟩ |
    ⟨path, q0, qf, h0, hq0, hl, hqf, hp, fuel, hf⟩
  · left
    refine ⟨hemp, fuel, fun n hn => ?_⟩
    unfold is_lang_empty_cex
    rw [hf n hn]
  · right
    obtain ⟨w, hw, _, hreach⟩ := get_word_for_path_spec hA hp h0 hl
    refine ⟨w, ⟨q0, hq0, qf, hqf, hreach⟩, fuel, fun n hn => ?_⟩
    unfold is_lang_empty_cex
    rw [hf n hn]
    simp only [Option.map_some', Option.getD_some, hw, if_true]

/-- C3: `is_lang_empty(A)` terminates without a failed assertion, and it returns `true` iff
there is no word `w` with `is_in_lang(A, w) = true`. -/
theorem is_lang_empty_correct (A : Nfa) (hA : A.WF) :
    ∃ b, (b = true ↔ ¬ ∃ w, is_in_lang A w = true) ∧
      (∃ fuel, ∀ n, fuel ≤ n → is_lang_empty n A none = some (.ok (b, none))) ∧
      (∀ n r, is_lang_empty n A none = some r → r = .ok (b, none)) := by
  have key : ∀ b, (∃ fuel, ∀ n, fuel ≤ n → is_lang_empty n A none = some (.ok (b, none))) →
      ∀ n r, is_lang_empty n A none = some r → r = .ok (b, none) := by
    rintro b ⟨fuel, hf⟩ n r hr
    have h1 := is_lang_empty_mono hr (le_max_left n fuel)
    rw [hf _ (le_max_right n fuel)] at h1
    cases h1
    rfl
  rcases is_lang_empty_spec hA none with ⟨hemp, hf⟩ |
    ⟨path, q0, qf, h0, hq0, hl, hqf, hp, hf⟩
  · refine ⟨true, ?_, hf, key true hf⟩
    simp only [true_iff]
    rintro ⟨w, hw⟩
    exact hemp w ((is_in_lang_iff A w).1 hw)
  · refine ⟨false, ?_, hf, key false hf⟩
    obtain ⟨w, _, _, hreach⟩ := get_word_for_path_spec hA hp h0 hl
    simp only [Bool.false_eq_true, false_iff, not_not]
    exact ⟨w, (is_in_lang_iff A w).2 ⟨q0, hq0, qf, hqf, hreach⟩⟩

theorem is_lang_empty_correct_witness :
    nfa_S3_lhs.WF ∧
    ∃ b, (b = true ↔ ¬ ∃ w, is_in_lang nfa_S3_lhs w = true) ∧
      (∃ fuel, ∀ n, fuel ≤ n → is_lang_empty n nfa_S3_lhs none = some (.ok (b, none))) ∧
      (∀ n r, is_lang_empty n nfa_S3_lhs none = some r → r = .ok (b, none)) :=
  ⟨by decide, is_lang_empty_correct nfa_S3_lhs (by decide)⟩

/-- C4: `is_lang_empty_cex(A, cex)` terminates; it never stops at a failed assertion or a
null dereference (the path-to-word reconstruction succeeds); when it returns `false` the word
written to `cex` is accepted by `A`, and when it returns `true` no word is accepted and
`cex` is left as it was. -/
theorem is_lang_empty_cex_correct (A : Nfa) (hA : A.WF) (cex : Word) :
    (∃ fuel, ∀ n, fuel ≤ n → ∃ r, is_lang_empty_cex n A cex = some r) ∧
    (∀ n r, is_lang_empty_cex n A cex = some r →
      (r = .ok (true, cex) ∧ ¬ ∃ w, is_in_lang A w = true) ∨
      (∃ w, r = .ok (false, w) ∧ is_in_lang A w = true)) := by
  rcases is_lang_empty_cex_spec hA cex with ⟨hemp, fuel, hf⟩ | ⟨w, hw, fuel, hf⟩
  · refine ⟨⟨fuel, fun n hn => ⟨_, hf n hn⟩⟩, fun n r hr => Or.inl ?_⟩
    have h1 := is_lang_empty_cex_mono hr (le_max_left n fuel)
    rw [hf _ (le_max_right n fuel)] at h1
    cases h1
    refine ⟨rfl, ?_⟩
    rintro ⟨w, hw⟩
    exact hemp w ((is_in_lang_iff A w).1 hw)
  · refine ⟨⟨fuel, fun n hn => ⟨_, hf n hn⟩⟩, fun n r hr => Or.inr ?_⟩
    have h1 := is_lang_empty_cex_mono hr (le_max_left n fuel)
    rw [hf _ (le_max_right n fuel)] at h1
    cases h1
    exact ⟨w, rfl, (is_in_lang_iff A w).2 hw⟩

theorem is_lang_empty_cex_correct_witness :
    nfa_S3_lhs.WF ∧
    is_lang_empty_cex 4 nfa_S3_lhs [] = some (.ok (false, [0, 0])) ∧
    ((∃ fuel, ∀ n, fuel ≤ n → ∃ r, is_lang_empty_cex n nfa_S3_lhs [] = some r) ∧
    (∀ n r, is_lang_empty_cex n nfa_S3_lhs [] = some r →
      (r = .ok (true, []) ∧ ¬ ∃ w, is_in_lang nfa_S3_lhs w = true) ∨
      (∃ w, r = .ok (false, w) ∧ is_in_lang nfa_S3_lhs w = true))) :=
  ⟨by decide, rfl, is_lang_empty_cex_correct nfa_S3_lhs (by decide) []⟩

end Vata2

namespace Vata2

/-! ## The worklist constructions: generic invariant -/

section explore
variable {κ : Type} [DecidableEq κ]

theorem explore_grow_refl (st : WorkState κ) : ExploreGrow st st :=
  ⟨fun _ _ h => h, fun _ h => h, rfl, fun _ h => h, rfl⟩

theorem explore_grow_trans {s₁ s₂ s₃ : WorkState κ} (h₁ : ExploreGrow s₁ s₂)
    (h₂ : ExploreGrow s₂ s₃) : ExploreGrow s₁ s₃ :=
  ⟨fun k v h => h₂.map_ext k v (h₁.map_ext k v h),
    fun t h => h₂.trans_mono t (h₁.trans_mono t h),
    h₂.fin_eq.trans h₁.fin_eq,
    fun kv h => h₂.wl_sub kv (h₁.wl_sub kv h),
    by have := h₁.meas; have := h₂.meas; omega⟩

theorem visit_succ_of_some {src : State} {symb : Symbol} {key : κ} {st : WorkState κ}
    {i : State} (h : umap_find st.map key = some i) :
    visit_succ src symb key st = { st with result := st.result.add_trans ⟨src, symb, i⟩ } := by
  simp [visit_succ, umap_insert, h]

theorem visit_succ_of_none {src : State} {symb : Symbol} {key : κ} {st : WorkState κ}
    (h : umap_find st.map key = none) :
    visit_succ src symb key st =
      { result := st.result.add_trans ⟨src, symb, st.cnt_state⟩
        map := st.map ++ [(key, st.cnt_state)]
        worklist := st.worklist ++ [(key, st.cnt_state)]
        cnt_state := st.cnt_state + 1 } := by
  simp [visit_succ, umap_insert, h]

/-- Visiting one successor `key'` of the current key `key` keeps the invariant, only grows
the state, and records the transition. -/
theorem visit_succ_spec {isFinal : κ → Bool} {succ : κ → List (Symbol × κ)}
    {inits U : List κ} {key : κ} {i : State} {a : Symbol} {key' : κ} {st : WorkState κ}
    (hI : ExploreInv isFinal succ inits U (some key) st)
    (hk : umap_find st.map key = some i) (hs : (a, key') ∈ succ key) (hU : key' ∈ U) :
    ExploreInv isFinal succ inits U (some key) (visit_succ i a key' st) ∧
      ExploreGrow st (visit_succ i a key' st) ∧
      ∃ i', umap_find (visit_succ i a key' st).map key' = some i' ∧
        (visit_succ i a key' st).result.has_trans ⟨i, a, i'⟩ = true := by
  cases hf : umap_find st.map key' with
  | some i' =>
    rw [visit_succ_of_some hf]
    have hmono : ∀ t, st.result.has_trans t = true →
        (st.result.add_trans ⟨i, a, i'⟩).has_trans t = true :=
      fun t ht => (Nfa.has_trans_add_trans _ _ _).2 (Or.inr ht)
    refine ⟨?_, ⟨fun _ _ h => h, hmono, by simp, fun _ h => h, rfl⟩, i', hf,
      (Nfa.has_trans_add_trans _ _ _).2 (Or.inl rfl)⟩
    exact
      { wf := Nfa.add_trans_wf hI.wf _
        id_lt := hI.id_lt
        id_inj := hI.id_inj
        wl_mem := hI.wl_mem
        init_iff := by simpa using hI.init_iff
        init_mem := hI.init_mem
        final_sound := by simpa using hI.final_sound
        trans_sound := by
          intro t ht
          rcases (Nfa.has_trans_add_trans _ _ _).1 ht with rfl | ht
          · exact ⟨key, key', hk, hf, hs⟩
          · exact hI.trans_sound t ht
        keys_nodup := hI.keys_nodup
        keys_univ := hI.keys_univ
        done := by
          intro k j hkj hw hne
          obtain ⟨d1, d2⟩ := hI.done k j hkj hw hne
          refine ⟨by simpa using d1, fun b k' hb => ?_⟩
          obtain ⟨j', hj', ht⟩ := d2 b k' hb
          exact ⟨j', hj', hmono _ ht⟩ }
  | none =>
    rw [visit_succ_of_none hf]
    have hext : ∀ k v, umap_find st.map k = some v →
        umap_find (st.map ++ [(key', st.cnt_state)]) k = some v :=
      fun k v h => (umap_find_append_single _ _ _ _ _).2 (Or.inl h)
    have hnew : ∀ k v, umap_find (st.map ++ [(key', st.cnt_state)]) k = some v →
        umap_find st.map k = some v ∨ (k = key' ∧ v = st.cnt_state) := by
      intro k v h
      rcases (umap_find_append_single _ _ _ _ _).1 h with h | ⟨_, h1, h2⟩
      · exact Or.inl h
      · exact Or.inr ⟨h1.symm, h2.symm⟩
    have hmono : ∀ t, st.result.has_trans t = true →
        (st.result.add_trans ⟨i, a, st.cnt_state⟩).has_trans t = true :=
      fun t ht => (Nfa.has_trans_add_trans _ _ _).2 (Or.inr ht)
    have hself : umap_find (st.map ++ [(key', st.cnt_state)]) key' = some st.cnt_state :=
      (umap_find_append_single _ _ _ _ _).2 (Or.inr ⟨hf, rfl, rfl⟩)
    refine ⟨?_, ⟨hext, hmono, by simp, fun _ h => List.mem_append_left _ h, by simp; omega⟩,
      st.cnt_state, hself, (Nfa.has_trans_add_trans _ _ _).2 (Or.inl rfl)⟩
    exact
      { wf := Nfa.add_trans_wf hI.wf _
        id_lt := by
          intro k v h0
          rcases hnew k v h0 with h | ⟨_, h⟩
          · exact Nat.lt_succ_of_lt (hI.id_lt k v h)
          · rw [h]
            exact Nat.lt_succ_self _
        id_inj := by
          intro k k' v h0 h0'
          rcases hnew k v h0 with h | ⟨e1, e2⟩
          · rcases hnew k' v h0' with h' | ⟨e1', e2'⟩
            · exact hI.id_inj k k' v h h'
            · rw [e2'] at h
              exact absurd (hI.id_lt k _ h) (lt_irrefl _)
          · rcases hnew k' v h0' with h' | ⟨e1', _⟩
            · rw [e2] at h'
              exact absurd (hI.id_lt k' _ h') (lt_irrefl _)
            · rw [e1, e1']
        wl_mem := by
          intro kv hkv
          simp only [List.mem_append, List.mem_singleton] at hkv
          rcases hkv with hkv | rfl
          · exact hext _ _ (hI.wl_mem kv hkv)
          · exact hself
        init_iff := by
          intro x
          simp only [Nfa.add_trans_initialstates]
          rw [hI.init_iff]
          constructor
          · rintro ⟨k, hk1, hk2⟩
            exact ⟨k, hk1, hext _ _ hk2⟩
          · rintro ⟨k, hk1, hk2⟩
            obtain ⟨x', hx'⟩ := hI.init_mem k hk1
            have := hext _ _ hx'
            rw [hk2] at this
            cases this
            exact ⟨k, hk1, hx'⟩
        init_mem := by
          intro k hk1
          obtain ⟨x, hx⟩ := hI.init_mem k hk1
          exact ⟨x, hext _ _ hx⟩
        final_sound := by
          intro x hx
          simp only [Nfa.add_trans_finalstates] at hx
          obtain ⟨k, h1, h2⟩ := hI.final_sound x hx
          exact ⟨k, hext _ _ h1, h2⟩
        trans_sound := by
          intro t ht
          rcases (Nfa.has_trans_add_trans _ _ _).1 ht with rfl | ht
          · exact ⟨key, key', hext _ _ hk, hself, hs⟩
          · obtain ⟨k, k', h1, h2, h3⟩ := hI.trans_sound t ht
            exact ⟨k, k', hext _ _ h1, hext _ _ h2, h3⟩
        keys_nodup := by
          simp only [List.map_append, List.map_cons, List.map_nil]
          rw [List.nodup_append]
          refine ⟨hI.keys_nodup, List.nodup_singleton _, ?_⟩
          intro x hx hx'
          simp only [List.mem_singleton] at hx'
          subst hx'
          exact (umap_find_eq_none_iff.1 hf) hx
        keys_univ := by
          intro k hk1
          simp only [List.map_append, List.map_cons, List.map_nil, List.mem_append,
            List.mem_singleton] at hk1
          rcases hk1 with hk1 | rfl
          · exact hI.keys_univ k hk1
          · exact hU
        done := by
          intro k j hkj hw hne
          simp only [List.mem_append, List.mem_singleton, not_or] at hw
          rcases hnew k j hkj with h | ⟨e1, e2⟩
          · obtain ⟨d1, d2⟩ := hI.done k j h hw.1 hne
            refine ⟨by simpa using d1, fun b k' hb => ?_⟩
            obtain ⟨j', hj', ht⟩ := d2 b k' hb
            exact ⟨j', hext _ _ hj', hmono _ ht⟩
          · exact absurd (by rw [e1, e2]) hw.2 }

/-- Visiting a list of successors of the current key. -/
theorem visit_fold_spec {isFinal : κ → Bool} {succ : κ → List (Symbol × κ)}
    {inits U : List κ} {key : κ} {i : State} (l : List (Symbol × κ)) (st : WorkState κ)
    (hI : ExploreInv isFinal succ inits U (some key) st)
    (hk : umap_find st.map key = some i) (hs : ∀ sk ∈ l, sk ∈ succ key)
    (hU : ∀ sk ∈ l, sk.2 ∈ U) :
    ExploreInv isFinal succ inits U (some key)
        (l.foldl (fun st sk => visit_succ i sk.1 sk.2 st) st) ∧
      ExploreGrow st (l.foldl (fun st sk => visit_succ i sk.1 sk.2 st) st) ∧
      ∀ sk ∈ l, ∃ i',
        umap_find (l.foldl (fun st sk => visit_succ i sk.1 sk.2 st) st).map sk.2 = some i' ∧
        (l.foldl (fun st sk => visit_succ i sk.1 sk.2 st) st).result.has_trans
          ⟨i, sk.1, i'⟩ = true := by
  induction l generalizing st with
  | nil => exact ⟨hI, explore_grow_refl st, fun sk h => absurd h (List.not_mem_nil _)⟩
  | cons sk l ih =>
    simp only [List.foldl_cons]
    obtain ⟨v1, v2, i', v3, v4⟩ := visit_succ_spec hI hk
      (hs sk (List.mem_cons_self _ _)) (hU sk (List.mem_cons_self _ _))
    obtain ⟨f1, f2, f3⟩ := ih (visit_succ i sk.1 sk.2 st) v1 (v2.map_ext _ _ hk)
      (fun x hx => hs x (List.mem_cons_of_mem _ hx))
      (fun x hx => hU x (List.mem_cons_of_mem _ hx))
    refine ⟨f1, explore_grow_trans v2 f2, ?_⟩
    intro x hx
    rcases List.mem_cons.1 hx with rfl | hx
    · exact ⟨i', f2.map_ext _ _ v3, f2.trans_mono _ v4⟩
    · exact f3 x hx

theorem map_length_le {isFinal : κ → Bool} {succ : κ → List (Symbol × κ)}
    {inits U : List κ} {cur : Option κ} {st : WorkState κ}
    (hI : ExploreInv isFinal succ inits U cur st) : st.map.length ≤ U.length := by
  have := length_le_of_nodup_subset hI.keys_nodup hI.keys_univ
  simpa using this

/-- One iteration of a worklist construction keeps the invariant and decreases the
measure. -/
theorem explore_body_spec {isFinal : κ → Bool} {succ : κ → List (Symbol × κ)}
    {inits U : List κ} (hUs : ∀ k ∈ U, ∀ sk ∈ succ k, sk.2 ∈ U) (st : WorkState κ)
    (hI : ExploreInv isFinal succ inits U none st) (hc : (!st.worklist.isEmpty) = true) :
    ExploreInv isFinal succ inits U none (explore_body isFinal succ st) ∧
      (explore_body isFinal succ st).worklist.length +
          (U.length - (explore_body isFinal succ st).map.length) <
        st.worklist.length + (U.length - st.map.length) := by
  obtain ⟨key, i, rest, hw⟩ : ∃ key i rest, st.worklist = (key, i) :: rest := by
    cases hwl : st.worklist with
    | nil => simp [hwl] at hc
    | cons x xs => exact ⟨x.1, x.2, xs, rfl⟩
  have hk : umap_find st.map key = some i := hI.wl_mem (key, i) (by rw [hw]; simp)
  have hkU : key ∈ U :=
    hI.keys_univ key (List.mem_map.2 ⟨(key, i), umap_find_some_mem hk, rfl⟩)
  -- the state after the pop and the finality test
  obtain ⟨st1, hst1⟩ : ∃ st1 : WorkState κ, st1 =
      (if isFinal key then
        { result := st.result.add_final i, map := st.map, cnt_state := st.cnt_state,
          worklist := rest }
      else { result := st.result, map := st.map, cnt_state := st.cnt_state,
             worklist := rest }) := ⟨_, rfl⟩
  have hbody : explore_body isFinal succ st =
      (succ key).foldl (fun st sk => visit_succ i sk.1 sk.2 st) st1 := by
    unfold explore_body
    rw [hw, hst1]
  have hmap1 : st1.map = st.map := by rw [hst1]; split_ifs <;> rfl
  have hwl1 : st1.worklist = rest := by rw [hst1]; split_ifs <;> rfl
  have hcnt1 : st1.cnt_state = st.cnt_state := by rw [hst1]; split_ifs <;> rfl
  have hinit1 : st1.result.initialstates = st.result.initialstates := by
    rw [hst1]; split_ifs <;> rfl
  have htr1 : ∀ t, st1.result.has_trans t = st.result.has_trans t := by
    intro t; rw [hst1]; split_ifs <;> rfl
  have hfin1 : ∀ x, x ∈ st1.result.finalstates ↔
      x ∈ st.result.finalstates ∨ (x = i ∧ isFinal key = true) := by
    intro x
    rw [hst1]
    split_ifs with hfk
    · simp [Nfa.add_final, mem_set_insert, hfk]
      tauto
    · simp [hfk]
  have hwf1 : st1.result.WF := by
    rw [hst1]
    split_ifs
    · exact Nfa.add_final_wf hI.wf _
    · exact hI.wf
  have hI1 : ExploreInv isFinal succ inits U (some key) st1 :=
    { wf := hwf1
      id_lt := by rw [hmap1, hcnt1]; exact hI.id_lt
      id_inj := by rw [hmap1]; exact hI.id_inj
      wl_mem := by
        rw [hmap1, hwl1]
        intro kv hkv
        exact hI.wl_mem kv (by rw [hw]; exact List.mem_cons_of_mem _ hkv)
      init_iff := by rw [hmap1, hinit1]; exact hI.init_iff
      init_mem := by rw [hmap1]; exact hI.init_mem
      final_sound := by
        rw [hmap1]
        intro x hx
        rcases (hfin1 x).1 hx with hx | ⟨rfl, hfk⟩
        · exact hI.final_sound x hx
        · exact ⟨key, hk, hfk⟩
      trans_sound := by
        rw [hmap1]
        intro t ht
        rw [htr1] at ht
        exact hI.trans_sound t ht
      keys_nodup := by rw [hmap1]; exact hI.keys_nodup
      keys_univ := by rw [hmap1]; exact hI.keys_univ
      done := by
        rw [hmap1, hwl1]
        intro k j hkj hwj hne
        have hkne : k ≠ key := fun e => hne (by rw [e])
        have : (k, j) ∉ st.worklist := by
          rw [hw]
          simp only [List.mem_cons, Prod.mk.injEq, not_or, not_and]
          exact ⟨fun e => absurd e hkne, hwj⟩
        obtain ⟨d1, d2⟩ := hI.done k j hkj this (by simp)
        refine ⟨fun hf => (hfin1 j).2 (Or.inl (d1 hf)), fun b k' hb => ?_⟩
        obtain ⟨j', hj', ht⟩ := d2 b k' hb
        exact ⟨j', hj', by rw [htr1]; exact ht⟩ }
  obtain ⟨f1, f2, f3⟩ := visit_fold_spec (succ key) st1 hI1 (by rw [hmap1]; exact hk)
    (fun _ h => h) (fun sk h => hUs key hkU sk h)
  rw [hbody]
  generalize (succ key).foldl (fun st sk => visit_succ i sk.1 sk.2 st) st1 = st2
    at f1 f2 f3
  have hk2 : umap_find st2.map key = some i := f2.map_ext _ _ (by rw [hmap1]; exact hk)
  refine ⟨?_, ?_⟩
  · exact
      { wf := f1.wf
        id_lt := f1.id_lt
        id_inj := f1.id_inj
        wl_mem := f1.wl_mem
        init_iff := f1.init_iff
        init_mem := f1.init_mem
        final_sound := f1.final_sound
        trans_sound := f1.trans_sound
        keys_nodup := f1.keys_nodup
        keys_univ := f1.keys_univ
        done := by
          intro k j hkj hwj _
          by_cases hkk : k = key
          · subst hkk
            rw [hk2] at hkj
            cases hkj
            refine ⟨fun hf => ?_, fun b k' hb => f3 (b, k') hb⟩
            rw [f2.fin_eq]
            exact (hfin1 _).2 (Or.inr ⟨rfl, hf⟩)
          · exact f1.done k j hkj hwj (by simpa using hkk) }
  · have l2 := map_length_le f1
    have l1 := map_length_le hI
    have hm := f2.meas
    rw [hmap1, hwl1] at hm
    rw [hw]
    simp only [List.length_cons]
    omega

/-- A worklist construction started in a state satisfying the invariant terminates, and the
automaton it builds accepts exactly the words accepted by the transition system of the keys
(initial keys `inits`, final keys `isFinal`, steps `succ`). -/
theorem explore_spec {isFinal : κ → Bool} {succ : κ → List (Symbol × κ)}
    {inits U : List κ} (hUs : ∀ k ∈ U, ∀ sk ∈ succ k, sk.2 ∈ U) (st₀ : WorkState κ)
    (hI : ExploreInv isFinal succ inits U none st₀) :
    ∃ fuel st, (∀ n, fuel ≤ n →
        while_loop (fun st => !st.worklist.isEmpty) (explore_body isFinal succ) n st₀ =
          some st) ∧
      ExploreInv isFinal succ inits U none st ∧ st.worklist = [] ∧
      ∀ w, st.result.accepts w ↔
        Acc (· ∈ inits) (fun k => isFinal k = true) (fun k a k' => (a, k') ∈ succ k) w := by
  obtain ⟨st, hst⟩ := @while_loop_terminates _ (fun st => !st.worklist.isEmpty)
    (explore_body isFinal succ) (ExploreInv isFinal succ inits U none)
    (fun st => st.worklist.length + (U.length - st.map.length))
    (fun s hs hc => (explore_body_spec hUs s hs hc).1)
    (fun s hs hc => (explore_body_spec hUs s hs hc).2) st₀ hI _ (Nat.lt_succ_self _)
  obtain ⟨hIf, hcf⟩ := while_loop_inv (ExploreInv isFinal succ inits U none)
    (fun s hs hc => (explore_body_spec hUs s hs hc).1) hI hst
  have hwl : st.worklist = [] := by
    cases hwl : st.worklist with
    | nil => rfl
    | cons x xs => simp [hwl] at hcf
  refine ⟨_, st, fun n hn => while_loop_mono hst hn, hIf, hwl, fun w => ?_⟩
  rw [Nfa.accepts_iff_Acc]
  constructor
  · intro h
    refine Acc_sim (fun x k => umap_find st.map k = some x) ?_ ?_ ?_ h
    · intro x hx
      obtain ⟨k, hk1, hk2⟩ := (hIf.init_iff x).1 hx
      exact ⟨k, hk1, hk2⟩
    · intro x k hS hx
      obtain ⟨k', h1, h2⟩ := hIf.final_sound x hx
      rw [hIf.id_inj k k' x hS h1]
      exact h2
    · intro x a y k hS hT
      obtain ⟨k1, k2, h1, h2, h3⟩ := hIf.trans_sound _ hT
      simp only at h1 h2 h3
      have := hIf.id_inj k k1 x hS h1
      subst this
      exact ⟨k2, h3, h2⟩
  · intro h
    refine Acc_sim (fun k x => umap_find st.map k = some x) ?_ ?_ ?_ h
    · intro k hk
      obtain ⟨x, hx⟩ := hIf.init_mem k hk
      exact ⟨x, (hIf.init_iff x).2 ⟨k, hk, hx⟩, hx⟩
    · intro k x hS hF
      exact (hIf.done k x hS (by rw [hwl]; simp) (by simp)).1 hF
    · intro k a k' x hS hT
      obtain ⟨i', h1, h2⟩ := (hIf.done k x hS (by rw [hwl]; simp) (by simp)).2 a k' hT
      exact ⟨i', h2, h1⟩

end explore

end Vata2

namespace Vata2

/-! ## Intersection -/

theorem foldl_flatMap' {α β γ : Type} (l : List α) (f : α → List β) (g : γ → β → γ) (s : γ) :
    (l.flatMap f).foldl g s = l.foldl (fun s x => (f x).foldl g s) s := by
  induction l generalizing s with
  | nil => rfl
  | cons x l ih => simp [List.flatMap_cons, List.foldl_append, ih]

theorem intersection_body_eq (lhs rhs : Nfa) :
    intersection_body lhs rhs =
      explore_body (fun k => haskey lhs.finalstates k.1 && haskey rhs.finalstates k.2)
        (prod_succ lhs rhs) := by
  funext st
  unfold intersection_body explore_body
  cases hw : st.worklist with
  | nil => rfl
  | cons e rest =>
    obtain ⟨⟨lhs_st, rhs_st⟩, res_st⟩ := e
    simp only
    unfold prod_succ
    rw [foldl_flatMap']
    congr 1
    funext st' lhs_tr
    by_cases h1 : lhs_tr.src = lhs_st
    · simp only [h1, if_true]
      rw [foldl_flatMap']
      congr 1
      funext st'' rhs_tr
      by_cases h2 : rhs_tr.src = rhs_st
      · by_cases h3 : lhs_tr.symb = rhs_tr.symb
        · simp [h2, h3]
        · simp [h2, h3]
      · simp [h2]
    · simp [h1]

theorem mem_prod_succ {lhs rhs : Nfa} (hL : lhs.WF) (hR : rhs.WF) (k : State × State)
    (a : Symbol) (k' : State × State) :
    (a, k') ∈ prod_succ lhs rhs k ↔
      lhs.has_trans ⟨k.1, a, k'.1⟩ = true ∧ rhs.has_trans ⟨k.2, a, k'.2⟩ = true := by
  unfold prod_succ
  simp only [List.mem_flatMap]
  constructor
  · rintro ⟨lt, hlt, h⟩
    split_ifs at h with h1
    · simp only [List.mem_flatMap] at h
      obtain ⟨rt, hrt, h⟩ := h
      split_ifs at h with h2 h3
      · simp only [List.mem_singleton, Prod.mk.injEq] at h
        obtain ⟨rfl, rfl⟩ := h
        have e1 := (Nfa.mem_trans_list_iff hL lt).1 hlt
        have e2 := (Nfa.mem_trans_list_iff hR rt).1 hrt
        obtain ⟨s1, a1, t1⟩ := lt
        obtain ⟨s2, a2, t2⟩ := rt
        simp only at h1 h2 h3 ⊢
        subst h1 h2 h3
        exact ⟨e1, e2⟩
      · simp at h
      · simp at h
    · simp at h
  · rintro ⟨h1, h2⟩
    refine ⟨⟨k.1, a, k'.1⟩, (Nfa.mem_trans_list_iff hL _).2 h1, ?_⟩
    simp only [if_true, List.mem_flatMap]
    refine ⟨⟨k.2, a, k'.2⟩, (Nfa.mem_trans_list_iff hR _).2 h2, ?_⟩
    simp

/-- Runs of the product are pairs of runs. -/
theorem Reach_prod {lhs rhs : Nfa} (hL : lhs.WF) (hR : rhs.WF) (k k' : State × State)
    (w : Word) :
    Reach (fun k a k' => (a, k') ∈ prod_succ lhs rhs k) k w k' ↔
      lhs.reach k.1 w k'.1 ∧ rhs.reach k.2 w k'.2 := by
  induction w generalizing k with
  | nil =>
    simp only [Reach_nil, Nfa.reach_nil]
    constructor
    · rintro rfl; exact ⟨rfl, rfl⟩
    · rintro ⟨h1, h2⟩; exact Prod.ext h1 h2
  | cons a w ih =>
    simp only [Reach_cons, Nfa.reach_cons]
    constructor
    · rintro ⟨r, hr, hrest⟩
      obtain ⟨h1, h2⟩ := (mem_prod_succ hL hR k a r).1 hr
      obtain ⟨i1, i2⟩ := (ih r).1 hrest
      exact ⟨⟨r.1, h1, i1⟩, ⟨r.2, h2, i2⟩⟩
    · rintro ⟨⟨r1, h1, i1⟩, ⟨r2, h2, i2⟩⟩
      exact ⟨(r1, r2), (mem_prod_succ hL hR k a (r1, r2)).2 ⟨h1, h2⟩, (ih (r1, r2)).2 ⟨i1, i2⟩⟩

theorem Acc_prod {lhs rhs : Nfa} (hL : lhs.WF) (hR : rhs.WF) (w : Word) :
    Acc (· ∈ List.product lhs.initialstates rhs.initialstates)
        (fun k => (haskey lhs.finalstates k.1 && haskey rhs.finalstates k.2) = true)
        (fun k a k' => (a, k') ∈ prod_succ lhs rhs k) w ↔
      lhs.accepts w ∧ rhs.accepts w := by
  constructor
  · rintro ⟨k0, hk0, kf, hkf, hr⟩
    obtain ⟨h1, h2⟩ := (Reach_prod hL hR k0 kf w).1 hr
    have hk0' := List.mem_product.1 (show (k0.1, k0.2) ∈ _ from hk0)
    simp only [Bool.and_eq_true, haskey_iff] at hkf
    exact ⟨⟨k0.1, hk0'.1, kf.1, hkf.1, h1⟩, ⟨k0.2, hk0'.2, kf.2, hkf.2, h2⟩⟩
  · rintro ⟨⟨p0, hp0, pf, hpf, hp⟩, ⟨q0, hq0, qf, hqf, hq⟩⟩
    refine ⟨(p0, q0), List.mem_product.2 ⟨hp0, hq0⟩, (pf, qf), ?_,
      (Reach_prod hL hR (p0, q0) (pf, qf) w).2 ⟨hp, hq⟩⟩
    simp only [Bool.and_eq_true, haskey_iff]
    exact ⟨hpf, hqf⟩

/-- The state reached by the first loop of `intersection` on a duplicate-free list of
pairs. -/
theorem intersection_init_fold (ps : List (State × State)) (st : WorkState (State × State))
    (hwl : st.worklist = st.map) (hnd : (st.map.map Prod.fst).Nodup)
    (hlt : ∀ k v, umap_find st.map k = some v → v < st.cnt_state)
    (hinj : ∀ k k' v, umap_find st.map k = some v → umap_find st.map k' = some v → k = k')
    (hinit : ∀ x, x ∈ st.result.initialstates ↔ ∃ k, umap_find st.map k = some x)
    (hwf : st.result.WF) (htr : st.result.transitions = [])
    (hfin : st.result.finalstates = [])
    (hps : ps.Nodup) (hfresh : ∀ p ∈ ps, p ∉ st.map.map Prod.fst) :
    ∃ st', ps.foldl (fun st p =>
          { result := st.result.add_initial st.cnt_state
            map := (umap_insert st.map p st.cnt_state).1
            worklist := st.worklist ++ [(p, st.cnt_state)]
            cnt_state := st.cnt_state + 1 }) st = st' ∧
      st'.worklist = st'.map ∧ st'.map.map Prod.fst = st.map.map Prod.fst ++ ps ∧
      (st'.map.map Prod.fst).Nodup ∧
      (∀ k v, umap_find st'.map k = some v → v < st'.cnt_state) ∧
      (∀ k k' v, umap_find st'.map k = some v → umap_find st'.map k' = some v → k = k') ∧
      (∀ x, x ∈ st'.result.initialstates ↔ ∃ k, umap_find st'.map k = some x) ∧
      st'.result.WF ∧ st'.result.transitions = [] ∧ st'.result.finalstates = [] := by
  induction ps generalizing st with
  | nil => exact ⟨st, rfl, hwl, by simp, hnd, hlt, hinj, hinit, hwf, htr, hfin⟩
  | cons p ps ih =>
    simp only [List.foldl_cons]
    have hp : umap_find st.map p = none :=
      umap_find_eq_none_iff.2 (hfresh p (List.mem_cons_self _ _))
    have hins : (umap_insert st.map p st.cnt_state).1 = st.map ++ [(p, st.cnt_state)] := by
      simp [umap_insert, hp]
    rw [hins]
    have hnew : ∀ k v, umap_find (st.map ++ [(p, st.cnt_state)]) k = some v →
        umap_find st.map k = some v ∨ (k = p ∧ v = st.cnt_state) := by
      intro k v h
      rcases (umap_find_append_single _ _ _ _ _).1 h with h | ⟨_, h1, h2⟩
      · exact Or.inl h
      · exact Or.inr ⟨h1.symm, h2.symm⟩
    have hnd' : ((st.map ++ [(p, st.cnt_state)]).map Prod.fst).Nodup := by
      simp only [List.map_append, List.map_cons, List.map_nil]
      rw [List.nodup_append]
      refine ⟨hnd, List.nodup_singleton _, ?_⟩
      intro x hx hx'
      simp only [List.mem_singleton] at hx'
      subst hx'
      exact hfresh x (List.mem_cons_self _ _) hx
    obtain ⟨st', e, r1, r2, r3, r4, r5, r6, r7, r8, r9⟩ := ih
      { result := st.result.add_initial st.cnt_state
        map := st.map ++ [(p, st.cnt_state)]
        worklist := st.worklist ++ [(p, st.cnt_state)]
        cnt_state := st.cnt_state + 1 }
      (by simp only; rw [hwl]) hnd'
      (by
        intro k v h0
        rcases hnew k v h0 with h | ⟨_, h⟩
        · exact Nat.lt_succ_of_lt (hlt k v h)
        · simp only; rw [h]; exact Nat.lt_succ_self _)
      (by
        intro k k' v h0 h0'
        rcases hnew k v h0 with h | ⟨e1, e2⟩
        · rcases hnew k' v h0' with h' | ⟨e1', e2'⟩
          · exact hinj k k' v h h'
          · rw [e2'] at h
            exact absurd (hlt k _ h) (lt_irrefl _)
        · rcases hnew k' v h0' with h' | ⟨e1', _⟩
          · rw [e2] at h'
            exact absurd (hlt k' _ h') (lt_irrefl _)
          · rw [e1, e1'])
      (by
        intro x
        simp only [Nfa.add_initial, mem_set_insert]
        rw [hinit]
        constructor
        · rintro (rfl | ⟨k, hk⟩)
          · exact ⟨p, (umap_find_append_single _ _ _ _ _).2 (Or.inr ⟨hp, rfl, rfl⟩)⟩
          · exact ⟨k, (umap_find_append_single _ _ _ _ _).2 (Or.inl hk)⟩
        · rintro ⟨k, hk⟩
          rcases hnew k x hk with h | ⟨_, h⟩
          · exact Or.inr ⟨k, h⟩
          · exact Or.inl h)
      (Nfa.add_initial_wf hwf _) htr hfin (List.nodup_cons.1 hps).2
      (by
        intro q hq
        simp only [List.map_append, List.map_cons, List.map_nil, List.mem_append,
          List.mem_singleton, not_or]
        refine ⟨hfresh q (List.mem_cons_of_mem _ hq), ?_⟩
        rintro rfl
        exact (List.nodup_cons.1 hps).1 hq)
    refine ⟨st', e, r1, ?_, r3, r4, r5, r6, r7, r8, r9⟩
    rw [r2]
    simp

theorem intersection_init_eq (result lhs rhs : Nfa) (prod_map : ProductMap) :
    intersection_init result lhs rhs prod_map =
      (List.product lhs.initialstates rhs.initialstates).foldl (fun st p =>
          { result := st.result.add_initial st.cnt_state
            map := (umap_insert st.map p st.cnt_state).1
            worklist := st.worklist ++ [(p, st.cnt_state)]
            cnt_state := st.cnt_state + 1 })
        { result := result, map := prod_map, cnt_state := 0, worklist := [] } := by
  unfold intersection_init List.product
  rw [foldl_flatMap']
  congr 1
  funext st lhs_st
  rw [List.foldl_map]

theorem has_state_of_mem_trans_list {A : Nfa} (hA : A.WF) {t : Trans}
    (ht : t ∈ A.trans_list) : A.has_state t.src ∧ A.has_state t.tgt :=
  have h := (Nfa.mem_trans_list_iff hA t).1 ht
  ⟨Or.inr (Or.inr ⟨t, h, Or.inl rfl⟩), Or.inr (Or.inr ⟨t, h, Or.inr rfl⟩)⟩

theorem intersection_init_inv {lhs rhs : Nfa} (hL : lhs.WF) (hR : rhs.WF) :
    ExploreInv (fun k => haskey lhs.finalstates k.1 && haskey rhs.finalstates k.2)
      (prod_succ lhs rhs) (List.product lhs.initialstates rhs.initialstates)
      (List.product lhs.state_list rhs.state_list) none
      (intersection_init {} lhs rhs []) := by
  rw [intersection_init_eq]
  obtain ⟨st', e, r1, r2, r3, r4, r5, r6, r7, r8, r9⟩ := intersection_init_fold
    (List.product lhs.initialstates rhs.initialstates)
    { result := {}, map := [], cnt_state := 0, worklist := [] } rfl (by simp)
    (by intro k v h; simp at h) (by intro k k' v h; simp at h)
    (by intro x; simp) Nfa.wf_empty rfl rfl
    (List.Nodup.product hL.2.2.1.nodup hR.2.2.1.nodup) (by simp)
  rw [e]
  simp only [List.map_nil, List.nil_append] at r2
  have hkeys : ∀ k, (∃ x, umap_find st'.map k = some x) ↔
      k ∈ List.product lhs.initialstates rhs.initialstates := by
    intro k
    rw [umap_find_isSome_iff, r2]
  exact
    { wf := r7
      id_lt := r4
      id_inj := r5
      wl_mem := by
        intro kv hkv
        rw [r1] at hkv
        exact umap_find_of_mem r3 hkv
      init_iff := by
        intro x
        rw [r6]
        constructor
        · rintro ⟨k, hk⟩
          exact ⟨k, (hkeys k).1 ⟨x, hk⟩, hk⟩
        · rintro ⟨k, _, hk⟩
          exact ⟨k, hk⟩
      init_mem := fun k hk => (hkeys k).2 hk
      final_sound := by
        intro x hx
        rw [r9] at hx
        exact absurd hx (List.not_mem_nil _)
      trans_sound := by
        intro t ht
        simp [Nfa.has_trans, r8] at ht
      keys_nodup := r3
      keys_univ := by
        intro k hk
        rw [r2] at hk
        obtain ⟨h1, h2⟩ := List.mem_product.1 (show (k.1, k.2) ∈ _ from hk)
        exact List.mem_product.2 ⟨(mem_state_list hL _).2 (Or.inl h1),
          (mem_state_list hR _).2 (Or.inl h2)⟩
      done := by
        intro k i hki hw
        rw [r1] at hw
        exact absurd (umap_find_some_mem hki) hw }

theorem prod_succ_univ {lhs rhs : Nfa} (hL : lhs.WF) (hR : rhs.WF) :
    ∀ k ∈ List.product lhs.state_list rhs.state_list, ∀ sk ∈ prod_succ lhs rhs k,
      sk.2 ∈ List.product lhs.state_list rhs.state_list := by
  intro k _ sk hsk
  obtain ⟨h1, h2⟩ := (mem_prod_succ hL hR k sk.1 sk.2).1 hsk
  exact List.mem_product.2
    ⟨(mem_state_list hL _).2 (Or.inr (Or.inr ⟨_, h1, Or.inr rfl⟩)),
      (mem_state_list hR _).2 (Or.inr (Or.inr ⟨_, h2, Or.inr rfl⟩))⟩

/-- `intersection` terminates on well-formed automata and builds a well-formed automaton
that accepts exactly the words accepted by both. -/
theorem intersection_spec {lhs rhs : Nfa} (hL : lhs.WF) (hR : rhs.WF) :
    ∃ fuel R, (∀ n, fuel ≤ n → intersection n lhs rhs = some R) ∧ R.WF ∧
      ∀ w, R.accepts w ↔ lhs.accepts w ∧ rhs.accepts w := by
  obtain ⟨fuel, st, h1, h2, _, h4⟩ := explore_spec (prod_succ_univ hL hR) _
    (intersection_init_inv hL hR)
  refine ⟨fuel, st.result, fun n hn => ?_, h2.wf, fun w => ?_⟩
  · unfold intersection intersection_into
    simp only [intersection_body_eq, h1 n hn, Option.map_some']
  · rw [h4 w, Acc_prod hL hR]

theorem intersection_mono {lhs rhs : Nfa} {n m : Nat} {R : Nfa}
    (h : intersection n lhs rhs = some R) (hnm : n ≤ m) : intersection m lhs rhs = some R := by
  unfold intersection intersection_into at h ⊢
  simp only at h ⊢
  cases hl : while_loop (fun st => !st.worklist.isEmpty) (intersection_body lhs rhs) n
      (intersection_init {} lhs rhs []) with
  | none => simp [hl] at h
  | some st =>
    rw [while_loop_mono hl hnm]
    rw [hl] at h
    exact h

/-- C2: for well-formed automata `A` and `B`, `intersection(A, B)` (no caller-supplied
product map) terminates, and for every word `w`, `is_in_lang` of the result is true iff
`is_in_lang(A, w)` and `is_in_lang(B, w)` are both true. -/
theorem intersection_correct (A B : Nfa) (hA : A.WF) (hB : B.WF) :
    ∃ R, (∃ fuel, ∀ n, fuel ≤ n → intersection n A B = some R) ∧
      (∀ n R', intersection n A B = some R' → R' = R) ∧
      ∀ w, is_in_lang R w = true ↔ (is_in_lang A w = true ∧ is_in_lang B w = true) := by
  obtain ⟨fuel, R, h1, _, h3⟩ := intersection_spec hA hB
  refine ⟨R, ⟨fuel, h1⟩, fun n R' h => ?_, fun w => ?_⟩
  · have := intersection_mono h (le_max_left n fuel)
    rw [h1 _ (le_max_right n fuel)] at this
    cases this
    rfl
  · simp only [is_in_lang_iff]
    exact h3 w

theorem intersection_correct_witness :
    nfa_S3_lhs.WF ∧ nfa_S3_rhs.WF ∧
    ∃ R, (∃ fuel, ∀ n, fuel ≤ n → intersection n nfa_S3_lhs nfa_S3_rhs = some R) ∧
      (∀ n R', intersection n nfa_S3_lhs nfa_S3_rhs = some R' → R' = R) ∧
      ∀ w, is_in_lang R w = true ↔
        (is_in_lang nfa_S3_lhs w = true ∧ is_in_lang nfa_S3_rhs w = true) :=
  ⟨by decide, by decide, intersection_correct nfa_S3_lhs nfa_S3_rhs (by decide) (by decide)⟩

end Vata2

namespace Vata2

/-! ## Determinization -/

theorem determinize_body_eq (aut : Nfa) :
    determinize_body aut =
      explore_body (fun S => !are_disjoint S aut.finalstates) (determinize_post_symb aut) := by
  funext st
  unfold determinize_body explore_body
  cases hw : st.worklist with
  | nil => rfl
  | cons e rest => rfl

theorem determinize_post_symb_eq (aut : Nfa) (S : StateSet) :
    determinize_post_symb aut S = (S.flatMap aut.index).foldl post_symb_add [] := by
  unfold determinize_post_symb
  rw [foldl_flatMap']
  rfl

theorem post_symb_add_find (ps : PostSymb) (a : Symbol) (tg : StateSet) (b : Symbol) :
    umap_find (post_symb_add ps (a, tg)) b =
      if b = a then
        some (set_insert_all tg (match umap_find ps a with
          | some P => P
          | none => []))
      else umap_find ps b := by
  unfold post_symb_add umap_index
  cases h : umap_find ps a with
  | some P =>
    simp only
    by_cases hb : b = a
    · subst hb
      simp [umap_find_replace_self _ h]
    · simp [hb, umap_find_replace_ne _ hb]
  | none =>
    simp only
    have h' : umap_find (ps ++ [(a, ([] : StateSet))]) a = some [] :=
      (umap_find_append_single _ _ _ _ _).2 (Or.inr ⟨h, rfl, rfl⟩)
    by_cases hb : b = a
    · subst hb
      simp [umap_find_replace_self _ h']
    · rw [umap_find_replace_ne _ hb]
      simp only [hb, if_false, umap_find_append]
      have hb' : ¬ a = b := fun e => hb e.symm
      cases umap_find ps b <;> simp [hb']

theorem post_symb_add_keys_nodup (ps : PostSymb) (e : Symbol × StateSet)
    (h : (ps.map Prod.fst).Nodup) : ((post_symb_add ps e).map Prod.fst).Nodup := by
  unfold post_symb_add umap_index
  cases hf : umap_find ps e.1 with
  | some P => simp only [umap_replace_keys]; exact h
  | none =>
    simp only [umap_replace_keys, List.map_append, List.map_cons, List.map_nil]
    rw [List.nodup_append]
    refine ⟨h, List.nodup_singleton _, ?_⟩
    intro x hx hx'
    simp only [List.mem_singleton] at hx'
    subst hx'
    exact (umap_find_eq_none_iff.1 hf) hx

/-- The table built by accumulating a list of (symbol, target set) entries. -/
theorem post_symb_fold_spec (E : List (Symbol × StateSet)) (ps : PostSymb)
    (hnd : (ps.map Prod.fst).Nodup)
    (hs : ∀ a P, umap_find ps a = some P → P.Sorted (· < ·)) :
    ((E.foldl post_symb_add ps).map Prod.fst).Nodup ∧
    (∀ a P, umap_find (E.foldl post_symb_add ps) a = some P → P.Sorted (· < ·)) ∧
    (∀ a, (∃ P, umap_find (E.foldl post_symb_add ps) a = some P) ↔
      (∃ P, umap_find ps a = some P) ∨ ∃ tg, (a, tg) ∈ E) ∧
    (∀ a P, umap_find (E.foldl post_symb_add ps) a = some P →
      ∀ t, t ∈ P ↔ (∃ P₀, umap_find ps a = some P₀ ∧ t ∈ P₀) ∨ ∃ tg, (a, tg) ∈ E ∧ t ∈ tg) := by
  induction E generalizing ps with
  | nil =>
    refine ⟨hnd, hs, fun a => by simp, fun a P h t => ?_⟩
    simp only [List.foldl_nil] at h
    simp [h]
  | cons e E ih =>
    obtain ⟨a₀, tg₀⟩ := e
    simp only [List.foldl_cons]
    have hs' : ∀ a P, umap_find (post_symb_add ps (a₀, tg₀)) a = some P → P.Sorted (· < ·) := by
      intro a P h
      rw [post_symb_add_find] at h
      split_ifs at h with ha
      · cases h
        apply sorted_set_insert_all
        cases hf : umap_find ps a₀ with
        | none => exact List.sorted_nil
        | some P₀ => exact hs a₀ P₀ hf
      · exact hs a P h
    obtain ⟨i1, i2, i3, i4⟩ := ih (post_symb_add ps (a₀, tg₀))
      (post_symb_add_keys_nodup ps _ hnd) hs'
    refine ⟨i1, i2, ?_, ?_⟩
    · intro a
      rw [i3]
      simp only [post_symb_add_find, List.mem_cons, Prod.mk.injEq]
      by_cases ha : a = a₀
      · subst ha
        simp
      · simp only [ha, if_false, false_and, false_or]
    · intro a P h t
      rw [i4 a P h]
      by_cases ha : a = a₀
      · subst ha
        have hadd : (∃ P₀, umap_find (post_symb_add ps (a, tg₀)) a = some P₀ ∧ t ∈ P₀) ↔
            t ∈ tg₀ ∨ ∃ P₀, umap_find ps a = some P₀ ∧ t ∈ P₀ := by
          rw [post_symb_add_find]
          simp only [if_true, Option.some.injEq, exists_eq_left', mem_set_insert_all]
          cases hf : umap_find ps a with
          | none => simp
          | some P₁ => simp
        rw [hadd]
        constructor
        · rintro ((h1 | h1) | ⟨tg, h1, h2⟩)
          · exact Or.inr ⟨tg₀, List.mem_cons_self _ _, h1⟩
          · exact Or.inl h1
          · exact Or.inr ⟨tg, List.mem_cons_of_mem _ h1, h2⟩
        · rintro (h1 | ⟨tg, h1, h2⟩)
          · exact Or.inl (Or.inr h1)
          · rcases List.mem_cons.1 h1 with h1 | h1
            · simp only [Prod.mk.injEq, true_and] at h1
              subst h1
              exact Or.inl (Or.inl h2)
            · exact Or.inr ⟨tg, h1, h2⟩
      · simp only [post_symb_add_find, ha, if_false, List.mem_cons, Prod.mk.injEq, false_and,
          false_or]

/-- The successors of a macrostate as `determinize` computes them: one entry per symbol over
which some member has a transition, holding the ascending set of all targets. -/
theorem mem_determinize_post_symb {aut : Nfa} (hA : aut.WF) (S : StateSet) (a : Symbol)
    (S' : StateSet) :
    (a, S') ∈ determinize_post_symb aut S ↔
      S' ≠ [] ∧ S'.Sorted (· < ·) ∧
        ∀ t, t ∈ S' ↔ ∃ s ∈ S, aut.has_trans ⟨s, a, t⟩ = true := by
  rw [determinize_post_symb_eq]
  obtain ⟨i1, i2, i3, i4⟩ := post_symb_fold_spec (S.flatMap aut.index) [] (by simp)
    (by intro a P h; simp at h)
  have hE : ∀ t, (∃ tg, (a, tg) ∈ S.flatMap aut.index ∧ t ∈ tg) ↔
      ∃ s ∈ S, aut.has_trans ⟨s, a, t⟩ = true := by
    intro t
    simp only [List.mem_flatMap]
    constructor
    · rintro ⟨tg, ⟨s, hs, he⟩, ht⟩
      exact ⟨s, hs, has_trans_of_mem_index hA he ht⟩
    · rintro ⟨s, hs, ht⟩
      obtain ⟨tg, he, hx⟩ := mem_index_of_has_trans ht
      exact ⟨tg, ⟨s, hs, he⟩, hx⟩
  constructor
  · intro h
    have hf := umap_find_of_mem i1 h
    have hmem : ∀ t, t ∈ S' ↔ ∃ s ∈ S, aut.has_trans ⟨s, a, t⟩ = true := by
      intro t
      rw [i4 a S' hf t, ← hE]
      simp
    refine ⟨?_, i2 a S' hf, hmem⟩
    obtain ⟨tg, htg⟩ : ∃ tg, (a, tg) ∈ S.flatMap aut.index := by
      have := (i3 a).1 ⟨S', hf⟩
      simpa using this
    obtain ⟨s, hs, he⟩ := List.mem_flatMap.1 htg
    obtain ⟨x, hx⟩ := List.exists_mem_of_ne_nil _ (index_tgts_ne_nil hA he)
    intro hnil
    have : x ∈ S' := (hmem x).2 ⟨s, hs, has_trans_of_mem_index hA he hx⟩
    rw [hnil] at this
    exact absurd this (List.not_mem_nil _)
  · rintro ⟨hne, hsorted, hmem⟩
    obtain ⟨x, hx⟩ := List.exists_mem_of_ne_nil _ hne
    obtain ⟨tg, htg, _⟩ := (hE x).2 ((hmem x).1 hx)
    obtain ⟨P, hP⟩ := (i3 a).2 (Or.inr ⟨tg, htg⟩)
    have : P = S' := by
      apply sorted_ext (i2 a P hP) hsorted
      intro t
      rw [i4 a P hP t, hmem, ← hE]
      simp
    subst this
    exact umap_find_some_mem hP

/-- A run of the subset automaton ends in the set of states that the runs of the automaton
reach. -/
theorem Reach_subset {aut : Nfa} (hA : aut.WF) {S S' : StateSet} {w : Word}
    (h : Reach (fun k a k' => (a, k') ∈ determinize_post_symb aut k) S w S') :
    ∀ t, t ∈ S' ↔ ∃ s ∈ S, aut.reach s w t := by
  induction w generalizing S with
  | nil =>
    simp only [Reach_nil] at h
    subst h
    intro t
    simp
  | cons a w ih =>
    obtain ⟨S₁, h1, h2⟩ := h
    obtain ⟨_, _, hm⟩ := (mem_determinize_post_symb hA S a S₁).1 h1
    intro t
    rw [ih h2 t]
    simp only [Nfa.reach_cons]
    constructor
    · rintro ⟨r, hr, hreach⟩
      obtain ⟨s, hs, hsr⟩ := (hm r).1 hr
      exact ⟨s, hs, r, hsr, hreach⟩
    · rintro ⟨s, hs, r, hsr, hreach⟩
      exact ⟨r, (hm r).2 ⟨s, hs, hsr⟩, hreach⟩

theorem Reach_subset_exists {aut : Nfa} (hA : aut.WF) {S : StateSet} {w : Word} {s t : State}
    (hs : s ∈ S) (hr : aut.reach s w t) :
    ∃ S', Reach (fun k a k' => (a, k') ∈ determinize_post_symb aut k) S w S' ∧ t ∈ S' := by
  induction w generalizing S s with
  | nil =>
    simp only [Nfa.reach_nil] at hr
    subst hr
    exact ⟨S, rfl, hs⟩
  | cons a w ih =>
    obtain ⟨r, hsr, hreach⟩ := hr
    have hr1 : r ∈ aut.post_macro S a := (Nfa.mem_post_macro aut S a r).2 ⟨s, hs, hsr⟩
    obtain ⟨S', h1, h2⟩ := ih hr1 hreach
    refine ⟨S', ⟨aut.post_macro S a, ?_, h1⟩, h2⟩
    show (a, aut.post_macro S a) ∈ determinize_post_symb aut S
    rw [mem_determinize_post_symb hA]
    exact ⟨List.ne_nil_of_mem hr1, Nfa.sorted_post_macro aut S a,
      fun t => Nfa.mem_post_macro aut S a t⟩

theorem Acc_subset {aut : Nfa} (hA : aut.WF) (w : Word) :
    Acc (· ∈ [aut.initialstates]) (fun S => (!are_disjoint S aut.finalstates) = true)
        (fun k a k' => (a, k') ∈ determinize_post_symb aut k) w ↔ aut.accepts w := by
  constructor
  · rintro ⟨S₀, hS₀, S', hF, hr⟩
    simp only [List.mem_singleton] at hS₀
    subst hS₀
    simp only [Bool.not_eq_true', are_disjoint_eq_false_iff] at hF
    obtain ⟨x, hx, hxf⟩ := hF
    obtain ⟨s, hs, hreach⟩ := (Reach_subset hA hr x).1 hx
    exact ⟨s, hs, x, hxf, hreach⟩
  · rintro ⟨q0, hq0, qf, hqf, hr⟩
    obtain ⟨S', h1, h2⟩ := Reach_subset_exists hA hq0 hr
    refine ⟨aut.initialstates, List.mem_singleton_self _, S', ?_, h1⟩
    simp only [Bool.not_eq_true', are_disjoint_eq_false_iff]
    exact ⟨qf, h2, hqf⟩

theorem mem_sublists_of_sorted {S L : List Nat} (hS : S.Sorted (· < ·))
    (hL : L.Sorted (· < ·)) (h : ∀ x ∈ S, x ∈ L) : S ∈ L.sublists := by
  rw [List.mem_sublists]
  exact List.sublist_of_subperm_of_sorted (List.Nodup.subperm hS.nodup h) hS hL

theorem determinize_univ {aut : Nfa} (hA : aut.WF) :
    ∀ k ∈ (set_insert_all aut.state_list []).sublists, ∀ sk ∈ determinize_post_symb aut k,
      sk.2 ∈ (set_insert_all aut.state_list []).sublists := by
  intro k _ sk hsk
  obtain ⟨_, hsorted, hm⟩ := (mem_determinize_post_symb hA k sk.1 sk.2).1 hsk
  apply mem_sublists_of_sorted hsorted (sorted_set_insert_all _ _ List.sorted_nil)
  intro x hx
  obtain ⟨s, _, hsx⟩ := (hm x).1 hx
  rw [mem_set_insert_all]
  left
  exact (mem_state_list hA x).2 (Or.inr (Or.inr ⟨_, hsx, Or.inr rfl⟩))

theorem determinize_init_inv {aut : Nfa} (hA : aut.WF) :
    ExploreInv (fun S => !are_disjoint S aut.finalstates) (determinize_post_symb aut)
      [aut.initialstates] (set_insert_all aut.state_list []).sublists none
      { result := { initialstates := [0] }, map := [(aut.initialstates, 0)], cnt_state := 1,
        worklist := [(aut.initialstates, 0)] } :=
  { wf := by refine ⟨?_, ?_, ?_, ?_⟩ <;> simp
    id_lt := by
      intro k v h
      simp only [umap_find_cons, umap_find_nil] at h
      split_ifs at h
      cases h
      exact Nat.zero_lt_one
    id_inj := by
      intro k k' v h h'
      simp only [umap_find_cons, umap_find_nil] at h h'
      split_ifs at h h' with e1 e2
      rw [← e1, ← e2]
    wl_mem := by
      intro kv hkv
      simp only [List.mem_singleton] at hkv
      subst hkv
      simp
    init_iff := by
      intro x
      simp only [List.mem_singleton, exists_eq_left, umap_find_cons, if_true,
        Option.some.injEq]
      exact eq_comm
    init_mem := by
      intro k hk
      simp only [List.mem_singleton] at hk
      subst hk
      exact ⟨0, by simp⟩
    final_sound := by
      intro x hx
      simp at hx
    trans_sound := by
      intro t ht
      simp [Nfa.has_trans] at ht
    keys_nodup := by simp
    keys_univ := by
      intro k hk
      simp only [List.map_cons, List.map_nil, List.mem_singleton] at hk
      subst hk
      apply mem_sublists_of_sorted hA.2.2.1 (sorted_set_insert_all _ _ List.sorted_nil)
      intro x hx
      rw [mem_set_insert_all]
      left
      exact (mem_state_list hA x).2 (Or.inl hx)
    done := by
      intro k i hki hw
      simp only [umap_find_cons, umap_find_nil] at hki
      split_ifs at hki with e
      cases hki
      subst e
      simp at hw }

/-- `determinize` terminates on every well-formed automaton and builds a well-formed
automaton with the same language. -/
theorem determinize_spec {aut : Nfa} (hA : aut.WF) :
    ∃ fuel D, (∀ n, fuel ≤ n → determinize n aut = some D) ∧ D.WF ∧
      ∀ w, D.accepts w ↔ aut.accepts w := by
  obtain ⟨fuel, st, h1, h2, _, h4⟩ := explore_spec (determinize_univ hA) _
    (determinize_init_inv hA)
  refine ⟨fuel, st.result, fun n hn => ?_, h2.wf, fun w => ?_⟩
  · unfold determinize determinize_into
    simp only [determinize_body_eq, umap_insert, umap_find_nil, List.nil_append]
    have := h1 n hn
    simp only [Nat.zero_add] at this ⊢
    rw [this]
    rfl
  · rw [h4 w, Acc_subset hA]

theorem determinize_mono {aut : Nfa} {n m : Nat} {D : Nfa}
    (h : determinize n aut = some D) (hnm : n ≤ m) : determinize m aut = some D := by
  unfold determinize determinize_into at h ⊢
  simp only at h ⊢
  cases hl : while_loop (fun st => !st.worklist.isEmpty) (determinize_body aut) n
      { result := { ({} : Nfa) with initialstates := [0] },
        map := (umap_insert ([] : SubsetMap) aut.initialstates 0).1,
        cnt_state := 0 + 1, worklist := [(aut.initialstates, 0)] } with
  | none => simp [hl] at h
  | some st =>
    rw [while_loop_mono hl hnm]
    rw [hl] at h
    exact h

/-- C1: for every well-formed automaton `A`, `determinize(A)` (no caller-supplied subset
map) terminates, and for every word `w`, `is_in_lang(determinize(A), w)` equals
`is_in_lang(A, w)`. -/
theorem determinize_correct (A : Nfa) (hA : A.WF) :
    ∃ D, (∃ fuel, ∀ n, fuel ≤ n → determinize n A = some D) ∧
      (∀ n D', determinize n A = some D' → D' = D) ∧
      ∀ w, is_in_lang D w = is_in_lang A w := by
  obtain ⟨fuel, D, h1, _, h3⟩ := determinize_spec hA
  refine ⟨D, ⟨fuel, h1⟩, fun n D' h => ?_, fun w => is_in_lang_congr (h3 w)⟩
  have := determinize_mono h (le_max_left n fuel)
  rw [h1 _ (le_max_right n fuel)] at this
  cases this
  rfl

theorem determinize_correct_witness :
    nfa_S6.WF ∧
    ∃ D, (∃ fuel, ∀ n, fuel ≤ n → determinize n nfa_S6 = some D) ∧
      (∀ n D', determinize n nfa_S6 = some D' → D' = D) ∧
      ∀ w, is_in_lang D w = is_in_lang nfa_S6 w :=
  ⟨by decide, determinize_correct nfa_S6 (by decide)⟩

end Vata2

namespace Vata2

/-! ## Reversal and minimization -/

/-- Reading a word backwards along reversed transitions. -/
theorem Reach_reverse {κ : Type} {T T' : κ → Symbol → κ → Prop}
    (hT : ∀ q a r, T' q a r ↔ T r a q) (q r : κ) (w : Word) :
    Reach T' q w r ↔ Reach T r w.reverse q := by
  induction w generalizing q with
  | nil =>
    simp only [Reach_nil, List.reverse_nil]
    exact eq_comm
  | cons a w ih =>
    simp only [Reach_cons, List.reverse_cons, Reach_append_iff, Reach_nil]
    constructor
    · rintro ⟨p, hp, hrest⟩
      exact ⟨p, (ih p).1 hrest, q, (hT q a p).1 hp, rfl⟩
    · rintro ⟨p, hrest, x, hp, rfl⟩
      exact ⟨p, (hT x a p).2 hp, (ih p).2 hrest⟩

theorem revert_eq (aut : Nfa) :
    revert aut =
      (aut.trans_list.map (fun trans => Trans.mk trans.tgt trans.symb trans.src)).foldl
        Nfa.add_trans
        { transitions := [], initialstates := aut.finalstates,
          finalstates := aut.initialstates } := by
  unfold revert revert_into
  simp only [foldl_add_trans_map]

@[simp] theorem revert_initialstates (aut : Nfa) :
    (revert aut).initialstates = aut.finalstates := by
  rw [revert_eq, Nfa.foldl_add_trans_initialstates]

@[simp] theorem revert_finalstates (aut : Nfa) :
    (revert aut).finalstates = aut.initialstates := by
  rw [revert_eq, Nfa.foldl_add_trans_finalstates]

theorem revert_wf {aut : Nfa} (h : aut.WF) : (revert aut).WF := by
  rw [revert_eq]
  apply Nfa.foldl_add_trans_wf
  exact ⟨by simp, by simp, h.2.2.2, h.2.2.1⟩

/-- The reverted automaton has exactly the reversed transitions. -/
theorem revert_has_trans {aut : Nfa} (h : aut.WF) (q : State) (a : Symbol) (r : State) :
    (revert aut).has_trans ⟨q, a, r⟩ = true ↔ aut.has_trans ⟨r, a, q⟩ = true := by
  rw [revert_eq, Nfa.has_trans_foldl_add_trans]
  have hemp : ∀ i f : StateSet, Nfa.has_trans ⟨[], i, f⟩ ⟨q, a, r⟩ = false :=
    fun _ _ => rfl
  rw [hemp]
  simp only [List.mem_map, Trans.mk.injEq, Bool.false_eq_true, or_false]
  constructor
  · rintro ⟨t, ht, rfl, rfl, rfl⟩
    exact (Nfa.mem_trans_list_iff h t).1 ht
  · intro ht
    exact ⟨⟨r, a, q⟩, (Nfa.mem_trans_list_iff h _).2 ht, rfl, rfl, rfl⟩

/-- The reverted automaton accepts the mirror images of the accepted words. -/
theorem revert_accepts {aut : Nfa} (h : aut.WF) (w : Word) :
    (revert aut).accepts w ↔ aut.accepts w.reverse := by
  have key : ∀ q r, (revert aut).reach q w r ↔ aut.reach r w.reverse q :=
    fun q r => Reach_reverse (fun q a r => revert_has_trans h q a r) q r w
  constructor
  · rintro ⟨q0, hq0, qf, hqf, hr⟩
    rw [revert_initialstates] at hq0
    rw [revert_finalstates] at hqf
    exact ⟨qf, hqf, q0, hq0, (key q0 qf).1 hr⟩
  · rintro ⟨q0, hq0, qf, hqf, hr⟩
    exact ⟨qf, by rw [revert_initialstates]; exact hqf, q0,
      by rw [revert_finalstates]; exact hq0, (key qf q0).2 hr⟩

/-- `minimize` terminates on every well-formed automaton and keeps the language. -/
theorem minimize_spec {aut : Nfa} (hA : aut.WF) (params : List (String × String)) :
    ∃ fuel M, (∀ n, fuel ≤ n → minimize n aut params = some M) ∧ M.WF ∧
      ∀ w, M.accepts w ↔ aut.accepts w := by
  obtain ⟨f1, D1, h1, w1, l1⟩ := determinize_spec (revert_wf hA)
  obtain ⟨f2, D2, h2, w2, l2⟩ := determinize_spec (revert_wf w1)
  refine ⟨max f1 f2, D2, fun n hn => ?_, w2, fun w => ?_⟩
  · unfold minimize
    rw [h1 n (le_trans (le_max_left _ _) hn)]
    exact h2 n (le_trans (le_max_right _ _) hn)
  · rw [l2, revert_accepts w1, l1, revert_accepts hA, List.reverse_reverse]

theorem minimize_mono {aut : Nfa} {params : List (String × String)} {n m : Nat} {M : Nfa}
    (h : minimize n aut params = some M) (hnm : n ≤ m) : minimize m aut params = some M := by
  unfold minimize at h ⊢
  cases hd : determinize n (revert aut) with
  | none => simp [hd] at h
  | some tmp =>
    rw [determinize_mono hd hnm]
    rw [hd] at h
    exact determinize_mono h hnm

/-- C5: for every well-formed automaton `A`, every `params` mapping and every word `w`,
`minimize(A, params)` terminates and `is_in_lang(minimize(A, params), w)` equals
`is_in_lang(A, w)`. -/
theorem minimize_correct (A : Nfa) (hA : A.WF) (params : List (String × String)) :
    ∃ M, (∃ fuel, ∀ n, fuel ≤ n → minimize n A params = some M) ∧
      (∀ n M', minimize n A params = some M' → M' = M) ∧
      ∀ w, is_in_lang M w = is_in_lang A w := by
  obtain ⟨fuel, M, h1, _, h3⟩ := minimize_spec hA params
  refine ⟨M, ⟨fuel, h1⟩, fun n M' h => ?_, fun w => is_in_lang_congr (h3 w)⟩
  have := minimize_mono h (le_max_left n fuel)
  rw [h1 _ (le_max_right n fuel)] at this
  cases this
  rfl

theorem minimize_correct_witness :
    nfa_S6.WF ∧
    ∃ M, (∃ fuel, ∀ n, fuel ≤ n → minimize n nfa_S6 [("algo", "hopcroft")] = some M) ∧
      (∀ n M', minimize n nfa_S6 [("algo", "hopcroft")] = some M' → M' = M) ∧
      ∀ w, is_in_lang M w = is_in_lang nfa_S6 w :=
  ⟨by decide, minimize_correct nfa_S6 (by decide) [("algo", "hopcroft")]⟩

end Vata2

namespace Vata2

/-! ## Removal of epsilon transitions: the closure computation -/

theorem cl_of_of_find {m : List (State × StateSet)} {s : State} {c : StateSet}
    (h : umap_find m s = some c) : cl_of m s = c := by
  simp [cl_of, h]

theorem cl_of_of_none {m : List (State × StateSet)} {s : State}
    (h : umap_find m s = none) : cl_of m s = [] := by
  simp [cl_of, h]

theorem cl_of_replace {m : List (State × StateSet)} {k : State} {c₀ : StateSet}
    (h : umap_find m k = some c₀) (c : StateSet) (x : State) :
    cl_of (umap_replace m k c) x = if x = k then c else cl_of m x := by
  by_cases hx : x = k
  · subst hx
    simp [cl_of, umap_find_replace_self c h]
  · simp [cl_of, umap_find_replace_ne c hx, hx]

/-- Reading `eps_closure[k]` does not change any closure. -/
theorem umap_index_nil_spec (m : List (State × StateSet)) (k : State) :
    (∀ x, cl_of (umap_index m k []).1 x = cl_of m x) ∧
    (umap_index m k []).2 = cl_of m k ∧
    umap_find (umap_index m k []).1 k = some (cl_of m k) ∧
    ((m.map Prod.fst).Nodup → ((umap_index m k []).1.map Prod.fst).Nodup) := by
  unfold umap_index
  cases h : umap_find m k with
  | some c =>
    exact ⟨fun x => rfl, (cl_of_of_find h).symm, by rw [cl_of_of_find h]; exact h, fun h => h⟩
  | none =>
    simp only
    refine ⟨?_, (cl_of_of_none h).symm, ?_, ?_⟩
    · intro x
      unfold cl_of
      rw [umap_find_append]
      cases hx : umap_find m x with
      | some c => rfl
      | none =>
        simp only [umap_find_cons, umap_find_nil]
        split_ifs <;> rfl
    · rw [cl_of_of_none h]
      exact (umap_find_append_single _ _ _ _ _).2 (Or.inr ⟨h, rfl, rfl⟩)
    · intro hnd
      simp only [List.map_append, List.map_cons, List.map_nil]
      rw [List.nodup_append]
      refine ⟨hnd, List.nodup_singleton _, ?_⟩
      intro x hx hx'
      simp only [List.mem_singleton] at hx'
      subst hx'
      exact (umap_find_eq_none_iff.1 h) hx

theorem set_insert_length_of_not_mem {x : Nat} {l : List Nat} (h : x ∉ l) :
    (set_insert x l).length = l.length + 1 := by
  induction l with
  | nil => rfl
  | cons y ys ih =>
    simp only [List.mem_cons, not_or] at h
    unfold set_insert
    split_ifs with h1 h2
    · rfl
    · exact absurd h2 h.1
    · simp [ih h.2]

/-- The loop `for (State st : tgt_eps_cl) { if (src_eps_cl.insert(st).second) changed = true; }`. -/
theorem closure_union_spec (c_r : List State) (acc : StateSet × Bool) :
    (∀ t, t ∈ (c_r.foldl (fun (acc : StateSet × Bool) st =>
        if haskey acc.1 st then acc else (set_insert st acc.1, true)) acc).1 ↔
      t ∈ acc.1 ∨ t ∈ c_r) ∧
    (acc.1.Sorted (· < ·) → (c_r.foldl (fun (acc : StateSet × Bool) st =>
        if haskey acc.1 st then acc else (set_insert st acc.1, true)) acc).1.Sorted (· < ·)) ∧
    acc.1.length ≤ (c_r.foldl (fun (acc : StateSet × Bool) st =>
        if haskey acc.1 st then acc else (set_insert st acc.1, true)) acc).1.length ∧
    ((c_r.foldl (fun (acc : StateSet × Bool) st =>
        if haskey acc.1 st then acc else (set_insert st acc.1, true)) acc).2 = false →
      acc.2 = false ∧ (∀ t ∈ c_r, t ∈ acc.1) ∧
      (c_r.foldl (fun (acc : StateSet × Bool) st =>
        if haskey acc.1 st then acc else (set_insert st acc.1, true)) acc).1 = acc.1) ∧
    ((c_r.foldl (fun (acc : StateSet × Bool) st =>
        if haskey acc.1 st then acc else (set_insert st acc.1, true)) acc).2 = true →
      acc.2 = true ∨ acc.1.length < (c_r.foldl (fun (acc : StateSet × Bool) st =>
        if haskey acc.1 st then acc else (set_insert st acc.1, true)) acc).1.length) := by
  induction c_r generalizing acc with
  | nil =>
    simp only [List.foldl_nil]
    exact ⟨fun t => by simp, fun h => h, le_refl _,
      fun h => ⟨h, fun _ h' => absurd h' (List.not_mem_nil _), trivial⟩, fun h => Or.inl h⟩
  | cons x c_r ih =>
    simp only [List.foldl_cons]
    by_cases hx : x ∈ acc.1
    · have hk : haskey acc.1 x = true := (haskey_iff _ _).2 hx
      simp only [hk, if_true]
      obtain ⟨i1, i2, i3, i4, i5⟩ := ih acc
      refine ⟨?_, i2, i3, ?_, i5⟩
      · intro t
        rw [i1]
        simp only [List.mem_cons]
        constructor
        · rintro (h | h)
          · exact Or.inl h
          · exact Or.inr (Or.inr h)
        · rintro (h | rfl | h)
          · exact Or.inl h
          · exact Or.inl hx
          · exact Or.inr h
      · intro h
        obtain ⟨j1, j2, j3⟩ := i4 h
        refine ⟨j1, ?_, j3⟩
        intro t ht
        rcases List.mem_cons.1 ht with rfl | ht
        · exact hx
        · exact j2 t ht
    · have hk : haskey acc.1 x = false := by
        rw [← Bool.not_eq_true, haskey_iff]
        exact hx
      simp only [hk, Bool.false_eq_true, if_false]
      obtain ⟨i1, i2, i3, i4, i5⟩ := ih (set_insert x acc.1, true)
      simp only at i1 i2 i3 i4 i5
      have hlen := set_insert_length_of_not_mem hx
      refine ⟨?_, fun h => i2 (sorted_set_insert _ _ h), by omega, ?_, ?_⟩
      · intro t
        rw [i1, mem_set_insert]
        simp only [List.mem_cons]
        tauto
      · intro h
        have := (i4 h).1
        cases this
      · intro _
        right
        omega

theorem eps_reach_refl (A : Nfa) (eps : Symbol) (s : State) : EpsReach A eps s s :=
  ⟨[], rfl, fun _ h => absurd h (List.not_mem_nil _)⟩

theorem eps_reach_head {A : Nfa} {eps : Symbol} {s r t : State}
    (h : A.has_trans ⟨s, eps, r⟩ = true) (h' : EpsReach A eps r t) : EpsReach A eps s t := by
  obtain ⟨v, hv, hall⟩ := h'
  refine ⟨eps :: v, ⟨r, h, hv⟩, ?_⟩
  intro a ha
  rcases List.mem_cons.1 ha with rfl | ha
  · rfl
  · exact hall a ha

theorem sum_map_le {L : List State} {f g : State → Nat} (h : ∀ x ∈ L, f x ≤ g x) :
    (L.map f).sum ≤ (L.map g).sum := by
  induction L with
  | nil => simp
  | cons x L ih =>
    simp only [List.map_cons, List.sum_cons]
    have := h x (List.mem_cons_self _ _)
    have := ih (fun y hy => h y (List.mem_cons_of_mem _ hy))
    omega

theorem sum_map_lt {L : List State} {f g : State → Nat} (h : ∀ x ∈ L, f x ≤ g x)
    (h' : ∃ x ∈ L, f x < g x) : (L.map f).sum < (L.map g).sum := by
  induction L with
  | nil => obtain ⟨x, hx, _⟩ := h'; exact absurd hx (List.not_mem_nil _)
  | cons x L ih =>
    simp only [List.map_cons, List.sum_cons]
    have hx := h x (List.mem_cons_self _ _)
    have hle := sum_map_le (f := f) (g := g) (fun y hy => h y (List.mem_cons_of_mem _ hy))
    obtain ⟨y, hy, hlt⟩ := h'
    rcases List.mem_cons.1 hy with rfl | hy
    · omega
    · have := ih (fun y hy => h y (List.mem_cons_of_mem _ hy)) ⟨y, hy, hlt⟩
      omega

theorem sum_map_le_mul {L : List State} {f : State → Nat} {N : Nat}
    (h : ∀ x ∈ L, f x ≤ N) : (L.map f).sum ≤ L.length * N := by
  induction L with
  | nil => simp
  | cons x L ih =>
    simp only [List.map_cons, List.sum_cons, List.length_cons]
    have := h x (List.mem_cons_self _ _)
    have := ih (fun y hy => h y (List.mem_cons_of_mem _ hy))
    rw [Nat.add_mul]
    omega

theorem eps_size_le {A : Nfa} {eps : Symbol} (hA : A.WF) {m : List (State × StateSet)}
    (hI : EpsBase A eps m) : eps_size A m ≤ A.state_list.length * A.state_list.length := by
  unfold eps_size
  apply sum_map_le_mul
  intro x _
  apply length_le_of_nodup_subset (hI.sorted x).nodup
  intro t ht
  exact (mem_state_list hA t).2 (hI.elems x t ht)

end Vata2

namespace Vata2

/-! ## Removal of epsilon transitions: the loops that compute the closure -/

/-- Replacing the closure of one key keeps `EpsBase` when the new closure is sound. -/
theorem eps_base_update {A : Nfa} {eps : Symbol} {m m' : List (State × StateSet)}
    (hm : EpsBase A eps m) {k : State} {c : StateSet}
    (hk : (m'.map Prod.fst).Nodup)
    (hcl : ∀ x, cl_of m' x = if x = k then c else cl_of m x)
    (hs : c.Sorted (· < ·)) (he : ∀ t ∈ c, A.has_state t) (hr : ∀ t ∈ c, EpsReach A eps k t) :
    EpsBase A eps m' := by
  refine ⟨hk, ?_, ?_, ?_⟩
  · intro s
    rw [hcl]
    split_ifs
    · exact hs
    · exact hm.sorted s
  · intro s t ht
    rw [hcl] at ht
    split_ifs at ht
    · exact he t ht
    · exact hm.elems s t ht
  · intro s t ht
    rw [hcl] at ht
    split_ifs at ht with h
    · rw [h]; exact hr t ht
    · exact hm.sound s t ht

theorem eps_base_nil (A : Nfa) (eps : Symbol) : EpsBase A eps [] :=
  ⟨List.nodup_nil, fun _ => List.sorted_nil, fun _ _ h => absurd h (List.not_mem_nil _),
    fun _ _ h => absurd h (List.not_mem_nil _)⟩

theorem has_state_src {A : Nfa} {tr : Trans} (h : A.has_trans tr = true) : A.has_state tr.src :=
  Or.inr (Or.inr ⟨tr, h, Or.inl rfl⟩)

theorem has_state_tgt {A : Nfa} {tr : Trans} (h : A.has_trans tr = true) : A.has_state tr.tgt :=
  Or.inr (Or.inr ⟨tr, h, Or.inr rfl⟩)

/-- The call `eps_closure.insert({ src, {src} })`. -/
theorem umap_insert_self_spec (m : List (State × StateSet)) (k : State) :
    umap_find (umap_insert m k [k]).1 k = some (umap_insert m k [k]).2.1 ∧
    (∀ x, cl_of (umap_insert m k [k]).1 x =
      if x = k then (umap_insert m k [k]).2.1 else cl_of m x) ∧
    (∀ t, t ∈ (umap_insert m k [k]).2.1 → t = k ∨ t ∈ cl_of m k) ∧
    (∀ t, t ∈ cl_of m k → t ∈ (umap_insert m k [k]).2.1) ∧
    ((∀ c, umap_find m k = some c → k ∈ c) → k ∈ (umap_insert m k [k]).2.1) ∧
    ((cl_of m k).Sorted (· < ·) → ((umap_insert m k [k]).2.1).Sorted (· < ·)) ∧
    ((m.map Prod.fst).Nodup → ((umap_insert m k [k]).1.map Prod.fst).Nodup) := by
  unfold umap_insert
  cases h : umap_find m k with
  | some c =>
    simp only
    have hc := cl_of_of_find h
    refine ⟨h, ?_, ?_, ?_, ?_, ?_, fun h => h⟩
    · intro x
      split_ifs with hx
      · rw [hx, hc]
      · rfl
    · intro t ht; rw [hc]; exact Or.inr ht
    · intro t ht; rw [hc] at ht; exact ht
    · intro hs; exact hs c rfl
    · intro hs; rw [hc] at hs; exact hs
  | none =>
    simp only
    have hc := cl_of_of_none h
    have hf : umap_find (m ++ [(k, [k])]) k = some [k] :=
      (umap_find_append_single _ _ _ _ _).2 (Or.inr ⟨h, rfl, rfl⟩)
    refine ⟨hf, ?_, ?_, ?_, ?_, ?_, ?_⟩
    · intro x
      split_ifs with hx
      · rw [hx]; exact cl_of_of_find hf
      · unfold cl_of
        rw [umap_find_append]
        cases hx' : umap_find m x with
        | some c => rfl
        | none =>
          simp only [umap_find_cons, umap_find_nil]
          rw [if_neg (fun h' => hx h'.symm)]
    · intro t ht
      exact Or.inl (List.mem_singleton.1 ht)
    · intro t ht; rw [hc] at ht; exact absurd ht (List.not_mem_nil _)
    · intro _; exact List.mem_singleton_self _
    · intro _; exact List.sorted_singleton _
    · intro hnd
      simp only [List.map_append, List.map_cons, List.map_nil]
      rw [List.nodup_append]
      refine ⟨hnd, List.nodup_singleton _, ?_⟩
      intro x hx hx'
      simp only [List.mem_singleton] at hx'
      subst hx'
      exact (umap_find_eq_none_iff.1 h) hx

/-- One iteration of the initialisation loop. -/
theorem eps_closure_init_step_spec {A : Nfa} {eps : Symbol} {m : List (State × StateSet)}
    (hm : EpsBase A eps m) (hself : ∀ k c, umap_find m k = some c → k ∈ c)
    {tr : Trans} (htr : A.has_trans tr = true) :
    EpsBase A eps (eps_closure_init_step eps m tr) ∧
    (∀ k c, umap_find (eps_closure_init_step eps m tr) k = some c → k ∈ c) ∧
    (∀ x t, t ∈ cl_of m x → t ∈ cl_of (eps_closure_init_step eps m tr) x) ∧
    tr.src ∈ cl_of (eps_closure_init_step eps m tr) tr.src ∧
    (tr.symb = eps → tr.tgt ∈ cl_of (eps_closure_init_step eps m tr) tr.src) := by
  obtain ⟨i1, i2, i3, i4, i5, i6, i7⟩ := umap_insert_self_spec m tr.src
  have hsrc := i5 (hself tr.src)
  have hbase1 : EpsBase A eps (umap_insert m tr.src [tr.src]).1 := by
    refine eps_base_update hm (i7 hm.keys_nodup) i2 (i6 (hm.sorted _)) ?_ ?_
    · intro t ht
      rcases i3 t ht with rfl | ht
      · exact has_state_src htr
      · exact hm.elems _ t ht
    · intro t ht
      rcases i3 t ht with rfl | ht
      · exact eps_reach_refl _ _ _
      · exact hm.sound _ t ht
  have hself1 : ∀ k c, umap_find (umap_insert m tr.src [tr.src]).1 k = some c → k ∈ c := by
    intro k c hk
    by_cases hks : k = tr.src
    · rw [hks] at hk ⊢
      rw [i1] at hk
      cases hk
      exact hsrc
    · have h1 := i2 k
      rw [if_neg hks, cl_of_of_find hk] at h1
      cases hm' : umap_find m k with
      | some c' =>
        rw [cl_of_of_find hm'] at h1
        rw [h1]
        exact hself k c' hm'
      | none =>
        have : k ∈ (m.map Prod.fst) := by
          have hk' := umap_find_some_mem hk
          unfold umap_insert at hk'
          cases hf : umap_find m tr.src with
          | some c0 =>
            simp only [hf] at hk'
            exact List.mem_map.2 ⟨_, hk', rfl⟩
          | none =>
            simp only [hf, List.mem_append, List.mem_singleton, Prod.mk.injEq] at hk'
            rcases hk' with hk' | ⟨rfl, _⟩
            · exact List.mem_map.2 ⟨_, hk', rfl⟩
            · exact absurd rfl hks
        exact absurd this (umap_find_eq_none_iff.1 hm')
  have hmono1 : ∀ x t, t ∈ cl_of m x → t ∈ cl_of (umap_insert m tr.src [tr.src]).1 x := by
    intro x t ht
    rw [i2]
    split_ifs with hx
    · rw [hx] at ht; exact i4 t ht
    · exact ht
  unfold eps_closure_init_step
  simp only
  split_ifs with he
  · have hcl := cl_of_replace i1 (set_insert tr.tgt (umap_insert m tr.src [tr.src]).2.1)
    have hbase2 : EpsBase A eps (umap_replace (umap_insert m tr.src [tr.src]).1 tr.src
        (set_insert tr.tgt (umap_insert m tr.src [tr.src]).2.1)) := by
      refine eps_base_update hbase1 ?_ hcl (sorted_set_insert _ _ (i6 (hm.sorted _))) ?_ ?_
      · rw [umap_replace_keys]; exact hbase1.keys_nodup
      · intro t ht
        rcases (mem_set_insert _ _ _).1 ht with rfl | ht
        · exact has_state_tgt htr
        · rcases i3 t ht with rfl | ht
          · exact has_state_src htr
          · exact hm.elems _ t ht
      · intro t ht
        rcases (mem_set_insert _ _ _).1 ht with rfl | ht
        · refine eps_reach_head ?_ (eps_reach_refl _ _ _)
          rw [← he]; exact htr
        · rcases i3 t ht with rfl | ht
          · exact eps_reach_refl _ _ _
          · exact hm.sound _ t ht
    refine ⟨hbase2, ?_, ?_, ?_, ?_⟩
    · intro k c hk
      by_cases hks : k = tr.src
      · rw [hks] at hk ⊢
        rw [umap_find_replace_self _ i1] at hk
        cases hk
        exact (mem_set_insert _ _ _).2 (Or.inr hsrc)
      · rw [umap_find_replace_ne _ hks] at hk
        exact hself1 k c hk
    · intro x t ht
      rw [hcl]
      split_ifs with hx
      · rw [hx] at ht
        exact (mem_set_insert _ _ _).2 (Or.inr (i4 t ht))
      · exact hmono1 x t ht
    · rw [hcl, if_pos rfl]
      exact (mem_set_insert _ _ _).2 (Or.inr hsrc)
    · intro _
      rw [hcl, if_pos rfl]
      exact (mem_set_insert _ _ _).2 (Or.inl rfl)
  · refine ⟨hbase1, hself1, hmono1, ?_, fun h => absurd h he⟩
    rw [i2, if_pos rfl]
    exact hsrc

theorem eps_closure_init_fold {A : Nfa} {eps : Symbol} (l : List Trans)
    (hl : ∀ tr ∈ l, A.has_trans tr = true) {m : List (State × StateSet)}
    (hm : EpsBase A eps m) (hself : ∀ k c, umap_find m k = some c → k ∈ c) :
    EpsBase A eps (l.foldl (eps_closure_init_step eps) m) ∧
    (∀ k c, umap_find (l.foldl (eps_closure_init_step eps) m) k = some c → k ∈ c) ∧
    (∀ x t, t ∈ cl_of m x → t ∈ cl_of (l.foldl (eps_closure_init_step eps) m) x) ∧
    (∀ tr ∈ l, tr.src ∈ cl_of (l.foldl (eps_closure_init_step eps) m) tr.src ∧
      (tr.symb = eps → tr.tgt ∈ cl_of (l.foldl (eps_closure_init_step eps) m) tr.src)) := by
  induction l generalizing m with
  | nil =>
    exact ⟨hm, hself, fun _ _ h => h, fun _ h => absurd h (List.not_mem_nil _)⟩
  | cons tr l ih =>
    simp only [List.foldl_cons]
    obtain ⟨s1, s2, s3, s4, s5⟩ :=
      eps_closure_init_step_spec hm hself (hl tr (List.mem_cons_self _ _))
    obtain ⟨j1, j2, j3, j4⟩ := ih (fun t ht => hl t (List.mem_cons_of_mem _ ht)) s1 s2
    refine ⟨j1, j2, fun x t ht => j3 x t (s3 x t ht), ?_⟩
    intro t ht
    rcases List.mem_cons.1 ht with rfl | ht
    · exact ⟨j3 _ _ s4, fun h => j3 _ _ (s5 h)⟩
    · exact j4 t ht

/-- After the initialisation loop the invariant of the fixpoint loop holds. -/
theorem eps_closure_init_inv {A : Nfa} (hA : A.WF) (eps : Symbol) :
    EpsInv A eps (eps_closure_init A eps) := by
  obtain ⟨j1, _, _, j4⟩ := @eps_closure_init_fold A eps A.trans_list
    (fun tr h => (Nfa.mem_trans_list_iff hA tr).1 h) [] (eps_base_nil A eps)
    (fun k c h => by simp at h)
  refine ⟨j1, ?_, ?_⟩
  · intro s a r h
    exact (j4 ⟨s, a, r⟩ ((Nfa.mem_trans_list_iff hA _).2 h)).1
  · intro s r h
    exact (j4 ⟨s, eps, r⟩ ((Nfa.mem_trans_list_iff hA _).2 h)).2 rfl

theorem umap_index_subset (m : List (State × StateSet)) (k : State) (d : StateSet) :
    ∀ e ∈ m, e ∈ (umap_index m k d).1 := by
  intro e hmem
  unfold umap_index
  cases umap_find m k with
  | some c => exact hmem
  | none => exact List.mem_append_left _ hmem

/-- One iteration of the loop `for (auto trans : aut)` inside the fixpoint loop. -/
theorem eps_closure_step_spec {A : Nfa} {eps : Symbol} {m : List (State × StateSet)}
    (hm : EpsBase A eps m) {tr : Trans} (htr : A.has_trans tr = true) (ch : Bool) :
    EpsBase A eps (eps_closure_step eps (m, ch) tr).1 ∧
    (∀ x t, t ∈ cl_of m x → t ∈ cl_of (eps_closure_step eps (m, ch) tr).1 x) ∧
    (∀ x, (cl_of m x).length ≤ (cl_of (eps_closure_step eps (m, ch) tr).1 x).length) ∧
    ((eps_closure_step eps (m, ch) tr).2 = false →
      ch = false ∧ (∀ x, cl_of (eps_closure_step eps (m, ch) tr).1 x = cl_of m x) ∧
      (tr.symb = eps → ∀ t ∈ cl_of m tr.tgt, t ∈ cl_of m tr.src)) ∧
    ((eps_closure_step eps (m, ch) tr).2 = true →
      ch = true ∨
        (cl_of m tr.src).length < (cl_of (eps_closure_step eps (m, ch) tr).1 tr.src).length) := by
  unfold eps_closure_step
  split_ifs with he
  · simp only
    obtain ⟨a1, a2, a3, a4⟩ := umap_index_nil_spec m tr.src
    obtain ⟨b1, b2, b3, b4⟩ := umap_index_nil_spec (umap_index m tr.src []).1 tr.tgt
    have hfs : umap_find (umap_index (umap_index m tr.src []).1 tr.tgt []).1 tr.src =
        some (cl_of m tr.src) := by
      have h1 := b1 tr.src
      rw [cl_of_of_find a3] at h1
      cases hf : umap_find (umap_index (umap_index m tr.src []).1 tr.tgt []).1 tr.src with
      | some c =>
        rw [cl_of_of_find hf] at h1
        rw [h1]
      | none =>
        exfalso
        have hk := umap_find_eq_none_iff.1 hf
        apply hk
        have := umap_find_some_mem a3
        exact List.mem_map.2 ⟨_, umap_index_subset _ _ _ _ this, rfl⟩
    rw [a2, b2, a1]
    obtain ⟨u1, u2, u3, u4, u5⟩ := closure_union_spec (cl_of m tr.tgt) (cl_of m tr.src, ch)
    simp only at u1 u2 u3 u4 u5
    have hcl := fun c x => (cl_of_replace hfs c x).trans
      (by rw [b1, a1] : (if x = tr.src then c else
        cl_of (umap_index (umap_index m tr.src []).1 tr.tgt []).1 x) =
        if x = tr.src then c else cl_of m x)
    refine ⟨?_, ?_, ?_, ?_, ?_⟩
    · refine eps_base_update hm ?_ (hcl _) (u2 (hm.sorted _)) ?_ ?_
      · rw [umap_replace_keys]
        exact b4 (a4 hm.keys_nodup)
      · intro t ht
        rcases (u1 t).1 ht with ht | ht
        · exact hm.elems _ t ht
        · exact hm.elems _ t ht
      · intro t ht
        rcases (u1 t).1 ht with ht | ht
        · exact hm.sound _ t ht
        · refine eps_reach_head ?_ (hm.sound _ t ht)
          rw [← he]; exact htr
    · intro x t ht
      rw [hcl]
      split_ifs with hx
      · rw [hx] at ht
        exact (u1 t).2 (Or.inl ht)
      · exact ht
    · intro x
      rw [hcl]
      split_ifs with hx
      · rw [hx]; exact u3
      · exact le_refl _
    · intro h
      obtain ⟨v1, v2, v3⟩ := u4 h
      refine ⟨v1, ?_, fun _ => v2⟩
      intro x
      rw [hcl]
      split_ifs with hx
      · rw [hx, v3]
      · rfl
    · intro h
      rcases u5 h with h | h
      · exact Or.inl h
      · right
        rw [hcl, if_pos rfl]
        exact h
  · exact ⟨hm, fun _ _ h => h, fun _ => le_refl _,
      fun h => ⟨h, fun _ => rfl, fun h' => absurd h' he⟩, fun h => Or.inl h⟩

theorem eps_closure_pass_fold {A : Nfa} {eps : Symbol} (l : List Trans)
    (hl : ∀ tr ∈ l, A.has_trans tr = true) {m : List (State × StateSet)}
    (hm : EpsBase A eps m) (ch : Bool) :
    EpsBase A eps (l.foldl (eps_closure_step eps) (m, ch)).1 ∧
    (∀ x t, t ∈ cl_of m x → t ∈ cl_of (l.foldl (eps_closure_step eps) (m, ch)).1 x) ∧
    (∀ x, (cl_of m x).length ≤ (cl_of (l.foldl (eps_closure_step eps) (m, ch)).1 x).length) ∧
    ((l.foldl (eps_closure_step eps) (m, ch)).2 = false →
      ch = false ∧ (∀ x, cl_of (l.foldl (eps_closure_step eps) (m, ch)).1 x = cl_of m x) ∧
      (∀ tr ∈ l, tr.symb = eps → ∀ t ∈ cl_of m tr.tgt, t ∈ cl_of m tr.src)) ∧
    ((l.foldl (eps_closure_step eps) (m, ch)).2 = true →
      ch = true ∨ ∃ x, A.has_state x ∧
        (cl_of m x).length < (cl_of (l.foldl (eps_closure_step eps) (m, ch)).1 x).length) := by
  induction l generalizing m ch with
  | nil =>
    exact ⟨hm, fun _ _ h => h, fun _ => le_refl _,
      fun h => ⟨h, fun _ => rfl, fun _ h' => absurd h' (List.not_mem_nil _)⟩, fun h => Or.inl h⟩
  | cons tr l ih =>
    simp only [List.foldl_cons]
    have htr := hl tr (List.mem_cons_self _ _)
    obtain ⟨s1, s2, s3, s4, s5⟩ := eps_closure_step_spec hm htr ch
    obtain ⟨j1, j2, j3, j4, j5⟩ := ih (fun t ht => hl t (List.mem_cons_of_mem _ ht)) s1
      (eps_closure_step eps (m, ch) tr).2
    refine ⟨j1, fun x t ht => j2 x t (s2 x t ht), fun x => le_trans (s3 x) (j3 x), ?_, ?_⟩
    · intro h
      obtain ⟨k1, k2, k3⟩ := j4 h
      obtain ⟨k4, k5, k6⟩ := s4 k1
      refine ⟨k4, fun x => (k2 x).trans (k5 x), ?_⟩
      intro t ht
      rcases List.mem_cons.1 ht with rfl | ht
      · exact k6
      · intro he u hu
        have := k3 t ht he u (by rw [k5]; exact hu)
        rw [k5] at this
        exact this
    · intro h
      rcases j5 h with h' | ⟨x, hx, hlt⟩
      · rcases s5 h' with h'' | hlt
        · exact Or.inl h''
        · exact Or.inr ⟨tr.src, has_state_src htr, lt_of_lt_of_le hlt (j3 _)⟩
      · exact Or.inr ⟨x, hx, lt_of_le_of_lt (s3 x) hlt⟩

/-- One pass of the fixpoint loop: the invariant is kept, the closures only grow, a pass that
reports no change leaves closures that are closed under the `eps`-transitions, and a pass
that reports a change has made the closures larger. -/
theorem eps_closure_pass_spec {A : Nfa} (hA : A.WF) {eps : Symbol}
    {m : List (State × StateSet)} (hm : EpsInv A eps m) :
    EpsInv A eps (eps_closure_pass A eps (m, false)).1 ∧
    eps_size A m ≤ eps_size A (eps_closure_pass A eps (m, false)).1 ∧
    ((eps_closure_pass A eps (m, false)).2 = false →
      EpsClosed A eps (eps_closure_pass A eps (m, false)).1) ∧
    ((eps_closure_pass A eps (m, false)).2 = true →
      eps_size A m < eps_size A (eps_closure_pass A eps (m, false)).1) := by
  obtain ⟨j1, j2, j3, j4, j5⟩ := @eps_closure_pass_fold A eps A.trans_list
    (fun tr h => (Nfa.mem_trans_list_iff hA tr).1 h) m hm.base false
  unfold eps_closure_pass
  refine ⟨⟨j1, ?_, ?_⟩, ?_, ?_, ?_⟩
  · intro s a r h
    exact j2 _ _ (hm.self s a r h)
  · intro s r h
    exact j2 _ _ (hm.direct s r h)
  · exact sum_map_le (fun x _ => j3 x)
  · intro h s r hsr t ht
    obtain ⟨_, k2, k3⟩ := j4 h
    rw [k2] at ht ⊢
    exact k3 ⟨s, eps, r⟩ ((Nfa.mem_trans_list_iff hA _).2 hsr) rfl t ht
  · intro h
    rcases j5 h with h' | ⟨x, hx, hlt⟩
    · cases h'
    · exact sum_map_lt (fun x _ => j3 x) ⟨x, (mem_state_list hA x).2 hx, hlt⟩

/-- The fixpoint loop `while (changed)` terminates, with closures that satisfy the invariant
and are closed under the `eps`-transitions. -/
theorem eps_closure_fixpoint {A : Nfa} (hA : A.WF) (eps : Symbol) :
    ∃ fuel m, while_loop (fun ec => ec.2) (fun ec => eps_closure_pass A eps (ec.1, false)) fuel
        (eps_closure_init A eps, true) = some (m, false) ∧
      EpsInv A eps m ∧ EpsClosed A eps m := by
  have hstep : ∀ s : List (State × StateSet) × Bool,
      (EpsInv A eps s.1 ∧ (s.2 = false → EpsClosed A eps s.1)) →
      (fun ec : List (State × StateSet) × Bool => ec.2) s = true →
      (EpsInv A eps ((fun ec : List (State × StateSet) × Bool =>
          eps_closure_pass A eps (ec.1, false)) s).1 ∧
        (((fun ec : List (State × StateSet) × Bool =>
          eps_closure_pass A eps (ec.1, false)) s).2 = false →
          EpsClosed A eps ((fun ec : List (State × StateSet) × Bool =>
            eps_closure_pass A eps (ec.1, false)) s).1)) := by
    intro s hs _
    obtain ⟨p1, _, p3, _⟩ := eps_closure_pass_spec hA hs.1
    exact ⟨p1, p3⟩
  have hdec : ∀ s : List (State × StateSet) × Bool,
      (EpsInv A eps s.1 ∧ (s.2 = false → EpsClosed A eps s.1)) →
      (fun ec : List (State × StateSet) × Bool => ec.2) s = true →
      (fun ec : List (State × StateSet) × Bool =>
        (A.state_list.length * A.state_list.length - eps_size A ec.1) +
          (if ec.2 then 1 else 0))
        ((fun ec : List (State × StateSet) × Bool => eps_closure_pass A eps (ec.1, false)) s) <
      (fun ec : List (State × StateSet) × Bool =>
        (A.state_list.length * A.state_list.length - eps_size A ec.1) +
          (if ec.2 then 1 else 0)) s := by
    intro s hs hc
    obtain ⟨p1, p2, _, p4⟩ := eps_closure_pass_spec hA hs.1
    have hb := eps_size_le hA p1.base
    simp only at hc ⊢
    rw [hc]
    simp only [if_true]
    cases hr : (eps_closure_pass A eps (s.1, false)).2 with
    | false =>
      simp only [Bool.false_eq_true, if_false]
      omega
    | true =>
      have := p4 hr
      simp only [if_true]
      omega
  have hinit : EpsInv A eps (eps_closure_init A eps, true).1 ∧
      ((eps_closure_init A eps, true).2 = false →
        EpsClosed A eps (eps_closure_init A eps, true).1) :=
    ⟨eps_closure_init_inv hA eps, fun h => by cases h⟩
  obtain ⟨r, hr⟩ := while_loop_terminates
    (fun s : List (State × StateSet) × Bool =>
      EpsInv A eps s.1 ∧ (s.2 = false → EpsClosed A eps s.1))
    (fun ec : List (State × StateSet) × Bool =>
      (A.state_list.length * A.state_list.length - eps_size A ec.1) + (if ec.2 then 1 else 0))
    hstep hdec hinit (Nat.lt_succ_self _)
  obtain ⟨⟨q1, q2⟩, q3⟩ := while_loop_inv
    (fun s : List (State × StateSet) × Bool =>
      EpsInv A eps s.1 ∧ (s.2 = false → EpsClosed A eps s.1)) hstep hinit hr
  obtain ⟨m, c⟩ := r
  simp only at q1 q2 q3
  subst q3
  exact ⟨_, m, hr, q1, q2 rfl⟩

end Vata2

namespace Vata2

/-! ## Removal of epsilon transitions: the construction and the language -/

theorem adds_refl (R : Nfa) : Adds R R (fun _ => False) (fun _ => False) :=
  ⟨rfl, fun _ => by simp, fun _ => by simp, fun h => h⟩

theorem adds_trans {R R' R'' : Nfa} {F F' : State → Prop} {T T' : Trans → Prop}
    (h : Adds R R' F T) (h' : Adds R' R'' F' T') :
    Adds R R'' (fun x => F x ∨ F' x) (fun t => T t ∨ T' t) := by
  refine ⟨h'.init_eq.trans h.init_eq, ?_, ?_, fun hw => h'.wf (h.wf hw)⟩
  · intro x
    rw [h'.fin_iff, h.fin_iff, or_assoc]
  · intro t
    rw [h'.trans_iff, h.trans_iff, or_assoc]

theorem adds_congr {R R' : Nfa} {F F' : State → Prop} {T T' : Trans → Prop}
    (h : Adds R R' F T) (hF : ∀ x, F x ↔ F' x) (hT : ∀ t, T t ↔ T' t) : Adds R R' F' T' :=
  ⟨h.init_eq, fun x => by rw [h.fin_iff, hF], fun t => by rw [h.trans_iff, hT], h.wf⟩

theorem adds_foldl {β : Type} (f : Nfa → β → Nfa) (F : β → State → Prop)
    (T : β → Trans → Prop) (l : List β) (h : ∀ b ∈ l, ∀ R, Adds R (f R b) (F b) (T b))
    (R : Nfa) :
    Adds R (l.foldl f R) (fun x => ∃ b ∈ l, F b x) (fun t => ∃ b ∈ l, T b t) := by
  induction l generalizing R with
  | nil =>
    exact adds_congr (adds_refl R) (fun x => by simp) (fun t => by simp)
  | cons b l ih =>
    simp only [List.foldl_cons]
    refine adds_congr (adds_trans (h b (List.mem_cons_self _ _) R)
      (ih (fun b' hb' => h b' (List.mem_cons_of_mem _ hb')) (f R b))) ?_ ?_
    · intro x
      simp only [List.mem_cons, exists_eq_or_imp]
    · intro t
      simp only [List.mem_cons, exists_eq_or_imp]

/-- The loop `for (State tgt_state : symb_set.second) result->add_trans(...)`. -/
theorem adds_add_trans_tgts (R : Nfa) (s : State) (a : Symbol) (tgts : StateSet) :
    Adds R (tgts.foldl (fun result tgt_state => result.add_trans ⟨s, a, tgt_state⟩) R)
      (fun _ => False) (fun t => t.src = s ∧ t.symb = a ∧ t.tgt ∈ tgts) := by
  have he : tgts.foldl (fun result tgt_state => result.add_trans ⟨s, a, tgt_state⟩) R =
      (tgts.map (fun tgt_state => (⟨s, a, tgt_state⟩ : Trans))).foldl Nfa.add_trans R := by
    rw [List.foldl_map]
  rw [he]
  refine ⟨Nfa.foldl_add_trans_initialstates _ _, ?_, ?_, fun hw => Nfa.foldl_add_trans_wf _ hw⟩
  · intro x
    rw [Nfa.foldl_add_trans_finalstates]
    simp
  · intro t
    rw [Nfa.has_trans_foldl_add_trans]
    obtain ⟨s', a', q'⟩ := t
    simp only [List.mem_map, Trans.mk.injEq]
    constructor
    · rintro (⟨q, hq, rfl, rfl, rfl⟩ | h)
      · exact Or.inr ⟨rfl, rfl, hq⟩
      · exact Or.inl h
    · rintro (h | ⟨rfl, rfl, hq⟩)
      · exact Or.inr h
      · exact Or.inl ⟨q', hq, rfl, rfl, rfl⟩

/-- The body of the loop over the states of a closure: for the state `u` of the closure of
`s`, the state `s` becomes final when `u` is final in `aut`, and `s` gets the transitions of
`u` in `aut` that are not labelled `eps`. -/
theorem remove_epsilon_add_spec {aut : Nfa} (hA : aut.WF) (eps : Symbol) (s u : State)
    (R : Nfa) :
    Adds R (remove_epsilon_add aut eps s u R)
      (fun x => x = s ∧ u ∈ aut.finalstates)
      (fun t => t.src = s ∧ t.symb ≠ eps ∧ aut.has_trans ⟨u, t.symb, t.tgt⟩ = true) := by
  unfold remove_epsilon_add
  have h1 : Adds R (if aut.has_final u = true then R.add_final s else R)
      (fun x => x = s ∧ u ∈ aut.finalstates) (fun _ => False) := by
    split_ifs with hf
    · have hf' : u ∈ aut.finalstates := (haskey_iff _ _).1 hf
      refine ⟨rfl, ?_, fun t => by simp, fun hw => Nfa.add_final_wf hw s⟩
      intro x
      show x ∈ set_insert s R.finalstates ↔ _
      rw [mem_set_insert]
      constructor
      · rintro (h | h)
        · exact Or.inr ⟨h, hf'⟩
        · exact Or.inl h
      · rintro (h | ⟨h, _⟩)
        · exact Or.inr h
        · exact Or.inl h
    · have hf' : u ∉ aut.finalstates := fun h => hf ((haskey_iff _ _).2 h)
      refine adds_congr (adds_refl R) ?_ (fun t => Iff.rfl)
      intro x
      simp [hf']
  have h2 := adds_foldl
    (fun (result : Nfa) (symb_set : Symbol × StateSet) =>
      if symb_set.1 = eps then result
      else symb_set.2.foldl
        (fun result tgt_state => result.add_trans ⟨s, symb_set.1, tgt_state⟩) result)
    (fun _ _ => False)
    (fun symb_set t => symb_set.1 ≠ eps ∧ t.src = s ∧ t.symb = symb_set.1 ∧ t.tgt ∈ symb_set.2)
    (aut.index u)
    (by
      intro b _ R'
      simp only
      split_ifs with hb
      · exact adds_congr (adds_refl R') (fun _ => Iff.rfl) (fun t => by simp [hb])
      · exact adds_congr (adds_add_trans_tgts R' s b.1 b.2) (fun _ => Iff.rfl)
          (fun t => by simp [hb]))
    (if aut.has_final u = true then R.add_final s else R)
  refine adds_congr (adds_trans h1 h2) ?_ ?_
  · intro x
    simp
  · intro t
    simp only [false_or]
    constructor
    · rintro ⟨⟨a, tg⟩, hb, hne, hs, ha, ht⟩
      simp only at hne ha ht
      refine ⟨hs, by rw [ha]; exact hne, ?_⟩
      rw [ha]
      exact has_trans_of_mem_index hA hb ht
    · rintro ⟨hs, hne, ht⟩
      obtain ⟨tg, h3, h4⟩ := mem_index_of_has_trans ht
      exact ⟨(t.symb, tg), h3, hne, hs, rfl, h4⟩

/-- The construction loops of `remove_epsilon` over a closure table `m` with distinct keys. -/
theorem remove_epsilon_build_spec {aut : Nfa} (hA : aut.WF) (eps : Symbol)
    {m : List (State × StateSet)} (hm : (m.map Prod.fst).Nodup) (R : Nfa) :
    Adds R
      (m.foldl (fun result state_closure_pair =>
        state_closure_pair.2.foldl (fun result eps_cl_state =>
          remove_epsilon_add aut eps state_closure_pair.1 eps_cl_state result) result) R)
      (fun x => ∃ u ∈ cl_of m x, u ∈ aut.finalstates)
      (fun t => t.symb ≠ eps ∧ ∃ u ∈ cl_of m t.src, aut.has_trans ⟨u, t.symb, t.tgt⟩ = true) := by
  have key : ∀ (P : State → State → Prop),
      (∃ e ∈ m, ∃ u ∈ e.2, P e.1 u) ↔ ∃ s, ∃ u ∈ cl_of m s, P s u := by
    intro P
    constructor
    · rintro ⟨⟨s, c⟩, he, u, hu, hp⟩
      refine ⟨s, u, ?_, hp⟩
      rw [cl_of_of_find (umap_find_of_mem hm he)]
      exact hu
    · rintro ⟨s, u, hu, hp⟩
      cases hf : umap_find m s with
      | none =>
        rw [cl_of_of_none hf] at hu
        exact absurd hu (List.not_mem_nil _)
      | some c =>
        rw [cl_of_of_find hf] at hu
        exact ⟨(s, c), umap_find_some_mem hf, u, hu, hp⟩
  have h := adds_foldl
    (fun (result : Nfa) (state_closure_pair : State × StateSet) =>
      state_closure_pair.2.foldl (fun result eps_cl_state =>
        remove_epsilon_add aut eps state_closure_pair.1 eps_cl_state result) result)
    (fun e x => ∃ u ∈ e.2, x = e.1 ∧ u ∈ aut.finalstates)
    (fun e t => ∃ u ∈ e.2,
      t.src = e.1 ∧ t.symb ≠ eps ∧ aut.has_trans ⟨u, t.symb, t.tgt⟩ = true)
    m
    (fun e _ R' => adds_foldl
      (fun (result : Nfa) (eps_cl_state : State) =>
        remove_epsilon_add aut eps e.1 eps_cl_state result)
      (fun u x => x = e.1 ∧ u ∈ aut.finalstates)
      (fun u t => t.src = e.1 ∧ t.symb ≠ eps ∧ aut.has_trans ⟨u, t.symb, t.tgt⟩ = true)
      e.2 (fun u _ R'' => remove_epsilon_add_spec hA eps e.1 u R'') R')
    R
  refine adds_congr h ?_ ?_
  · intro x
    rw [key (fun s u => x = s ∧ u ∈ aut.finalstates)]
    constructor
    · rintro ⟨s, u, hu, rfl, hf⟩
      exact ⟨u, hu, hf⟩
    · rintro ⟨u, hu, hf⟩
      exact ⟨x, u, hu, rfl, hf⟩
  · intro t
    rw [key (fun s u => t.src = s ∧ t.symb ≠ eps ∧ aut.has_trans ⟨u, t.symb, t.tgt⟩ = true)]
    constructor
    · rintro ⟨s, u, hu, hs, hne, ht⟩
      rw [← hs] at hu
      exact ⟨hne, u, hu, ht⟩
    · rintro ⟨hne, u, hu, ht⟩
      exact ⟨t.src, u, hu, rfl, hne, ht⟩

theorem filter_eps_of_all {eps : Symbol} {v : Word} (h : ∀ a ∈ v, a = eps) :
    v.filter (fun a => decide (a ≠ eps)) = [] := by
  rw [List.filter_eq_nil_iff]
  intro a ha
  simp [h a ha]

/-- The language of an automaton built from closures that are sound and closed: it accepts
`w` exactly when `A` accepts some word that becomes `w` when the `eps` are erased. -/
theorem remove_epsilon_accepts {A R : Nfa} {eps : Symbol} {m : List (State × StateSet)}
    (hI : EpsInv A eps m) (hC : EpsClosed A eps m)
    (hinit : ∀ x, x ∈ R.initialstates ↔ x ∈ A.initialstates)
    (hfin : ∀ x, x ∈ R.finalstates ↔
      x ∈ A.finalstates ∨ ∃ u ∈ cl_of m x, u ∈ A.finalstates)
    (htr : ∀ t, R.has_trans t = true ↔
      t.symb ≠ eps ∧ ∃ u ∈ cl_of m t.src, A.has_trans ⟨u, t.symb, t.tgt⟩ = true)
    (w : Word) :
    R.accepts w ↔ ∃ v, A.accepts v ∧ v.filter (fun a => decide (a ≠ eps)) = w := by
  have fwd : ∀ (w : Word) (q : State), (∃ qf ∈ R.finalstates, R.reach q w qf) →
      ∃ v, (∃ qf ∈ A.finalstates, A.reach q v qf) ∧
        v.filter (fun a => decide (a ≠ eps)) = w := by
    intro w
    induction w with
    | nil =>
      rintro q ⟨qf, hqf, hr⟩
      rw [Nfa.reach_nil] at hr
      subst hr
      rcases (hfin q).1 hqf with h | ⟨u, hu, hf⟩
      · exact ⟨[], ⟨q, h, rfl⟩, rfl⟩
      · obtain ⟨v, hv, hall⟩ := hI.base.sound q u hu
        exact ⟨v, ⟨u, hf, hv⟩, filter_eps_of_all hall⟩
    | cons a w ih =>
      rintro q ⟨qf, hqf, hr⟩
      rw [Nfa.reach_cons] at hr
      obtain ⟨r, hqr, hr⟩ := hr
      obtain ⟨hne, u, hu, hur⟩ := (htr _).1 hqr
      simp only at hne hu hur
      obtain ⟨v', ⟨qf', hqf', hv'⟩, hfil⟩ := ih r ⟨qf, hqf, hr⟩
      obtain ⟨v0, hv0, hall⟩ := hI.base.sound q u hu
      refine ⟨v0 ++ a :: v', ⟨qf', hqf', ?_⟩, ?_⟩
      · exact Reach_append_iff.2 ⟨u, hv0, r, hur, hv'⟩
      · rw [List.filter_append, filter_eps_of_all hall, List.nil_append,
          List.filter_cons_of_pos (by simpa using hne), hfil]
  have lift : ∀ (x : Word) (q r : State), r ∈ cl_of m q →
      (∀ t ∈ cl_of m r, t ∈ cl_of m q) →
      (∃ qf ∈ R.finalstates, R.reach r x qf) → ∃ qf ∈ R.finalstates, R.reach q x qf := by
    intro x q r hqr hsub
    cases x with
    | nil =>
      rintro ⟨qf, hqf, hr⟩
      rw [Nfa.reach_nil] at hr
      subst hr
      refine ⟨q, (hfin q).2 (Or.inr ?_), rfl⟩
      rcases (hfin r).1 hqf with h | ⟨u, hu, hf⟩
      · exact ⟨r, hqr, h⟩
      · exact ⟨u, hsub u hu, hf⟩
    | cons b x =>
      rintro ⟨qf, hqf, hr⟩
      rw [Nfa.reach_cons] at hr
      obtain ⟨r', hrr', hr⟩ := hr
      obtain ⟨hne, u, hu, hur⟩ := (htr _).1 hrr'
      simp only at hne hu hur
      refine ⟨qf, hqf, ?_⟩
      rw [Nfa.reach_cons]
      exact ⟨r', (htr _).2 ⟨hne, u, hsub u hu, hur⟩, hr⟩
  have bwd : ∀ (v : Word) (q : State), (∃ qf ∈ A.finalstates, A.reach q v qf) →
      ∃ qf ∈ R.finalstates, R.reach q (v.filter (fun a => decide (a ≠ eps))) qf := by
    intro v
    induction v with
    | nil =>
      rintro q ⟨qf, hqf, hr⟩
      rw [Nfa.reach_nil] at hr
      subst hr
      exact ⟨q, (hfin q).2 (Or.inl hqf), rfl⟩
    | cons a v ih =>
      rintro q ⟨qf, hqf, hr⟩
      rw [Nfa.reach_cons] at hr
      obtain ⟨r, hqr, hr⟩ := hr
      obtain ⟨qf', hqf', hr'⟩ := ih r ⟨qf, hqf, hr⟩
      by_cases ha : a = eps
      · subst ha
        rw [List.filter_cons_of_neg (by simp)]
        exact lift _ q r (hI.direct q r hqr) (hC q r hqr) ⟨qf', hqf', hr'⟩
      · rw [List.filter_cons_of_pos (by simpa using ha)]
        refine ⟨qf', hqf', ?_⟩
        rw [Nfa.reach_cons]
        exact ⟨r, (htr _).2 ⟨ha, q, hI.self q a r hqr, hqr⟩, hr'⟩
  constructor
  · rintro ⟨q0, hq0, qf, hqf, hr⟩
    obtain ⟨v, ⟨qf', hqf', hv⟩, hfil⟩ := fwd w q0 ⟨qf, hqf, hr⟩
    exact ⟨v, ⟨q0, (hinit q0).1 hq0, qf', hqf', hv⟩, hfil⟩
  · rintro ⟨v, ⟨q0, hq0, qf, hqf, hr⟩, rfl⟩
    obtain ⟨qf', hqf', hr'⟩ := bwd v q0 ⟨qf, hqf, hr⟩
    exact ⟨q0, (hinit q0).2 hq0, qf', hqf', hr'⟩

theorem remove_epsilon_mono {n k : Nat} {aut R : Nfa} {eps : Symbol}
    (h : remove_epsilon n aut eps = some R) (hnk : n ≤ k) :
    remove_epsilon k aut eps = some R := by
  unfold remove_epsilon remove_epsilon_into at h ⊢
  cases hw : while_loop (fun ec => ec.2) (fun ec => eps_closure_pass aut eps (ec.1, false)) n
      (eps_closure_init aut eps, true) with
  | none => simp [hw] at h
  | some ec =>
    rw [while_loop_mono hw hnk]
    rw [hw] at h
    exact h

/-- The function `remove_epsilon` terminates on every well-formed automaton; the result is
well-formed, has no transition labelled `eps`, and accepts `w` exactly when `A` accepts a
word that becomes `w` when the `eps` are erased. -/
theorem remove_epsilon_spec {A : Nfa} (hA : A.WF) (eps : Symbol) :
    ∃ fuel R, (∀ n, fuel ≤ n → remove_epsilon n A eps = some R) ∧ R.WF ∧
      (∀ t, R.has_trans t = true → t.symb ≠ eps) ∧
      ∀ w, R.accepts w ↔ ∃ v, A.accepts v ∧ v.filter (fun a => decide (a ≠ eps)) = w := by
  obtain ⟨fuel, m, hloop, hI, hC⟩ := eps_closure_fixpoint hA eps
  have hR0 : ({ initialstates := set_insert_all A.initialstates []
                finalstates := set_insert_all A.finalstates []
                transitions := [] } : Nfa).WF := by
    refine ⟨?_, ?_, sorted_set_insert_all _ _ List.sorted_nil,
      sorted_set_insert_all _ _ List.sorted_nil⟩ <;> simp
  have hb := remove_epsilon_build_spec hA eps hI.base.keys_nodup
    { initialstates := set_insert_all A.initialstates []
      finalstates := set_insert_all A.finalstates []
      transitions := [] }
  have hfuel : remove_epsilon fuel A eps = some
      (m.foldl (fun result state_closure_pair =>
        state_closure_pair.2.foldl (fun result eps_cl_state =>
          remove_epsilon_add A eps state_closure_pair.1 eps_cl_state result) result)
        { initialstates := set_insert_all A.initialstates []
          finalstates := set_insert_all A.finalstates []
          transitions := [] }) := by
    unfold remove_epsilon remove_epsilon_into
    rw [hloop]
  refine ⟨fuel, _, fun n hn => remove_epsilon_mono hfuel hn, hb.wf hR0, ?_, ?_⟩
  · intro t ht
    rcases (hb.trans_iff t).1 ht with h | h
    · cases h
    · exact h.1
  · intro w
    refine remove_epsilon_accepts hI hC ?_ ?_ ?_ w
    · intro x
      rw [hb.init_eq]
      simp [mem_set_insert_all]
    · intro x
      rw [hb.fin_iff]
      simp [mem_set_insert_all]
    · intro t
      rw [hb.trans_iff]
      constructor
      · rintro (h | h)
        · cases h
        · exact h
      · exact fun h => Or.inr h

/-- C6: for every well-formed automaton `A` and every symbol `eps`, `remove_epsilon(A, eps)`
terminates, and for every word `w` (in particular every `w` that does not contain `eps`)
`is_in_lang` answers true on the result and `w` exactly when `A` has a run from an initial
state to a final state whose sequence of transition symbols `v`, with every occurrence of
`eps` erased, equals `w`. -/
theorem remove_epsilon_correct (A : Nfa) (hA : A.WF) (eps : Symbol) :
    ∃ R, (∃ fuel, ∀ n, fuel ≤ n → remove_epsilon n A eps = some R) ∧
      (∀ n R', remove_epsilon n A eps = some R' → R' = R) ∧
      ∀ w, is_in_lang R w = true ↔
        ∃ v, (∃ q0 ∈ A.initialstates, ∃ qf ∈ A.finalstates, A.reach q0 v qf) ∧
          v.filter (fun a => decide (a ≠ eps)) = w := by
  obtain ⟨fuel, R, h1, _, _, h4⟩ := remove_epsilon_spec hA eps
  refine ⟨R, ⟨fuel, h1⟩, fun n R' h => ?_, fun w => ?_⟩
  · have := remove_epsilon_mono h (le_max_left n fuel)
    rw [h1 _ (le_max_right n fuel)] at this
    cases this
    rfl
  · rw [is_in_lang_iff]
    exact h4 w

theorem remove_epsilon_correct_witness :
    nfa_S5.WF ∧
    ∃ R, (∃ fuel, ∀ n, fuel ≤ n → remove_epsilon n nfa_S5 0 = some R) ∧
      (∀ n R', remove_epsilon n nfa_S5 0 = some R' → R' = R) ∧
      ∀ w, is_in_lang R w = true ↔
        ∃ v, (∃ q0 ∈ nfa_S5.initialstates, ∃ qf ∈ nfa_S5.finalstates, nfa_S5.reach q0 v qf) ∧
          v.filter (fun a => decide (a ≠ 0)) = w :=
  ⟨by decide, remove_epsilon_correct nfa_S5 (by decide) 0⟩

end Vata2

namespace Vata2

/-! ## Membership, prefix membership, double reversal, idempotence of `add_trans` -/

theorem is_prfx_in_lang_loop_iff (aut : Nfa) (cur : StateSet) (w : Word) :
    is_prfx_in_lang_loop aut cur w = true ↔
      ∃ p, p <+: w ∧ is_in_lang_loop aut cur p = true := by
  induction w generalizing cur with
  | nil =>
    simp only [is_prfx_in_lang_loop, List.prefix_nil]
    constructor
    · intro h; exact ⟨[], rfl, by simpa [is_in_lang_loop] using h⟩
    · rintro ⟨p, rfl, h⟩; simpa [is_in_lang_loop] using h
  | cons a w ih =>
    unfold is_prfx_in_lang_loop
    by_cases h1 : (!are_disjoint cur aut.finalstates) = true
    · rw [if_pos h1]
      simp only [true_iff]
      exact ⟨[], List.nil_prefix, by simpa [is_in_lang_loop] using h1⟩
    · rw [if_neg h1]
      simp only
      by_cases h2 : (aut.post_macro cur a).isEmpty = true
      · rw [if_pos h2]
        simp only [Bool.false_eq_true, false_iff]
        rintro ⟨p, hp, hacc⟩
        cases p with
        | nil => exact h1 (by simpa [is_in_lang_loop] using hacc)
        | cons b p =>
          obtain ⟨rfl, _⟩ := List.cons_prefix_cons.1 hp
          simp only [is_in_lang_loop] at hacc
          rw [if_pos h2] at hacc
          cases hacc
      · rw [if_neg h2, ih]
        constructor
        · rintro ⟨p, hp, hacc⟩
          refine ⟨a :: p, List.cons_prefix_cons.2 ⟨rfl, hp⟩, ?_⟩
          simp only [is_in_lang_loop]
          rw [if_neg h2]
          exact hacc
        · rintro ⟨p, hp, hacc⟩
          cases p with
          | nil => exact absurd (by simpa [is_in_lang_loop] using hacc) h1
          | cons b p =>
            obtain ⟨rfl, hp'⟩ := List.cons_prefix_cons.1 hp
            simp only [is_in_lang_loop] at hacc
            rw [if_neg h2] at hacc
            exact ⟨p, hp', hacc⟩

/-- C12: for every automaton `A` and word `w`, `is_prfx_in_lang(A, w)` returns `true` iff
some prefix `p` of `w` (the empty prefix and `w` itself included) has
`is_in_lang(A, p) = true`. -/
theorem is_prfx_in_lang_correct (A : Nfa) (w : Word) :
    is_prfx_in_lang A w = true ↔ ∃ p, p <+: w ∧ is_in_lang A p = true :=
  is_prfx_in_lang_loop_iff A A.initialstates w

/-- A run of a transition relation as an explicit sequence of states `s 0, ..., s n`. -/
theorem Reach_iff_seq {κ : Type} (T : κ → Symbol → κ → Prop) (q q' : κ) (w : Word) :
    Reach T q w q' ↔
      ∃ s : Fin (w.length + 1) → κ, s 0 = q ∧ s (Fin.last w.length) = q' ∧
        ∀ i : Fin w.length, T (s i.castSucc) (w.get i) (s i.succ) := by
  induction w generalizing q with
  | nil =>
    simp only [Reach_nil, List.length_nil]
    constructor
    · rintro rfl
      exact ⟨fun _ => q, rfl, rfl, fun i => i.elim0⟩
    · rintro ⟨s, h0, hl, _⟩
      rw [← h0, ← hl]
      rfl
  | cons a w ih =>
    simp only [Reach_cons, List.length_cons]
    constructor
    · rintro ⟨r, hqr, hr⟩
      obtain ⟨s, h0, hl, hs⟩ := (ih r).1 hr
      refine ⟨@Fin.cons (w.length + 1) (fun _ => κ) q s, rfl, ?_, ?_⟩
      · change s (Fin.last w.length) = q'
        exact hl
      · intro i
        refine Fin.cases ?_ (fun j => ?_) i
        · change T q a (s 0)
          rw [h0]
          exact hqr
        · change T (s j.castSucc) (w.get j) (s j.succ)
          exact hs j
    · rintro ⟨s, h0, hl, hs⟩
      refine ⟨s 1, ?_, (ih (s 1)).2 ⟨fun i => s i.succ, rfl, ?_, ?_⟩⟩
      · have := hs 0
        rw [← h0]
        exact this
      · change s (Fin.last (w.length + 1)) = q'
        exact hl
      · intro i
        exact hs i.succ

/-- C13: for every automaton `A` and word `w = a1..an`, `is_in_lang(A, w)` returns `true`
iff there are states `s 0, ..., s n` with `s 0` initial, `s n` final and
`has_trans(s (i-1), ai, s i)` for every `i` in `1..n`. -/
theorem is_in_lang_iff_run (A : Nfa) (w : Word) :
    is_in_lang A w = true ↔
      ∃ s : Fin (w.length + 1) → State,
        s 0 ∈ A.initialstates ∧ s (Fin.last w.length) ∈ A.finalstates ∧
        ∀ i : Fin w.length, A.has_trans ⟨s i.castSucc, w.get i, s i.succ⟩ = true := by
  rw [is_in_lang_iff]
  constructor
  · rintro ⟨q0, hq0, qf, hqf, hr⟩
    obtain ⟨s, h0, hl, hs⟩ := (Reach_iff_seq A.trel q0 qf w).1 hr
    exact ⟨s, by rw [h0]; exact hq0, by rw [hl]; exact hqf, hs⟩
  · rintro ⟨s, h0, hl, hs⟩
    exact ⟨s 0, h0, s (Fin.last w.length), hl,
      (Reach_iff_seq A.trel _ _ w).2 ⟨s, rfl, rfl, hs⟩⟩

/-- C14: for every well-formed automaton `A`, `revert(revert(A))` has the same initial set,
the same final set and the same set of transitions as `A`, with the state identifiers
unchanged. -/
theorem revert_revert (A : Nfa) (hA : A.WF) :
    (revert (revert A)).initialstates = A.initialstates ∧
    (revert (revert A)).finalstates = A.finalstates ∧
    (∀ t, (revert (revert A)).has_trans t = true ↔ A.has_trans t = true) ∧
    (∀ t, t ∈ (revert (revert A)).trans_list ↔ t ∈ A.trans_list) := by
  have h3 : ∀ t, (revert (revert A)).has_trans t = true ↔ A.has_trans t = true := by
    intro t
    obtain ⟨s, a, r⟩ := t
    rw [revert_has_trans (revert_wf hA), revert_has_trans hA]
  refine ⟨by simp, by simp, h3, fun t => ?_⟩
  rw [Nfa.mem_trans_list_iff (revert_wf (revert_wf hA)), Nfa.mem_trans_list_iff hA, h3]

theorem revert_revert_witness :
    nfa_S6.WF ∧
    (revert (revert nfa_S6)).initialstates = nfa_S6.initialstates ∧
    (revert (revert nfa_S6)).finalstates = nfa_S6.finalstates ∧
    (∀ t, (revert (revert nfa_S6)).has_trans t = true ↔ nfa_S6.has_trans t = true) ∧
    (∀ t, t ∈ (revert (revert nfa_S6)).trans_list ↔ t ∈ nfa_S6.trans_list) :=
  ⟨by decide, revert_revert nfa_S6 (by decide)⟩

theorem set_insert_idem (x : Nat) (l : List Nat) :
    set_insert x (set_insert x l) = set_insert x l := by
  induction l with
  | nil => simp [set_insert]
  | cons y ys ih =>
    by_cases h1 : x < y
    · have e : set_insert x (y :: ys) = x :: y :: ys := by simp [set_insert, h1]
      rw [e]
      simp [set_insert]
    · by_cases h2 : x = y
      · have e : set_insert x (y :: ys) = y :: ys := by simp [set_insert, h2]
        rw [e, e]
      · have e : ∀ l, set_insert x (y :: l) = y :: set_insert x l := by
          intro l
          simp [set_insert, h1, h2]
        rw [e, e, ih]

theorem umap_replace_of_find {κ β : Type} [DecidableEq κ] {m : List (κ × β)} {k : κ} {v : β}
    (h : umap_find m k = some v) : umap_replace m k v = m := by
  induction m with
  | nil => rfl
  | cons e rest ih =>
    obtain ⟨k', v'⟩ := e
    rw [umap_find_cons] at h
    rw [umap_replace_cons]
    split_ifs at h ⊢ with hk
    · cases h; rfl
    · rw [ih h]

namespace Nfa

theorem add_trans_idem (A : Nfa) (t : Trans) : (A.add_trans t).add_trans t = A.add_trans t := by
  cases h1 : umap_find A.transitions t.src with
  | none =>
    have hf : umap_find (A.add_trans t).transitions t.src = some [(t.symb, [t.tgt])] := by
      rw [add_trans_transitions_of_none h1]
      exact (umap_find_append_single _ _ _ _ _).2 (Or.inr ⟨h1, rfl, rfl⟩)
    have hg : umap_find [(t.symb, [t.tgt])] t.symb = some [t.tgt] := by simp
    have e := add_trans_transitions_of_some_some (A := A.add_trans t) hf hg
    have hs : set_insert t.tgt [t.tgt] = [t.tgt] := by simp [set_insert]
    rw [hs, umap_replace_of_find hg, umap_replace_of_find hf] at e
    cases hB : (A.add_trans t).add_trans t
    cases hC : A.add_trans t
    rw [hB, hC] at e
    have i1 := add_trans_initialstates (A.add_trans t) t
    have i2 := add_trans_finalstates (A.add_trans t) t
    rw [hB, hC] at i1 i2
    simp only at e i1 i2
    rw [e, i1, i2]
  | some post =>
    cases h2 : umap_find post t.symb with
    | none =>
      have hf : umap_find (A.add_trans t).transitions t.src =
          some (post ++ [(t.symb, [t.tgt])]) := by
        rw [add_trans_transitions_of_some_none h1 h2]
        exact umap_find_replace_self _ h1
      have hg : umap_find (post ++ [(t.symb, [t.tgt])]) t.symb = some [t.tgt] :=
        (umap_find_append_single _ _ _ _ _).2 (Or.inr ⟨h2, rfl, rfl⟩)
      have e := add_trans_transitions_of_some_some (A := A.add_trans t) hf hg
      have hs : set_insert t.tgt [t.tgt] = [t.tgt] := by simp [set_insert]
      rw [hs, umap_replace_of_find hg, umap_replace_of_find hf] at e
      cases hB : (A.add_trans t).add_trans t
      cases hC : A.add_trans t
      rw [hB, hC] at e
      have i1 := add_trans_initialstates (A.add_trans t) t
      have i2 := add_trans_finalstates (A.add_trans t) t
      rw [hB, hC] at i1 i2
      simp only at e i1 i2
      rw [e, i1, i2]
    | some tgts =>
      have hf : umap_find (A.add_trans t).transitions t.src =
          some (umap_replace post t.symb (set_insert t.tgt tgts)) := by
        rw [add_trans_transitions_of_some_some h1 h2]
        exact umap_find_replace_self _ h1
      have hg : umap_find (umap_replace post t.symb (set_insert t.tgt tgts)) t.symb =
          some (set_insert t.tgt tgts) := umap_find_replace_self _ h2
      have e := add_trans_transitions_of_some_some (A := A.add_trans t) hf hg
      rw [set_insert_idem, umap_replace_of_find hg, umap_replace_of_find hf] at e
      cases hB : (A.add_trans t).add_trans t
      cases hC : A.add_trans t
      rw [hB, hC] at e
      have i1 := add_trans_initialstates (A.add_trans t) t
      have i2 := add_trans_finalstates (A.add_trans t) t
      rw [hB, hC] at i1 i2
      simp only at e i1 i2
      rw [e, i1, i2]

theorem add_trans_of_has_trans {A : Nfa} (hA : A.WF) {t : Trans}
    (h : A.has_trans t = true) : A.add_trans t = A := by
  rw [has_trans_iff] at h
  obtain ⟨post, tgts, h1, h2, h3⟩ := h
  have e := add_trans_transitions_of_some_some h1 h2
  have hs : tgts.Sorted (· < ·) :=
    ((hA.2.1 _ (umap_find_some_mem h1)).2.2 _ (umap_find_some_mem h2)).2
  rw [set_insert_of_mem hs h3, umap_replace_of_find h2, umap_replace_of_find h1] at e
  have i1 := add_trans_initialstates A t
  have i2 := add_trans_finalstates A t
  cases hB : A.add_trans t
  cases A
  rw [hB] at e i1 i2
  simp only at e i1 i2
  rw [e, i1, i2]

end Nfa

/-- C16: for every well-formed automaton `A` and transition `t`, applying `add_trans(t)`
twice yields the same automaton as applying it once, and adding a transition for which
`has_trans(t)` already holds leaves the automaton unchanged (and with it the iterated
transitions, `trans_size`, and the initial and final sets). -/
theorem add_trans_idempotent (A : Nfa) (hA : A.WF) (t : Trans) :
    (A.add_trans t).add_trans t = A.add_trans t ∧
    (A.has_trans t = true →
      A.add_trans t = A ∧
      (A.add_trans t).trans_list = A.trans_list ∧
      (∀ t', (A.add_trans t).has_trans t' = A.has_trans t') ∧
      (A.add_trans t).trans_size = A.trans_size ∧
      (A.add_trans t).initialstates = A.initialstates ∧
      (A.add_trans t).finalstates = A.finalstates) := by
  refine ⟨Nfa.add_trans_idem A t, fun h => ?_⟩
  have e := Nfa.add_trans_of_has_trans hA h
  rw [e]
  exact ⟨rfl, rfl, fun _ => rfl, rfl, rfl, rfl⟩

theorem add_trans_idempotent_witness :
    nfa_S1.WF ∧ nfa_S1.has_trans ⟨0, 0, 1⟩ = true ∧
    (nfa_S1.add_trans ⟨0, 0, 1⟩).add_trans ⟨0, 0, 1⟩ = nfa_S1.add_trans ⟨0, 0, 1⟩ ∧
    nfa_S1.add_trans ⟨0, 0, 1⟩ = nfa_S1 ∧
    (nfa_S1.add_trans ⟨0, 0, 1⟩).trans_size = nfa_S1.trans_size :=
  ⟨by decide, by decide, (add_trans_idempotent nfa_S1 (by decide) ⟨0, 0, 1⟩).1,
    ((add_trans_idempotent nfa_S1 (by decide) ⟨0, 0, 1⟩).2 (by decide)).1,
    ((add_trans_idempotent nfa_S1 (by decide) ⟨0, 0, 1⟩).2 (by decide)).2.2.2.1⟩

end Vata2

namespace Vata2

/-! ## The transition iterator visits `trans_list` -/

theorem trans_list_eq (A : Nfa) :
    A.trans_list = A.transitions.flatMap (fun sp => post_trans_list sp.1 sp.2) := rfl

namespace Nfa.const_iterator

/-- One `++it` from a valid position: either the iterator reaches the end and the current
transition was the last one, or it is at the next transition. -/
theorem increment_spec {it : const_iterator} (h : it.Valid) :
    ∃ it', it.increment = .ok it' ∧
      ((it'.is_end = true ∧ it.remaining = [it.trans]) ∨
        (it'.Valid ∧ it.remaining = it.trans :: it'.remaining)) := by
  obtain ⟨h1, ⟨nfa, h2, h2'⟩, ⟨sp, stpm, st, ps, tgt, ss, e1, e2, e3, e4⟩, h4, h5⟩ := h
  obtain ⟨n, a, b, c, tr, e⟩ := it
  simp only at h1 h2 e1 e2 e3 e4 h4 h5
  subst h1 h2 e1 e2 e3 e4
  have hst : st.2 ≠ [] := h5 st (List.mem_cons_self _ _)
  have hsp : sp.2 ≠ [] := (h4 sp (List.mem_cons_self _ _)).1
  have hnfa : nfa.transitions.isEmpty = false := by
    cases hn : nfa.transitions with
    | nil => exact absurd hn h2'
    | cons _ _ => rfl
  cases ss with
  | cons t' ss' =>
    refine ⟨⟨some nfa, sp :: stpm, st :: ps, t' :: ss', ⟨sp.1, st.1, t'⟩, false⟩, ?_, Or.inr ⟨?_, ?_⟩⟩
    · cases hs : st.2 with
      | nil => exact absurd hs hst
      | cons _ _ =>
        simp [increment, assert_that, deref, refresh_trans, hs, bind, Except.bind, pure,
          Except.pure]
    · exact ⟨rfl, ⟨nfa, rfl, h2'⟩, ⟨sp, stpm, st, ps, t', ss', rfl, rfl, rfl, rfl⟩, h4, h5⟩
    · simp [remaining]
  | nil =>
    cases ps with
    | cons st' ps' =>
      have hst' : st'.2 ≠ [] := h5 st' (List.mem_cons_of_mem _ (List.mem_cons_self _ _))
      cases hs' : st'.2 with
      | nil => exact absurd hs' hst'
      | cons t' ss' =>
        refine ⟨⟨some nfa, sp :: stpm, st' :: ps', t' :: ss', ⟨sp.1, st'.1, t'⟩, false⟩, ?_,
          Or.inr ⟨?_, ?_⟩⟩
        · cases hs : st.2 with
          | nil => exact absurd hs hst
          | cons _ _ =>
            cases hp : sp.2 with
            | nil => exact absurd hp hsp
            | cons _ _ =>
              simp [increment, assert_that, deref, refresh_trans, hs, hs', hp, bind,
                Except.bind, pure, Except.pure]
        · exact ⟨rfl, ⟨nfa, rfl, h2'⟩, ⟨sp, stpm, st', ps', t', ss', rfl, rfl, rfl, rfl⟩, h4,
            fun x hx => h5 x (List.mem_cons_of_mem _ hx)⟩
        · simp [remaining, post_trans_list, hs']
    | nil =>
      cases stpm with
      | cons sp' stpm' =>
        obtain ⟨hsp', hsp''⟩ := h4 sp' (List.mem_cons_of_mem _ (List.mem_cons_self _ _))
        cases hp' : sp'.2 with
        | nil => exact absurd hp' hsp'
        | cons st' ps' =>
          have hst' : st'.2 ≠ [] := hsp'' st' (by rw [hp']; exact List.mem_cons_self _ _)
          cases hs' : st'.2 with
          | nil => exact absurd hs' hst'
          | cons t' ss' =>
            refine ⟨⟨some nfa, sp' :: stpm', st' :: ps', t' :: ss', ⟨sp'.1, st'.1, t'⟩, false⟩,
              ?_, Or.inr ⟨?_, ?_⟩⟩
            · cases hs : st.2 with
              | nil => exact absurd hs hst
              | cons _ _ =>
                cases hp : sp.2 with
                | nil => exact absurd hp hsp
                | cons _ _ =>
                  simp [increment, assert_that, deref, refresh_trans, hs, hs', hp, hp', hnfa,
                    bind, Except.bind, pure, Except.pure]
            · refine ⟨rfl, ⟨nfa, rfl, h2'⟩, ⟨sp', stpm', st', ps', t', ss', rfl, rfl, rfl, rfl⟩,
                fun x hx => h4 x (List.mem_cons_of_mem _ hx), ?_⟩
              intro x hx
              simp only at hx
              exact hsp'' x (by rw [hp']; exact hx)
            · simp [remaining, post_trans_list, hs', hp']
      | nil =>
        refine ⟨⟨some nfa, [], [], [], ⟨sp.1, st.1, tgt⟩, true⟩, ?_, Or.inl ⟨rfl, ?_⟩⟩
        · cases hs : st.2 with
          | nil => exact absurd hs hst
          | cons _ _ =>
            cases hp : sp.2 with
            | nil => exact absurd hp hsp
            | cons _ _ =>
              simp [increment, assert_that, deref, hs, hp, hnfa, bind, Except.bind, pure,
                Except.pure]
        · simp [remaining, post_trans_list]

/-- From a valid position the loop collects the remaining transitions and stops. -/
theorem collect_spec (k : Nat) : ∀ (it : const_iterator), it.Valid → it.remaining.length = k →
    ∀ (acc : List Trans) (fuel : Nat), k + 1 ≤ fuel →
      collect fuel it acc = some (.ok (acc ++ it.remaining)) := by
  induction k with
  | zero =>
    intro it h hk
    obtain ⟨it', _, ⟨_, h3⟩ | ⟨_, h3⟩⟩ := increment_spec h <;> rw [h3] at hk <;> simp at hk
  | succ k ih =>
    intro it h hk acc fuel hf
    obtain ⟨fuel, rfl⟩ : ∃ f, fuel = f + 1 := ⟨fuel - 1, by omega⟩
    obtain ⟨it', h2, ⟨h3, h4⟩ | ⟨h3, h4⟩⟩ := increment_spec h
    · simp only [collect, h.not_end, Bool.false_eq_true, if_false, h2]
      obtain ⟨fuel, rfl⟩ : ∃ f, fuel = f + 1 := ⟨fuel - 1, by omega⟩
      simp only [collect, h3, if_true, h4]
    · simp only [collect, h.not_end, Bool.false_eq_true, if_false, h2]
      rw [h4] at hk ⊢
      simp only [List.length_cons, Nat.add_right_cancel_iff] at hk
      rw [ih it' h3 hk _ fuel (by omega)]
      simp

end Nfa.const_iterator

/-- On a well-formed automaton the iterator runs from `begin()` to `end()` without a failed
assertion and visits exactly `trans_list`, in that order. -/
theorem iteration_spec {A : Nfa} (hA : A.WF) :
    ∀ fuel, A.trans_list.length + 1 ≤ fuel → A.iteration fuel = some (.ok A.trans_list) := by
  intro fuel hf
  unfold Nfa.iteration
  cases ht : A.transitions with
  | nil =>
    obtain ⟨fuel, rfl⟩ : ∃ f, fuel = f + 1 := ⟨fuel - 1, by omega⟩
    simp [Nfa.const_iterator.for_begin, ht, pure, Except.pure, Nfa.const_iterator.collect,
      Nfa.trans_list]
  | cons sp stpm =>
    have hwf := hA.2.1
    rw [ht] at hwf
    obtain ⟨hsp, _, hsp'⟩ := hwf sp (List.mem_cons_self _ _)
    cases hp : sp.2 with
    | nil => exact absurd hp hsp
    | cons st ps =>
      have hst : st.2 ≠ [] := (hsp' st (by rw [hp]; exact List.mem_cons_self _ _)).1
      cases hs : st.2 with
      | nil => exact absurd hs hst
      | cons tgt ss =>
        have hb : Nfa.const_iterator.for_begin A =
            .ok ⟨some A, sp :: stpm, st :: ps, tgt :: ss, ⟨sp.1, st.1, tgt⟩, false⟩ := by
          simp [Nfa.const_iterator.for_begin, ht, hp, hs, assert_that, deref,
            Nfa.const_iterator.refresh_trans, bind, Except.bind, pure, Except.pure]
        rw [hb]
        simp only
        have hv : Nfa.const_iterator.Valid
            ⟨some A, sp :: stpm, st :: ps, tgt :: ss, ⟨sp.1, st.1, tgt⟩, false⟩ := by
          refine ⟨rfl, ⟨A, rfl, by rw [ht]; simp⟩, ⟨sp, stpm, st, ps, tgt, ss, rfl, rfl, rfl, rfl⟩,
            ?_, ?_⟩
          · intro x hx
            simp only at hx
            have := hwf x hx
            exact ⟨this.1, fun y hy => (this.2.2 y hy).1⟩
          · intro x hx
            simp only at hx
            exact (hsp' x (by rw [hp]; exact hx)).1
        have hrem : Nfa.const_iterator.remaining
            ⟨some A, sp :: stpm, st :: ps, tgt :: ss, ⟨sp.1, st.1, tgt⟩, false⟩ =
            A.trans_list := by
          rw [trans_list_eq, ht]
          simp [Nfa.const_iterator.remaining, post_trans_list, hp, hs]
        have := Nfa.const_iterator.collect_spec _ _ hv rfl [] fuel (by rw [hrem]; exact hf)
        rw [this, hrem]
        rfl

theorem collect_mono {n m : Nat} {it : Nfa.const_iterator} {acc : List Trans}
    {r : Except Fault (List Trans)} (h : Nfa.const_iterator.collect n it acc = some r)
    (hnm : n ≤ m) : Nfa.const_iterator.collect m it acc = some r := by
  induction n generalizing m it acc with
  | zero => simp [Nfa.const_iterator.collect] at h
  | succ n ih =>
    obtain ⟨m, rfl⟩ : ∃ k, m = k + 1 := ⟨m - 1, by omega⟩
    simp only [Nfa.const_iterator.collect] at h ⊢
    split_ifs at h ⊢ with he
    · exact h
    · cases hi : it.increment with
      | error f => rw [hi] at h; exact h
      | ok it' =>
        rw [hi] at h
        exact ih h (by omega)

theorem iteration_mono {n m : Nat} {A : Nfa} {r : Except Fault (List Trans)}
    (h : A.iteration n = some r) (hnm : n ≤ m) : A.iteration m = some r := by
  unfold Nfa.iteration at h ⊢
  cases hb : Nfa.const_iterator.for_begin A with
  | error f => rw [hb] at h; exact h
  | ok it =>
    rw [hb] at h
    exact collect_mono h hnm

theorem post_trans_list_nodup (src : State) {post : PostSymb}
    (hk : (post.map Prod.fst).Nodup) (hs : ∀ st ∈ post, st.2.Sorted (· < ·)) :
    (post_trans_list src post).Nodup := by
  unfold post_trans_list
  rw [List.nodup_flatMap]
  constructor
  · intro st hst
    refine List.Nodup.map ?_ (hs st hst).nodup
    intro x y hxy
    simp only [Trans.mk.injEq] at hxy
    exact hxy.2.2
  · have := List.pairwise_map.1 hk
    refine this.imp ?_
    intro a b hab
    simp only [Function.onFun]
    rw [List.disjoint_left]
    intro t ht ht'
    simp only [List.mem_map] at ht ht'
    obtain ⟨x, _, rfl⟩ := ht
    obtain ⟨y, _, e⟩ := ht'
    simp only [Trans.mk.injEq] at e
    exact hab e.2.1.symm

theorem mem_post_trans_list {src : State} {post : PostSymb} {t : Trans}
    (h : t ∈ post_trans_list src post) : t.src = src := by
  unfold post_trans_list at h
  simp only [List.mem_flatMap, List.mem_map] at h
  obtain ⟨st, _, x, _, rfl⟩ := h
  rfl

theorem trans_list_nodup {A : Nfa} (hA : A.WF) : A.trans_list.Nodup := by
  rw [trans_list_eq, List.nodup_flatMap]
  constructor
  · intro sp hsp
    obtain ⟨_, h2, h3⟩ := hA.2.1 sp hsp
    exact post_trans_list_nodup sp.1 h2 (fun st hst => (h3 st hst).2)
  · have := List.pairwise_map.1 hA.1
    refine this.imp ?_
    intro a b hab
    simp only [Function.onFun]
    rw [List.disjoint_left]
    intro t ht ht'
    exact hab ((mem_post_trans_list ht).symm.trans (mem_post_trans_list ht'))

theorem foldl_add_length {α : Type} (g : α → Nat) (l : List α) (c : Nat) :
    l.foldl (fun cnt x => cnt + g x) c = c + (l.map g).sum := by
  induction l generalizing c with
  | nil => simp
  | cons x l ih =>
    simp only [List.foldl_cons, List.map_cons, List.sum_cons]
    rw [ih]
    omega

theorem trans_size_eq (A : Nfa) : A.trans_size = A.trans_list.length := by
  unfold Nfa.trans_size
  rw [trans_list_eq, List.length_flatMap]
  have h1 : ∀ (sp : State × PostSymb) (cnt : Nat),
      sp.2.foldl (fun cnt st => cnt + st.2.length) cnt =
        cnt + (post_trans_list sp.1 sp.2).length := by
    intro sp cnt
    rw [foldl_add_length (fun st : Symbol × StateSet => st.2.length)]
    unfold post_trans_list
    rw [List.length_flatMap]
    simp [Function.comp_def]
  have h2 : (fun (cnt : Nat) (sp : State × PostSymb) =>
      sp.2.foldl (fun cnt st => cnt + st.2.length) cnt) =
      fun cnt sp => cnt + (post_trans_list sp.1 sp.2).length := by
    funext cnt sp
    exact h1 sp cnt
  rw [h2, foldl_add_length (fun sp : State × PostSymb => (post_trans_list sp.1 sp.2).length)]
  simp [Function.comp_def]

/-- C17: for every automaton built from the empty one by `add_trans` calls, the iteration
from `begin()` to `end()` stops without a failed assertion and yields each transition exactly
once; a transition occurs in it iff `has_trans` is true of it (iff it was added), and
`trans_size()` is the number of transitions iterated. -/
theorem iteration_correct (ts : List Trans) :
    ∃ l, (∃ fuel, ∀ n, fuel ≤ n →
        (ts.foldl Nfa.add_trans {}).iteration n = some (.ok l)) ∧
      (∀ n r, (ts.foldl Nfa.add_trans {}).iteration n = some r → r = .ok l) ∧
      l.Nodup ∧
      (∀ t, t ∈ l ↔ (ts.foldl Nfa.add_trans {}).has_trans t = true) ∧
      (∀ t, t ∈ l ↔ t ∈ ts) ∧
      (ts.foldl Nfa.add_trans {}).trans_size = l.length := by
  have hwf : (ts.foldl Nfa.add_trans {}).WF := Nfa.foldl_add_trans_wf ts Nfa.wf_empty
  refine ⟨_, ⟨_, iteration_spec hwf⟩, ?_, trans_list_nodup hwf,
    fun t => Nfa.mem_trans_list_iff hwf t, fun t => ?_, trans_size_eq _⟩
  · intro n r h
    have h1 := iteration_mono h (le_max_left n ((ts.foldl Nfa.add_trans {}).trans_list.length + 1))
    rw [iteration_spec hwf _ (le_max_right n _)] at h1
    cases h1
    rfl
  · rw [Nfa.mem_trans_list_iff hwf, Nfa.has_trans_foldl_add_trans]
    simp [has_trans_empty]

end Vata2

namespace Vata2

/-! ## The result of `determinize` is deterministic -/

theorem length_le_one_of_all_eq {l : List Nat} (hnd : l.Nodup) (x : Nat)
    (h : ∀ y ∈ l, y = x) : l.length ≤ 1 := by
  cases l with
  | nil => simp
  | cons a l =>
    cases l with
    | nil => simp
    | cons b l =>
      exfalso
      have ha := h a (List.mem_cons_self _ _)
      have hb := h b (List.mem_cons_of_mem _ (List.mem_cons_self _ _))
      rw [List.nodup_cons] at hnd
      exact hnd.1 (by rw [ha, ← hb]; exact List.mem_cons_self _ _)

/-- On a well-formed automaton whose transition relation is functional the loop of
`is_deterministic` finds every target set of size one. -/
theorem is_deterministic_loop_of_functional {A : Nfa} (hA : A.WF)
    (hf : ∀ s a t t', A.has_trans ⟨s, a, t⟩ = true → A.has_trans ⟨s, a, t'⟩ = true → t = t')
    (l : List Trans) (hl : ∀ t ∈ l, A.has_trans t = true) :
    is_deterministic_loop A l = .ok true := by
  induction l with
  | nil => rfl
  | cons t l ih =>
    have ht := hl t (List.mem_cons_self _ _)
    obtain ⟨post, tgts, h1, h2, h3⟩ := (Nfa.has_trans_iff A t).1 ht
    have hidx : A.index t.src = post := by
      unfold Nfa.index Nfa.post
      rw [h1]
    have hs : tgts.Sorted (· < ·) :=
      ((hA.2.1 _ (umap_find_some_mem h1)).2.2 _ (umap_find_some_mem h2)).2
    have hlen : tgts.length = 1 := by
      have h4 : tgts.length ≤ 1 := by
        apply length_le_one_of_all_eq hs.nodup t.tgt
        intro y hy
        exact hf t.src t.symb y t.tgt
          ((Nfa.has_trans_iff A _).2 ⟨post, tgts, h1, h2, hy⟩) ht
      have h5 : 0 < tgts.length := List.length_pos_of_mem h3
      omega
    simp only [is_deterministic_loop, hidx, h2, hlen, bne_self_eq_false, Bool.false_eq_true,
      if_false]
    exact ih (fun t' ht' => hl t' (List.mem_cons_of_mem _ ht'))

theorem is_deterministic_of_functional {A : Nfa} (hA : A.WF)
    (hi : A.initialstates.length = 1)
    (hf : ∀ s a t t', A.has_trans ⟨s, a, t⟩ = true → A.has_trans ⟨s, a, t'⟩ = true → t = t') :
    is_deterministic A = .ok true := by
  unfold is_deterministic
  simp only [hi, bne_self_eq_false, Bool.false_eq_true, if_false]
  exact is_deterministic_loop_of_functional hA hf _
    (fun t ht => (Nfa.mem_trans_list_iff hA t).1 ht)

/-- The entries of the post of a macrostate have distinct symbols. -/
theorem determinize_post_symb_functional {aut : Nfa} (hA : aut.WF) {S : StateSet}
    {a : Symbol} {S₁ S₂ : StateSet} (h₁ : (a, S₁) ∈ determinize_post_symb aut S)
    (h₂ : (a, S₂) ∈ determinize_post_symb aut S) : S₁ = S₂ := by
  obtain ⟨_, s1, m1⟩ := (mem_determinize_post_symb hA S a S₁).1 h₁
  obtain ⟨_, s2, m2⟩ := (mem_determinize_post_symb hA S a S₂).1 h₂
  exact sorted_ext s1 s2 (fun t => (m1 t).trans (m2 t).symm)

/-- `determinize` terminates on every well-formed automaton with a well-formed result that has
one initial state and a functional transition relation. -/
theorem determinize_deterministic_spec {aut : Nfa} (hA : aut.WF) :
    ∃ fuel D, (∀ n, fuel ≤ n → determinize n aut = some D) ∧ D.WF ∧
      D.initialstates.length = 1 ∧
      ∀ s a t t', D.has_trans ⟨s, a, t⟩ = true → D.has_trans ⟨s, a, t'⟩ = true → t = t' := by
  obtain ⟨fuel, st, h1, h2, _, _⟩ := explore_spec (determinize_univ hA) _
    (determinize_init_inv hA)
  refine ⟨fuel, st.result, fun n hn => ?_, h2.wf, ?_, ?_⟩
  · unfold determinize determinize_into
    simp only [determinize_body_eq, umap_insert, umap_find_nil, List.nil_append]
    have := h1 n hn
    simp only [Nat.zero_add] at this ⊢
    rw [this]
    rfl
  · obtain ⟨x0, hx0⟩ := h2.init_mem aut.initialstates (List.mem_singleton_self _)
    have hmem : x0 ∈ st.result.initialstates :=
      (h2.init_iff x0).2 ⟨_, List.mem_singleton_self _, hx0⟩
    have hle : st.result.initialstates.length ≤ 1 := by
      apply length_le_one_of_all_eq h2.wf.2.2.1.nodup x0
      intro y hy
      obtain ⟨k, hk, hky⟩ := (h2.init_iff y).1 hy
      rw [List.mem_singleton] at hk
      rw [hk, hx0] at hky
      cases hky
      rfl
    have := List.length_pos_of_mem hmem
    omega
  · intro s a t t' ht ht'
    obtain ⟨k, k', e1, e2, e3⟩ := h2.trans_sound _ ht
    obtain ⟨k₂, k₂', f1, f2, f3⟩ := h2.trans_sound _ ht'
    simp only at e1 e2 e3 f1 f2 f3
    have hk : k = k₂ := h2.id_inj k k₂ s e1 f1
    subst hk
    have hk' : k' = k₂' := determinize_post_symb_functional hA e3 f3
    subst hk'
    rw [e2] at f2
    cases f2
    rfl

/-- C11: for every well-formed automaton `A` (with zero, one or several initial states),
`determinize(A)` terminates and `is_deterministic` returns `true` on the result: the result
has exactly one initial state and no pair of a source state and a symbol has two targets. -/
theorem determinize_is_deterministic (A : Nfa) (hA : A.WF) :
    ∃ D, (∃ fuel, ∀ n, fuel ≤ n → determinize n A = some D) ∧
      (∀ n D', determinize n A = some D' → D' = D) ∧
      is_deterministic D = .ok true ∧
      D.initialstates.length = 1 ∧
      (∀ s a t t', D.has_trans ⟨s, a, t⟩ = true → D.has_trans ⟨s, a, t'⟩ = true → t = t') ∧
      (∀ sp ∈ D.transitions, ∀ st ∈ sp.2, st.2.length = 1) := by
  obtain ⟨fuel, D, h1, h2, h3, h4⟩ := determinize_deterministic_spec hA
  refine ⟨D, ⟨fuel, h1⟩, fun n D' h => ?_, is_deterministic_of_functional h2 h3 h4, h3, h4, ?_⟩
  · have := determinize_mono h (le_max_left n fuel)
    rw [h1 _ (le_max_right n fuel)] at this
    cases this
    rfl
  · intro sp hsp st hst
    obtain ⟨_, hk, hw⟩ := h2.2.1 sp hsp
    obtain ⟨hne, hs⟩ := hw st hst
    have hfs := umap_find_of_mem h2.1 hsp
    have hft := umap_find_of_mem hk hst
    cases hl : st.2 with
    | nil => exact absurd hl hne
    | cons x xs =>
      have hle : st.2.length ≤ 1 := by
        apply length_le_one_of_all_eq hs.nodup x
        intro y hy
        exact h4 sp.1 st.1 y x
          ((Nfa.has_trans_iff D _).2 ⟨sp.2, st.2, hfs, hft, hy⟩)
          ((Nfa.has_trans_iff D _).2 ⟨sp.2, st.2, hfs, hft, by rw [hl]; exact List.mem_cons_self _ _⟩)
      rw [hl] at hle
      simp only [List.length_cons] at hle ⊢
      omega

theorem determinize_is_deterministic_witness :
    nfa_S6.WF ∧ is_deterministic nfa_S6 = .ok false ∧
    ∃ D, (∃ fuel, ∀ n, fuel ≤ n → determinize n nfa_S6 = some D) ∧
      (∀ n D', determinize n nfa_S6 = some D' → D' = D) ∧
      is_deterministic D = .ok true ∧
      D.initialstates.length = 1 ∧
      (∀ s a t t', D.has_trans ⟨s, a, t⟩ = true → D.has_trans ⟨s, a, t'⟩ = true → t = t') ∧
      (∀ sp ∈ D.transitions, ∀ st ∈ sp.2, st.2.length = 1) :=
  ⟨by decide, rfl, determinize_is_deterministic nfa_S6 (by decide)⟩

end Vata2

namespace Vata2

/-! ## Serialization -/

/-- The loop over a set of states in `serialize`: it appends the names of all states when
every state has one. -/
theorem serialize_states_ok (sm : Option StateToStringMap) (l : List State)
    (acc : List String) (h : ∀ s ∈ l, (state_namer sm s).1 = true) :
    serialize_states sm l acc = .ok (acc ++ l.map (fun s => (state_namer sm s).2)) := by
  induction l generalizing acc with
  | nil => simp [serialize_states]
  | cons s l ih =>
    have hs := h s (List.mem_cons_self _ _)
    simp only [serialize_states, hs, Bool.not_true, Bool.false_eq_true, if_false]
    rw [ih _ (fun x hx => h x (List.mem_cons_of_mem _ hx))]
    simp

/-- The loop over a set of states in `serialize`: it throws at the first state without a
name. -/
theorem serialize_states_error (sm : Option StateToStringMap) (l : List State)
    (acc : List String) (h : ∃ s ∈ l, (state_namer sm s).1 = false) :
    ∃ s ∈ l, (state_namer sm s).1 = false ∧
      serialize_states sm l acc = .error ("cannot translate state " ++ std_to_string s) := by
  induction l generalizing acc with
  | nil => obtain ⟨s, hs, _⟩ := h; exact absurd hs (List.not_mem_nil _)
  | cons s l ih =>
    cases hs : (state_namer sm s).1 with
    | false =>
      refine ⟨s, List.mem_cons_self _ _, hs, ?_⟩
      simp [serialize_states, hs]
    | true =>
      obtain ⟨x, hx, hxf⟩ := h
      rcases List.mem_cons.1 hx with rfl | hx
      · rw [hs] at hxf; cases hxf
      · obtain ⟨y, hy, hyf, he⟩ := ih (acc ++ [(state_namer sm s).2]) ⟨x, hx, hxf⟩
        refine ⟨y, List.mem_cons_of_mem _ hy, hyf, ?_⟩
        simp only [serialize_states, hs, Bool.not_true, Bool.false_eq_true, if_false]
        exact he

theorem serialize_body_ok (ym : Option SymbolToStringMap) (sm : Option StateToStringMap)
    (l : List Trans) (body : List (List String))
    (h : ∀ t ∈ l, (state_namer sm t.src).1 = true ∧ (state_namer sm t.tgt).1 = true ∧
      (symbol_namer ym t.symb).1 = true) :
    serialize_body ym sm l body =
      .ok (body ++ l.map (fun t =>
        [(state_namer sm t.src).2, (symbol_namer ym t.symb).2, (state_namer sm t.tgt).2])) := by
  induction l generalizing body with
  | nil => simp [serialize_body]
  | cons t l ih =>
    obtain ⟨h1, h2, h3⟩ := h t (List.mem_cons_self _ _)
    simp only [serialize_body, h1, h2, h3, Bool.not_true, Bool.false_eq_true, if_false]
    rw [ih _ (fun x hx => h x (List.mem_cons_of_mem _ hx))]
    simp

theorem serialize_body_error (ym : Option SymbolToStringMap) (sm : Option StateToStringMap)
    (l : List Trans) (body : List (List String))
    (h : ∃ t ∈ l, (state_namer sm t.src).1 = false ∨ (state_namer sm t.tgt).1 = false ∨
      (symbol_namer ym t.symb).1 = false) :
    ∃ msg, serialize_body ym sm l body = .error msg ∧
      ((∃ t ∈ l, ∃ s, (s = t.src ∨ s = t.tgt) ∧ (state_namer sm s).1 = false ∧
          msg = "cannot translate state " ++ std_to_string s) ∨
        (∃ t ∈ l, (symbol_namer ym t.symb).1 = false ∧
          msg = "cannot translate symbol " ++ std_to_string t.symb)) := by
  induction l generalizing body with
  | nil => obtain ⟨t, ht, _⟩ := h; exact absurd ht (List.not_mem_nil _)
  | cons t l ih =>
    cases h1 : (state_namer sm t.src).1 with
    | false =>
      exact ⟨_, by simp [serialize_body, h1],
        Or.inl ⟨t, List.mem_cons_self _ _, t.src, Or.inl rfl, h1, rfl⟩⟩
    | true =>
      cases h2 : (state_namer sm t.tgt).1 with
      | false =>
        exact ⟨_, by simp [serialize_body, h1, h2],
          Or.inl ⟨t, List.mem_cons_self _ _, t.tgt, Or.inr rfl, h2, rfl⟩⟩
      | true =>
        cases h3 : (symbol_namer ym t.symb).1 with
        | false =>
          exact ⟨_, by simp [serialize_body, h1, h2, h3],
            Or.inr ⟨t, List.mem_cons_self _ _, h3, rfl⟩⟩
        | true =>
          obtain ⟨x, hx, hxf⟩ := h
          rcases List.mem_cons.1 hx with rfl | hx
          · rw [h1, h2, h3] at hxf
            simp at hxf
          · obtain ⟨msg, he, hm⟩ := ih
              (body ++ [[(state_namer sm t.src).2, (symbol_namer ym t.symb).2,
                (state_namer sm t.tgt).2]]) ⟨x, hx, hxf⟩
            refine ⟨msg, ?_, ?_⟩
            · simp only [serialize_body, h1, h2, h3, Bool.not_true, Bool.false_eq_true,
                if_false]
              exact he
            · rcases hm with ⟨y, hy, r⟩ | ⟨y, hy, r⟩
              · exact Or.inl ⟨y, List.mem_cons_of_mem _ hy, r⟩
              · exact Or.inr ⟨y, List.mem_cons_of_mem _ hy, r⟩

/-- What `serialize` returns when every state and every symbol has a name. -/
theorem serialize_ok (A : Nfa) (ym : Option SymbolToStringMap) (sm : Option StateToStringMap)
    (hi : ∀ s ∈ A.initialstates, (state_namer sm s).1 = true)
    (hf : ∀ s ∈ A.finalstates, (state_namer sm s).1 = true)
    (ht : ∀ t ∈ A.trans_list, (state_namer sm t.src).1 = true ∧
      (state_namer sm t.tgt).1 = true ∧ (symbol_namer ym t.symb).1 = true) :
    serialize A ym sm = .ok
      { type := "NFA"
        dict := [("Initial", A.initialstates.map (fun s => (state_namer sm s).2)),
          ("Final", A.finalstates.map (fun s => (state_namer sm s).2))]
        body := A.trans_list.map (fun t =>
          [(state_namer sm t.src).2, (symbol_namer ym t.symb).2, (state_namer sm t.tgt).2]) } := by
  unfold serialize
  simp only [bind, Except.bind, serialize_states_ok sm _ _ hi, serialize_states_ok sm _ _ hf,
    serialize_body_ok ym sm _ _ ht, List.nil_append, pure, Except.pure]
  rfl

/-- When some state or symbol has no name, `serialize` throws, and the message names a state
or a symbol of the automaton that has no name. -/
theorem serialize_error (A : Nfa) (ym : Option SymbolToStringMap)
    (sm : Option StateToStringMap)
    (h : ¬ ((∀ s ∈ A.initialstates, (state_namer sm s).1 = true) ∧
      (∀ s ∈ A.finalstates, (state_namer sm s).1 = true) ∧
      (∀ t ∈ A.trans_list, (state_namer sm t.src).1 = true ∧
        (state_namer sm t.tgt).1 = true ∧ (symbol_namer ym t.symb).1 = true))) :
    ∃ msg, serialize A ym sm = .error msg ∧
      ((∃ s, (s ∈ A.initialstates ∨ s ∈ A.finalstates ∨
            ∃ t ∈ A.trans_list, t.src = s ∨ t.tgt = s) ∧
          (state_namer sm s).1 = false ∧ msg = "cannot translate state " ++ std_to_string s) ∨
        (∃ t ∈ A.trans_list, (symbol_namer ym t.symb).1 = false ∧
          msg = "cannot translate symbol " ++ std_to_string t.symb)) := by
  unfold serialize
  by_cases hi : ∀ s ∈ A.initialstates, (state_namer sm s).1 = true
  · by_cases hf : ∀ s ∈ A.finalstates, (state_namer sm s).1 = true
    · have ht : ∃ t ∈ A.trans_list, (state_namer sm t.src).1 = false ∨
          (state_namer sm t.tgt).1 = false ∨ (symbol_namer ym t.symb).1 = false := by
        by_contra hc
        apply h
        refine ⟨hi, hf, fun t ht => ?_⟩
        by_contra hc'
        apply hc
        refine ⟨t, ht, ?_⟩
        cases h1 : (state_namer sm t.src).1 <;> cases h2 : (state_namer sm t.tgt).1 <;>
          cases h3 : (symbol_namer ym t.symb).1 <;> simp_all
      obtain ⟨msg, he, hm⟩ := serialize_body_error ym sm A.trans_list [] ht
      refine ⟨msg, ?_, ?_⟩
      · simp only [bind, Except.bind, serialize_states_ok sm _ _ hi,
          serialize_states_ok sm _ _ hf, he]
      · rcases hm with ⟨t, ht, s, hs, r⟩ | r
        · refine Or.inl ⟨s, Or.inr (Or.inr ⟨t, ht, ?_⟩), r⟩
          rcases hs with rfl | rfl
          · exact Or.inl rfl
          · exact Or.inr rfl
        · exact Or.inr r
    · have hf' : ∃ s ∈ A.finalstates, (state_namer sm s).1 = false := by
        by_contra hc
        apply hf
        intro s hs
        by_contra hc'
        exact hc ⟨s, hs, by simpa using hc'⟩
      obtain ⟨s, hs, hsf, he⟩ := serialize_states_error sm A.finalstates [] hf'
      refine ⟨_, ?_, Or.inl ⟨s, Or.inr (Or.inl hs), hsf, rfl⟩⟩
      simp only [bind, Except.bind, serialize_states_ok sm _ _ hi, he]
  · have hi' : ∃ s ∈ A.initialstates, (state_namer sm s).1 = false := by
      by_contra hc
      apply hi
      intro s hs
      by_contra hc'
      exact hc ⟨s, hs, by simpa using hc'⟩
    obtain ⟨s, hs, hsf, he⟩ := serialize_states_error sm A.initialstates [] hi'
    refine ⟨_, ?_, Or.inl ⟨s, Or.inl hs, hsf, rfl⟩⟩
    simp only [bind, Except.bind, he]

theorem state_namer_some (sm : StateToStringMap) (s : State) :
    ((state_namer (some sm) s).1 = false ↔ umap_find sm s = none) ∧
    ((state_namer (some sm) s).1 = true →
      umap_find sm s = some (state_namer (some sm) s).2) := by
  unfold state_namer
  cases h : umap_find sm s <;> simp [h]

theorem symbol_namer_some (ym : SymbolToStringMap) (a : Symbol) :
    ((symbol_namer (some ym) a).1 = false ↔ umap_find ym a = none) ∧
    ((symbol_namer (some ym) a).1 = true →
      umap_find ym a = some (symbol_namer (some ym) a).2) := by
  unfold symbol_namer
  cases h : umap_find ym a <;> simp [h]

/-- C19: for every well-formed automaton `A`, `serialize(A)` with no name maps returns a
section of type `"NFA"` whose `dict["Initial"]` lists `"q<id>"` for exactly the initial states,
whose `dict["Final"]` lists `"q<id>"` for exactly the final states, and whose body has one row
`["q<src>", "a<symb>", "q<tgt>"]` per transition of `A`, in the order in which the iterator
visits the transitions (each once), with the identifiers in decimal. -/
theorem serialize_default (A : Nfa) (hA : A.WF) :
    ∃ sec, serialize A none none = .ok sec ∧ sec.type = "NFA" ∧
      umap_find sec.dict "Initial" = some (A.initialstates.map (fun s => "q" ++ Nat.repr s)) ∧
      umap_find sec.dict "Final" = some (A.finalstates.map (fun s => "q" ++ Nat.repr s)) ∧
      sec.body = A.trans_list.map (fun t =>
        ["q" ++ Nat.repr t.src, "a" ++ Nat.repr t.symb, "q" ++ Nat.repr t.tgt]) ∧
      (∀ fuel, A.trans_list.length + 1 ≤ fuel → A.iteration fuel = some (.ok A.trans_list)) ∧
      A.trans_list.Nodup ∧ (∀ t, t ∈ A.trans_list ↔ A.has_trans t = true) := by
  refine ⟨_, serialize_ok A none none (fun _ _ => rfl) (fun _ _ => rfl)
    (fun _ _ => ⟨rfl, rfl, rfl⟩), rfl, ?_, ?_, rfl, iteration_spec hA, trans_list_nodup hA,
    Nfa.mem_trans_list_iff hA⟩
  · simp only [umap_find_cons, if_true]
    rfl
  · simp only [umap_find_cons]
    rw [if_neg (by decide)]
    simp only [if_true]
    rfl

theorem serialize_default_witness :
    nfa_S1.WF ∧
    serialize nfa_S1 none none =
      .ok ⟨"NFA", [("Initial", ["q0"]), ("Final", ["q1"])], [["q0", "a0", "q1"]]⟩ ∧
    ∃ sec, serialize nfa_S1 none none = .ok sec ∧ sec.type = "NFA" ∧
      umap_find sec.dict "Initial" =
        some (nfa_S1.initialstates.map (fun s => "q" ++ Nat.repr s)) ∧
      umap_find sec.dict "Final" = some (nfa_S1.finalstates.map (fun s => "q" ++ Nat.repr s)) ∧
      sec.body = nfa_S1.trans_list.map (fun t =>
        ["q" ++ Nat.repr t.src, "a" ++ Nat.repr t.symb, "q" ++ Nat.repr t.tgt]) ∧
      (∀ fuel, nfa_S1.trans_list.length + 1 ≤ fuel →
        nfa_S1.iteration fuel = some (.ok nfa_S1.trans_list)) ∧
      nfa_S1.trans_list.Nodup ∧ (∀ t, t ∈ nfa_S1.trans_list ↔ nfa_S1.has_trans t = true) :=
  ⟨by decide, rfl, serialize_default nfa_S1 (by decide)⟩

/-- C20: for every well-formed automaton `A` and supplied name maps, `serialize` fails iff some
state occurring in `A` (initial, final, source or target of a transition) has no entry in the
state map or some transition symbol has no entry in the symbol map; the message is
`"cannot translate state <id>"` resp. `"cannot translate symbol <id>"` for such a state or
symbol; otherwise every name in the output is the entry of the map. -/
theorem serialize_named (A : Nfa) (hA : A.WF) (symbol_map : SymbolToStringMap)
    (state_map : StateToStringMap) :
    ((∃ msg, serialize A (some symbol_map) (some state_map) = .error msg) ↔
      ((∃ s, A.has_state s ∧ umap_find state_map s = none) ∨
        (∃ t, A.has_trans t = true ∧ umap_find symbol_map t.symb = none))) ∧
    (∀ msg, serialize A (some symbol_map) (some state_map) = .error msg →
      ((∃ s, A.has_state s ∧ umap_find state_map s = none ∧
          msg = "cannot translate state " ++ Nat.repr s) ∨
        (∃ t, A.has_trans t = true ∧ umap_find symbol_map t.symb = none ∧
          msg = "cannot translate symbol " ++ Nat.repr t.symb))) ∧
    (∀ sec, serialize A (some symbol_map) (some state_map) = .ok sec →
      sec.type = "NFA" ∧
      (∃ names, umap_find sec.dict "Initial" = some names ∧
        names.map some = A.initialstates.map (umap_find state_map)) ∧
      (∃ names, umap_find sec.dict "Final" = some names ∧
        names.map some = A.finalstates.map (umap_find state_map)) ∧
      sec.body.map (fun row => row.map some) = A.trans_list.map (fun t =>
        [umap_find state_map t.src, umap_find symbol_map t.symb,
          umap_find state_map t.tgt])) := by
  by_cases hall : (∀ s ∈ A.initialstates, (state_namer (some state_map) s).1 = true) ∧
      (∀ s ∈ A.finalstates, (state_namer (some state_map) s).1 = true) ∧
      (∀ t ∈ A.trans_list, (state_namer (some state_map) t.src).1 = true ∧
        (state_namer (some state_map) t.tgt).1 = true ∧
        (symbol_namer (some symbol_map) t.symb).1 = true)
  · obtain ⟨hi, hf, ht⟩ := hall
    have hok := serialize_ok A (some symbol_map) (some state_map) hi hf ht
    have hno : ¬ ((∃ s, A.has_state s ∧ umap_find state_map s = none) ∨
        (∃ t, A.has_trans t = true ∧ umap_find symbol_map t.symb = none)) := by
      rintro (⟨s, hs, hn⟩ | ⟨t, ht', hn⟩)
      · have hfalse := (state_namer_some state_map s).1.2 hn
        rcases hs with hs | hs | ⟨t, ht', rfl | rfl⟩
        · rw [hi s hs] at hfalse; cases hfalse
        · rw [hf s hs] at hfalse; cases hfalse
        · rw [(ht t ((Nfa.mem_trans_list_iff hA t).2 ht')).1] at hfalse; cases hfalse
        · rw [(ht t ((Nfa.mem_trans_list_iff hA t).2 ht')).2.1] at hfalse; cases hfalse
      · have hfalse := (symbol_namer_some symbol_map t.symb).1.2 hn
        rw [(ht t ((Nfa.mem_trans_list_iff hA t).2 ht')).2.2] at hfalse
        cases hfalse
    refine ⟨⟨?_, fun h => absurd h hno⟩, ?_, ?_⟩
    · rintro ⟨msg, hmsg⟩
      rw [hok] at hmsg
      cases hmsg
    · intro msg hmsg
      rw [hok] at hmsg
      cases hmsg
    · intro sec hsec
      rw [hok] at hsec
      cases hsec
      refine ⟨rfl,
        ⟨A.initialstates.map (fun s => (state_namer (some state_map) s).2), by simp, ?_⟩,
        ⟨A.finalstates.map (fun s => (state_namer (some state_map) s).2), ?_, ?_⟩, ?_⟩
      · rw [List.map_map]
        apply List.map_congr_left
        intro s hs
        exact ((state_namer_some state_map s).2 (hi s hs)).symm
      · simp only [umap_find_cons]
        rw [if_neg (by decide)]
        simp only [if_true]
      · rw [List.map_map]
        apply List.map_congr_left
        intro s hs
        exact ((state_namer_some state_map s).2 (hf s hs)).symm
      · simp only [List.map_map]
        apply List.map_congr_left
        intro t ht'
        obtain ⟨h1, h2, h3⟩ := ht t ht'
        simp only [Function.comp, List.map_cons, List.map_nil]
        rw [(state_namer_some state_map t.src).2 h1, (state_namer_some state_map t.tgt).2 h2,
          (symbol_namer_some symbol_map t.symb).2 h3]
  · obtain ⟨msg, he, hm⟩ := serialize_error A (some symbol_map) (some state_map) hall
    have hcause : (∃ s, A.has_state s ∧ umap_find state_map s = none ∧
          msg = "cannot translate state " ++ Nat.repr s) ∨
        (∃ t, A.has_trans t = true ∧ umap_find symbol_map t.symb = none ∧
          msg = "cannot translate symbol " ++ Nat.repr t.symb) := by
      rcases hm with ⟨s, hs, hsf, hmsg⟩ | ⟨t, ht, htf, hmsg⟩
      · refine Or.inl ⟨s, ?_, (state_namer_some state_map s).1.1 hsf, hmsg⟩
        rcases hs with hs | hs | ⟨t, ht, hst⟩
        · exact Or.inl hs
        · exact Or.inr (Or.inl hs)
        · exact Or.inr (Or.inr ⟨t, (Nfa.mem_trans_list_iff hA t).1 ht, hst⟩)
      · exact Or.inr ⟨t, (Nfa.mem_trans_list_iff hA t).1 ht,
          (symbol_namer_some symbol_map t.symb).1.1 htf, hmsg⟩
    refine ⟨⟨fun _ => ?_, fun _ => ⟨msg, he⟩⟩, ?_, ?_⟩
    · rcases hcause with ⟨s, h1, h2, _⟩ | ⟨t, h1, h2, _⟩
      · exact Or.inl ⟨s, h1, h2⟩
      · exact Or.inr ⟨t, h1, h2⟩
    · intro msg' hmsg'
      rw [he] at hmsg'
      cases hmsg'
      exact hcause
    · intro sec hsec
      rw [he] at hsec
      cases hsec

theorem serialize_named_witness :
    nfa_S1.WF ∧
    serialize nfa_S1 (some [(0, "a")]) (some [(0, "init"), (1, "fin")]) =
      .ok ⟨"NFA", [("Initial", ["init"]), ("Final", ["fin"])], [["init", "a", "fin"]]⟩ ∧
    serialize nfa_S1 (some [(0, "a")]) (some [(0, "init")]) =
      .error "cannot translate state 1" ∧
    serialize nfa_S1 (some []) (some [(0, "init"), (1, "fin")]) =
      .error "cannot translate symbol 0" ∧
    ((∃ msg, serialize nfa_S1 (some [(0, "a")]) (some [(0, "init")]) = .error msg) ↔
      ((∃ s, nfa_S1.has_state s ∧ umap_find [(0, "init")] s = none) ∨
        (∃ t, nfa_S1.has_trans t = true ∧ umap_find [(0, "a")] t.symb = none))) :=
  ⟨by decide, rfl, rfl, rfl, (serialize_named nfa_S1 (by decide) [(0, "a")] [(0, "init")]).1⟩

end Vata2

namespace Vata2

/-! ## Failures of `construct` -/

theorem translate_symb_of_rejects {lib : LibFns} {alphabet : Alphabet} {str : String}
    (h : alphabet.rejects str = true) :
    alphabet.translate_symb lib str = .error ("unknown symbol '" ++ str ++ "'") := by
  cases alphabet with
  | on_the_fly m c => simp [Alphabet.rejects] at h
  | direct => simp [Alphabet.rejects] at h
  | char => simp [Alphabet.rejects] at h
  | enum m =>
    simp only [Alphabet.rejects, Option.isNone_iff_eq_none] at h
    simp [Alphabet.translate_symb, h]

theorem translate_symb_of_not_rejects (lib : LibFns) {alphabet : Alphabet} {str : String}
    (h : alphabet.rejects str = false) :
    ∃ symb alphabet', alphabet.translate_symb lib str = .ok (symb, alphabet') ∧
      ∀ tok, alphabet'.rejects tok = alphabet.rejects tok := by
  cases alphabet with
  | on_the_fly m c =>
    simp only [Alphabet.translate_symb]
    split_ifs
    · exact ⟨_, _, rfl, fun _ => rfl⟩
    · exact ⟨_, _, rfl, fun _ => rfl⟩
  | direct => exact ⟨_, _, rfl, fun _ => rfl⟩
  | char =>
    simp only [Alphabet.translate_symb]
    split
    · split_ifs
      · exact ⟨_, _, rfl, fun _ => rfl⟩
      · exact ⟨_, _, rfl, fun _ => rfl⟩
    · exact ⟨_, _, rfl, fun _ => rfl⟩
  | enum m =>
    simp only [Alphabet.rejects] at h
    cases hf : umap_find m str with
    | none => simp [hf] at h
    | some symb => exact ⟨symb, _, by simp [Alphabet.translate_symb, hf], fun _ => rfl⟩

/-- The body loop succeeds when every row has three tokens and a symbol token that the
alphabet accepts. -/
theorem construct_body_ok (lib : LibFns) (rows : List (List String)) :
    ∀ (aut : Nfa) (alphabet : Alphabet) (c : StringToStateMap × State),
      (∀ row ∈ rows, row.length = 3 ∧ alphabet.rejects (row.getD 1 "") = false) →
      ∃ r, construct_body lib rows (aut, alphabet, c) = .ok r := by
  induction rows with
  | nil => intro aut alphabet c _; exact ⟨_, rfl⟩
  | cons row rows ih =>
    intro aut alphabet c h
    obtain ⟨hl, hr⟩ := h row (List.mem_cons_self _ _)
    obtain ⟨symb, alphabet', ht, hrej⟩ := translate_symb_of_not_rejects lib hr
    simp only [construct_body, hl, bne_self_eq_false, Bool.false_eq_true, if_false, ht]
    apply ih
    intro r hr'
    rw [hrej]
    exact h r (List.mem_cons_of_mem _ hr')

/-- The body loop throws at the first row that has not three tokens or whose symbol token the
alphabet rejects. -/
theorem construct_body_error (lib : LibFns) (pre : List (List String)) (row : List String)
    (post : List (List String)) :
    ∀ (aut : Nfa) (alphabet : Alphabet) (c : StringToStateMap × State),
      (∀ r ∈ pre, r.length = 3 ∧ alphabet.rejects (r.getD 1 "") = false) →
      (row.length ≠ 3 ∨ alphabet.rejects (row.getD 1 "") = true) →
      construct_body lib (pre ++ row :: post) (aut, alphabet, c) =
        .error (construct_row_error lib row) := by
  induction pre with
  | nil =>
    intro aut alphabet c _ hbad
    simp only [List.nil_append, construct_body, construct_row_error]
    by_cases h3 : row.length = 3
    · have hrej : alphabet.rejects (row.getD 1 "") = true := by
        rcases hbad with h | h
        · exact absurd h3 h
        · exact h
      rw [translate_symb_of_rejects hrej]
      simp [h3]
    · by_cases h2 : row.length = 2
      · simp [h2]
      · simp [h3, h2]
  | cons r pre ih =>
    intro aut alphabet c h hbad
    obtain ⟨hl, hr⟩ := h r (List.mem_cons_self _ _)
    obtain ⟨symb, alphabet', ht, hrej⟩ := translate_symb_of_not_rejects lib hr
    simp only [List.cons_append, construct_body, hl, bne_self_eq_false, Bool.false_eq_true,
      if_false, ht]
    apply ih
    · intro r' hr'
      rw [hrej]
      exact h r' (List.mem_cons_of_mem _ hr')
    · rw [hrej]
      exact hbad

/-- Every list of rows either is processed completely or splits at a first bad row. -/
theorem rows_split (alphabet : Alphabet) (rows : List (List String)) :
    (∀ row ∈ rows, row.length = 3 ∧ alphabet.rejects (row.getD 1 "") = false) ∨
    ∃ pre row post, rows = pre ++ row :: post ∧
      (∀ r ∈ pre, r.length = 3 ∧ alphabet.rejects (r.getD 1 "") = false) ∧
      (row.length ≠ 3 ∨ alphabet.rejects (row.getD 1 "") = true) := by
  induction rows with
  | nil => exact Or.inl (fun _ h => absurd h (List.not_mem_nil _))
  | cons r rows ih =>
    by_cases hr : r.length = 3 ∧ alphabet.rejects (r.getD 1 "") = false
    · rcases ih with h | ⟨pre, row, post, e, h1, h2⟩
      · left
        intro x hx
        rcases List.mem_cons.1 hx with rfl | hx
        · exact hr
        · exact h x hx
      · right
        refine ⟨r :: pre, row, post, by rw [e]; rfl, ?_, h2⟩
        intro x hx
        rcases List.mem_cons.1 hx with rfl | hx
        · exact hr
        · exact h1 x hx
    · right
      refine ⟨[], r, rows, rfl, fun _ h => absurd h (List.not_mem_nil _), ?_⟩
      by_cases h3 : r.length = 3
      · right
        cases hj : alphabet.rejects (r.getD 1 "") with
        | true => rfl
        | false => exact absurd ⟨h3, hj⟩ hr
      · exact Or.inl h3

theorem construct_into_of_type {lib : LibFns} {aut : Nfa} {parsec : ParsedSection}
    {alphabet : Alphabet} {state_map : Option StringToStateMap} (h : parsec.type = "NFA") :
    ∃ aut' c, construct_into lib aut parsec alphabet state_map =
      match construct_body lib parsec.body (aut', alphabet, c) with
      | .error e => .error e
      | .ok r => .ok (r.1, r.2.1, r.2.2.1) := by
  unfold construct_into
  have : (parsec.type != TYPE_NFA) = false := by
    rw [h]
    rfl
  rw [this]
  simp only [Bool.false_eq_true, if_false]
  exact ⟨_, _, rfl⟩

/-- C18: `construct(parsec, alphabet, state_dict)` fails iff the section type is not `"NFA"` or
some body row does not have exactly three tokens or has a symbol token that the alphabet
rejects.  A wrong type fails with `construct: expecting type "NFA"`; otherwise the first row
that cannot be processed decides the message: `Epsilon transitions not supported: ...` when
it has exactly two tokens, `Invalid transition: ...` for any other number of tokens different
from three (zero included), and the message of the alphabet for a rejected symbol. -/
theorem construct_fails_iff (lib : LibFns) (aut : Nfa) (parsec : ParsedSection)
    (alphabet : Alphabet) (state_map : Option StringToStateMap) :
    ((∃ msg, construct_into lib aut parsec alphabet state_map = .error msg) ↔
      (parsec.type ≠ "NFA" ∨
        ∃ row ∈ parsec.body, row.length ≠ 3 ∨ alphabet.rejects (row.getD 1 "") = true)) ∧
    (parsec.type ≠ "NFA" →
      construct_into lib aut parsec alphabet state_map =
        .error "construct: expecting type \"NFA\"") ∧
    (parsec.type = "NFA" → ∀ pre row post, parsec.body = pre ++ row :: post →
      (∀ r ∈ pre, r.length = 3 ∧ alphabet.rejects (r.getD 1 "") = false) →
      (row.length = 2 →
        construct_into lib aut parsec alphabet state_map =
          .error ("Epsilon transitions not supported: " ++ lib.vec_to_string row)) ∧
      (row.length ≠ 3 → row.length ≠ 2 →
        construct_into lib aut parsec alphabet state_map =
          .error ("Invalid transition: " ++ lib.vec_to_string row)) ∧
      (row.length = 3 → alphabet.rejects (row.getD 1 "") = true →
        construct_into lib aut parsec alphabet state_map =
          .error ("unknown symbol '" ++ row.getD 1 "" ++ "'"))) := by
  have htype : parsec.type ≠ "NFA" →
      construct_into lib aut parsec alphabet state_map =
        .error "construct: expecting type \"NFA\"" := by
    intro h
    unfold construct_into
    have : (parsec.type != TYPE_NFA) = true := by
      rw [bne_iff_ne]
      exact h
    rw [this]
    rfl
  have hrow : parsec.type = "NFA" → ∀ pre row post, parsec.body = pre ++ row :: post →
      (∀ r ∈ pre, r.length = 3 ∧ alphabet.rejects (r.getD 1 "") = false) →
      (row.length ≠ 3 ∨ alphabet.rejects (row.getD 1 "") = true) →
      construct_into lib aut parsec alphabet state_map =
        .error (construct_row_error lib row) := by
    intro h pre row post e hpre hbad
    obtain ⟨aut', c, hc⟩ := @construct_into_of_type lib aut parsec alphabet state_map h
    rw [hc, e, construct_body_error lib pre row post aut' alphabet c hpre hbad]
  refine ⟨⟨?_, ?_⟩, htype, ?_⟩
  · rintro ⟨msg, hmsg⟩
    by_cases h : parsec.type = "NFA"
    · right
      rcases rows_split alphabet parsec.body with hall | ⟨pre, row, post, e, _, hbad⟩
      · exfalso
        obtain ⟨aut', c, hc⟩ := @construct_into_of_type lib aut parsec alphabet state_map h
        obtain ⟨r, hr⟩ := construct_body_ok lib parsec.body aut' alphabet c hall
        rw [hc, hr] at hmsg
        cases hmsg
      · exact ⟨row, by rw [e]; simp, hbad⟩
    · exact Or.inl h
  · rintro (h | ⟨row, hrow', hbad⟩)
    · exact ⟨_, htype h⟩
    · by_cases h : parsec.type = "NFA"
      · rcases rows_split alphabet parsec.body with hall | ⟨pre, row', post, e, hpre, hbad'⟩
        · exfalso
          have := hall row hrow'
          rcases hbad with hb | hb
          · exact hb this.1
          · rw [this.2] at hb
            cases hb
        · exact ⟨_, hrow h pre row' post e hpre hbad'⟩
      · exact ⟨_, htype h⟩
  · intro h pre row post e hpre
    refine ⟨fun h2 => ?_, fun h3 h2 => ?_, fun h3 hrej => ?_⟩
    · rw [hrow h pre row post e hpre (Or.inl (by omega))]
      simp [construct_row_error, h2]
    · rw [hrow h pre row post e hpre (Or.inl h3)]
      simp [construct_row_error, h2, h3]
    · rw [hrow h pre row post e hpre (Or.inr hrej)]
      simp [construct_row_error, h3]

theorem construct_fails_iff_witness :
    construct_into lib_plain {} ⟨"NFX", [], []⟩ Alphabet.direct none =
      .error "construct: expecting type \"NFA\"" ∧
    construct_into lib_plain {} ⟨"NFA", [], [["p", "a", "q"], ["p", "q"], []]⟩
        (Alphabet.on_the_fly [] 0) none =
      .error "Epsilon transitions not supported: p q" ∧
    construct_into lib_plain {} ⟨"NFA", [], [["p", "a", "q"], [], ["p", "q"]]⟩
        (Alphabet.on_the_fly [] 0) none =
      .error "Invalid transition: " ∧
    construct_into lib_plain {} ⟨"NFA", [], [["p", "b", "q"], ["p", "q"]]⟩ alphabet_a none =
      .error "unknown symbol 'b'" :=
  ⟨(construct_fails_iff lib_plain {} ⟨"NFX", [], []⟩ Alphabet.direct none).2.1 (by decide),
    ((construct_fails_iff lib_plain {} ⟨"NFA", [], [["p", "a", "q"], ["p", "q"], []]⟩
      (Alphabet.on_the_fly [] 0) none).2.2 rfl [["p", "a", "q"]] ["p", "q"] [[]] rfl
      (by decide)).1 rfl,
    ((construct_fails_iff lib_plain {} ⟨"NFA", [], [["p", "a", "q"], [], ["p", "q"]]⟩
      (Alphabet.on_the_fly [] 0) none).2.2 rfl [["p", "a", "q"]] [] [["p", "q"]] rfl
      (by decide)).2.1 (by decide) (by decide),
    ((construct_fails_iff lib_plain {} ⟨"NFA", [], [["p", "b", "q"], ["p", "q"]]⟩
      alphabet_a none).2.2 rfl [] ["p", "b", "q"] [["p", "q"]] rfl
      (by decide)).2.2 rfl rfl⟩

end Vata2

namespace Vata2

/-! ## Decimal rendering is injective; interning of names -/

theorem digitChar_value (k : Nat) (h : k < 10) : (Nat.digitChar k).toNat - 48 = k := by
  interval_cases k <;> rfl

theorem toDigitsCore_value (fuel : Nat) : ∀ (n : Nat) (ds : List Char), n < fuel →
    decimal_value 0 (Nat.toDigitsCore 10 fuel n ds) = decimal_value n ds := by
  induction fuel with
  | zero => intro n ds h; omega
  | succ fuel ih =>
    intro n ds h
    simp only [Nat.toDigitsCore]
    split_ifs with h0
    · simp only [decimal_value, List.foldl_cons, Nat.zero_mul, Nat.zero_add]
      rw [digitChar_value _ (Nat.mod_lt _ (by decide))]
      congr 1
      omega
    · rw [ih (n / 10) _ (by omega)]
      simp only [decimal_value, List.foldl_cons]
      rw [digitChar_value _ (Nat.mod_lt _ (by decide))]
      congr 1
      omega

theorem repr_value (n : Nat) : decimal_value 0 (Nat.repr n).data = n := by
  show decimal_value 0 (Nat.toDigits 10 n) = n
  unfold Nat.toDigits
  rw [toDigitsCore_value _ _ _ (Nat.lt_succ_self n)]
  rfl

/-- The library function `std::to_string` is injective on unsigned integers. -/
theorem std_to_string_injective {n m : Nat} (h : std_to_string n = std_to_string m) : n = m := by
  have h1 := repr_value n
  have h2 := repr_value m
  unfold std_to_string at h
  rw [h] at h1
  rw [← h1, h2]

theorem name_injective (p : String) {n m : Nat}
    (h : p ++ std_to_string n = p ++ std_to_string m) : n = m := by
  apply std_to_string_injective
  have := congrArg String.data h
  simp only [String.data_append] at this
  exact String.ext (List.append_cancel_left this)

theorem intern_ext_refl (c : StringToStateMap × State) : InternExt c c := fun _ _ h => h

theorem intern_ext_trans {a b c : StringToStateMap × State} (h₁ : InternExt a b)
    (h₂ : InternExt b c) : InternExt a c := fun k v h => h₂ k v (h₁ k v h)

theorem intern_lookup_of_find {c : StringToStateMap × State} {k : String} {v : State}
    (h : umap_find c.1 k = some v) : intern_lookup c k = v := by
  simp [intern_lookup, h]

theorem intern_inv_nil : InternInv ([], 0) :=
  ⟨fun _ _ h => by simp at h, fun _ _ _ h => by simp at h⟩

/-- One call of `get_state_name`: the captures are extended, the returned identifier is the
one now stored for the name, and the invariant is kept. -/
theorem get_state_name_spec (c : StringToStateMap × State) (str : String) :
    InternExt c (get_state_name c str).2 ∧
      umap_find (get_state_name c str).2.1 str = some (get_state_name c str).1 ∧
      (InternInv c → InternInv (get_state_name c str).2) := by
  cases h : umap_find c.1 str with
  | some v =>
    have e : get_state_name c str = (v, c) := by
      simp [get_state_name, umap_insert, h]
    rw [e]
    exact ⟨intern_ext_refl c, h, fun hi => hi⟩
  | none =>
    have e : get_state_name c str = (c.2, (c.1 ++ [(str, c.2)], c.2 + 1)) := by
      simp [get_state_name, umap_insert, h]
    rw [e]
    refine ⟨?_, ?_, ?_⟩
    · intro k v hk
      exact (umap_find_append_single _ _ _ _ _).2 (Or.inl hk)
    · exact (umap_find_append_single _ _ _ _ _).2 (Or.inr ⟨h, rfl, rfl⟩)
    · rintro ⟨h1, h2⟩
      refine ⟨?_, ?_⟩
      · intro k v hk
        rcases (umap_find_append_single _ _ _ _ _).1 hk with hk | ⟨_, _, rfl⟩
        · exact Nat.lt_succ_of_lt (h1 k v hk)
        · exact Nat.lt_succ_self _
      · intro k k' v hk hk'
        rcases (umap_find_append_single _ _ _ _ _).1 hk with hk | ⟨_, rfl, rfl⟩
        · rcases (umap_find_append_single _ _ _ _ _).1 hk' with hk' | ⟨_, rfl, rfl⟩
          · exact h2 k k' v hk hk'
          · exact absurd (h1 k _ hk) (Nat.lt_irrefl _)
        · rcases (umap_find_append_single _ _ _ _ _).1 hk' with hk' | ⟨_, rfl, _⟩
          · exact absurd (h1 k' _ hk') (Nat.lt_irrefl _)
          · rfl

/-- A loop that threads captures `τ` through steps on an automaton: when every step extends
the captures and agrees with a step `pure` that reads any later captures, the loop agrees
with the fold of `pure` over the final captures. -/
theorem foldl_pure_spec {X τ : Type} (Ext : τ → τ → Prop) (hrefl : ∀ c, Ext c c)
    (htrans : ∀ a b c, Ext a b → Ext b c → Ext a c) (Inv : τ → Prop) (Has : τ → X → Prop)
    (hmono : ∀ c c' x, Ext c c' → Has c x → Has c' x)
    (step : Nfa × τ → X → Nfa × τ) (pure : τ → Nfa → X → Nfa)
    (hstep : ∀ R c x,
      Ext c (step (R, c) x).2 ∧ (Inv c → Inv (step (R, c) x).2) ∧ Has (step (R, c) x).2 x ∧
      (∀ c'', Ext (step (R, c) x).2 c'' → (step (R, c) x).1 = pure c'' R x))
    (l : List X) (R : Nfa) (c : τ) :
    Ext c (l.foldl step (R, c)).2 ∧ (Inv c → Inv (l.foldl step (R, c)).2) ∧
      (∀ x ∈ l, Has (l.foldl step (R, c)).2 x) ∧
      (∀ c'', Ext (l.foldl step (R, c)).2 c'' →
        (l.foldl step (R, c)).1 = l.foldl (pure c'') R) := by
  induction l generalizing R c with
  | nil =>
    exact ⟨hrefl c, fun h => h, fun _ h => absurd h (List.not_mem_nil _), fun _ _ => rfl⟩
  | cons x l ih =>
    simp only [List.foldl_cons]
    obtain ⟨s1, s2, s3, s4⟩ := hstep R c x
    obtain ⟨j1, j2, j3, j4⟩ := ih (step (R, c) x).1 (step (R, c) x).2
    refine ⟨htrans _ _ _ s1 j1, fun h => j2 (s2 h), ?_, ?_⟩
    · intro y hy
      rcases List.mem_cons.1 hy with rfl | hy
      · exact hmono _ _ _ j1 s3
      · exact j3 y hy
    · intro c'' hc''
      rw [j4 c'' hc'', s4 c'' (htrans _ _ _ j1 hc'')]

end Vata2

namespace Vata2

/-! ## `construct` on a serialized automaton -/

/-- The loop of `construct` over the names under `"Initial"`, read over any later captures. -/
theorem construct_initial_spec (strs : List String) (R : Nfa) (c : StringToStateMap × State) :
    InternExt c (construct_initial strs (R, c)).2 ∧
      (InternInv c → InternInv (construct_initial strs (R, c)).2) ∧
      (∀ n ∈ strs, ∃ v, umap_find (construct_initial strs (R, c)).2.1 n = some v) ∧
      (∀ c'', InternExt (construct_initial strs (R, c)).2 c'' →
        (construct_initial strs (R, c)).1 =
          strs.foldl (fun R n => R.add_initial (intern_lookup c'' n)) R) := by
  refine foldl_pure_spec InternExt intern_ext_refl (fun _ _ _ => intern_ext_trans) InternInv
    (fun c n => ∃ v, umap_find c.1 n = some v) (fun c c' n he ⟨v, hv⟩ => ⟨v, he n v hv⟩)
    (fun ac str => ((ac.1.add_initial (get_state_name ac.2 str).1), (get_state_name ac.2 str).2))
    (fun c'' R n => R.add_initial (intern_lookup c'' n)) ?_ strs R c
  intro R c x
  obtain ⟨h1, h2, h3⟩ := get_state_name_spec c x
  refine ⟨h1, h3, ⟨_, h2⟩, fun c'' hc'' => ?_⟩
  simp only
  rw [intern_lookup_of_find (hc'' _ _ h2)]

theorem construct_final_spec (strs : List String) (R : Nfa) (c : StringToStateMap × State) :
    InternExt c (construct_final strs (R, c)).2 ∧
      (InternInv c → InternInv (construct_final strs (R, c)).2) ∧
      (∀ n ∈ strs, ∃ v, umap_find (construct_final strs (R, c)).2.1 n = some v) ∧
      (∀ c'', InternExt (construct_final strs (R, c)).2 c'' →
        (construct_final strs (R, c)).1 =
          strs.foldl (fun R n => R.add_final (intern_lookup c'' n)) R) := by
  refine foldl_pure_spec InternExt intern_ext_refl (fun _ _ _ => intern_ext_trans) InternInv
    (fun c n => ∃ v, umap_find c.1 n = some v) (fun c c' n he ⟨v, hv⟩ => ⟨v, he n v hv⟩)
    (fun ac str => ((ac.1.add_final (get_state_name ac.2 str).1), (get_state_name ac.2 str).2))
    (fun c'' R n => R.add_final (intern_lookup c'' n)) ?_ strs R c
  intro R c x
  obtain ⟨h1, h2, h3⟩ := get_state_name_spec c x
  refine ⟨h1, h3, ⟨_, h2⟩, fun c'' hc'' => ?_⟩
  simp only
  rw [intern_lookup_of_find (hc'' _ _ h2)]

/-- The body loop of `construct` on rows of three tokens with an on-the-fly alphabet, read
over any later captures. -/
theorem construct_rows_spec (rows : List (List String)) (R : Nfa)
    (p : (StringToStateMap × State) × (StringToSymbolMap × Symbol)) :
    (InternExt p.1 (rows.foldl construct_row_step (R, p)).2.1 ∧
      InternExt p.2 (rows.foldl construct_row_step (R, p)).2.2) ∧
    (InternInv p.1 ∧ InternInv p.2 →
      InternInv (rows.foldl construct_row_step (R, p)).2.1 ∧
      InternInv (rows.foldl construct_row_step (R, p)).2.2) ∧
    (∀ row ∈ rows,
      (∃ v, umap_find (rows.foldl construct_row_step (R, p)).2.1.1 (row.getD 0 "") = some v) ∧
      (∃ v, umap_find (rows.foldl construct_row_step (R, p)).2.2.1 (row.getD 1 "") = some v) ∧
      (∃ v, umap_find (rows.foldl construct_row_step (R, p)).2.1.1 (row.getD 2 "") = some v)) ∧
    (∀ p'' : (StringToStateMap × State) × (StringToSymbolMap × Symbol),
      (InternExt (rows.foldl construct_row_step (R, p)).2.1 p''.1 ∧
        InternExt (rows.foldl construct_row_step (R, p)).2.2 p''.2) →
      (rows.foldl construct_row_step (R, p)).1 =
        rows.foldl (fun R row => R.add_trans ⟨intern_lookup p''.1 (row.getD 0 ""),
          intern_lookup p''.2 (row.getD 1 ""), intern_lookup p''.1 (row.getD 2 "")⟩) R) := by
  refine foldl_pure_spec
    (fun (p p' : (StringToStateMap × State) × (StringToSymbolMap × Symbol)) =>
      InternExt p.1 p'.1 ∧ InternExt p.2 p'.2)
    (fun c => ⟨intern_ext_refl _, intern_ext_refl _⟩)
    (fun _ _ _ h h' => ⟨intern_ext_trans h.1 h'.1, intern_ext_trans h.2 h'.2⟩)
    (fun p => InternInv p.1 ∧ InternInv p.2)
    (fun p row => (∃ v, umap_find p.1.1 (row.getD 0 "") = some v) ∧
      (∃ v, umap_find p.2.1 (row.getD 1 "") = some v) ∧
      (∃ v, umap_find p.1.1 (row.getD 2 "") = some v))
    (fun c c' row he ⟨⟨v0, h0⟩, ⟨v1, h1⟩, ⟨v2, h2⟩⟩ =>
      ⟨⟨v0, he.1 _ _ h0⟩, ⟨v1, he.2 _ _ h1⟩, ⟨v2, he.1 _ _ h2⟩⟩)
    construct_row_step
    (fun p'' R row => R.add_trans ⟨intern_lookup p''.1 (row.getD 0 ""),
      intern_lookup p''.2 (row.getD 1 ""), intern_lookup p''.1 (row.getD 2 "")⟩)
    ?_ rows R p
  intro R c row
  obtain ⟨a1, a2, a3⟩ := get_state_name_spec c.1 (row.getD 0 "")
  obtain ⟨b1, b2, b3⟩ := get_state_name_spec c.2 (row.getD 1 "")
  obtain ⟨d1, d2, d3⟩ := get_state_name_spec (get_state_name c.1 (row.getD 0 "")).2
    (row.getD 2 "")
  refine ⟨⟨intern_ext_trans a1 d1, b1⟩, fun h => ⟨d3 (a3 h.1), b3 h.2⟩,
    ⟨⟨_, d1 _ _ a2⟩, ⟨_, b2⟩, ⟨_, d2⟩⟩, fun p'' hp'' => ?_⟩
  simp only [construct_row_step] at hp'' ⊢
  rw [intern_lookup_of_find (hp''.1 _ _ (d1 _ _ a2)), intern_lookup_of_find (hp''.2 _ _ b2),
    intern_lookup_of_find (hp''.1 _ _ d2)]

theorem translate_symb_on_the_fly (lib : LibFns) (d : StringToSymbolMap × Symbol)
    (str : String) :
    (Alphabet.on_the_fly d.1 d.2).translate_symb lib str =
      .ok ((get_state_name d str).1,
        Alphabet.on_the_fly (get_state_name d str).2.1 (get_state_name d str).2.2) := by
  simp only [Alphabet.translate_symb, get_state_name]
  split_ifs <;> rfl

/-- With an on-the-fly alphabet and rows of three tokens the body loop of `construct` does
not throw and is the fold of `construct_row_step`. -/
theorem construct_body_on_the_fly (lib : LibFns) (rows : List (List String))
    (h : ∀ row ∈ rows, row.length = 3) :
    ∀ (aut : Nfa) (c : StringToStateMap × State) (d : StringToSymbolMap × Symbol),
      construct_body lib rows (aut, Alphabet.on_the_fly d.1 d.2, c) =
        .ok ((rows.foldl construct_row_step (aut, (c, d))).1,
          Alphabet.on_the_fly (rows.foldl construct_row_step (aut, (c, d))).2.2.1
            (rows.foldl construct_row_step (aut, (c, d))).2.2.2,
          (rows.foldl construct_row_step (aut, (c, d))).2.1) := by
  induction rows with
  | nil => intro aut c d; rfl
  | cons row rows ih =>
    intro aut c d
    have hl := h row (List.mem_cons_self _ _)
    simp only [construct_body, hl, bne_self_eq_false, Bool.false_eq_true, if_false,
      translate_symb_on_the_fly, List.foldl_cons]
    rw [ih (fun r hr => h r (List.mem_cons_of_mem _ hr))]
    rfl

/-- What `construct` with null maps computes on a section of type `"NFA"` with the keys
`"Initial"` and `"Final"` and rows of three tokens. -/
theorem construct_symbol_map_eq (lib : LibFns) (inits finals : List String)
    (rows : List (List String)) (h : ∀ row ∈ rows, row.length = 3) :
    construct_symbol_map lib {} ⟨"NFA", [("Initial", inits), ("Final", finals)], rows⟩ none none =
      .ok ((rows.foldl construct_row_step
          ((construct_final finals (construct_initial inits ({}, ([], 0)))).1,
            ((construct_final finals (construct_initial inits ({}, ([], 0)))).2, ([], 0)))).1,
        (rows.foldl construct_row_step
          ((construct_final finals (construct_initial inits ({}, ([], 0)))).1,
            ((construct_final finals (construct_initial inits ({}, ([], 0)))).2, ([], 0)))).2.2.1,
        (rows.foldl construct_row_step
          ((construct_final finals (construct_initial inits ({}, ([], 0)))).1,
            ((construct_final finals (construct_initial inits ({}, ([], 0)))).2,
              ([], 0)))).2.1.1) := by
  have ht : (("NFA" : String) != TYPE_NFA) = false := rfl
  have hf : umap_find [("Initial", inits), ("Final", finals)] "Final" = some finals := by
    simp only [umap_find_cons]
    rw [if_neg (by decide)]
    simp
  have hi : umap_find [("Initial", inits), ("Final", finals)] "Initial" = some inits := by
    simp
  have hb := construct_body_on_the_fly lib rows h
    (construct_final finals (construct_initial inits ({}, ([], 0)))).1
    (construct_final finals (construct_initial inits ({}, ([], 0)))).2 ([], 0)
  simp only [construct_symbol_map, construct_into, ht, Bool.false_eq_true, if_false, hi, hf, hb]

end Vata2

namespace Vata2

/-! ## The round trip `construct(serialize(A))` -/

/-- What `rename_build` builds. -/
theorem rename_build_spec (f : State → State) (g : Symbol → Symbol) (A : Nfa) :
    (∀ x, x ∈ (rename_build f g A).initialstates ↔ ∃ s ∈ A.initialstates, f s = x) ∧
    (∀ x, x ∈ (rename_build f g A).finalstates ↔ ∃ s ∈ A.finalstates, f s = x) ∧
    (∀ t', (rename_build f g A).has_trans t' = true ↔
      ∃ t ∈ A.trans_list, t' = ⟨f t.src, g t.symb, f t.tgt⟩) ∧
    (rename_build f g A).WF := by
  unfold rename_build
  obtain ⟨i1, i2, i3, i4⟩ := foldl_add_initial f A.initialstates {}
  obtain ⟨f1, f2, f3, f4⟩ := foldl_add_final f A.finalstates
    (A.initialstates.foldl (fun R s => R.add_initial (f s)) {})
  simp only [foldl_add_trans_map]
  refine ⟨?_, ?_, ?_, Nfa.foldl_add_trans_wf _ (f4 (i4 Nfa.wf_empty))⟩
  · intro x
    rw [Nfa.foldl_add_trans_initialstates, f2, i1]
    constructor
    · rintro (h | ⟨q, hq, rfl⟩)
      · exact absurd h (List.not_mem_nil _)
      · exact ⟨q, hq, rfl⟩
    · rintro ⟨q, hq, rfl⟩
      exact Or.inr ⟨q, hq, rfl⟩
  · intro x
    rw [Nfa.foldl_add_trans_finalstates, f1, i2]
    constructor
    · rintro (h | ⟨q, hq, rfl⟩)
      · exact absurd h (List.not_mem_nil _)
      · exact ⟨q, hq, rfl⟩
    · rintro ⟨q, hq, rfl⟩
      exact Or.inr ⟨q, hq, rfl⟩
  · intro t'
    rw [Nfa.has_trans_foldl_add_trans, List.mem_map]
    have hno : (A.finalstates.foldl (fun (R : Nfa) s => R.add_final (f s))
        (A.initialstates.foldl (fun (R : Nfa) s => R.add_initial (f s)) {})).has_trans t' =
        false := by
      rw [has_trans_congr (f3.trans i3)]
      rfl
    rw [hno]
    constructor
    · rintro (⟨t, ht, rfl⟩ | h)
      · exact ⟨t, ht, rfl⟩
      · cases h
    · rintro ⟨t, ht, rfl⟩
      exact Or.inl ⟨t, ht, rfl⟩

/-- The round trip with null maps: `serialize` succeeds, `construct` succeeds on its result,
and the automaton built is the image of `A` under the renaming of states and of symbols that
the final name maps define; both renamings are injective on what occurs in `A`. -/
theorem construct_serialize_spec (lib : LibFns) {A : Nfa} (hA : A.WF) :
    ∃ sec R ym sm, serialize A none none = .ok sec ∧
      construct_symbol_map lib {} sec none none = .ok (R, ym, sm) ∧
      ∃ (f : State → State) (g : Symbol → Symbol),
        (∀ s, A.has_state s → umap_find sm ("q" ++ std_to_string s) = some (f s)) ∧
        (∀ t ∈ A.trans_list, umap_find ym ("a" ++ std_to_string t.symb) = some (g t.symb)) ∧
        (∀ s s', A.has_state s → A.has_state s' → f s = f s' → s = s') ∧
        (∀ t ∈ A.trans_list, ∀ t' ∈ A.trans_list, g t.symb = g t'.symb → t.symb = t'.symb) ∧
        (∀ x, x ∈ R.initialstates ↔ ∃ s ∈ A.initialstates, f s = x) ∧
        (∀ x, x ∈ R.finalstates ↔ ∃ s ∈ A.finalstates, f s = x) ∧
        (∀ t', R.has_trans t' = true ↔
          ∃ t ∈ A.trans_list, t' = ⟨f t.src, g t.symb, f t.tgt⟩) ∧
        R.WF := by
  obtain ⟨inits, hinits⟩ : ∃ l, l = A.initialstates.map (fun s => "q" ++ std_to_string s) :=
    ⟨_, rfl⟩
  obtain ⟨finals, hfinals⟩ : ∃ l, l = A.finalstates.map (fun s => "q" ++ std_to_string s) :=
    ⟨_, rfl⟩
  obtain ⟨rows, hrows⟩ : ∃ l, l = A.trans_list.map (fun t =>
      ["q" ++ std_to_string t.src, "a" ++ std_to_string t.symb, "q" ++ std_to_string t.tgt]) :=
    ⟨_, rfl⟩
  have hser : serialize A none none = .ok ⟨"NFA", [("Initial", inits), ("Final", finals)], rows⟩ := by
    rw [hinits, hfinals, hrows]
    exact serialize_ok A none none (fun _ _ => rfl) (fun _ _ => rfl) (fun _ _ => ⟨rfl, rfl, rfl⟩)
  have hlen : ∀ row ∈ rows, row.length = 3 := by
    intro row hrow
    rw [hrows, List.mem_map] at hrow
    obtain ⟨t, _, rfl⟩ := hrow
    rfl
  have hc := construct_symbol_map_eq lib inits finals rows hlen
  obtain ⟨I1, I2, I3, I4⟩ := construct_initial_spec inits {} ([], 0)
  obtain ⟨st1, hst1⟩ : ∃ st, st = construct_initial inits ({}, ([], 0)) := ⟨_, rfl⟩
  rw [← hst1] at hc I1 I2 I3 I4
  obtain ⟨R1, c1⟩ := st1
  obtain ⟨F1, F2, F3, F4⟩ := construct_final_spec finals R1 c1
  obtain ⟨st2, hst2⟩ : ∃ st, st = construct_final finals (R1, c1) := ⟨_, rfl⟩
  rw [← hst2] at hc F1 F2 F3 F4
  obtain ⟨R2, c2⟩ := st2
  obtain ⟨⟨B1, B1'⟩, B2, B3, B4⟩ := construct_rows_spec rows R2 (c2, ([], 0))
  obtain ⟨st3, hst3⟩ : ∃ st, st = rows.foldl construct_row_step (R2, (c2, ([], 0))) := ⟨_, rfl⟩
  simp only at hc
  rw [← hst3] at hc B1 B1' B2 B3 B4
  obtain ⟨R3, cf, df⟩ := st3
  simp only at hc I1 I2 I3 I4 F1 F2 F3 F4 B1 B1' B2 B3 B4
  obtain ⟨hcf, hdf⟩ := B2 ⟨F2 (I2 intern_inv_nil), intern_inv_nil⟩
  have e3 := B4 (cf, df) ⟨intern_ext_refl _, intern_ext_refl _⟩
  have e2 := F4 cf B1
  have e1 := I4 cf (intern_ext_trans F1 B1)
  simp only at e3
  rw [e2, e1, hinits, hfinals, hrows] at e3
  simp only [List.foldl_map, List.getD_cons_zero, List.getD_cons_succ] at e3
  obtain ⟨r1, r2, r3, r4⟩ := rename_build_spec
    (fun s => intern_lookup cf ("q" ++ std_to_string s))
    (fun a => intern_lookup df ("a" ++ std_to_string a)) A
  have e4 : R3 = rename_build (fun s => intern_lookup cf ("q" ++ std_to_string s))
      (fun a => intern_lookup df ("a" ++ std_to_string a)) A := e3
  rw [← e4] at r1 r2 r3 r4
  have hstate : ∀ s, A.has_state s → ∃ v, umap_find cf.1 ("q" ++ std_to_string s) = some v := by
    intro s hs
    rcases hs with hs | hs | ⟨t, ht, hst⟩
    · obtain ⟨v, hv⟩ := I3 ("q" ++ std_to_string s)
        (by rw [hinits]; exact List.mem_map.2 ⟨s, hs, rfl⟩)
      exact ⟨v, B1 _ _ (F1 _ _ hv)⟩
    · obtain ⟨v, hv⟩ := F3 ("q" ++ std_to_string s)
        (by rw [hfinals]; exact List.mem_map.2 ⟨s, hs, rfl⟩)
      exact ⟨v, B1 _ _ hv⟩
    · have hrow := B3 ["q" ++ std_to_string t.src, "a" ++ std_to_string t.symb,
          "q" ++ std_to_string t.tgt]
        (by rw [hrows]; exact List.mem_map.2 ⟨t, (Nfa.mem_trans_list_iff hA t).2 ht, rfl⟩)
      simp only [List.getD_cons_zero, List.getD_cons_succ] at hrow
      rcases hst with rfl | rfl
      · exact hrow.1
      · exact hrow.2.2
  have hsymb : ∀ t ∈ A.trans_list,
      ∃ v, umap_find df.1 ("a" ++ std_to_string t.symb) = some v := by
    intro t ht
    have hrow := B3 ["q" ++ std_to_string t.src, "a" ++ std_to_string t.symb,
        "q" ++ std_to_string t.tgt]
      (by rw [hrows]; exact List.mem_map.2 ⟨t, ht, rfl⟩)
    simp only [List.getD_cons_zero, List.getD_cons_succ] at hrow
    exact hrow.2.1
  refine ⟨_, R3, df.1, cf.1, hser, hc, fun s => intern_lookup cf ("q" ++ std_to_string s),
    fun a => intern_lookup df ("a" ++ std_to_string a), ?_, ?_, ?_, ?_, r1, r2, r3, r4⟩
  · intro s hs
    obtain ⟨v, hv⟩ := hstate s hs
    simp only
    rw [intern_lookup_of_find hv]
    exact hv
  · intro t ht
    obtain ⟨v, hv⟩ := hsymb t ht
    simp only
    rw [intern_lookup_of_find hv]
    exact hv
  · intro s s' hs hs' he
    obtain ⟨v, hv⟩ := hstate s hs
    obtain ⟨v', hv'⟩ := hstate s' hs'
    simp only at he
    rw [intern_lookup_of_find hv, intern_lookup_of_find hv'] at he
    subst he
    exact name_injective "q" (hcf.2 _ _ _ hv hv')
  · intro t ht t' ht' he
    obtain ⟨v, hv⟩ := hsymb t ht
    obtain ⟨v', hv'⟩ := hsymb t' ht'
    simp only at he
    rw [intern_lookup_of_find hv, intern_lookup_of_find hv'] at he
    subst he
    exact name_injective "a" (hdf.2 _ _ _ hv hv')

/-- C15 (as stated) fails: the automaton with the single transition `(0, 1, 1)` is
serialized with the symbol name `a1`, and `construct` with a fresh symbol dictionary gives
that name the code `0`; the result has the transition `(0, 0, 1)` and no transition over the
symbol `1`, so no renaming of states alone relates the two transition sets. -/
theorem construct_serialize_counterexample :
    nfa_sym1.WF ∧
    serialize nfa_sym1 none none =
      .ok ⟨"NFA", [("Initial", ["q0"]), ("Final", ["q1"])], [["q0", "a1", "q1"]]⟩ ∧
    construct lib_plain ⟨"NFA", [("Initial", ["q0"]), ("Final", ["q1"])], [["q0", "a1", "q1"]]⟩ =
      .ok nfa_S1 ∧
    ¬ ∃ f : State → State, ∀ s a t,
      nfa_sym1.has_trans ⟨s, a, t⟩ = true ↔ nfa_S1.has_trans ⟨f s, a, f t⟩ = true := by
  refine ⟨by decide, rfl, rfl, ?_⟩
  rintro ⟨f, hf⟩
  have h := (hf 0 1 1).1 (by decide)
  rw [Nfa.has_trans_iff] at h
  obtain ⟨post, tgts, h1, h2, _⟩ := h
  simp only [nfa_S1, umap_find_cons, umap_find_nil] at h1
  split_ifs at h1
  cases h1
  simp at h2

/-- C15 (amended): for every well-formed automaton `A`, `serialize(A)` with no name maps
succeeds and `construct` with fresh dictionaries succeeds on the section; the result is `A`
up to a renaming `f` of states and a renaming `g` of symbols, both injective on what occurs
in `A`: the initial and final sets of the result are the images under `f` of those of `A`,
the states of the result are the images of the states of `A`, and the transitions of the
result are exactly the `(f(s), g(a), f(t))` for the transitions `(s, a, t)` of `A`. -/
theorem construct_serialize_roundtrip (lib : LibFns) (A : Nfa) (hA : A.WF) :
    ∃ sec R, serialize A none none = .ok sec ∧ construct lib sec = .ok R ∧
      ∃ (f : State → State) (g : Symbol → Symbol),
        (∀ s s', A.has_state s → A.has_state s' → f s = f s' → s = s') ∧
        (∀ t t', A.has_trans t = true → A.has_trans t' = true →
          g t.symb = g t'.symb → t.symb = t'.symb) ∧
        (∀ x, x ∈ R.initialstates ↔ ∃ s ∈ A.initialstates, f s = x) ∧
        (∀ x, x ∈ R.finalstates ↔ ∃ s ∈ A.finalstates, f s = x) ∧
        (∀ x, R.has_state x ↔ ∃ s, A.has_state s ∧ f s = x) ∧
        (∀ t', R.has_trans t' = true ↔
          ∃ t, A.has_trans t = true ∧ t' = ⟨f t.src, g t.symb, f t.tgt⟩) ∧
        (∀ t, A.has_state t.src → A.has_state t.tgt →
          (∃ t₀, A.has_trans t₀ = true ∧ t₀.symb = t.symb) →
          (A.has_trans t = true ↔ R.has_trans ⟨f t.src, g t.symb, f t.tgt⟩ = true)) := by
  obtain ⟨sec, R, ym, sm, h1, h2, f, g, _, _, hf, hg, hi, hfin, ht, _⟩ :=
    construct_serialize_spec lib hA
  have ht' : ∀ t', R.has_trans t' = true ↔
      ∃ t, A.has_trans t = true ∧ t' = ⟨f t.src, g t.symb, f t.tgt⟩ := by
    intro t'
    rw [ht]
    constructor
    · rintro ⟨t, h, e⟩
      exact ⟨t, (Nfa.mem_trans_list_iff hA t).1 h, e⟩
    · rintro ⟨t, h, e⟩
      exact ⟨t, (Nfa.mem_trans_list_iff hA t).2 h, e⟩
  have hg' : ∀ t t', A.has_trans t = true → A.has_trans t' = true →
      g t.symb = g t'.symb → t.symb = t'.symb := fun t t' h h' =>
    hg t ((Nfa.mem_trans_list_iff hA t).2 h) t' ((Nfa.mem_trans_list_iff hA t').2 h')
  refine ⟨sec, R, h1, ?_, f, g, hf, hg', hi, hfin, ?_, ht', ?_⟩
  · unfold construct
    rw [h2]
  · intro x
    constructor
    · rintro (h | h | ⟨t', h, hx⟩)
      · obtain ⟨s, hs, rfl⟩ := (hi x).1 h
        exact ⟨s, Or.inl hs, rfl⟩
      · obtain ⟨s, hs, rfl⟩ := (hfin x).1 h
        exact ⟨s, Or.inr (Or.inl hs), rfl⟩
      · obtain ⟨t, htA, rfl⟩ := (ht' t').1 h
        rcases hx with rfl | rfl
        · exact ⟨t.src, Or.inr (Or.inr ⟨t, htA, Or.inl rfl⟩), rfl⟩
        · exact ⟨t.tgt, Or.inr (Or.inr ⟨t, htA, Or.inr rfl⟩), rfl⟩
    · rintro ⟨s, hs, rfl⟩
      rcases hs with hs | hs | ⟨t, htA, hst⟩
      · exact Or.inl ((hi _).2 ⟨s, hs, rfl⟩)
      · exact Or.inr (Or.inl ((hfin _).2 ⟨s, hs, rfl⟩))
      · refine Or.inr (Or.inr ⟨⟨f t.src, g t.symb, f t.tgt⟩, (ht' _).2 ⟨t, htA, rfl⟩, ?_⟩)
        rcases hst with rfl | rfl
        · exact Or.inl rfl
        · exact Or.inr rfl
  · intro t hs htg ⟨t₀, ht₀, hsy⟩
    constructor
    · intro h
      exact (ht' _).2 ⟨t, h, rfl⟩
    · intro h
      obtain ⟨t1, h1', e⟩ := (ht' _).1 h
      simp only [Trans.mk.injEq] at e
      obtain ⟨e1, e2, e3⟩ := e
      have a1 : t.src = t1.src := hf _ _ hs (Or.inr (Or.inr ⟨t1, h1', Or.inl rfl⟩)) e1
      have a3 : t.tgt = t1.tgt := hf _ _ htg (Or.inr (Or.inr ⟨t1, h1', Or.inr rfl⟩)) e3
      have a2 : t.symb = t1.symb := by
        rw [← hsy] at e2 ⊢
        exact hg' t₀ t1 ht₀ h1' e2
      have : t = t1 := by
        cases t
        cases t1
        simp only at a1 a2 a3
        rw [a1, a2, a3]
      rw [this]
      exact h1'

theorem construct_serialize_roundtrip_witness :
    nfa_sym1.WF ∧
    ∃ sec R, serialize nfa_sym1 none none = .ok sec ∧ construct lib_plain sec = .ok R ∧
      ∃ (f : State → State) (g : Symbol → Symbol),
        (∀ s s', nfa_sym1.has_state s → nfa_sym1.has_state s' → f s = f s' → s = s') ∧
        (∀ t t', nfa_sym1.has_trans t = true → nfa_sym1.has_trans t' = true →
          g t.symb = g t'.symb → t.symb = t'.symb) ∧
        (∀ x, x ∈ R.initialstates ↔ ∃ s ∈ nfa_sym1.initialstates, f s = x) ∧
        (∀ x, x ∈ R.finalstates ↔ ∃ s ∈ nfa_sym1.finalstates, f s = x) ∧
        (∀ x, R.has_state x ↔ ∃ s, nfa_sym1.has_state s ∧ f s = x) ∧
        (∀ t', R.has_trans t' = true ↔
          ∃ t, nfa_sym1.has_trans t = true ∧ t' = ⟨f t.src, g t.symb, f t.tgt⟩) ∧
        (∀ t, nfa_sym1.has_state t.src → nfa_sym1.has_state t.tgt →
          (∃ t₀, nfa_sym1.has_trans t₀ = true ∧ t₀.symb = t.symb) →
          (nfa_sym1.has_trans t = true ↔ R.has_trans ⟨f t.src, g t.symb, f t.tgt⟩ = true)) :=
  ⟨by decide, construct_serialize_roundtrip lib_plain nfa_sym1 (by decide)⟩

end Vata2

namespace Vata2

/-! ## State disjointness, emptiness witnesses, complements of symbol sets -/

/-- C24: for well-formed automata `L` and `R`, `are_state_disjoint(L, R)` returns `true` iff
no state occurs both in `L` and in `R` (as initial state, final state, source or target of
a transition). -/
theorem are_state_disjoint_correct (L R : Nfa) (hL : L.WF) (hR : R.WF) :
    are_state_disjoint L R = true ↔ ¬ ∃ q, L.has_state q ∧ R.has_state q := by
  rw [are_state_disjoint_iff hL hR]
  constructor
  · rintro h ⟨q, h1, h2⟩
    exact h q h1 h2
  · intro h q h1 h2
    exact h ⟨q, h1, h2⟩

theorem are_state_disjoint_correct_witness :
    nfa_S3_lhs.WF ∧ nfa_S3_rhs_shifted.WF ∧
    are_state_disjoint nfa_S3_lhs nfa_S3_rhs_shifted = true ∧
    are_state_disjoint nfa_S3_lhs nfa_S3_rhs = false ∧
    (are_state_disjoint nfa_S3_lhs nfa_S3_rhs_shifted = true ↔
      ¬ ∃ q, nfa_S3_lhs.has_state q ∧ nfa_S3_rhs_shifted.has_state q) :=
  ⟨by decide, by decide, by decide, by decide,
    are_state_disjoint_correct nfa_S3_lhs nfa_S3_rhs_shifted (by decide) (by decide)⟩

/-- C30: for every well-formed automaton `A` and non-null `cex`, `is_lang_empty(A, cex)`
terminates, and whenever it returns `false` the path written to `cex` is non-empty, its
first state is an initial state of `A`, its last state is a final state of `A`, and every two
consecutive states are connected by some transition of `A`. -/
theorem is_lang_empty_path (A : Nfa) (hA : A.WF) (cex : Path) :
    (∃ fuel, ∀ n, fuel ≤ n → ∃ r, is_lang_empty n A (some cex) = some r) ∧
    ∀ n cex', is_lang_empty n A (some cex) = some (.ok (false, cex')) →
      ∃ path q0 qf, cex' = some path ∧ path ≠ [] ∧
        path.head? = some q0 ∧ q0 ∈ A.initialstates ∧
        path.getLast? = some qf ∧ qf ∈ A.finalstates ∧
        path.Chain' (fun p q => ∃ a, A.has_trans ⟨p, a, q⟩ = true) := by
  rcases is_lang_empty_spec hA (some cex) with ⟨_, fuel, hf⟩ |
    ⟨path, q0, qf, h1, h2, h3, h4, h5, fuel, hf⟩
  · refine ⟨⟨fuel, fun n hn => ⟨_, hf n hn⟩⟩, fun n cex' h => ?_⟩
    have e := is_lang_empty_mono h (le_max_left n fuel)
    rw [hf _ (le_max_right n fuel)] at e
    cases e
  · refine ⟨⟨fuel, fun n hn => ⟨_, hf n hn⟩⟩, fun n cex' h => ?_⟩
    have e := is_lang_empty_mono h (le_max_left n fuel)
    rw [hf _ (le_max_right n fuel)] at e
    cases e
    refine ⟨path, q0, qf, rfl, ?_, h1, h2, h3, h4, h5⟩
    rintro rfl
    cases h1

theorem is_lang_empty_path_witness :
    nfa_S3_lhs.WF ∧
    is_lang_empty 4 nfa_S3_lhs (some []) = some (.ok (false, some [0, 1, 2])) ∧
    ((∃ fuel, ∀ n, fuel ≤ n → ∃ r, is_lang_empty n nfa_S3_lhs (some []) = some r) ∧
    ∀ n cex', is_lang_empty n nfa_S3_lhs (some []) = some (.ok (false, cex')) →
      ∃ path q0 qf, cex' = some path ∧ path ≠ [] ∧
        path.head? = some q0 ∧ q0 ∈ nfa_S3_lhs.initialstates ∧
        path.getLast? = some qf ∧ qf ∈ nfa_S3_lhs.finalstates ∧
        path.Chain' (fun p q => ∃ a, nfa_S3_lhs.has_trans ⟨p, a, q⟩ = true)) :=
  ⟨by decide, rfl, is_lang_empty_path nfa_S3_lhs (by decide) []⟩

theorem sorted_set_difference {a : List Nat} (b : List Nat) (h : a.Sorted (· < ·)) :
    (set_difference a b).Sorted (· < ·) :=
  List.Sorted.filter _ h

/-- C27: for every alphabet that enumerates its symbols (the on-the-fly, the enumerated and
the character alphabet; the direct alphabet throws) and every symbol set `X`,
`get_complement(X)` returns exactly the symbols of `get_symbols()` that are not in `X`, each
once, in ascending order; for the character alphabet `get_symbols()` is `0..255`. -/
theorem get_complement_correct (alphabet : Alphabet) (symbs : List Symbol) (X : List Symbol)
    (_hX : X.Sorted (· < ·)) (hsy : alphabet.get_symbols = .ok symbs) :
    (∃ l, alphabet.get_complement X = .ok l ∧ l.Sorted (· < ·) ∧
      ∀ x, x ∈ l ↔ x ∈ symbs ∧ x ∉ X) ∧
    (∀ m c, ∃ s, (Alphabet.on_the_fly m c).get_symbols = .ok s) ∧
    (∀ m, ∃ s, (Alphabet.enum m).get_symbols = .ok s) ∧
    Alphabet.char.get_symbols = .ok (List.range 256) ∧
    (∀ x, x ∈ List.range 256 ↔ x < 256) := by
  refine ⟨⟨_, get_complement_of_get_symbols hsy X,
    sorted_set_difference X (sorted_set_insert_all _ _ List.sorted_nil), fun x => ?_⟩,
    fun m c => ⟨_, rfl⟩, fun m => ⟨_, rfl⟩, rfl, fun x => List.mem_range⟩
  rw [mem_set_difference, mem_set_insert_all]
  simp

theorem get_complement_correct_witness :
    [1].Sorted (· < ·) ∧ alphabet_ab.get_symbols = .ok [0, 1] ∧
    alphabet_ab.get_complement [1] = .ok [0] ∧
    ((∃ l, alphabet_ab.get_complement [1] = .ok l ∧ l.Sorted (· < ·) ∧
      ∀ x, x ∈ l ↔ x ∈ [0, 1] ∧ x ∉ [1]) ∧
    (∀ m c, ∃ s, (Alphabet.on_the_fly m c).get_symbols = .ok s) ∧
    (∀ m, ∃ s, (Alphabet.enum m).get_symbols = .ok s) ∧
    Alphabet.char.get_symbols = .ok (List.range 256) ∧
    (∀ x, x ∈ List.range 256 ↔ x < 256)) :=
  ⟨by decide, rfl, rfl, get_complement_correct alphabet_ab [0, 1] [1] (by decide) rfl⟩

/-! ## Determinism check -/

/-- On a well-formed automaton the loop of `is_deterministic` over transitions of the
automaton never throws, and answers `true` iff no listed transition has a sibling with the
same source and symbol and another target. -/
theorem is_deterministic_loop_spec {A : Nfa} (hA : A.WF)
    (l : List Trans) (hl : ∀ t ∈ l, A.has_trans t = true) :
    ∃ b, is_deterministic_loop A l = .ok b ∧
      (b = true ↔ ∀ t ∈ l, ∀ t', A.has_trans ⟨t.src, t.symb, t'⟩ = true → t' = t.tgt) := by
  induction l with
  | nil => exact ⟨true, rfl, by simp⟩
  | cons t l ih =>
    have ht := hl t (List.mem_cons_self _ _)
    obtain ⟨post, tgts, h1, h2, h3⟩ := (Nfa.has_trans_iff A t).1 ht
    have hidx : A.index t.src = post := by
      unfold Nfa.index Nfa.post
      rw [h1]
    have hs : tgts.Sorted (· < ·) :=
      ((hA.2.1 _ (umap_find_some_mem h1)).2.2 _ (umap_find_some_mem h2)).2
    have hsib : ∀ t', A.has_trans ⟨t.src, t.symb, t'⟩ = true ↔ t' ∈ tgts := by
      intro t'
      constructor
      · intro h
        obtain ⟨post', tgts', g1, g2, g3⟩ := (Nfa.has_trans_iff A _).1 h
        simp only at g1 g2 g3
        rw [h1] at g1
        cases g1
        rw [h2] at g2
        cases g2
        exact g3
      · intro h
        exact (Nfa.has_trans_iff A _).2 ⟨post, tgts, h1, h2, h⟩
    by_cases hlen : tgts.length = 1
    · obtain ⟨b, hb, hiff⟩ := ih (fun t' ht' => hl t' (List.mem_cons_of_mem _ ht'))
      refine ⟨b, ?_, ?_⟩
      · simp only [is_deterministic_loop, hidx, h2, hlen, bne_self_eq_false,
          Bool.false_eq_true, if_false]
        exact hb
      · rw [hiff]
        constructor
        · intro h t0 ht0 t' ht'
          rcases List.mem_cons.1 ht0 with rfl | ht0
          · rw [hsib] at ht'
            match tgts, hlen, h3, ht' with
            | [x], _, h3, ht' =>
              rw [List.mem_singleton] at h3 ht'
              rw [ht', h3]
          · exact h t0 ht0 t' ht'
        · intro h t0 ht0
          exact h t0 (List.mem_cons_of_mem _ ht0)
    · refine ⟨false, ?_, ?_⟩
      · simp only [is_deterministic_loop, hidx, h2]
        rw [if_pos]
        simpa using hlen
      · constructor
        · intro h
          cases h
        · intro h
          exfalso
          apply hlen
          have h4 : tgts.length ≤ 1 := by
            apply length_le_one_of_all_eq hs.nodup t.tgt
            intro y hy
            exact h t (List.mem_cons_self _ _) y ((hsib y).2 hy)
          have h5 : 0 < tgts.length := List.length_pos_of_mem h3
          omega

/-- C21: for every well-formed automaton `A`, `is_deterministic(A)` returns a boolean,
and it returns `true` iff `A` has exactly one initial state and, for every source state `s`
and symbol `a` (reachable or not), there is at most one `t` with `has_trans(s, a, t)`. -/
theorem is_deterministic_correct (A : Nfa) (hA : A.WF) :
    ∃ b, is_deterministic A = .ok b ∧
      (b = true ↔ A.initialstates.length = 1 ∧
        ∀ s a t t', A.has_trans ⟨s, a, t⟩ = true → A.has_trans ⟨s, a, t'⟩ = true → t = t') := by
  by_cases hi : A.initialstates.length = 1
  · obtain ⟨b, hb, hiff⟩ := is_deterministic_loop_spec hA A.trans_list
      (fun t ht => (Nfa.mem_trans_list_iff hA t).1 ht)
    refine ⟨b, ?_, ?_⟩
    · unfold is_deterministic
      simp only [hi, bne_self_eq_false, Bool.false_eq_true, if_false]
      exact hb
    · rw [hiff]
      constructor
      · intro h
        refine ⟨hi, fun s a t t' h1 h2 => ?_⟩
        have := h ⟨s, a, t'⟩ ((Nfa.mem_trans_list_iff hA _).2 h2) t h1
        exact this
      · rintro ⟨_, h⟩ t ht t' ht'
        exact h _ _ _ _ ht' ((Nfa.mem_trans_list_iff hA t).1 ht)
  · refine ⟨false, ?_, ?_⟩
    · unfold is_deterministic
      rw [if_pos]
      simpa using hi
    · constructor
      · intro h
        cases h
      · rintro ⟨h, _⟩
        exact absurd h hi

theorem is_deterministic_correct_witness :
    nfa_S1.WF ∧ is_deterministic nfa_S1 = .ok true ∧
    is_deterministic nfa_S6 = .ok false ∧
    ∃ b, is_deterministic nfa_S1 = .ok b ∧
      (b = true ↔ nfa_S1.initialstates.length = 1 ∧
        ∀ s a t t', nfa_S1.has_trans ⟨s, a, t⟩ = true →
          nfa_S1.has_trans ⟨s, a, t'⟩ = true → t = t') :=
  ⟨by decide, rfl, rfl, is_deterministic_correct nfa_S1 (by decide)⟩

end Vata2

namespace Vata2

/-! ## The enumerated alphabet -/

/-- The loop of the constructor of `EnumAlphabet` succeeds when the names are distinct and
none is in the map yet; it appends each name with its number. -/
theorem EnumAlphabet_loop_ok (names : List String) :
    ∀ (m : StringToSymbolMap) (c : Nat), names.Nodup →
      (∀ n ∈ names, umap_find m n = none) →
      EnumAlphabet_loop names (m, c) =
        .ok (m ++ (names.enumFrom c).map (fun p => (p.2, p.1))) := by
  induction names with
  | nil => intro m c _ _; simp [EnumAlphabet_loop]
  | cons name rest ih =>
    intro m c hnd hm
    rw [List.nodup_cons] at hnd
    have h0 := hm name (List.mem_cons_self _ _)
    simp only [EnumAlphabet_loop, umap_insert, h0, Bool.not_true, Bool.false_eq_true,
      if_false]
    rw [ih _ _ hnd.2]
    · simp [List.enumFrom_cons]
    · intro n hn
      rw [umap_find_append, hm n (List.mem_cons_of_mem _ hn)]
      have : name ≠ n := by
        rintro rfl
        exact hnd.1 hn
      simp [this]

/-- The loop of the constructor of `EnumAlphabet` throws when a name is repeated or already
in the map. -/
theorem EnumAlphabet_loop_error (names : List String) :
    ∀ (m : StringToSymbolMap) (c : Nat),
      ¬ (names.Nodup ∧ ∀ n ∈ names, umap_find m n = none) →
      EnumAlphabet_loop names (m, c) = .error "multiple occurrence of the same symbol" := by
  induction names with
  | nil => intro m c h; exact absurd ⟨List.nodup_nil, by simp⟩ h
  | cons name rest ih =>
    intro m c h
    cases h0 : umap_find m name with
    | some v =>
      simp [EnumAlphabet_loop, umap_insert, h0]
    | none =>
      simp only [EnumAlphabet_loop, umap_insert, h0, Bool.not_true, Bool.false_eq_true,
        if_false]
      apply ih
      rintro ⟨hnd, hm⟩
      apply h
      have hfind : ∀ n ∈ rest, umap_find m n = none ∧ name ≠ n := by
        intro n hn
        have := hm n hn
        rw [umap_find_append] at this
        cases h1 : umap_find m n with
        | some v => rw [h1] at this; cases this
        | none =>
          rw [h1] at this
          refine ⟨rfl, ?_⟩
          rintro rfl
          simp at this
      refine ⟨List.nodup_cons.2 ⟨fun hmem => (hfind name hmem).2 rfl, hnd⟩, ?_⟩
      intro n hn
      rcases List.mem_cons.1 hn with rfl | hn
      · exact h0
      · exact (hfind n hn).1

theorem umap_find_enumFrom (names : List String) :
    ∀ (c : Nat), names.Nodup → ∀ i (h : i < names.length),
      umap_find ((names.enumFrom c).map (fun p => (p.2, p.1))) (names.get ⟨i, h⟩) =
        some (c + i) := by
  induction names with
  | nil => intro c _ i h; simp at h
  | cons name rest ih =>
    intro c hnd i h
    rw [List.nodup_cons] at hnd
    cases i with
    | zero => simp [List.enumFrom_cons]
    | succ i =>
      have hi : i < rest.length := by simpa using h
      have hne : name ≠ rest.get ⟨i, hi⟩ := by
        intro e
        exact hnd.1 (e ▸ List.get_mem _ _ _)
      have := ih (c + 1) hnd.2 i hi
      simp only [List.enumFrom_cons, List.map_cons, umap_find_cons, List.get_cons_succ]
      rw [if_neg hne, this]
      congr 1
      omega

theorem umap_find_enumFrom_none (names : List String) (c : Nat) (name : String)
    (h : name ∉ names) :
    umap_find ((names.enumFrom c).map (fun p => (p.2, p.1))) name = none := by
  rw [umap_find_eq_none_iff]
  simp only [List.map_map]
  intro hmem
  rw [List.mem_map] at hmem
  obtain ⟨p, hp, rfl⟩ := hmem
  apply h
  obtain ⟨i, x⟩ := p
  have := (List.mem_enumFrom hp).2.2
  change x ∈ names
  rw [this]
  exact List.getElem_mem _

/-- C28: for every finite list of names, the construction of an `EnumAlphabet` fails with
"multiple occurrence of the same symbol" iff the list contains a repeated name; when it has
none the construction succeeds, and on the result `translate_symb(name)` returns the
zero-based position of `name` in the list for every listed name and fails with
"unknown symbol 'name'" for every name that is not in the list. -/
theorem EnumAlphabet_correct (lib : LibFns) (names : List String) :
    (EnumAlphabet_from names = .error "multiple occurrence of the same symbol" ↔
      ¬ names.Nodup) ∧
    (names.Nodup → ∃ alphabet, EnumAlphabet_from names = .ok alphabet ∧
      (∀ i (h : i < names.length),
        alphabet.translate_symb lib (names.get ⟨i, h⟩) = .ok (i, alphabet)) ∧
      (∀ name, name ∉ names →
        alphabet.translate_symb lib name = .error ("unknown symbol '" ++ name ++ "'"))) := by
  have hok : names.Nodup → EnumAlphabet_from names =
      .ok (Alphabet.enum ((names.enumFrom 0).map (fun p => (p.2, p.1)))) := by
    intro hnd
    unfold EnumAlphabet_from
    rw [EnumAlphabet_loop_ok names [] 0 hnd (fun n _ => rfl)]
    rfl
  refine ⟨⟨fun h => ?_, fun h => ?_⟩, fun hnd => ⟨_, hok hnd, fun i h => ?_, fun name h => ?_⟩⟩
  · intro hnd
    rw [hok hnd] at h
    cases h
  · unfold EnumAlphabet_from
    rw [EnumAlphabet_loop_error names [] 0 (fun h' => h h'.1)]
  · simp only [Alphabet.translate_symb]
    rw [umap_find_enumFrom names 0 hnd i h]
    simp
  · simp only [Alphabet.translate_symb]
    rw [umap_find_enumFrom_none names 0 name h]

theorem EnumAlphabet_correct_witness :
    ["a", "b"].Nodup ∧ EnumAlphabet_from ["a", "b"] = .ok alphabet_ab ∧
    EnumAlphabet_from ["a", "b", "a"] = .error "multiple occurrence of the same symbol" ∧
    alphabet_ab.translate_symb lib_plain "b" = .ok (1, alphabet_ab) ∧
    alphabet_ab.translate_symb lib_plain "c" = .error "unknown symbol 'c'" ∧
    ((EnumAlphabet_from ["a", "b"] = .error "multiple occurrence of the same symbol" ↔
      ¬ ["a", "b"].Nodup) ∧
    (["a", "b"].Nodup → ∃ alphabet, EnumAlphabet_from ["a", "b"] = .ok alphabet ∧
      (∀ i (h : i < ["a", "b"].length),
        alphabet.translate_symb lib_plain (["a", "b"].get ⟨i, h⟩) = .ok (i, alphabet)) ∧
      (∀ name, name ∉ ["a", "b"] →
        alphabet.translate_symb lib_plain name =
          .error ("unknown symbol '" ++ name ++ "'")))) :=
  ⟨by decide, rfl, rfl, rfl, rfl, EnumAlphabet_correct lib_plain ["a", "b"]⟩

/-! ## The character alphabet -/

theorem toNat_ofNat_byte (b : Nat) (hb : b < 256) : (Char.ofNat b).toNat = b := by
  have hv : b.isValidChar := Or.inl (by omega)
  unfold Char.ofNat
  rw [dif_pos hv]
  simp [Char.ofNatAux, Char.toNat, UInt32.toNat]

/-- The quoted three-character forms take the first branch of
`CharAlphabet::translate_symb`. -/
theorem translate_symb_quoted (lib : LibFns) (q x : Char)
    (hq : q = Char.ofNat 39 ∨ q = Char.ofNat 34) :
    Alphabet.char.translate_symb lib (quoted q x) = .ok (lib.char_to_symbol x, Alphabet.char) := by
  rcases hq with rfl | rfl
  · simp [Alphabet.translate_symb, quoted]
  · simp [Alphabet.translate_symb, quoted]

/-- C29: `CharAlphabet::translate_symb` on the three-character string made of the byte `b`
between single quotes or between double quotes returns the symbol `b` when plain `char` is
unsigned or `b < 128`; when plain `char` is signed and `128 ≤ b`, the conversion of the
negative `char` to the 64-bit `Symbol` returns `2 ^ 64 - 256 + b`, which is not in `0..255`
and not among the symbols of `CharAlphabet::get_symbols()`. -/
theorem CharAlphabet_translate_symb_quoted (char_signed : Bool) (q : Char) (b : Nat)
    (hq : q = Char.ofNat 39 ∨ q = Char.ofNat 34) (hb : b < 256) :
    ∃ s : Nat, Alphabet.char.translate_symb (lib_char char_signed) (quoted q (Char.ofNat b)) =
        .ok (s, Alphabet.char) ∧
      ((char_signed = false ∨ b < 128) → s = b) ∧
      ((char_signed = true ∧ 128 ≤ b) → s = 2 ^ 64 - 256 + b ∧ ¬ s < 256 ∧
        ∀ l, Alphabet.char.get_symbols = .ok l → s ∉ l) := by
  refine ⟨_, translate_symb_quoted _ q _ hq, ?_, ?_⟩
  · intro h
    simp only [lib_char, char_to_uintptr, toNat_ofNat_byte b hb, Nat.mod_eq_of_lt hb]
    rcases h with h | h
    · simp [h]
    · have : ¬ 128 ≤ b := by omega
      simp [this]
  · rintro ⟨h1, h2⟩
    have hc : (2 : Nat) ^ 64 - 256 = 18446744073709551360 := by norm_num
    have hp : (2 : Nat) ^ 64 = 18446744073709551616 := by norm_num
    have e : (lib_char char_signed).char_to_symbol (Char.ofNat b) = 2 ^ 64 - 256 + b := by
      simp only [lib_char, char_to_uintptr, toNat_ofNat_byte b hb, Nat.mod_eq_of_lt hb]
      simp only [h1, h2, decide_True, Bool.and_self, if_true]
      apply Nat.mod_eq_of_lt
      omega
    rw [e]
    refine ⟨rfl, ?_, ?_⟩
    · show ¬ ((2 : Nat) ^ 64 - 256 + b < 256)
      omega
    · intro l hl
      cases hl
      rw [List.mem_range]
      show ¬ ((2 : Nat) ^ 64 - 256 + b < 256)
      omega

theorem CharAlphabet_translate_symb_quoted_witness :
    Alphabet.char.translate_symb (lib_char true) (quoted (Char.ofNat 39) (Char.ofNat 128)) =
      .ok (18446744073709551488, Alphabet.char) ∧
    Alphabet.char.translate_symb (lib_char false) (quoted (Char.ofNat 39) (Char.ofNat 128)) =
      .ok (128, Alphabet.char) ∧
    ∃ s : Nat, Alphabet.char.translate_symb (lib_char true)
        (quoted (Char.ofNat 39) (Char.ofNat 128)) = .ok (s, Alphabet.char) ∧
      ((true = false ∨ 128 < 128) → s = 128) ∧
      ((true = true ∧ 128 ≤ 128) → s = 2 ^ 64 - 256 + 128 ∧ ¬ s < 256 ∧
        ∀ l, Alphabet.char.get_symbols = .ok l → s ∉ l) :=
  ⟨rfl, rfl,
    CharAlphabet_translate_symb_quoted true (Char.ofNat 39) 128 (Or.inl rfl) (by decide)⟩

end Vata2

namespace Vata2

/-! ## The word of a path -/

theorem find_symbol_some {post : PostSymb} {newSt : State} {symb : Symbol}
    (h : find_symbol post newSt = some symb) : ∃ tg, (symb, tg) ∈ post ∧ newSt ∈ tg := by
  induction post with
  | nil => simp [find_symbol] at h
  | cons e post ih =>
    unfold find_symbol at h
    by_cases he : newSt ∈ e.2
    · simp only [haskey, he, decide_True, if_true, Option.some.injEq] at h
      subst h
      exact ⟨e.2, List.mem_cons_self _ _, he⟩
    · simp only [haskey, he, decide_False, Bool.false_eq_true, if_false] at h
      obtain ⟨tg, h1, h2⟩ := ih h
      exact ⟨tg, List.mem_cons_of_mem _ h1, h2⟩

/-- In a well-formed automaton the search finds nothing when no transition connects the two
states. -/
theorem find_symbol_none {A : Nfa} (hA : A.WF) {cur newSt : State} {post : PostSymb}
    (h1 : umap_find A.transitions cur = some post)
    (h : ¬ ∃ a, A.has_trans ⟨cur, a, newSt⟩ = true) : find_symbol post newSt = none := by
  cases hf : find_symbol post newSt with
  | none => rfl
  | some symb =>
    exfalso
    obtain ⟨tg, f2, f3⟩ := find_symbol_some hf
    have hpost : PostSymb_wf post := hA.2.1 _ (umap_find_some_mem h1)
    exact h ⟨symb, (Nfa.has_trans_iff A _).2 ⟨post, tg, h1, umap_find_of_mem hpost.2.1 f2, f3⟩⟩

/-- Along a sequence of states connected by transitions the loop of `get_word_for_path`
returns one symbol per step, each labelling a transition between the two states of its
step. -/
theorem get_word_for_path_loop_steps {A : Nfa} (hA : A.WF) (cur : State) (rest : Path)
    (acc : Word)
    (h : List.Chain (fun p q => ∃ a, A.has_trans ⟨p, a, q⟩ = true) cur rest) :
    ∃ w, get_word_for_path_loop A cur rest acc = .ok (acc ++ w, true) ∧
      w.length = rest.length ∧
      ∀ (i : Nat) s a t, (cur :: rest)[i]? = some s → w[i]? = some a → rest[i]? = some t →
        A.has_trans ⟨s, a, t⟩ = true := by
  induction rest generalizing cur acc with
  | nil =>
    refine ⟨[], by simp [get_word_for_path_loop], rfl, ?_⟩
    intro i s a t _ h2
    simp at h2
  | cons nx rest ih =>
    rw [List.chain_cons] at h
    obtain ⟨⟨a, ha⟩, hch⟩ := h
    obtain ⟨post, tgts, h1, h2, h3⟩ := (Nfa.has_trans_iff A _).1 ha
    simp only at h1 h2 h3
    obtain ⟨symb, tg, f1, f2, f3⟩ := find_symbol_spec post nx
      ⟨(a, tgts), umap_find_some_mem h2, h3⟩
    have hpost : PostSymb_wf post := hA.2.1 _ (umap_find_some_mem h1)
    have hstep : A.has_trans ⟨cur, symb, nx⟩ = true :=
      (Nfa.has_trans_iff A _).2 ⟨post, tg, h1, umap_find_of_mem hpost.2.1 f2, f3⟩
    obtain ⟨w, hw, hlen, hsteps⟩ := ih nx (acc ++ [symb]) hch
    refine ⟨symb :: w, ?_, by simp [hlen], ?_⟩
    · unfold get_word_for_path_loop
      simp only [Nfa.post, h1, f1, hw]
      simp
    · intro i s b t g1 g2 g3
      cases i with
      | zero =>
        simp only [List.getElem?_cons_zero, Option.some.injEq] at g1 g2 g3
        subst g1 g2 g3
        exact hstep
      | succ i =>
        simp only [List.getElem?_cons_succ] at g1 g2 g3
        exact hsteps i s b t g1 g2 g3

/-- At the first pair of consecutive states that no transition connects the loop of
`get_word_for_path` stops: with the flag `false` when the first state of the pair has a post
map, and with a null dereference when it has none. -/
theorem get_word_for_path_loop_stop {A : Nfa} (hA : A.WF) (newSt : State) (suf : Path)
    (l : Path) :
    ∀ (c0 cur : State) (acc : Word),
      List.Chain (fun p q => ∃ a, A.has_trans ⟨p, a, q⟩ = true) c0 l →
      (c0 :: l).getLast? = some cur →
      (¬ ∃ a, A.has_trans ⟨cur, a, newSt⟩ = true) →
      get_word_for_path_loop A c0 (l ++ newSt :: suf) acc =
        if (A.post cur).isSome then .ok ([], false) else .error Fault.null_dereference := by
  induction l with
  | nil =>
    intro c0 cur acc _ hlast hno
    simp only [List.getLast?_singleton, Option.some.injEq] at hlast
    subst hlast
    simp only [List.nil_append, get_word_for_path_loop]
    cases hp : A.post c0 with
    | none => simp
    | some post =>
      simp only [Option.isSome_some, if_true]
      rw [find_symbol_none hA hp hno]
  | cons nx l ih =>
    intro c0 cur acc hch hlast hno
    rw [List.chain_cons] at hch
    obtain ⟨⟨a, ha⟩, hch⟩ := hch
    rw [List.getLast?_cons_cons] at hlast
    obtain ⟨post, tgts, h1, h2, h3⟩ := (Nfa.has_trans_iff A _).1 ha
    simp only at h1 h2 h3
    obtain ⟨symb, tg, f1, _, _⟩ := find_symbol_spec post nx
      ⟨(a, tgts), umap_find_some_mem h2, h3⟩
    simp only [List.cons_append, get_word_for_path_loop, Nfa.post, h1, f1]
    exact ih nx cur (acc ++ [symb]) hch hlast hno

/-- C26: for every well-formed automaton `A`, `get_word_for_path(A, p)` returns
`(empty word, true)` on the empty path; on a non-empty path whose consecutive states are all
connected by a transition it returns `(w, true)` with `|w| = |p| - 1` and
`has_trans(p[i], w[i], p[i+1])` for every `i`; and at the first consecutive pair
`(cur, next)` without a connecting symbol it returns `(empty word, false)` when `cur` has an
entry in the transition table, and dereferences the null pointer returned by `post(cur)`
when `cur` has no outgoing transition at all. -/
theorem get_word_for_path_contract (A : Nfa) (hA : A.WF) :
    get_word_for_path A [] = .ok ([], true) ∧
    (∀ p, p ≠ [] → A.is_path p →
      ∃ w, get_word_for_path A p = .ok (w, true) ∧ w.length + 1 = p.length ∧
        ∀ (i : Nat) s a t, p[i]? = some s → w[i]? = some a → p[i + 1]? = some t →
          A.has_trans ⟨s, a, t⟩ = true) ∧
    (∀ pre cur next suf, A.is_path (pre ++ [cur]) →
      (¬ ∃ a, A.has_trans ⟨cur, a, next⟩ = true) →
      get_word_for_path A (pre ++ cur :: next :: suf) =
        if (A.post cur).isSome then .ok ([], false) else .error Fault.null_dereference) := by
  refine ⟨rfl, ?_, ?_⟩
  · intro p hp hpath
    cases p with
    | nil => exact absurd rfl hp
    | cons cur rest =>
      obtain ⟨w, hw, hlen, hsteps⟩ := get_word_for_path_loop_steps hA cur rest []
        (by unfold Nfa.is_path at hpath; exact hpath)
      refine ⟨w, by simpa [get_word_for_path] using hw, by simp [hlen], ?_⟩
      intro i s a t g1 g2 g3
      rw [List.getElem?_cons_succ] at g3
      exact hsteps i s a t g1 g2 g3
  · intro pre cur next suf hpath hno
    cases pre with
    | nil =>
      simp only [List.nil_append, get_word_for_path]
      exact get_word_for_path_loop_stop hA next suf [] cur cur [] List.Chain.nil rfl hno
    | cons c0 l =>
      have e : c0 :: l ++ cur :: next :: suf = c0 :: ((l ++ [cur]) ++ next :: suf) := by simp
      rw [e]
      simp only [get_word_for_path]
      apply get_word_for_path_loop_stop hA next suf (l ++ [cur]) c0 cur []
      · unfold Nfa.is_path at hpath
        exact hpath
      · rw [← List.cons_append, List.getLast?_append]
        simp
      · exact hno

theorem get_word_for_path_contract_witness :
    nfa_S3_lhs.WF ∧
    get_word_for_path nfa_S3_lhs [0, 1, 2] = .ok ([0, 0], true) ∧
    get_word_for_path nfa_S3_lhs [0, 0] = .ok ([], false) ∧
    2 ∈ nfa_S3_lhs.finalstates ∧ nfa_S3_lhs.post 2 = none ∧
    get_word_for_path nfa_S3_lhs [2, 0] = .error Fault.null_dereference ∧
    get_word_for_path nfa_S3_lhs [0, 1, 2, 0] = .error Fault.null_dereference ∧
    (get_word_for_path nfa_S3_lhs [] = .ok ([], true) ∧
    (∀ p, p ≠ [] → nfa_S3_lhs.is_path p →
      ∃ w, get_word_for_path nfa_S3_lhs p = .ok (w, true) ∧ w.length + 1 = p.length ∧
        ∀ (i : Nat) s a t, p[i]? = some s → w[i]? = some a → p[i + 1]? = some t →
          nfa_S3_lhs.has_trans ⟨s, a, t⟩ = true) ∧
    (∀ pre cur next suf, nfa_S3_lhs.is_path (pre ++ [cur]) →
      (¬ ∃ a, nfa_S3_lhs.has_trans ⟨cur, a, next⟩ = true) →
      get_word_for_path nfa_S3_lhs (pre ++ cur :: next :: suf) =
        if (nfa_S3_lhs.post cur).isSome then .ok ([], false)
        else .error Fault.null_dereference)) :=
  ⟨by decide, rfl, rfl, by decide, rfl, rfl, rfl, get_word_for_path_contract nfa_S3_lhs (by decide)⟩

end Vata2

namespace Vata2

/-! ## The order of iteration -/

theorem grouped_of_const {β κ : Type} (k : β → κ) (c : κ) (l : List β)
    (h : ∀ x ∈ l, k x = c) : Grouped k l := by
  intro t u t' hs _
  have ht : t ∈ l := hs.subset (by simp)
  have hu : u ∈ l := hs.subset (by simp)
  rw [h t ht, h u hu]

/-- Blocks that are grouped and share no key give a grouped concatenation. -/
theorem grouped_flatMap {α β κ : Type} (k : β → κ) (f : α → List β) (L : List α)
    (hin : ∀ a ∈ L, Grouped k (f a))
    (hout : L.Pairwise (fun a b => ∀ x ∈ f a, ∀ y ∈ f b, k x ≠ k y)) :
    Grouped k (L.flatMap f) := by
  induction L with
  | nil =>
    intro t u t' hs _
    simp at hs
  | cons a L ih =>
    rw [List.pairwise_cons] at hout
    have ih' := ih (fun b hb => hin b (List.mem_cons_of_mem _ hb)) hout.2
    have hcross : ∀ x ∈ f a, ∀ y ∈ L.flatMap f, k x ≠ k y := by
      intro x hx y hy
      rw [List.mem_flatMap] at hy
      obtain ⟨b, hb, hy⟩ := hy
      exact hout.1 b hb x hx y hy
    intro t u t' hs hk
    rw [List.flatMap_cons, List.sublist_append_iff] at hs
    obtain ⟨s1, s2, e, h1, h2⟩ := hs
    match s1, e, h1 with
    | [], e, _ =>
      simp only [List.nil_append] at e
      subst e
      exact ih' t u t' h2 hk
    | [x], e, h1 =>
      simp only [List.singleton_append, List.cons.injEq] at e
      obtain ⟨rfl, rfl⟩ := e
      exact absurd hk (hcross t (h1.subset (by simp)) t' (h2.subset (by simp)))
    | [x, y], e, h1 =>
      simp only [List.cons_append, List.nil_append, List.cons.injEq] at e
      obtain ⟨rfl, rfl, rfl⟩ := e
      exact absurd hk (hcross t (h1.subset (by simp)) t' (h2.subset (by simp)))
    | [x, y, z], e, h1 =>
      simp only [List.cons_append, List.nil_append, List.cons.injEq] at e
      obtain ⟨rfl, rfl, rfl, _⟩ := e
      exact hin a (List.mem_cons_self _ _) t u t' h1 hk
    | x :: y :: z :: v :: r, e, _ =>
      simp at e

theorem mem_post_trans_list_iff {src : State} {post : PostSymb} {t : Trans} :
    t ∈ post_trans_list src post ↔ t.src = src ∧ ∃ st ∈ post, t.symb = st.1 ∧ t.tgt ∈ st.2 := by
  unfold post_trans_list
  simp only [List.mem_flatMap, List.mem_map]
  constructor
  · rintro ⟨st, hst, x, hx, rfl⟩
    exact ⟨rfl, st, hst, rfl, hx⟩
  · rintro ⟨rfl, st, hst, h1, h2⟩
    obtain ⟨s, a, q⟩ := t
    simp only at h1 h2
    subst h1
    exact ⟨st, hst, q, h2, rfl⟩

/-- The transitions of one source state are grouped by symbol. -/
theorem post_trans_list_grouped (src : State) {post : PostSymb}
    (hk : (post.map Prod.fst).Nodup) :
    Grouped (fun t : Trans => (t.src, t.symb)) (post_trans_list src post) := by
  unfold post_trans_list
  apply grouped_flatMap
  · intro st _
    apply grouped_of_const _ (src, st.1)
    intro x hx
    rw [List.mem_map] at hx
    obtain ⟨_, _, rfl⟩ := hx
    rfl
  · refine (List.pairwise_map.1 hk).imp ?_
    intro a b hab x hx y hy
    rw [List.mem_map] at hx hy
    obtain ⟨_, _, rfl⟩ := hx
    obtain ⟨_, _, rfl⟩ := hy
    intro e
    simp only [Prod.mk.injEq, true_and] at e
    exact hab e

theorem trans_list_grouped_src {A : Nfa} (hA : A.WF) :
    Grouped (fun t : Trans => t.src) A.trans_list := by
  rw [trans_list_eq]
  apply grouped_flatMap
  · intro sp _
    exact grouped_of_const _ sp.1 _ (fun x hx => mem_post_trans_list hx)
  · refine (List.pairwise_map.1 hA.1).imp ?_
    intro a b hab x hx y hy e
    rw [mem_post_trans_list hx, mem_post_trans_list hy] at e
    exact hab e

theorem trans_list_grouped_symb {A : Nfa} (hA : A.WF) :
    Grouped (fun t : Trans => (t.src, t.symb)) A.trans_list := by
  rw [trans_list_eq]
  apply grouped_flatMap
  · intro sp hsp
    exact post_trans_list_grouped sp.1 (hA.2.1 sp hsp).2.1
  · refine (List.pairwise_map.1 hA.1).imp ?_
    intro a b hab x hx y hy e
    simp only [Prod.mk.injEq] at e
    rw [mem_post_trans_list hx, mem_post_trans_list hy] at e
    exact hab e.1

theorem post_trans_list_tgt_sorted (src : State) {post : PostSymb}
    (hk : (post.map Prod.fst).Nodup) (hs : ∀ st ∈ post, st.2.Sorted (· < ·)) :
    (post_trans_list src post).Pairwise
      (fun t t' => t.src = t'.src → t.symb = t'.symb → t.tgt < t'.tgt) := by
  unfold post_trans_list
  rw [List.pairwise_flatMap]
  constructor
  · intro st hst
    rw [List.pairwise_map]
    exact (hs st hst).imp (fun h _ _ => h)
  · refine (List.pairwise_map.1 hk).imp ?_
    intro a b hab x hx y hy _ e
    rw [List.mem_map] at hx hy
    obtain ⟨_, _, rfl⟩ := hx
    obtain ⟨_, _, rfl⟩ := hy
    exact absurd e hab

theorem trans_list_tgt_sorted {A : Nfa} (hA : A.WF) :
    A.trans_list.Pairwise (fun t t' => t.src = t'.src → t.symb = t'.symb → t.tgt < t'.tgt) := by
  rw [trans_list_eq, List.pairwise_flatMap]
  constructor
  · intro sp hsp
    exact post_trans_list_tgt_sorted sp.1 (hA.2.1 sp hsp).2.1
      (fun st hst => ((hA.2.1 sp hsp).2.2 st hst).2)
  · refine (List.pairwise_map.1 hA.1).imp ?_
    intro a b hab x hx y hy e
    rw [mem_post_trans_list hx, mem_post_trans_list hy] at e
    exact absurd e hab

/-- C25 (as stated) fails: after `add_trans(1, 0, 0)` and `add_trans(0, 0, 0)` the iteration
visits the transition from state `1` before the one from state `0`, and adding the same two
transitions in the other order gives the other order of iteration; the tables of
transitions are unordered maps, which keep no order of keys. -/
theorem iteration_order_counterexample :
    nfa_order.WF ∧ nfa_order_rev.WF ∧
    nfa_order.iteration 3 = some (.ok [⟨1, 0, 0⟩, ⟨0, 0, 0⟩]) ∧
    nfa_order_rev.iteration 3 = some (.ok [⟨0, 0, 0⟩, ⟨1, 0, 0⟩]) ∧
    (∀ t, nfa_order.has_trans t = true ↔ nfa_order_rev.has_trans t = true) ∧
    ¬ ∀ (ts : List Trans) (n : Nat) (l : List Trans),
      (ts.foldl Nfa.add_trans {}).iteration n = some (.ok l) → l.Pairwise Trans.lex_lt := by
  refine ⟨by decide, by decide, rfl, rfl, ?_, ?_⟩
  · intro t
    rw [← Nfa.mem_trans_list_iff (by decide), ← Nfa.mem_trans_list_iff (by decide)]
    have e1 : nfa_order.trans_list = [⟨1, 0, 0⟩, ⟨0, 0, 0⟩] := rfl
    have e2 : nfa_order_rev.trans_list = [⟨0, 0, 0⟩, ⟨1, 0, 0⟩] := rfl
    rw [e1, e2]
    simp only [List.mem_cons, List.mem_singleton, List.not_mem_nil, or_false]
    exact or_comm
  · intro h
    have := h [⟨1, 0, 0⟩, ⟨0, 0, 0⟩] 3 [⟨1, 0, 0⟩, ⟨0, 0, 0⟩] rfl
    revert this
    decide

/-- C25 (amended): for every well-formed automaton `A`, forward iteration from `begin()` to
`end()` terminates and yields every transition of `A` exactly once; the transitions of one
source state are contiguous, within them the transitions over one symbol are contiguous,
and the targets of one source state and symbol come in ascending order.  (The order of the
source states and of the symbols is that of the unordered maps.) -/
theorem iteration_order (A : Nfa) (hA : A.WF) :
    ∃ l, (∃ fuel, ∀ n, fuel ≤ n → A.iteration n = some (.ok l)) ∧
      (∀ n r, A.iteration n = some r → r = .ok l) ∧
      l.Nodup ∧ (∀ t, t ∈ l ↔ A.has_trans t = true) ∧
      (∀ t u t', List.Sublist [t, u, t'] l → t.src = t'.src → u.src = t.src) ∧
      (∀ t u t', List.Sublist [t, u, t'] l → t.src = t'.src → t.symb = t'.symb →
        u.src = t.src ∧ u.symb = t.symb) ∧
      l.Pairwise (fun t t' => t.src = t'.src → t.symb = t'.symb → t.tgt < t'.tgt) := by
  refine ⟨_, ⟨_, iteration_spec hA⟩, ?_, trans_list_nodup hA,
    fun t => Nfa.mem_trans_list_iff hA t, trans_list_grouped_src hA, ?_,
    trans_list_tgt_sorted hA⟩
  · intro n r h
    have h1 := iteration_mono h (le_max_left n (A.trans_list.length + 1))
    rw [iteration_spec hA _ (le_max_right n (A.trans_list.length + 1))] at h1
    cases h1
    rfl
  · intro t u t' hs h1 h2
    have := trans_list_grouped_symb hA t u t' hs (by simp [h1, h2])
    simpa using this

theorem iteration_order_witness :
    nfa_S6.WF ∧ nfa_S6.iteration 3 = some (.ok [⟨0, 0, 2⟩, ⟨1, 1, 2⟩]) ∧
    ∃ l, (∃ fuel, ∀ n, fuel ≤ n → nfa_S6.iteration n = some (.ok l)) ∧
      (∀ n r, nfa_S6.iteration n = some r → r = .ok l) ∧
      l.Nodup ∧ (∀ t, t ∈ l ↔ nfa_S6.has_trans t = true) ∧
      (∀ t u t', List.Sublist [t, u, t'] l → t.src = t'.src → u.src = t.src) ∧
      (∀ t u t', List.Sublist [t, u, t'] l → t.src = t'.src → t.symb = t'.symb →
        u.src = t.src ∧ u.symb = t.symb) ∧
      l.Pairwise (fun t t' => t.src = t'.src → t.symb = t'.symb → t.tgt < t'.tgt) :=
  ⟨by decide, rfl, iteration_order nfa_S6 (by decide)⟩

end Vata2

namespace Vata2

/-! ## Completeness check: all outcomes -/

/-- The scan of `is_complete` throws at the first symbol that is not in the alphabet. -/
theorem is_complete_scan_error (symbs : List Symbol) (post : PostSymb)
    (acc : Nat × List State × List State) (h : ∃ e ∈ post, e.1 ∉ symbs) :
    is_complete_scan symbs post acc =
      .error "is_complete: encountered a symbol that is not in the provided alphabet" := by
  induction post generalizing acc with
  | nil => simp at h
  | cons e post ih =>
    unfold is_complete_scan
    by_cases he : e.1 ∈ symbs
    · have hk : haskey symbs e.1 = true := (haskey_iff _ _).2 he
      simp only [hk, Bool.not_true, Bool.false_eq_true, if_false]
      apply ih
      obtain ⟨e', he', hx⟩ := h
      rcases List.mem_cons.1 he' with rfl | he'
      · exact absurd he hx
      · exact ⟨e', he', hx⟩
    · have hk : haskey symbs e.1 = false := by
        rw [← Bool.not_eq_true, haskey_iff]
        exact he
      simp [hk]

/-- A state whose outgoing symbols all belong to the alphabet has as many symbol entries as
the alphabet has symbols iff it has a transition over every symbol of the alphabet. -/
theorem index_length_iff {B : Nfa} (hB : B.WF) {symbs : List Symbol} {q : State}
    (hcov : ∀ a r, B.has_trans ⟨q, a, r⟩ = true → a ∈ symbs) :
    (B.index q).length = (uset_insert_all symbs []).length ↔
      ∀ a ∈ symbs, ∃ r, B.has_trans ⟨q, a, r⟩ = true := by
  constructor
  · intro hlen a ha
    have hsub : ∀ x ∈ (B.index q).map Prod.fst, x ∈ uset_insert_all symbs [] := by
      intro x hx
      rw [mem_index_keys_iff hB] at hx
      obtain ⟨r, hr⟩ := hx
      exact (mem_uset_insert_all _ _ _).2 (Or.inl (hcov x r hr))
    have hperm : ((B.index q).map Prod.fst).Perm (uset_insert_all symbs []) :=
      List.Subperm.perm_of_length_le (List.Nodup.subperm (index_keys_nodup hB q) hsub)
        (by simp [hlen])
    have : a ∈ (B.index q).map Prod.fst :=
      hperm.mem_iff.2 ((mem_uset_insert_all _ _ _).2 (Or.inl ha))
    exact (mem_index_keys_iff hB q a).1 this
  · intro hcomp
    exact index_length_eq hB hcov hcomp

/-- The three ways one iteration of the loop of `is_complete` can go at the state it pops. -/
theorem is_complete_body_cases {B : Nfa} (hB : B.WF) (symbs : List Symbol)
    (state : State) (rest pr : List State) :
    ((∀ a r, B.has_trans ⟨state, a, r⟩ = true → a ∈ symbs) ∧
      (∀ a ∈ symbs, ∃ r, B.has_trans ⟨state, a, r⟩ = true) ∧
      is_complete_body B (uset_insert_all symbs []) (state :: rest, pr) =
        .ok (bfs_push_post (B.index state) (rest, pr))) ∨
    ((∀ a r, B.has_trans ⟨state, a, r⟩ = true → a ∈ symbs) ∧
      (¬ ∀ a ∈ symbs, ∃ r, B.has_trans ⟨state, a, r⟩ = true) ∧
      is_complete_body B (uset_insert_all symbs []) (state :: rest, pr) =
        .error (.ok false)) ∨
    ((¬ ∀ a r, B.has_trans ⟨state, a, r⟩ = true → a ∈ symbs) ∧
      is_complete_body B (uset_insert_all symbs []) (state :: rest, pr) =
        .error (.error
          "is_complete: encountered a symbol that is not in the provided alphabet")) := by
  by_cases hclean : ∀ a r, B.has_trans ⟨state, a, r⟩ = true → a ∈ symbs
  · have hscan := is_complete_scan_eq (uset_insert_all symbs []) (B.index state)
      (0, rest, pr) (by
        intro e he
        rw [mem_uset_insert_all]
        left
        obtain ⟨x, hx⟩ := List.exists_mem_of_ne_nil _ (index_tgts_ne_nil hB he)
        exact hclean e.1 x (has_trans_of_mem_index hB (a := e.1) he hx))
    by_cases hcomp : ∀ a ∈ symbs, ∃ r, B.has_trans ⟨state, a, r⟩ = true
    · left
      refine ⟨hclean, hcomp, ?_⟩
      have hlen := (index_length_iff hB hclean).2 hcomp
      unfold is_complete_body
      simp only [hscan, Nat.zero_add, hlen, ne_eq, not_true_eq_false, if_false]
    · right; left
      refine ⟨hclean, hcomp, ?_⟩
      have hlen : ¬ (uset_insert_all symbs []).length = (B.index state).length :=
        fun h => hcomp ((index_length_iff hB hclean).1 h.symm)
      unfold is_complete_body
      simp only [hscan, Nat.zero_add, ne_eq, hlen, not_false_eq_true, if_true]
  · right; right
    refine ⟨hclean, ?_⟩
    have hex : ∃ e ∈ B.index state, e.1 ∉ uset_insert_all symbs [] := by
      by_contra hno
      apply hclean
      intro a r har
      obtain ⟨tg, he, _⟩ := mem_index_of_has_trans har
      by_contra ha
      apply hno
      refine ⟨(a, tg), he, ?_⟩
      rw [mem_uset_insert_all]
      simpa using ha
    unfold is_complete_body
    simp only [is_complete_scan_error _ _ _ hex]

theorem is_complete_mono {B : Nfa} {alphabet : Alphabet} {n m : Nat}
    {r : Except String Bool} (h : is_complete n B alphabet = some r) (hnm : n ≤ m) :
    is_complete m B alphabet = some r := by
  unfold is_complete at h ⊢
  cases hsy : alphabet.get_symbols with
  | error e => rw [hsy] at h; exact h
  | ok symbs =>
    rw [hsy] at h
    simp only at h ⊢
    cases hw : while_loop_exit (fun wp => !wp.1.isEmpty)
        (is_complete_body B (uset_insert_all symbs [])) n
        (B.initialstates, uset_insert_all B.initialstates []) with
    | none => rw [hw] at h; cases h
    | some r' =>
      rw [hw] at h
      rw [while_loop_exit_mono hw hnm]
      exact h

/-- The invariant of the loop of `is_complete` on `(worklist, processed)`. -/
theorem is_complete_spec {B : Nfa} {alphabet : Alphabet} {symbs : List Symbol}
    (hB : B.WF) (hsy : alphabet.get_symbols = .ok symbs) :
    ∃ r, (∃ fuel, ∀ n, fuel ≤ n → is_complete n B alphabet = some r) ∧
      ((r = .ok true ∧ ∀ q0 ∈ B.initialstates, ∀ w q, B.reach q0 w q →
          (∀ a r, B.has_trans ⟨q, a, r⟩ = true → a ∈ symbs) ∧
          ∀ a ∈ symbs, ∃ r, B.has_trans ⟨q, a, r⟩ = true) ∨
       (r = .ok false ∧ ∃ q0 ∈ B.initialstates, ∃ w q, B.reach q0 w q ∧
          (∀ a r, B.has_trans ⟨q, a, r⟩ = true → a ∈ symbs) ∧
          ¬ ∀ a ∈ symbs, ∃ r, B.has_trans ⟨q, a, r⟩ = true) ∨
       (r = .error "is_complete: encountered a symbol that is not in the provided alphabet" ∧
          ∃ q0 ∈ B.initialstates, ∃ w q, B.reach q0 w q ∧
          ¬ ∀ a r, B.has_trans ⟨q, a, r⟩ = true → a ∈ symbs)) := by
  obtain ⟨I, hIdef⟩ : ∃ I : List State × List State → Prop, I = fun wp =>
      (∀ q ∈ wp.1, q ∈ wp.2) ∧ wp.2.Nodup ∧
      (∀ q ∈ wp.2, ∃ q0 ∈ B.initialstates, ∃ w, B.reach q0 w q) ∧
      (∀ q0 ∈ B.initialstates, q0 ∈ wp.2) ∧
      (∀ q ∈ wp.2, q ∉ wp.1 →
        (∀ a r, B.has_trans ⟨q, a, r⟩ = true → a ∈ symbs) ∧
        (∀ a ∈ symbs, ∃ r, B.has_trans ⟨q, a, r⟩ = true) ∧
        ∀ a r, B.has_trans ⟨q, a, r⟩ = true → r ∈ wp.2) := ⟨_, rfl⟩
  have hbody : ∀ wp wp', I wp → (!wp.1.isEmpty) = true →
      is_complete_body B (uset_insert_all symbs []) wp = .ok wp' →
      I wp' ∧ wp'.1.length + (B.state_list.length - wp'.2.length) <
          wp.1.length + (B.state_list.length - wp.2.length) := by
    intro wp wp' hI hc hb
    subst hIdef
    obtain ⟨wl, pr⟩ := wp
    obtain ⟨h1, h2, h3, h4, h5⟩ := hI
    simp only at h1 h2 h3 h4 h5 hc
    obtain ⟨state, rest, rfl⟩ : ∃ state rest, wl = state :: rest := by
      cases wl with
      | nil => simp at hc
      | cons x xs => exact ⟨x, xs, rfl⟩
    obtain ⟨q0, hq0, w, hw⟩ := h3 state (h1 state (List.mem_cons_self _ _))
    rcases is_complete_body_cases hB symbs state rest pr with
      ⟨hclean, hcomp, e⟩ | ⟨_, _, e⟩ | ⟨_, e⟩
    · rw [e] at hb
      cases hb
      obtain ⟨p1, p2, p3, p4, p5, p6⟩ := bfs_push_post_spec (B.index state) rest pr
      have hgood : ∀ q ∈ (bfs_push_post (B.index state) (rest, pr)).2,
          ∃ q0 ∈ B.initialstates, ∃ w, B.reach q0 w q := by
        intro q hq
        rcases (p1 q).1 hq with h | ⟨⟨a, tg⟩, he, hx⟩
        · exact h3 q h
        · refine ⟨q0, hq0, w ++ [a], ?_⟩
          exact Reach_append_iff.2 ⟨state, hw, q, has_trans_of_mem_index hB he hx, rfl⟩
      refine ⟨⟨?_, p5 h2, hgood, ?_, ?_⟩, ?_⟩
      · intro q hq
        rcases p2 q hq with h | ⟨h, _⟩
        · exact (p1 q).2 (Or.inl (h1 q (List.mem_cons_of_mem _ h)))
        · exact (p1 q).2 (Or.inr h)
      · intro q hq
        exact (p1 q).2 (Or.inl (h4 q hq))
      · intro q hq hnot
        by_cases hqs : q = state
        · subst hqs
          refine ⟨hclean, hcomp, ?_⟩
          intro a r har
          obtain ⟨tg, he, hr⟩ := mem_index_of_has_trans har
          exact (p1 r).2 (Or.inr ⟨(a, tg), he, hr⟩)
        · have hqpr : q ∈ pr := by
            rcases p4 q hq with h | h
            · exact h
            · exact absurd h hnot
          have hqwl : q ∉ state :: rest := by
            intro h
            rcases List.mem_cons.1 h with h | h
            · exact hqs h
            · exact hnot (p3 q h)
          obtain ⟨g1, g2, g3⟩ := h5 q hqpr hqwl
          exact ⟨g1, g2, fun a r har => (p1 r).2 (Or.inl (g3 a r har))⟩
      · have hsub : ∀ pr' : List State, pr'.Nodup →
            (∀ q ∈ pr', ∃ q0 ∈ B.initialstates, ∃ w, B.reach q0 w q) →
            pr'.length ≤ B.state_list.length := by
          intro pr' hnd hg
          apply length_le_of_nodup_subset hnd
          intro q hq
          obtain ⟨q0, hq0, w, hw⟩ := hg q hq
          exact (mem_state_list hB q).2 (reachable_has_state hq0 hw)
        have l1 := hsub _ (p5 h2) hgood
        have l2 := hsub pr h2 h3
        simp only [List.length_cons]
        omega
    · rw [e] at hb
      cases hb
    · rw [e] at hb
      cases hb
  have hstep : ∀ s s', I s → (!s.1.isEmpty) = true →
      is_complete_body B (uset_insert_all symbs []) s = .ok s' → I s' :=
    fun s s' hI hc hb => (hbody s s' hI hc hb).1
  have hdec : ∀ s s', I s → (!s.1.isEmpty) = true →
      is_complete_body B (uset_insert_all symbs []) s = .ok s' →
      s'.1.length + (B.state_list.length - s'.2.length) <
        s.1.length + (B.state_list.length - s.2.length) :=
    fun s s' hI hc hb => (hbody s s' hI hc hb).2
  have hinit : I (B.initialstates, uset_insert_all B.initialstates []) := by
    subst hIdef
    refine ⟨?_, nodup_uset_insert_all _ List.nodup_nil, ?_, ?_, ?_⟩
    · intro q hq
      exact (mem_uset_insert_all _ _ _).2 (Or.inl hq)
    · intro q hq
      rw [mem_uset_insert_all] at hq
      simp only [List.not_mem_nil, or_false] at hq
      exact ⟨q, hq, [], rfl⟩
    · intro q hq
      exact (mem_uset_insert_all _ _ _).2 (Or.inl hq)
    · intro q hq hnot
      rw [mem_uset_insert_all] at hq
      simp only [List.not_mem_nil, or_false] at hq
      exact absurd hq hnot
  obtain ⟨fuel, r, hr⟩ : ∃ fuel r, while_loop_exit (fun wp => !wp.1.isEmpty)
      (is_complete_body B (uset_insert_all symbs [])) fuel
      (B.initialstates, uset_insert_all B.initialstates []) = some r :=
    ⟨_, @while_loop_exit_terminates _ _ (fun wp => !wp.1.isEmpty)
      (is_complete_body B (uset_insert_all symbs [])) I
      (fun s => s.1.length + (B.state_list.length - s.2.length))
      hstep hdec _ hinit _ (Nat.lt_succ_self _)⟩
  obtain ⟨hok, herr⟩ := while_loop_exit_inv I hstep hinit hr
  cases r with
  | ok st =>
    have hres : ∀ n, fuel ≤ n → is_complete n B alphabet = some (.ok true) := by
      intro n hn
      unfold is_complete
      simp only [hsy]
      rw [while_loop_exit_mono hr hn]
    refine ⟨.ok true, ⟨fuel, hres⟩, Or.inl ⟨rfl, ?_⟩⟩
    obtain ⟨hI, hc⟩ := hok st rfl
    subst hIdef
    obtain ⟨_, _, _, h4, h5⟩ := hI
    have hnil : st.1 = [] := by
      cases hst : st.1 with
      | nil => rfl
      | cons x xs => simp [hst] at hc
    intro q0 hq0 w q hreach
    have hq : q ∈ st.2 := by
      refine Reach_closed (fun q => q ∈ st.2) ?_ (h4 q0 hq0) hreach
      intro q a r hq hT
      exact (h5 q hq (by simp [hnil])).2.2 a r hT
    obtain ⟨g1, g2, _⟩ := h5 q hq (by simp [hnil])
    exact ⟨g1, g2⟩
  | error e =>
    have hres : ∀ n, fuel ≤ n → is_complete n B alphabet = some e := by
      intro n hn
      unfold is_complete
      simp only [hsy]
      rw [while_loop_exit_mono hr hn]
    obtain ⟨s₀, hI₀, hc₀, hb₀⟩ := herr e rfl
    subst hIdef
    obtain ⟨wl, pr⟩ := s₀
    obtain ⟨h1, _, h3, _, _⟩ := hI₀
    simp only at h1 h3 hc₀
    obtain ⟨state, rest, rfl⟩ : ∃ state rest, wl = state :: rest := by
      cases wl with
      | nil => simp at hc₀
      | cons x xs => exact ⟨x, xs, rfl⟩
    obtain ⟨q0, hq0, w, hw⟩ := h3 state (h1 state (List.mem_cons_self _ _))
    rcases is_complete_body_cases hB symbs state rest pr with
      ⟨_, _, e'⟩ | ⟨hclean, hcomp, e'⟩ | ⟨hclean, e'⟩
    · rw [e'] at hb₀
      cases hb₀
    · rw [e'] at hb₀
      cases hb₀
      exact ⟨.ok false, ⟨fuel, hres⟩, Or.inr (Or.inl ⟨rfl, q0, hq0, w, state, hw, hclean,
        hcomp⟩)⟩
    · rw [e'] at hb₀
      cases hb₀
      exact ⟨_, ⟨fuel, hres⟩, Or.inr (Or.inr ⟨rfl, q0, hq0, w, state, hw, hclean⟩)⟩

end Vata2

namespace Vata2

/-! ## Completeness check: the claims -/

/-- C22: for every well-formed automaton `A` and alphabet `Σ` such that every symbol on a
transition leaving a reachable state belongs to `Σ.get_symbols()`, `is_complete(A, Σ)`
terminates with a boolean, which is `true` iff every state reachable from an initial state
has at least one outgoing transition over every symbol of `Σ`. -/
theorem is_complete_correct (A : Nfa) (alphabet : Alphabet) (symbs : List Symbol)
    (hA : A.WF) (hsy : alphabet.get_symbols = .ok symbs)
    (hcov : ∀ q0 ∈ A.initialstates, ∀ w q, A.reach q0 w q →
      ∀ a r, A.has_trans ⟨q, a, r⟩ = true → a ∈ symbs) :
    ∃ b, (∃ fuel, ∀ n, fuel ≤ n → is_complete n A alphabet = some (.ok b)) ∧
      (∀ n R, is_complete n A alphabet = some R → R = .ok b) ∧
      (b = true ↔ ∀ q0 ∈ A.initialstates, ∀ w q, A.reach q0 w q →
        ∀ a ∈ symbs, ∃ r, A.has_trans ⟨q, a, r⟩ = true) := by
  obtain ⟨R, ⟨fuel, hf⟩, hcase⟩ := is_complete_spec hA hsy
  have huniq : ∀ n R', is_complete n A alphabet = some R' → R' = R := by
    intro n R' h
    have e := is_complete_mono h (le_max_left n fuel)
    rw [hf _ (le_max_right n fuel)] at e
    cases e
    rfl
  rcases hcase with ⟨rfl, h⟩ | ⟨rfl, q0, hq0, w, q, hw, _, hno⟩ | ⟨rfl, q0, hq0, w, q, hw, hno⟩
  · exact ⟨true, ⟨fuel, hf⟩, huniq, by
      simp only [true_iff]
      exact fun q0 hq0 w q hw => (h q0 hq0 w q hw).2⟩
  · refine ⟨false, ⟨fuel, hf⟩, huniq, ?_⟩
    constructor
    · intro h
      cases h
    · intro h
      exact absurd (h q0 hq0 w q hw) hno
  · exact absurd (hcov q0 hq0 w q hw) hno

theorem is_complete_correct_witness :
    nfa_S4.WF ∧ alphabet_a.get_symbols = .ok [0] ∧
    (∀ q0 ∈ nfa_S4.initialstates, ∀ w q, nfa_S4.reach q0 w q →
      ∀ a r, nfa_S4.has_trans ⟨q, a, r⟩ = true → a ∈ [0]) ∧
    is_complete 2 nfa_S4 alphabet_a = some (.ok true) ∧
    is_complete 2 nfa_S1 alphabet_a = some (.ok false) ∧
    ∃ b, (∃ fuel, ∀ n, fuel ≤ n → is_complete n nfa_S4 alphabet_a = some (.ok b)) ∧
      (∀ n R, is_complete n nfa_S4 alphabet_a = some R → R = .ok b) ∧
      (b = true ↔ ∀ q0 ∈ nfa_S4.initialstates, ∀ w q, nfa_S4.reach q0 w q →
        ∀ a ∈ [0], ∃ r, nfa_S4.has_trans ⟨q, a, r⟩ = true) :=
  have hcov : ∀ q0 ∈ nfa_S4.initialstates, ∀ w q, nfa_S4.reach q0 w q →
      ∀ a r, nfa_S4.has_trans ⟨q, a, r⟩ = true → a ∈ [0] := by
    intro _ _ _ q _ a r ht
    have := (Nfa.mem_trans_list_iff (by decide) _).2 ht
    simp only [nfa_S4, Nfa.trans_list, List.flatMap_cons, List.flatMap_nil, List.map_cons,
      List.map_nil, List.append_nil, List.mem_singleton, Trans.mk.injEq] at this
    simp [this.2.1]
  ⟨by decide, rfl, hcov, rfl, rfl,
    is_complete_correct nfa_S4 alphabet_a [0] (by decide) rfl hcov⟩

/-- C23 (as stated) fails: in the automaton with the transitions `(0, 0, 1)` and `(1, 2, 1)`
and the initial state `0`, the reachable state `1` has a transition over the symbol `2`,
which is not in the alphabet `{0, 1}`; the traversal first visits state `0`, which has no
transition over the symbol `1`, and `is_complete` returns `false` without an error. -/
theorem is_complete_foreign_counterexample :
    nfa_foreign.WF ∧ alphabet_ab.get_symbols = .ok [0, 1] ∧
    0 ∈ nfa_foreign.initialstates ∧ nfa_foreign.reach 0 [0] 1 ∧
    nfa_foreign.has_trans ⟨1, 2, 1⟩ = true ∧ 2 ∉ [0, 1] ∧
    ∀ n, 2 ≤ n → is_complete n nfa_foreign alphabet_ab = some (.ok false) :=
  ⟨by decide, rfl, by decide, ⟨1, show nfa_foreign.has_trans ⟨0, 0, 1⟩ = true by decide, rfl⟩,
    by decide, by decide, fun _ hn => @is_complete_mono nfa_foreign alphabet_ab 2 _ _ rfl hn⟩

/-- C23 (amended): for every well-formed automaton `A` and alphabet `Σ` that enumerates its
symbols, if some state reachable from an initial state of `A` has an outgoing transition
whose symbol is not in `Σ.get_symbols()`, then `is_complete(A, Σ)` terminates and does not
return `true`: it either fails with the error "encountered a symbol that is not in the
provided alphabet" or returns `false`, and it returns `false` only if some reachable state
whose outgoing symbols all belong to `Σ` lacks a transition over some symbol of `Σ`; so it
fails with the error whenever no reachable state is of that kind. -/
theorem is_complete_foreign (A : Nfa) (alphabet : Alphabet) (symbs : List Symbol)
    (hA : A.WF) (hsy : alphabet.get_symbols = .ok symbs)
    (hfor : ∃ q0 ∈ A.initialstates, ∃ w q a r, A.reach q0 w q ∧
      A.has_trans ⟨q, a, r⟩ = true ∧ a ∉ symbs) :
    ∃ R, (∃ fuel, ∀ n, fuel ≤ n → is_complete n A alphabet = some R) ∧
      (∀ n R', is_complete n A alphabet = some R' → R' = R) ∧
      (R = .error "is_complete: encountered a symbol that is not in the provided alphabet" ∨
        (R = .ok false ∧ ∃ q0 ∈ A.initialstates, ∃ w q, A.reach q0 w q ∧
          (∀ a r, A.has_trans ⟨q, a, r⟩ = true → a ∈ symbs) ∧
          ¬ ∀ a ∈ symbs, ∃ r, A.has_trans ⟨q, a, r⟩ = true)) ∧
      ((∀ q0 ∈ A.initialstates, ∀ w q, A.reach q0 w q →
          (∀ a r, A.has_trans ⟨q, a, r⟩ = true → a ∈ symbs) →
          ∀ a ∈ symbs, ∃ r, A.has_trans ⟨q, a, r⟩ = true) →
        R = .error "is_complete: encountered a symbol that is not in the provided alphabet") := by
  obtain ⟨R, ⟨fuel, hf⟩, hcase⟩ := is_complete_spec hA hsy
  have huniq : ∀ n R', is_complete n A alphabet = some R' → R' = R := by
    intro n R' h
    have e := is_complete_mono h (le_max_left n fuel)
    rw [hf _ (le_max_right n fuel)] at e
    cases e
    rfl
  refine ⟨R, ⟨fuel, hf⟩, huniq, ?_⟩
  rcases hcase with ⟨rfl, h⟩ | ⟨rfl, q0, hq0, w, q, hw, hclean, hno⟩ | ⟨rfl, _⟩
  · obtain ⟨q0, hq0, w, q, a, r, hw, ht, ha⟩ := hfor
    exact absurd ((h q0 hq0 w q hw).1 a r ht) ha
  · exact ⟨Or.inr ⟨rfl, q0, hq0, w, q, hw, hclean, hno⟩,
      fun h => absurd (h q0 hq0 w q hw hclean) hno⟩
  · exact ⟨Or.inl rfl, fun _ => rfl⟩

theorem is_complete_foreign_witness :
    nfa_sym1.WF ∧ alphabet_a.get_symbols = .ok [0] ∧
    (∃ q0 ∈ nfa_sym1.initialstates, ∃ w q a r, nfa_sym1.reach q0 w q ∧
      nfa_sym1.has_trans ⟨q, a, r⟩ = true ∧ a ∉ [0]) ∧
    is_complete 1 nfa_sym1 alphabet_a = some (.error
      "is_complete: encountered a symbol that is not in the provided alphabet") ∧
    ∃ R, (∃ fuel, ∀ n, fuel ≤ n → is_complete n nfa_sym1 alphabet_a = some R) ∧
      (∀ n R', is_complete n nfa_sym1 alphabet_a = some R' → R' = R) ∧
      (R = .error "is_complete: encountered a symbol that is not in the provided alphabet" ∨
        (R = .ok false ∧ ∃ q0 ∈ nfa_sym1.initialstates, ∃ w q, nfa_sym1.reach q0 w q ∧
          (∀ a r, nfa_sym1.has_trans ⟨q, a, r⟩ = true → a ∈ [0]) ∧
          ¬ ∀ a ∈ [0], ∃ r, nfa_sym1.has_trans ⟨q, a, r⟩ = true)) ∧
      ((∀ q0 ∈ nfa_sym1.initialstates, ∀ w q, nfa_sym1.reach q0 w q →
          (∀ a r, nfa_sym1.has_trans ⟨q, a, r⟩ = true → a ∈ [0]) →
          ∀ a ∈ [0], ∃ r, nfa_sym1.has_trans ⟨q, a, r⟩ = true) →
        R = .error "is_complete: encountered a symbol that is not in the provided alphabet") :=
  have hfor : ∃ q0 ∈ nfa_sym1.initialstates, ∃ w q a r, nfa_sym1.reach q0 w q ∧
      nfa_sym1.has_trans ⟨q, a, r⟩ = true ∧ a ∉ [0] :=
    ⟨0, by decide, [], 0, 1, 1, rfl, by decide, by decide⟩
  ⟨by decide, rfl, hfor, rfl, is_complete_foreign nfa_sym1 alphabet_a [0] (by decide) rfl hfor⟩

end Vata2

namespace Vata2

/-! ## The store invariant of `add_trans` -/

/-- C37: every automaton obtained from the empty automaton by a sequence of `add_trans`
calls has, for every source state in the transition table, a non-empty symbol map whose
entries all have non-empty target sets; `const_iterator::for_begin` returns an iterator
without a failed assertion, and the whole iteration with `operator++` runs to `end()`
without a failed assertion. -/
theorem add_trans_store_invariant (ts : List Trans) :
    (∀ sp ∈ (ts.foldl Nfa.add_trans {}).transitions,
      sp.2 ≠ [] ∧ ∀ st ∈ sp.2, st.2 ≠ []) ∧
    (∃ it, Nfa.const_iterator.for_begin (ts.foldl Nfa.add_trans {}) = .ok it) ∧
    ∃ l, (∃ fuel, ∀ n, fuel ≤ n →
        (ts.foldl Nfa.add_trans {}).iteration n = some (.ok l)) ∧
      ∀ n r, (ts.foldl Nfa.add_trans {}).iteration n = some r → r = .ok l := by
  have hwf : (ts.foldl Nfa.add_trans {}).WF := Nfa.foldl_add_trans_wf ts Nfa.wf_empty
  have hit := iteration_spec hwf
  refine ⟨fun sp hsp => ⟨(hwf.2.1 sp hsp).1, fun st hst => ((hwf.2.1 sp hsp).2.2 st hst).1⟩,
    ?_, _, ⟨_, hit⟩, ?_⟩
  · have h := hit _ (le_refl _)
    unfold Nfa.iteration at h
    cases hb : Nfa.const_iterator.for_begin (ts.foldl Nfa.add_trans {}) with
    | error f =>
      rw [hb] at h
      cases h
    | ok it => exact ⟨it, rfl⟩
  · intro n r h
    have h1 := iteration_mono h
      (le_max_left n ((ts.foldl Nfa.add_trans {}).trans_list.length + 1))
    rw [hit _ (le_max_right n ((ts.foldl Nfa.add_trans {}).trans_list.length + 1))] at h1
    cases h1
    rfl

/-! ## Reversal and the language -/

/-- C39: for every well-formed automaton `A` and every word `w`,
`is_in_lang(revert(A), w)` equals `is_in_lang(A, reverse(w))`. -/
theorem revert_lang (A : Nfa) (hA : A.WF) (w : Word) :
    is_in_lang (revert A) w = is_in_lang A w.reverse :=
  is_in_lang_congr (revert_accepts hA w)

theorem revert_lang_witness :
    nfa_S3_lhs.WF ∧ is_in_lang (revert nfa_S3_lhs) [0, 0] = true ∧
    is_in_lang (revert nfa_S6) [0] = is_in_lang nfa_S6 [0] ∧
    is_in_lang (revert nfa_S3_lhs) [0, 0] = is_in_lang nfa_S3_lhs [0, 0].reverse :=
  ⟨by decide, by decide, by decide, revert_lang nfa_S3_lhs (by decide) [0, 0]⟩

/-! ## Completion with a fresh sink -/

theorem make_complete_mono {A : Nfa} {alphabet : Alphabet} {sink : State} {n m : Nat}
    {r : Except String Nfa} (h : make_complete n A alphabet sink = some r) (hnm : n ≤ m) :
    make_complete m A alphabet sink = some r := by
  unfold make_complete at h ⊢
  simp only at h ⊢
  cases hw : while_loop_exit (fun st => !st.worklist.isEmpty)
      (make_complete_body alphabet sink) n
      { aut := A, worklist := A.initialstates ++ [sink],
        processed := (uset_insert (uset_insert_all A.initialstates []) sink).1 } with
  | none => rw [hw] at h; cases h
  | some r' =>
    rw [hw] at h
    rw [while_loop_exit_mono hw hnm]
    exact h

/-- A state that does not occur in a well-formed automaton has no post map. -/
theorem post_none_of_not_has_state {A : Nfa} (hA : A.WF) {q : State} (h : ¬ A.has_state q) :
    A.post q = none := by
  unfold Nfa.post
  cases hf : umap_find A.transitions q with
  | none => rfl
  | some post =>
    exfalso
    obtain ⟨h1, _, h3⟩ := hA.2.1 _ (umap_find_some_mem hf)
    obtain ⟨e, he⟩ := List.exists_mem_of_ne_nil _ h1
    obtain ⟨x, hx⟩ := List.exists_mem_of_ne_nil _ (h3 e he).1
    apply h
    refine Or.inr (Or.inr ⟨⟨q, e.1, x⟩, ?_, Or.inl rfl⟩)
    have hidx : (e.1, e.2) ∈ A.index q := by
      unfold Nfa.index Nfa.post
      rw [hf]
      exact he
    exact has_trans_of_mem_index hA hidx hx

/-- With the direct alphabet, whose `get_complement` is the throwing one of the base class,
`make_complete` throws in its first iteration, before it changes the automaton. -/
theorem make_complete_direct (A : Nfa) (sink : State) (n : Nat) :
    make_complete (n + 1) A Alphabet.direct sink = some (.error "Unimplemented") := by
  cases hI : A.initialstates <;>
    simp [make_complete, while_loop_exit, make_complete_body, hI, Alphabet.get_complement]

/-- C40: for every well-formed automaton `A`, every alphabet and every state `sink` that
does not occur in `A`: when the alphabet enumerates its symbols (every alphabet but the
direct one), `make_complete(A, Σ, sink)` terminates, leaves the initial and the final set
unchanged, removes no transition, adds only transitions whose target is `sink`, and
`is_in_lang` gives the same answer for every word before and after the call; with the
direct alphabet the call throws "Unimplemented" before it changes anything. -/
theorem make_complete_frame (A : Nfa) (alphabet : Alphabet) (sink : State) (hA : A.WF)
    (hfresh : ¬ A.has_state sink) :
    (∀ symbs, alphabet.get_symbols = .ok symbs →
      ∃ A', (∃ fuel, ∀ n, fuel ≤ n → make_complete n A alphabet sink = some (.ok A')) ∧
        (∀ n r, make_complete n A alphabet sink = some r → r = .ok A') ∧
        A'.initialstates = A.initialstates ∧ A'.finalstates = A.finalstates ∧
        (∀ t, A.has_trans t = true → A'.has_trans t = true) ∧
        (∀ t, A'.has_trans t = true → A.has_trans t = false → t.tgt = sink) ∧
        ∀ w, is_in_lang A' w = is_in_lang A w) ∧
    ((∀ symbs, alphabet.get_symbols ≠ .ok symbs) →
      ∀ n, make_complete (n + 1) A alphabet sink = some (.error "Unimplemented")) := by
  refine ⟨fun symbs hsy => ?_, fun hno n => ?_⟩
  rotate_left
  · cases alphabet with
    | direct => exact make_complete_direct A sink n
    | on_the_fly m c => exact absurd rfl (hno _)
    | char => exact absurd rfl (hno _)
    | enum m => exact absurd rfl (hno _)
  obtain ⟨fuel, A', h1, _, hi, hf, hmono, hsound, _⟩ := make_complete_spec hA hsy sink
  refine ⟨A', ⟨fuel, h1⟩, fun n r h => ?_, hi, hf, hmono, fun t ht hnt => ?_, fun w => ?_⟩
  · have e := make_complete_mono h (le_max_left n fuel)
    rw [h1 _ (le_max_right n fuel)] at e
    cases e
    rfl
  · rcases hsound t ht with h | h
    · rw [h] at hnt
      cases hnt
    · exact h.1
  · apply is_in_lang_congr
    exact make_complete_accepts hi hf hmono
      (fun t ht => (hsound t ht).imp id (fun h => h.1))
      (no_reach_of_post_none (post_none_of_not_has_state hA hfresh)
        (fun h => hfresh (Or.inr (Or.inl h)))) w

theorem make_complete_frame_witness :
    nfa_S3_lhs.WF ∧ alphabet_ab.get_symbols = .ok [0, 1] ∧ ¬ nfa_S3_lhs.has_state 7 ∧
    ((∀ symbs, alphabet_ab.get_symbols = .ok symbs →
      ∃ A', (∃ fuel, ∀ n, fuel ≤ n →
          make_complete n nfa_S3_lhs alphabet_ab 7 = some (.ok A')) ∧
        (∀ n r, make_complete n nfa_S3_lhs alphabet_ab 7 = some r → r = .ok A') ∧
        A'.initialstates = nfa_S3_lhs.initialstates ∧
        A'.finalstates = nfa_S3_lhs.finalstates ∧
        (∀ t, nfa_S3_lhs.has_trans t = true → A'.has_trans t = true) ∧
        (∀ t, A'.has_trans t = true → nfa_S3_lhs.has_trans t = false → t.tgt = 7) ∧
        ∀ w, is_in_lang A' w = is_in_lang nfa_S3_lhs w) ∧
    ((∀ symbs, alphabet_ab.get_symbols ≠ .ok symbs) →
      ∀ n, make_complete (n + 1) nfa_S3_lhs alphabet_ab 7 =
        some (.error "Unimplemented"))) :=
  have hfresh : ¬ nfa_S3_lhs.has_state 7 := by
    rw [← mem_state_list (by decide)]
    decide
  ⟨by decide, rfl, hfresh, make_complete_frame nfa_S3_lhs alphabet_ab 7 (by decide) hfresh⟩

end Vata2

namespace Vata2

/-! ## Forward reachability -/

theorem get_fwd_reach_states_body_eq (aut : Nfa) (state : State) (rest pr : List State) :
    get_fwd_reach_states_body aut (state :: rest, pr) =
      bfs_push_post (aut.index state) (rest, pr) := rfl

theorem get_fwd_reach_states_mono {A : Nfa} {n m : Nat} {r : List State}
    (h : get_fwd_reach_states n A = some r) (hnm : n ≤ m) :
    get_fwd_reach_states m A = some r := by
  unfold get_fwd_reach_states at h ⊢
  simp only at h ⊢
  cases hw : while_loop (fun wp => !wp.1.isEmpty) (get_fwd_reach_states_body A) n
      (A.initialstates, uset_insert_all A.initialstates []) with
  | none => rw [hw] at h; cases h
  | some st =>
    rw [hw] at h
    rw [while_loop_mono hw hnm]
    exact h

/-- The traversal of `get_fwd_reach_states` terminates with a duplicate-free list of exactly
the states reachable from an initial state. -/
theorem get_fwd_reach_states_spec {A : Nfa} (hA : A.WF) :
    ∃ fuel r, (∀ n, fuel ≤ n → get_fwd_reach_states n A = some r) ∧ r.Nodup ∧
      ∀ q, q ∈ r ↔ ∃ q0 ∈ A.initialstates, ∃ w, A.reach q0 w q := by
  obtain ⟨I, hIdef⟩ : ∃ I : List State × List State → Prop, I = fun wp =>
      (∀ q ∈ wp.1, q ∈ wp.2) ∧ wp.2.Nodup ∧
      (∀ q ∈ wp.2, ∃ q0 ∈ A.initialstates, ∃ w, A.reach q0 w q) ∧
      (∀ q0 ∈ A.initialstates, q0 ∈ wp.2) ∧
      (∀ q ∈ wp.2, q ∉ wp.1 → ∀ a r, A.has_trans ⟨q, a, r⟩ = true → r ∈ wp.2) := ⟨_, rfl⟩
  have hbody : ∀ wp, I wp → (!wp.1.isEmpty) = true →
      I (get_fwd_reach_states_body A wp) ∧
        (get_fwd_reach_states_body A wp).1.length +
            (A.state_list.length - (get_fwd_reach_states_body A wp).2.length) <
          wp.1.length + (A.state_list.length - wp.2.length) := by
    intro wp hI hc
    subst hIdef
    obtain ⟨wl, pr⟩ := wp
    obtain ⟨h1, h2, h3, h4, h5⟩ := hI
    simp only at h1 h2 h3 h4 h5 hc
    obtain ⟨state, rest, rfl⟩ : ∃ state rest, wl = state :: rest := by
      cases wl with
      | nil => simp at hc
      | cons x xs => exact ⟨x, xs, rfl⟩
    obtain ⟨q0, hq0, w, hw⟩ := h3 state (h1 state (List.mem_cons_self _ _))
    rw [get_fwd_reach_states_body_eq]
    obtain ⟨p1, p2, p3, p4, p5, p6⟩ := bfs_push_post_spec (A.index state) rest pr
    have hgood : ∀ q ∈ (bfs_push_post (A.index state) (rest, pr)).2,
        ∃ q0 ∈ A.initialstates, ∃ w, A.reach q0 w q := by
      intro q hq
      rcases (p1 q).1 hq with h | ⟨⟨a, tg⟩, he, hx⟩
      · exact h3 q h
      · refine ⟨q0, hq0, w ++ [a], ?_⟩
        exact Reach_append_iff.2 ⟨state, hw, q, has_trans_of_mem_index hA he hx, rfl⟩
    refine ⟨⟨?_, p5 h2, hgood, ?_, ?_⟩, ?_⟩
    · intro q hq
      rcases p2 q hq with h | ⟨h, _⟩
      · exact (p1 q).2 (Or.inl (h1 q (List.mem_cons_of_mem _ h)))
      · exact (p1 q).2 (Or.inr h)
    · intro q hq
      exact (p1 q).2 (Or.inl (h4 q hq))
    · intro q hq hnot a r har
      by_cases hqs : q = state
      · subst hqs
        obtain ⟨tg, he, hr⟩ := mem_index_of_has_trans har
        exact (p1 r).2 (Or.inr ⟨(a, tg), he, hr⟩)
      · have hqpr : q ∈ pr := by
          rcases p4 q hq with h | h
          · exact h
          · exact absurd h hnot
        have hqwl : q ∉ state :: rest := by
          intro h
          rcases List.mem_cons.1 h with h | h
          · exact hqs h
          · exact hnot (p3 q h)
        exact (p1 r).2 (Or.inl (h5 q hqpr hqwl a r har))
    · have hsub : ∀ pr' : List State, pr'.Nodup →
          (∀ q ∈ pr', ∃ q0 ∈ A.initialstates, ∃ w, A.reach q0 w q) →
          pr'.length ≤ A.state_list.length := by
        intro pr' hnd hg
        apply length_le_of_nodup_subset hnd
        intro q hq
        obtain ⟨q0, hq0, w, hw⟩ := hg q hq
        exact (mem_state_list hA q).2 (reachable_has_state hq0 hw)
      have l1 := hsub _ (p5 h2) hgood
      have l2 := hsub pr h2 h3
      simp only [List.length_cons]
      omega
  have hinit : I (A.initialstates, uset_insert_all A.initialstates []) := by
    subst hIdef
    refine ⟨?_, nodup_uset_insert_all _ List.nodup_nil, ?_, ?_, ?_⟩
    · intro q hq
      exact (mem_uset_insert_all _ _ _).2 (Or.inl hq)
    · intro q hq
      rw [mem_uset_insert_all] at hq
      simp only [List.not_mem_nil, or_false] at hq
      exact ⟨q, hq, [], rfl⟩
    · intro q hq
      exact (mem_uset_insert_all _ _ _).2 (Or.inl hq)
    · intro q hq hnot
      rw [mem_uset_insert_all] at hq
      simp only [List.not_mem_nil, or_false] at hq
      exact absurd hq hnot
  obtain ⟨fuel, st, hst⟩ : ∃ fuel st, while_loop (fun wp => !wp.1.isEmpty)
      (get_fwd_reach_states_body A) fuel
      (A.initialstates, uset_insert_all A.initialstates []) = some st :=
    ⟨_, @while_loop_terminates _ (fun wp => !wp.1.isEmpty)
      (get_fwd_reach_states_body A) I
      (fun s => s.1.length + (A.state_list.length - s.2.length))
      (fun s hs hc => (hbody s hs hc).1) (fun s hs hc => (hbody s hs hc).2) _ hinit _
      (Nat.lt_succ_self _)⟩
  obtain ⟨hIf, hcf⟩ := while_loop_inv I (fun s hs hc => (hbody s hs hc).1) hinit hst
  subst hIdef
  obtain ⟨_, g2, g3, g4, g5⟩ := hIf
  have hnil : st.1 = [] := by
    cases hs : st.1 with
    | nil => rfl
    | cons x xs => simp [hs] at hcf
  refine ⟨fuel, st.2, fun n hn => ?_, g2, fun q => ⟨g3 q, ?_⟩⟩
  · unfold get_fwd_reach_states
    simp only
    rw [while_loop_mono hst hn]
    rfl
  · rintro ⟨q0, hq0, w, hw⟩
    refine Reach_closed (fun q => q ∈ st.2) ?_ (g4 q0 hq0) hw
    intro q a r hq hT
    exact g5 q hq (by simp [hnil]) a r hT

/-- C38: for every well-formed automaton `A`, `get_fwd_reach_states(A)` terminates and
returns a set that contains exactly the states `s` for which some sequence of transitions
of `A` leads from an initial state to `s` (the empty sequence included). -/
theorem get_fwd_reach_states_correct (A : Nfa) (hA : A.WF) :
    ∃ r, (∃ fuel, ∀ n, fuel ≤ n → get_fwd_reach_states n A = some r) ∧
      (∀ n r', get_fwd_reach_states n A = some r' → r' = r) ∧ r.Nodup ∧
      ∀ s, s ∈ r ↔ ∃ q0 ∈ A.initialstates, ∃ w, A.reach q0 w s := by
  obtain ⟨fuel, r, h1, h2, h3⟩ := get_fwd_reach_states_spec hA
  refine ⟨r, ⟨fuel, h1⟩, fun n r' h => ?_, h2, h3⟩
  have e := get_fwd_reach_states_mono h (le_max_left n fuel)
  rw [h1 _ (le_max_right n fuel)] at e
  cases e
  rfl

theorem get_fwd_reach_states_correct_witness :
    nfa_S3_lhs.WF ∧ get_fwd_reach_states 4 nfa_S3_lhs = some [0, 1, 2] ∧
    get_fwd_reach_states 3 nfa_S3_rhs = some [0, 1] ∧
    ∃ r, (∃ fuel, ∀ n, fuel ≤ n → get_fwd_reach_states n nfa_S3_lhs = some r) ∧
      (∀ n r', get_fwd_reach_states n nfa_S3_lhs = some r' → r' = r) ∧ r.Nodup ∧
      ∀ s, s ∈ r ↔ ∃ q0 ∈ nfa_S3_lhs.initialstates, ∃ w, nfa_S3_lhs.reach q0 w s :=
  ⟨by decide, by decide, by decide, get_fwd_reach_states_correct nfa_S3_lhs (by decide)⟩

/-! ## Removal of epsilon transitions: the structure of the result -/

/-- The closure computed for a state with an outgoing transition contains every state that
is reachable from it by `eps`-transitions. -/
theorem cl_of_complete {A : Nfa} {eps : Symbol} {m : List (State × StateSet)}
    (hI : EpsInv A eps m) (hC : EpsClosed A eps m) (v : Word) :
    ∀ s u, (∃ a r, A.has_trans ⟨s, a, r⟩ = true) → A.reach s v u → (∀ a ∈ v, a = eps) →
      u ∈ cl_of m s := by
  induction v with
  | nil =>
    rintro s u ⟨a, r, har⟩ hr _
    rw [Nfa.reach_nil] at hr
    subst hr
    exact hI.self s a r har
  | cons b v ih =>
    rintro s u _ hr hall
    rw [Nfa.reach_cons] at hr
    obtain ⟨r, hsr, hru⟩ := hr
    have hb : b = eps := hall b (List.mem_cons_self _ _)
    subst hb
    cases v with
    | nil =>
      rw [Nfa.reach_nil] at hru
      subst hru
      exact hI.direct s r hsr
    | cons c v =>
      have hsrc : ∃ a r', A.has_trans ⟨r, a, r'⟩ = true := by
        rw [Nfa.reach_cons] at hru
        obtain ⟨r', h, _⟩ := hru
        exact ⟨c, r', h⟩
      exact hC s r hsr u
        (ih r u hsrc hru (fun a ha => hall a (List.mem_cons_of_mem _ ha)))

/-- The function `remove_epsilon` terminates on every well-formed automaton with a result
whose initial set, final set and transitions are those of `A` closed under the
`eps`-reachability on the left. -/
theorem remove_epsilon_struct {A : Nfa} (hA : A.WF) (eps : Symbol) :
    ∃ fuel R, (∀ n, fuel ≤ n → remove_epsilon n A eps = some R) ∧
      R.initialstates = A.initialstates ∧
      (∀ s, s ∈ R.finalstates ↔ ∃ u, EpsReach A eps s u ∧ u ∈ A.finalstates) ∧
      (∀ t, R.has_trans t = true ↔
        t.symb ≠ eps ∧ ∃ u, EpsReach A eps t.src u ∧
          A.has_trans ⟨u, t.symb, t.tgt⟩ = true) := by
  obtain ⟨fuel, m, hloop, hI, hC⟩ := eps_closure_fixpoint hA eps
  have hb := remove_epsilon_build_spec hA eps hI.base.keys_nodup
    { initialstates := set_insert_all A.initialstates []
      finalstates := set_insert_all A.finalstates []
      transitions := [] }
  have hfuel : remove_epsilon fuel A eps = some
      (m.foldl (fun result state_closure_pair =>
        state_closure_pair.2.foldl (fun result eps_cl_state =>
          remove_epsilon_add A eps state_closure_pair.1 eps_cl_state result) result)
        { initialstates := set_insert_all A.initialstates []
          finalstates := set_insert_all A.finalstates []
          transitions := [] }) := by
    unfold remove_epsilon remove_epsilon_into
    rw [hloop]
  refine ⟨fuel, _, fun n hn => remove_epsilon_mono hfuel hn, ?_, ?_, ?_⟩
  · rw [hb.init_eq]
    exact set_insert_all_nil_of_sorted hA.2.2.1
  · intro s
    rw [hb.fin_iff]
    simp only [mem_set_insert_all, List.not_mem_nil, or_false]
    constructor
    · rintro (h | ⟨u, hu, hf⟩)
      · exact ⟨s, eps_reach_refl A eps s, h⟩
      · exact ⟨u, hI.base.sound s u hu, hf⟩
    · rintro ⟨u, ⟨v, hv, hall⟩, hf⟩
      cases v with
      | nil =>
        rw [Nfa.reach_nil] at hv
        subst hv
        exact Or.inl hf
      | cons c v =>
        have hsrc : ∃ a r', A.has_trans ⟨s, a, r'⟩ = true := by
          rw [Nfa.reach_cons] at hv
          obtain ⟨r', h, _⟩ := hv
          exact ⟨c, r', h⟩
        exact Or.inr ⟨u, cl_of_complete hI hC _ s u hsrc hv hall, hf⟩
  · intro t
    rw [hb.trans_iff]
    constructor
    · rintro (h | ⟨hne, u, hu, ht⟩)
      · cases h
      · exact ⟨hne, u, hI.base.sound _ u hu, ht⟩
    · rintro ⟨hne, u, ⟨v, hv, hall⟩, ht⟩
      refine Or.inr ⟨hne, u, ?_, ht⟩
      cases v with
      | nil =>
        rw [Nfa.reach_nil] at hv
        subst hv
        exact hI.self _ _ _ ht
      | cons c v =>
        have hsrc : ∃ a r', A.has_trans ⟨t.src, a, r'⟩ = true := by
          rw [Nfa.reach_cons] at hv
          obtain ⟨r', h, _⟩ := hv
          exact ⟨c, r', h⟩
        exact cl_of_complete hI hC _ t.src u hsrc hv hall

/-- C32: for every well-formed automaton `A` and symbol `eps`, with `cl(s)` the set of
states reachable from `s` by zero or more `eps`-transitions of `A`,
`remove_epsilon(A, eps)` terminates with a result that has the initial set of `A`, in which
`s` is final iff some state of `cl(s)` is final in `A`, and in which `(s, a, t)` is a
transition iff `a ≠ eps` and some `u` in `cl(s)` has the transition `(u, a, t)` in `A`; in
particular no transition of the result is labelled `eps`. -/
theorem remove_epsilon_structure (A : Nfa) (hA : A.WF) (eps : Symbol) :
    ∃ R, (∃ fuel, ∀ n, fuel ≤ n → remove_epsilon n A eps = some R) ∧
      (∀ n R', remove_epsilon n A eps = some R' → R' = R) ∧
      R.initialstates = A.initialstates ∧
      (∀ s, s ∈ R.finalstates ↔
        ∃ u, (∃ v : Word, A.reach s v u ∧ ∀ a ∈ v, a = eps) ∧ u ∈ A.finalstates) ∧
      (∀ s a t, R.has_trans ⟨s, a, t⟩ = true ↔
        a ≠ eps ∧ ∃ u, (∃ v : Word, A.reach s v u ∧ ∀ a ∈ v, a = eps) ∧
          A.has_trans ⟨u, a, t⟩ = true) ∧
      ∀ s t, R.has_trans ⟨s, eps, t⟩ = false := by
  obtain ⟨fuel, R, h1, h2, h3, h4⟩ := remove_epsilon_struct hA eps
  refine ⟨R, ⟨fuel, h1⟩, fun n R' h => ?_, h2, h3, fun s a t => h4 ⟨s, a, t⟩, fun s t => ?_⟩
  · have e := remove_epsilon_mono h (le_max_left n fuel)
    rw [h1 _ (le_max_right n fuel)] at e
    cases e
    rfl
  · rw [← Bool.not_eq_true, h4]
    rintro ⟨hne, _⟩
    exact hne rfl

theorem remove_epsilon_structure_witness :
    nfa_S5.WF ∧ remove_epsilon 3 nfa_S5 0 = some ⟨[], [0], [0, 1]⟩ ∧
    ∃ R, (∃ fuel, ∀ n, fuel ≤ n → remove_epsilon n nfa_S5 0 = some R) ∧
      (∀ n R', remove_epsilon n nfa_S5 0 = some R' → R' = R) ∧
      R.initialstates = nfa_S5.initialstates ∧
      (∀ s, s ∈ R.finalstates ↔
        ∃ u, (∃ v : Word, nfa_S5.reach s v u ∧ ∀ a ∈ v, a = 0) ∧ u ∈ nfa_S5.finalstates) ∧
      (∀ s a t, R.has_trans ⟨s, a, t⟩ = true ↔
        a ≠ 0 ∧ ∃ u, (∃ v : Word, nfa_S5.reach s v u ∧ ∀ a ∈ v, a = 0) ∧
          nfa_S5.has_trans ⟨u, a, t⟩ = true) ∧
      ∀ s t, R.has_trans ⟨s, 0, t⟩ = false :=
  ⟨by decide, by decide, remove_epsilon_structure nfa_S5 (by decide) 0⟩

end Vata2

namespace Vata2

/-! ## The product map and the subset map -/

section explore_extra
variable {κ : Type} [DecidableEq κ]

theorem has_state_add_trans {A : Nfa} {q : State} (t : Trans) (h : A.has_state q) :
    (A.add_trans t).has_state q := by
  rcases h with h | h | ⟨t', h1, h2⟩
  · exact Or.inl (by rw [Nfa.add_trans_initialstates]; exact h)
  · exact Or.inr (Or.inl (by rw [Nfa.add_trans_finalstates]; exact h))
  · exact Or.inr (Or.inr ⟨t', (Nfa.has_trans_add_trans _ _ _).2 (Or.inr h1), h2⟩)

theorem has_state_add_final {A : Nfa} {q : State} (s : State) (h : A.has_state q) :
    (A.add_final s).has_state q := by
  rcases h with h | h | h
  · exact Or.inl h
  · exact Or.inr (Or.inl ((mem_set_insert _ _ _).2 (Or.inr h)))
  · exact Or.inr (Or.inr h)

/-- Visiting a successor of a key that is in the map keeps the additional invariant. -/
theorem visit_succ_extra {succ : κ → List (Symbol × κ)} {inits : List κ} {key : κ}
    {i : State} {a : Symbol} {key' : κ} {st : WorkState κ}
    (hE : ExploreExtra succ inits st) (hk : umap_find st.map key = some i)
    (hs : (a, key') ∈ succ key) :
    ExploreExtra succ inits (visit_succ i a key' st) ∧
      umap_find (visit_succ i a key' st).map key = some i := by
  cases hf : umap_find st.map key' with
  | some i' =>
    rw [visit_succ_of_some hf]
    exact ⟨⟨hE.surj, fun k v h => has_state_add_trans _ (hE.occ k v h), hE.reach,
      hE.init_lt⟩, hk⟩
  | none =>
    rw [visit_succ_of_none hf]
    have hext : ∀ k v, umap_find st.map k = some v →
        umap_find (st.map ++ [(key', st.cnt_state)]) k = some v :=
      fun k v h => (umap_find_append_single _ _ _ _ _).2 (Or.inl h)
    have hnew : ∀ k v, umap_find (st.map ++ [(key', st.cnt_state)]) k = some v →
        umap_find st.map k = some v ∨ (k = key' ∧ v = st.cnt_state) := by
      intro k v h
      rcases (umap_find_append_single _ _ _ _ _).1 h with h | ⟨_, h1, h2⟩
      · exact Or.inl h
      · exact Or.inr ⟨h1.symm, h2.symm⟩
    have hself : umap_find (st.map ++ [(key', st.cnt_state)]) key' = some st.cnt_state :=
      (umap_find_append_single _ _ _ _ _).2 (Or.inr ⟨hf, rfl, rfl⟩)
    refine ⟨⟨?_, ?_, ?_, ?_⟩, hext _ _ hk⟩
    rotate_left 3
    · intro k hk0
      obtain ⟨v, hv, hlt⟩ := hE.init_lt k hk0
      exact ⟨v, hext _ _ hv, hlt⟩
    · intro v hv
      simp only at hv ⊢
      by_cases hv' : v < st.cnt_state
      · obtain ⟨k, hk'⟩ := hE.surj v hv'
        exact ⟨k, hext _ _ hk'⟩
      · have : v = st.cnt_state :=
          Nat.le_antisymm (Nat.lt_succ_iff.1 hv) (Nat.not_lt.1 hv')
        subst this
        exact ⟨key', hself⟩
    · intro k v h
      simp only at h ⊢
      rcases hnew k v h with h | ⟨_, rfl⟩
      · exact has_state_add_trans _ (hE.occ k v h)
      · exact Or.inr (Or.inr ⟨⟨i, a, st.cnt_state⟩,
          (Nfa.has_trans_add_trans _ _ _).2 (Or.inl rfl), Or.inr rfl⟩)
    · intro k v h
      simp only at h
      rcases hnew k v h with h | ⟨rfl, _⟩
      · exact hE.reach k v h
      · obtain ⟨k0, hk0, w, hw⟩ := hE.reach key i hk
        exact ⟨k0, hk0, w ++ [a], Reach_append_iff.2 ⟨key, hw, k, hs, rfl⟩⟩

theorem visit_fold_extra {succ : κ → List (Symbol × κ)} {inits : List κ} {key : κ}
    {i : State} (l : List (Symbol × κ)) (st : WorkState κ)
    (hE : ExploreExtra succ inits st) (hk : umap_find st.map key = some i)
    (hs : ∀ sk ∈ l, sk ∈ succ key) :
    ExploreExtra succ inits (l.foldl (fun st sk => visit_succ i sk.1 sk.2 st) st) := by
  induction l generalizing st with
  | nil => exact hE
  | cons sk l ih =>
    simp only [List.foldl_cons]
    obtain ⟨v1, v2⟩ := visit_succ_extra hE hk (hs sk (List.mem_cons_self _ _))
    exact ih _ v1 v2 (fun x hx => hs x (List.mem_cons_of_mem _ hx))

/-- One iteration of a worklist construction keeps the additional invariant. -/
theorem explore_body_extra {isFinal : κ → Bool} {succ : κ → List (Symbol × κ)}
    {inits : List κ} (st : WorkState κ) (hE : ExploreExtra succ inits st)
    (hwl : ∀ kv ∈ st.worklist, umap_find st.map kv.1 = some kv.2) :
    ExploreExtra succ inits (explore_body isFinal succ st) := by
  unfold explore_body
  cases hw : st.worklist with
  | nil => exact hE
  | cons e rest =>
    obtain ⟨key, i⟩ := e
    simp only
    have hk : umap_find st.map key = some i := hwl (key, i) (by rw [hw]; simp)
    apply visit_fold_extra _ _ _ _ (fun _ h => h)
    · split_ifs
      · exact ⟨hE.surj, fun k v h => has_state_add_final _ (hE.occ k v h), hE.reach,
          hE.init_lt⟩
      · exact ⟨hE.surj, hE.occ, hE.reach, hE.init_lt⟩
    · split_ifs <;> exact hk

/-- A worklist construction started in a state satisfying both invariants terminates in a
state satisfying both, with an empty worklist. -/
theorem explore_spec_extra {isFinal : κ → Bool} {succ : κ → List (Symbol × κ)}
    {inits U : List κ} (hUs : ∀ k ∈ U, ∀ sk ∈ succ k, sk.2 ∈ U) (st₀ : WorkState κ)
    (hI : ExploreInv isFinal succ inits U none st₀) (hE : ExploreExtra succ inits st₀) :
    ∃ fuel st, (∀ n, fuel ≤ n →
        while_loop (fun st => !st.worklist.isEmpty) (explore_body isFinal succ) n st₀ =
          some st) ∧
      ExploreInv isFinal succ inits U none st ∧ ExploreExtra succ inits st ∧
      st.worklist = [] := by
  obtain ⟨fuel, st, h1, h2, h3, _⟩ := explore_spec hUs st₀ hI
  refine ⟨fuel, st, h1, h2, ?_, h3⟩
  have := while_loop_inv
    (fun s => ExploreInv isFinal succ inits U none s ∧ ExploreExtra succ inits s)
    (fun s hs hc => ⟨(explore_body_spec hUs s hs.1 hc).1,
      explore_body_extra s hs.2 hs.1.wl_mem⟩) ⟨hI, hE⟩ (h1 fuel (le_refl _))
  exact this.1.2

/-- What both invariants say about the map and the automaton at the end of a worklist
construction. -/
theorem explore_map_facts {isFinal : κ → Bool} {succ : κ → List (Symbol × κ)}
    {inits U : List κ} {st : WorkState κ}
    (hI : ExploreInv isFinal succ inits U none st) (hE : ExploreExtra succ inits st)
    (hwl : st.worklist = []) :
    (∀ k k' v, umap_find st.map k = some v → umap_find st.map k' = some v → k = k') ∧
    (∀ x, st.result.has_state x ↔ ∃ k, umap_find st.map k = some x) ∧
    (∀ k x, umap_find st.map k = some x →
      (x ∈ st.result.finalstates ↔ isFinal k = true)) ∧
    (∀ k x, umap_find st.map k = some x →
      ∃ k0 ∈ inits, ∃ w, Reach (fun k a k' => (a, k') ∈ succ k) k0 w k) ∧
    (∀ x, (∃ k, umap_find st.map k = some x) ↔ x < st.cnt_state) := by
  refine ⟨hI.id_inj, fun x => ⟨?_, fun ⟨k, hk⟩ => hE.occ k x hk⟩, ?_, hE.reach,
    fun x => ⟨fun ⟨k, hk⟩ => hI.id_lt k x hk, hE.surj x⟩⟩
  · rintro (h | h | ⟨t, ht, rfl | rfl⟩)
    · obtain ⟨k, _, hk⟩ := (hI.init_iff x).1 h
      exact ⟨k, hk⟩
    · obtain ⟨k, hk, _⟩ := hI.final_sound x h
      exact ⟨k, hk⟩
    · obtain ⟨k, _, hk, _, _⟩ := hI.trans_sound t ht
      exact ⟨k, hk⟩
    · obtain ⟨_, k', _, hk', _⟩ := hI.trans_sound t ht
      exact ⟨k', hk'⟩
  · intro k x hk
    constructor
    · intro hx
      obtain ⟨k', hk', hf⟩ := hI.final_sound x hx
      rw [hI.id_inj k k' x hk hk']
      exact hf
    · intro hf
      exact (hI.done k x hk (by rw [hwl]; simp) (by simp)).1 hf

end explore_extra

end Vata2

namespace Vata2

/-! ## The product map of `intersection` -/

theorem intersection_init_surj (ps : List (State × State)) :
    ∀ st : WorkState (State × State), ps.Nodup →
      (∀ p ∈ ps, p ∉ st.map.map Prod.fst) →
      (∀ v, v < st.cnt_state → ∃ k, umap_find st.map k = some v) →
      ∀ v, v < (ps.foldl (fun st p =>
          ({ result := st.result.add_initial st.cnt_state
             map := (umap_insert st.map p st.cnt_state).1
             worklist := st.worklist ++ [(p, st.cnt_state)]
             cnt_state := st.cnt_state + 1 } : WorkState (State × State))) st).cnt_state →
        ∃ k, umap_find (ps.foldl (fun st p =>
          ({ result := st.result.add_initial st.cnt_state
             map := (umap_insert st.map p st.cnt_state).1
             worklist := st.worklist ++ [(p, st.cnt_state)]
             cnt_state := st.cnt_state + 1 } : WorkState (State × State))) st).map k =
          some v := by
  induction ps with
  | nil => intro st _ _ hs v hv; exact hs v hv
  | cons p ps ih =>
    intro st hnd hfresh hs
    simp only [List.foldl_cons]
    rw [List.nodup_cons] at hnd
    have hp : umap_find st.map p = none :=
      umap_find_eq_none_iff.2 (hfresh p (List.mem_cons_self _ _))
    have hins : (umap_insert st.map p st.cnt_state).1 = st.map ++ [(p, st.cnt_state)] := by
      simp [umap_insert, hp]
    apply ih _ hnd.2
    · intro p' hp'
      simp only [hins, List.map_append, List.map_cons, List.map_nil, List.mem_append,
        List.mem_singleton, not_or]
      refine ⟨hfresh p' (List.mem_cons_of_mem _ hp'), ?_⟩
      rintro rfl
      exact hnd.1 hp'
    · intro v hv
      simp only [hins] at hv ⊢
      by_cases hv' : v < st.cnt_state
      · obtain ⟨k, hk⟩ := hs v hv'
        exact ⟨k, (umap_find_append_single _ _ _ _ _).2 (Or.inl hk)⟩
      · have : v = st.cnt_state :=
          Nat.le_antisymm (Nat.lt_succ_iff.1 hv) (Nat.not_lt.1 hv')
        subst this
        exact ⟨p, (umap_find_append_single _ _ _ _ _).2 (Or.inr ⟨hp, rfl, rfl⟩)⟩

theorem intersection_init_cnt (ps : List (State × State)) :
    ∀ st : WorkState (State × State),
      (ps.foldl (fun st p =>
          ({ result := st.result.add_initial st.cnt_state
             map := (umap_insert st.map p st.cnt_state).1
             worklist := st.worklist ++ [(p, st.cnt_state)]
             cnt_state := st.cnt_state + 1 } : WorkState (State × State))) st).cnt_state =
        st.cnt_state + ps.length := by
  induction ps with
  | nil => intro st; rfl
  | cons p ps ih =>
    intro st
    simp only [List.foldl_cons, List.length_cons]
    rw [ih]
    exact Nat.add_right_comm st.cnt_state 1 ps.length |>.trans (by
      rw [Nat.add_assoc, Nat.add_comm ps.length 1])

theorem intersection_init_extra {lhs rhs : Nfa} (hL : lhs.WF) (hR : rhs.WF) :
    ExploreExtra (prod_succ lhs rhs) (List.product lhs.initialstates rhs.initialstates)
      (intersection_init {} lhs rhs []) := by
  have hsurj := intersection_init_surj
    (List.product lhs.initialstates rhs.initialstates)
    { result := {}, map := [], cnt_state := 0, worklist := [] }
    (List.Nodup.product hL.2.2.1.nodup hR.2.2.1.nodup) (by simp)
    (by intro v hv; exact absurd hv (Nat.not_lt_zero _))
  rw [intersection_init_eq]
  obtain ⟨st', e, r1, r2, r3, r4, r5, r6, r7, r8, r9⟩ := intersection_init_fold
    (List.product lhs.initialstates rhs.initialstates)
    { result := {}, map := [], cnt_state := 0, worklist := [] } rfl (by simp)
    (by intro k v h; simp at h) (by intro k k' v h; simp at h)
    (by intro x; simp) Nfa.wf_empty rfl rfl
    (List.Nodup.product hL.2.2.1.nodup hR.2.2.1.nodup) (by simp)
  have hcnt := intersection_init_cnt
    (List.product lhs.initialstates rhs.initialstates)
    { result := {}, map := [], cnt_state := 0, worklist := [] }
  rw [e] at hsurj hcnt ⊢
  simp only [List.map_nil, List.nil_append] at r2
  simp only [Nat.zero_add] at hcnt
  refine ⟨hsurj, fun k v h => Or.inl ((r6 v).2 ⟨k, h⟩), fun k v h => ?_, fun k hk => ?_⟩
  · have hk : k ∈ List.product lhs.initialstates rhs.initialstates := by
      rw [← r2]
      exact umap_find_isSome_iff.1 ⟨v, h⟩
    exact ⟨k, hk, [], rfl⟩
  · rw [← r2] at hk
    obtain ⟨v, hv⟩ := umap_find_isSome_iff.2 hk
    exact ⟨v, hv, by rw [← hcnt]; exact r4 k v hv⟩

theorem intersection_into_mono {lhs rhs : Nfa} {pm : Option ProductMap} {n m : Nat}
    {r : Nfa × ProductMap} (h : intersection_into n {} lhs rhs pm = some r) (hnm : n ≤ m) :
    intersection_into m {} lhs rhs pm = some r := by
  unfold intersection_into at h ⊢
  simp only [Option.map_eq_some'] at h ⊢
  obtain ⟨a, h1, h2⟩ := h
  exact ⟨a, while_loop_mono h1 hnm, h2⟩

/-- C33: for well-formed automata `L` and `R` and an initially empty product map passed to
`intersection`, the function terminates; the product map maps distinct pairs to distinct
result states; every state of the result is the image of exactly one pair; the result state
of a pair `(l, r)` is final iff `l` is final in `L` and `r` is final in `R`; and every pair
in the map is reachable in the product from a pair of initial states, i.e. some word leads
from an initial state of `L` to `l` and from an initial state of `R` to `r`. -/
theorem intersection_product_map (L R : Nfa) (hL : L.WF) (hR : R.WF) :
    ∃ Res pm, (∃ fuel, ∀ n, fuel ≤ n →
        intersection_into n {} L R (some []) = some (Res, pm)) ∧
      (∀ n r, intersection_into n {} L R (some []) = some r → r = (Res, pm)) ∧
      (∀ k k' x, umap_find pm k = some x → umap_find pm k' = some x → k = k') ∧
      (∀ x, Res.has_state x →
        ∃ k, umap_find pm k = some x ∧ ∀ k', umap_find pm k' = some x → k' = k) ∧
      (∀ l r x, umap_find pm (l, r) = some x →
        (x ∈ Res.finalstates ↔ l ∈ L.finalstates ∧ r ∈ R.finalstates)) ∧
      (∀ l r x, umap_find pm (l, r) = some x →
        ∃ l0 ∈ L.initialstates, ∃ r0 ∈ R.initialstates, ∃ w,
          L.reach l0 w l ∧ R.reach r0 w r) := by
  obtain ⟨fuel, st, h1, hI, hE, hwl⟩ := explore_spec_extra (prod_succ_univ hL hR) _
    (intersection_init_inv hL hR) (intersection_init_extra hL hR)
  obtain ⟨f1, f2, f3, f4, _⟩ := explore_map_facts hI hE hwl
  have hres : ∀ n, fuel ≤ n →
      intersection_into n {} L R (some []) = some (st.result, st.map) := by
    intro n hn
    unfold intersection_into
    simp only [intersection_body_eq, h1 n hn, Option.map_some']
  refine ⟨st.result, st.map, ⟨fuel, hres⟩, fun n r h => ?_, f1, fun x hx => ?_,
    fun l r x h => ?_, fun l r x h => ?_⟩
  · have e := intersection_into_mono h (le_max_left n fuel)
    rw [hres _ (le_max_right n fuel)] at e
    cases e
    rfl
  · obtain ⟨k, hk⟩ := (f2 x).1 hx
    exact ⟨k, hk, fun k' hk' => f1 k' k x hk' hk⟩
  · rw [f3 (l, r) x h]
    simp only [Bool.and_eq_true, haskey_iff]
  · obtain ⟨k0, hk0, w, hw⟩ := f4 (l, r) x h
    obtain ⟨g1, g2⟩ := (Reach_prod hL hR k0 (l, r) w).1 hw
    have hk0' := List.mem_product.1 (show (k0.1, k0.2) ∈ _ from hk0)
    exact ⟨k0.1, hk0'.1, k0.2, hk0'.2, w, g1, g2⟩

theorem intersection_product_map_witness :
    nfa_S3_lhs.WF ∧ nfa_S3_rhs.WF ∧
    intersection_into 4 {} nfa_S3_lhs nfa_S3_rhs (some []) =
      some (⟨[(0, [(0, [1])]), (1, [(0, [2])])], [0], []⟩,
        [((0, 0), 0), ((1, 1), 1), ((2, 0), 2)]) ∧
    ∃ Res pm, (∃ fuel, ∀ n, fuel ≤ n →
        intersection_into n {} nfa_S3_lhs nfa_S3_rhs (some []) = some (Res, pm)) ∧
      (∀ n r, intersection_into n {} nfa_S3_lhs nfa_S3_rhs (some []) = some r →
        r = (Res, pm)) ∧
      (∀ k k' x, umap_find pm k = some x → umap_find pm k' = some x → k = k') ∧
      (∀ x, Res.has_state x →
        ∃ k, umap_find pm k = some x ∧ ∀ k', umap_find pm k' = some x → k' = k) ∧
      (∀ l r x, umap_find pm (l, r) = some x →
        (x ∈ Res.finalstates ↔ l ∈ nfa_S3_lhs.finalstates ∧ r ∈ nfa_S3_rhs.finalstates)) ∧
      (∀ l r x, umap_find pm (l, r) = some x →
        ∃ l0 ∈ nfa_S3_lhs.initialstates, ∃ r0 ∈ nfa_S3_rhs.initialstates, ∃ w,
          nfa_S3_lhs.reach l0 w l ∧ nfa_S3_rhs.reach r0 w r) :=
  ⟨by decide, by decide, by decide,
    intersection_product_map nfa_S3_lhs nfa_S3_rhs (by decide) (by decide)⟩

/-! ## The subset map of `determinize` -/

theorem determinize_init_extra (aut : Nfa) :
    ExploreExtra (determinize_post_symb aut) [aut.initialstates]
      { result := { initialstates := [0] }, map := [(aut.initialstates, 0)], cnt_state := 1,
        worklist := [(aut.initialstates, 0)] } := by
  refine ⟨fun v hv => ?_, fun k v h => ?_, fun k v h => ?_, fun k hk => ?_⟩
  rotate_left 3
  · rw [List.mem_singleton] at hk
    subst hk
    exact ⟨0, by simp, by simp⟩
  · have : v = 0 := Nat.lt_one_iff.1 hv
    subst this
    exact ⟨aut.initialstates, by simp⟩
  · simp only [umap_find_cons, umap_find_nil] at h
    split_ifs at h
    cases h
    exact Or.inl (List.mem_singleton_self _)
  · simp only [umap_find_cons, umap_find_nil] at h
    split_ifs at h with e
    subst e
    exact ⟨_, List.mem_singleton_self _, [], rfl⟩

theorem determinize_into_mono {aut : Nfa} {sm : Option SubsetMap} {n m : Nat}
    {r : Nfa × SubsetMap × State} (h : determinize_into n {} aut sm = some r)
    (hnm : n ≤ m) : determinize_into m {} aut sm = some r := by
  unfold determinize_into at h ⊢
  simp only [Option.map_eq_some'] at h ⊢
  obtain ⟨a, h1, h2⟩ := h
  exact ⟨a, while_loop_mono h1 hnm, h2⟩

/-- The function `determinize` with an empty subset map terminates in a state of its
worklist loop that satisfies both invariants. -/
theorem determinize_into_spec {aut : Nfa} (hA : aut.WF) :
    ∃ fuel st, (∀ n, fuel ≤ n →
        determinize_into n {} aut (some []) = some (st.result, st.map, st.cnt_state - 1)) ∧
      ExploreInv (fun S => !are_disjoint S aut.finalstates) (determinize_post_symb aut)
        [aut.initialstates] (set_insert_all aut.state_list []).sublists none st ∧
      ExploreExtra (determinize_post_symb aut) [aut.initialstates] st ∧
      st.worklist = [] := by
  obtain ⟨fuel, st, h1, hI, hE, hwl⟩ := explore_spec_extra (determinize_univ hA) _
    (determinize_init_inv hA) (determinize_init_extra aut)
  refine ⟨fuel, st, fun n hn => ?_, hI, hE, hwl⟩
  unfold determinize_into
  simp only [determinize_body_eq, umap_insert, umap_find_nil, List.nil_append]
  have := h1 n hn
  simp only [Nat.zero_add] at this ⊢
  rw [this]
  rfl

/-- C34: for every well-formed automaton `A`, `determinize(A, subset_map, last_state_num)`
with an initially empty subset map terminates; the map sends the initial set of `A` to the
state `0`; it sends distinct subsets to distinct identifiers and the identifiers in use are
exactly `0..last_state_num`; the state of a subset `S` is final iff `S` contains a final
state of `A`; and `last_state_num` is a state of the result and the largest one, so that
`last_state_num + 1` is not a state of the result. -/
theorem determinize_subset_map (A : Nfa) (hA : A.WF) :
    ∃ D sm last, (∃ fuel, ∀ n, fuel ≤ n →
        determinize_into n {} A (some []) = some (D, sm, last)) ∧
      (∀ n r, determinize_into n {} A (some []) = some r → r = (D, sm, last)) ∧
      umap_find sm A.initialstates = some 0 ∧
      (∀ S S' x, umap_find sm S = some x → umap_find sm S' = some x → S = S') ∧
      (∀ x, (∃ S, umap_find sm S = some x) ↔ x ≤ last) ∧
      (∀ S x, umap_find sm S = some x →
        (x ∈ D.finalstates ↔ ∃ q ∈ S, q ∈ A.finalstates)) ∧
      D.has_state last ∧ (∀ x, D.has_state x → x ≤ last) ∧ ¬ D.has_state (last + 1) := by
  obtain ⟨fuel, st, hres, hI, hE, hwl⟩ := determinize_into_spec hA
  obtain ⟨f1, f2, f3, _, f5⟩ := explore_map_facts hI hE hwl
  obtain ⟨x0, hx0, hlt⟩ := hE.init_lt A.initialstates (List.mem_singleton_self _)
  have hinit : x0 = 0 := Nat.lt_one_iff.1 hlt
  subst hinit
  have hcnt : 0 < st.cnt_state := hI.id_lt _ _ hx0
  have hle : ∀ x : State, x < st.cnt_state ↔ x ≤ st.cnt_state - 1 := by
    intro x
    constructor
    · intro h
      exact Nat.le_sub_one_of_lt h
    · intro h
      exact Nat.lt_of_le_of_lt h (Nat.sub_lt hcnt Nat.zero_lt_one)
  have hstates : ∀ x, st.result.has_state x ↔ x ≤ st.cnt_state - 1 :=
    fun x => (f2 x).trans ((f5 x).trans (hle x))
  refine ⟨st.result, st.map, st.cnt_state - 1, ⟨fuel, hres⟩, fun n r h => ?_, hx0, f1,
    fun x => (f5 x).trans (hle x), fun S x h => ?_, (hstates _).2 (le_refl _),
    fun x hx => (hstates x).1 hx, fun h => ?_⟩
  · have e := determinize_into_mono h (le_max_left n fuel)
    rw [hres _ (le_max_right n fuel)] at e
    cases e
    rfl
  · rw [f3 S x h]
    simp only [Bool.not_eq_true', are_disjoint_eq_false_iff]
  · exact absurd ((hstates _).1 h) (Nat.not_succ_le_self _)

theorem determinize_subset_map_witness :
    nfa_S6.WF ∧
    determinize_into 3 {} nfa_S6 (some []) =
      some (⟨[(0, [(0, [1]), (1, [1])])], [0], [1]⟩, [([0, 1], 0), ([2], 1)], 1) ∧
    ∃ D sm last, (∃ fuel, ∀ n, fuel ≤ n →
        determinize_into n {} nfa_S6 (some []) = some (D, sm, last)) ∧
      (∀ n r, determinize_into n {} nfa_S6 (some []) = some r → r = (D, sm, last)) ∧
      umap_find sm nfa_S6.initialstates = some 0 ∧
      (∀ S S' x, umap_find sm S = some x → umap_find sm S' = some x → S = S') ∧
      (∀ x, (∃ S, umap_find sm S = some x) ↔ x ≤ last) ∧
      (∀ S x, umap_find sm S = some x →
        (x ∈ D.finalstates ↔ ∃ q ∈ S, q ∈ nfa_S6.finalstates)) ∧
      D.has_state last ∧ (∀ x, D.has_state x → x ≤ last) ∧ ¬ D.has_state (last + 1) :=
  ⟨by decide, by decide, determinize_subset_map nfa_S6 (by decide)⟩

end Vata2

namespace Vata2

/-! ## The state dictionary of `construct` -/

theorem intern_all_append (l₁ l₂ : List String) (c : StringToStateMap × State) :
    intern_all (l₁ ++ l₂) c = intern_all l₂ (intern_all l₁ c) := by
  unfold intern_all
  rw [List.foldl_append]

theorem construct_initial_captures (strs : List String) (ac : Nfa × (StringToStateMap × State)) :
    (construct_initial strs ac).2 = intern_all strs ac.2 := by
  unfold construct_initial intern_all
  induction strs generalizing ac with
  | nil => rfl
  | cons s strs ih =>
    simp only [List.foldl_cons]
    rw [ih]

theorem construct_final_captures (strs : List String) (ac : Nfa × (StringToStateMap × State)) :
    (construct_final strs ac).2 = intern_all strs ac.2 := by
  unfold construct_final intern_all
  induction strs generalizing ac with
  | nil => rfl
  | cons s strs ih =>
    simp only [List.foldl_cons]
    rw [ih]

theorem construct_body_captures (lib : LibFns) (rows : List (List String)) :
    ∀ (aut : Nfa) (alphabet : Alphabet) (c : StringToStateMap × State)
      (r : Nfa × Alphabet × (StringToStateMap × State)),
      construct_body lib rows (aut, alphabet, c) = .ok r →
      r.2.2 = intern_all (rows.flatMap
        (fun body_line => [body_line.getD 0 "", body_line.getD 2 ""])) c := by
  induction rows with
  | nil =>
    intro aut alphabet c r h
    simp only [construct_body] at h
    cases h
    rfl
  | cons row rows ih =>
    intro aut alphabet c r h
    unfold construct_body at h
    by_cases h3 : row.length = 3
    · simp only [h3, bne_self_eq_false, Bool.false_eq_true, if_false] at h
      cases ht : alphabet.translate_symb lib (row.getD 1 "") with
      | error e =>
        rw [ht] at h
        cases h
      | ok sa =>
        rw [ht] at h
        simp only at h
        have := ih _ _ _ r h
        rw [this]
        simp only [List.flatMap_cons, intern_all, List.foldl_append, List.foldl_cons,
          List.foldl_nil]
    · have hne : (row.length != 3) = true := by simpa using h3
      simp only [hne, if_true] at h
      split_ifs at h

/-- The dictionary after `construct`: the entries it had, followed by the new names in the
order of their first occurrence with the identifiers `0, 1, 2, ...`. -/
theorem intern_all_spec (m0 : StringToStateMap) (names : List String) :
    ∀ t : StringToStateMap, t.map Prod.snd = List.range t.length →
      ∃ t', intern_all names (m0 ++ t, t.length) = (m0 ++ t', t'.length) ∧
        t'.map Prod.snd = List.range t'.length ∧
        (m0 ++ t').map Prod.fst = uset_insert_all names ((m0 ++ t).map Prod.fst) := by
  induction names with
  | nil => intro t ht; exact ⟨t, rfl, ht, rfl⟩
  | cons s names ih =>
    intro t ht
    cases hf : umap_find (m0 ++ t) s with
    | some v =>
      have e : get_state_name (m0 ++ t, t.length) s = (v, (m0 ++ t, t.length)) := by
        simp [get_state_name, umap_insert, hf]
      have hmem : s ∈ (m0 ++ t).map Prod.fst := umap_find_isSome_iff.1 ⟨v, hf⟩
      obtain ⟨t', h1, h2, h3⟩ := ih t ht
      refine ⟨t', ?_, h2, ?_⟩
      · simp only [intern_all, List.foldl_cons, e]
        exact h1
      · rw [h3]
        simp only [uset_insert_all, List.foldl_cons, uset_insert, hmem, if_true]
    | none =>
      have e : get_state_name (m0 ++ t, t.length) s =
          (t.length, (m0 ++ (t ++ [(s, t.length)]), (t ++ [(s, t.length)]).length)) := by
        simp [get_state_name, umap_insert, hf]
      have hmem : s ∉ (m0 ++ t).map Prod.fst := umap_find_eq_none_iff.1 hf
      have ht' : (t ++ [(s, t.length)]).map Prod.snd =
          List.range (t ++ [(s, t.length)]).length := by
        simp only [List.map_append, List.map_cons, List.map_nil, List.length_append,
          List.length_singleton, List.range_succ, ht]
      obtain ⟨t', h1, h2, h3⟩ := ih _ ht'
      refine ⟨t', ?_, h2, ?_⟩
      · simp only [intern_all, List.foldl_cons, e]
        exact h1
      · rw [h3]
        have hm' : s ∉ List.map Prod.fst m0 ++ List.map Prod.fst t := by
          simpa using hmem
        simp only [uset_insert_all, List.foldl_cons, uset_insert, List.map_append,
          List.map_cons, List.map_nil]
        rw [if_neg hm']
        simp only [List.append_assoc]

/-- The dictionary that `construct` leaves behind is the dictionary it received after
`get_state_name` has been called on the state names of the section in order. -/
theorem construct_into_captures {lib : LibFns} {aut : Nfa} {parsec : ParsedSection}
    {alphabet : Alphabet} {sm : Option StringToStateMap}
    {r : Nfa × Alphabet × StringToStateMap}
    (h : construct_into lib aut parsec alphabet sm = .ok r) :
    r.2.2 = (intern_all (state_names parsec) (sm.getD [], 0)).1 := by
  unfold construct_into at h
  split_ifs at h
  unfold state_names
  cases sm <;> cases hi : umap_find parsec.dict "Initial" <;>
    cases hf : umap_find parsec.dict "Final" <;>
    simp only [hi, hf, Option.getD_none, Option.getD_some] at h ⊢ <;> split at h
  all_goals first
    | (cases h; done)
    | (rename_i r' hb
       simp only [Except.ok.injEq] at h
       rw [← h]
       have hc := construct_body_captures lib _ _ _ _ _ hb
       refine (congrArg Prod.fst hc).trans ?_
       simp only [intern_all_append, construct_initial_captures, construct_final_captures,
         List.nil_append, List.append_nil]
       try rfl)

/-- C36 (as stated) fails: `construct` called with the state dictionary `{q ↦ 0}` on a
section whose only state name is the new name `r` gives `r` the identifier `0`, which the
dictionary already stores for `q`; the counter of `get_state_name` starts at `0` whatever
the dictionary holds. -/
theorem construct_state_ids_counterexample :
    construct_into lib_plain {} ⟨"NFA", [("Initial", ["r"])], []⟩ Alphabet.direct
        (some [("q", 0)]) =
      .ok (⟨[], [0], []⟩, Alphabet.direct, [("q", 0), ("r", 0)]) ∧
    umap_find [("q", 0)] "r" = none ∧
    umap_find [("q", 0), ("r", 0)] "q" = some 0 ∧
    umap_find [("q", 0), ("r", 0)] "r" = some 0 ∧ "q" ≠ "r" :=
  ⟨rfl, rfl, rfl, rfl, by decide⟩

/-- C36 (amended): when `construct` returns, the state dictionary consists of the entries
it had at the call followed by the state names that were not in it, in the order of their
first occurrence (names under `Initial`, then under `Final`, then the first and third token
of the body rows), numbered `0, 1, 2, ...`; when the dictionary was empty at the call
(internally allocated, or supplied empty), the names are distinct keys and distinct names
have distinct identifiers. -/
theorem construct_state_ids (lib : LibFns) (aut : Nfa) (parsec : ParsedSection)
    (alphabet : Alphabet) (sm : Option StringToStateMap)
    (r : Nfa × Alphabet × StringToStateMap)
    (h : construct_into lib aut parsec alphabet sm = .ok r) :
    ∃ t, r.2.2 = (sm.getD []) ++ t ∧
      t.map Prod.snd = List.range t.length ∧
      r.2.2.map Prod.fst = uset_insert_all (state_names parsec)
        ((sm.getD []).map Prod.fst) ∧
      ((sm.getD []) = [] →
        (r.2.2.map Prod.fst).Nodup ∧
        ∀ k k' v, umap_find r.2.2 k = some v → umap_find r.2.2 k' = some v → k = k') := by
  have hc := construct_into_captures h
  obtain ⟨t, h1, h2, h3⟩ := intern_all_spec (sm.getD [])
    (state_names parsec) [] rfl
  simp only [List.append_nil, List.length_nil] at h1 h3
  rw [h1] at hc
  simp only at hc
  refine ⟨t, hc, h2, by rw [hc]; exact h3, fun he => ?_⟩
  rw [he] at hc h3
  simp only [List.nil_append, List.map_nil] at hc h3
  rw [hc]
  refine ⟨by rw [h3]; exact nodup_uset_insert_all _ List.nodup_nil, fun k k' v hk hk' => ?_⟩
  have hnd : (t.map Prod.snd).Nodup := by
    rw [h2]
    exact List.nodup_range _
  have := List.inj_on_of_nodup_map hnd (umap_find_some_mem hk) (umap_find_some_mem hk') rfl
  exact (Prod.mk.inj this).1

theorem construct_state_ids_witness :
    construct_into lib_plain {} ⟨"NFA", [("Initial", ["q0"]), ("Final", ["q1"])],
        [["q1", "5", "q2"], ["q0", "5", "q1"]]⟩ Alphabet.direct none =
      .ok (⟨[(1, [(0, [2])]), (0, [(0, [1])])], [0], [1]⟩, Alphabet.direct,
        [("q0", 0), ("q1", 1), ("q2", 2)]) ∧
    ∃ t, [("q0", 0), ("q1", 1), ("q2", 2)] = ([] : StringToStateMap) ++ t ∧
      t.map Prod.snd = List.range t.length ∧
      [("q0", 0), ("q1", 1), ("q2", 2)].map Prod.fst =
        uset_insert_all (state_names ⟨"NFA", [("Initial", ["q0"]), ("Final", ["q1"])],
          [["q1", "5", "q2"], ["q0", "5", "q1"]]⟩) (([] : StringToStateMap).map Prod.fst) ∧
      (([] : StringToStateMap) = [] →
        ([("q0", 0), ("q1", 1), ("q2", 2)].map Prod.fst).Nodup ∧
        ∀ k k' v, umap_find [("q0", 0), ("q1", 1), ("q2", 2)] k = some v →
          umap_find [("q0", 0), ("q1", 1), ("q2", 2)] k' = some v → k = k') :=
  ⟨rfl, construct_state_ids lib_plain {} ⟨"NFA", [("Initial", ["q0"]), ("Final", ["q1"])],
    [["q1", "5", "q2"], ["q0", "5", "q1"]]⟩ Alphabet.direct none
    (⟨[(1, [(0, [2])]), (0, [(0, [1])])], [0], [1]⟩, Alphabet.direct,
      [("q0", 0), ("q1", 1), ("q2", 2)]) rfl⟩

end Vata2

namespace Vata2

/-! ## Emptiness: the witness is shortest -/

theorem rooted_len_mono {A : Nfa} {paths paths' : List (State × State)} {q : State} {n : Nat}
    (h : RootedLen A paths q n)
    (hext : ∀ x p, umap_find paths x = some p → umap_find paths' x = some p) :
    RootedLen A paths' q n := by
  induction h with
  | root q h1 h2 => exact RootedLen.root q (hext _ _ h1) h2
  | step q p a n h1 h2 h3 _ ih => exact RootedLen.step q p a n (hext _ _ h1) h2 h3 ih

theorem rooted_len_unique {A : Nfa} {paths : List (State × State)} {q : State} {n n' : Nat}
    (h : RootedLen A paths q n) (h' : RootedLen A paths q n') : n = n' := by
  induction h generalizing n' with
  | root q h1 _ =>
    cases h' with
    | root _ _ _ => rfl
    | step _ p a m g1 g2 _ _ =>
      rw [h1] at g1
      cases g1
      exact absurd rfl g2
  | step q p a n h1 h2 _ _ ih =>
    cases h' with
    | root _ g1 _ =>
      rw [h1] at g1
      cases g1
      exact absurd rfl h2
    | step _ p' a' m g1 _ _ g4 =>
      rw [h1] at g1
      cases g1
      rw [ih g4]

/-- Unwinding the predecessor map from a state whose chain has `n` steps appends `n`
states. -/
theorem unwind_path_len {A : Nfa} {paths : List (State × State)} {q : State} {n : Nat}
    (h : RootedLen A paths q n) :
    ∃ (l : List State) (root : State), l.length = n ∧
      ∃ fuel, ∀ m, fuel ≤ m → ∀ acc, unwind_path paths m q acc = some (root, acc ++ l) := by
  induction h with
  | root q h1 _ =>
    refine ⟨[], q, rfl, 1, ?_⟩
    intro m hm acc
    obtain ⟨k, rfl⟩ : ∃ k, m = k + 1 := ⟨m - 1, by omega⟩
    simp [unwind_path, while_loop, paths_get_of_find h1]
  | step q p a n h1 h2 _ _ ih =>
    obtain ⟨l, root, hl, fuel, hf⟩ := ih
    refine ⟨p :: l, root, by simp [hl], fuel + 1, ?_⟩
    intro m hm acc
    obtain ⟨k, rfl⟩ : ∃ k, m = k + 1 := ⟨m - 1, by omega⟩
    have := hf k (by omega) (acc ++ [p])
    unfold unwind_path at this ⊢
    simp only [while_loop, paths_get_of_find h1, ne_eq, h2, not_false_eq_true, decide_True,
      if_true]
    rw [this]
    simp

/-- The inner loop of `is_lang_empty` over the targets of `state`, whose chain of
predecessors has `ns` steps: the new states are appended to the worklist with chains of
`ns + 1` steps. -/
theorem is_lang_empty_push_lev {A : Nfa} (state : State) (ns : Nat) (tgts : StateSet) :
    ∀ (st st' : EmptyState),
      (∀ q, q ∈ st.processed ↔ ∃ p, umap_find st.paths q = some p) →
      RootedLen A st.paths state ns → state ∈ st.processed →
      (∀ t ∈ tgts, ∃ a, A.has_trans ⟨state, a, t⟩ = true) →
      is_lang_empty_push state tgts st = .ok st' →
      (∀ q, q ∈ st'.processed ↔ ∃ p, umap_find st'.paths q = some p) ∧
      (∀ x p, umap_find st.paths x = some p → umap_find st'.paths x = some p) ∧
      (∀ q ∈ st.processed, q ∈ st'.processed) ∧
      ∃ new, st'.worklist = st.worklist ++ new ∧
        (∀ q ∈ new, q ∉ st.processed ∧ RootedLen A st'.paths q (ns + 1)) ∧
        (∀ q ∈ st'.processed, q ∈ st.processed ∨ q ∈ new) := by
  induction tgts with
  | nil =>
    intro st st' hkeys _ _ _ h
    simp only [is_lang_empty_push, Except.ok.injEq] at h
    subst h
    exact ⟨hkeys, fun _ _ h => h, fun _ h => h, [], by simp, by simp, fun q hq => Or.inl hq⟩
  | cons t tgts ih =>
    intro st st' hkeys hs hstate htg h
    unfold is_lang_empty_push at h
    by_cases ht : t ∈ st.processed
    · have hins : (uset_insert st.processed t) = (st.processed, false) := by
        simp [uset_insert, ht]
      obtain ⟨p, hp⟩ := (hkeys t).1 ht
      simp only [hins, Bool.false_eq_true, if_false, hp, Option.isSome_some, if_true] at h
      exact ih st st' hkeys hs hstate (fun t' ht' => htg t' (List.mem_cons_of_mem _ ht')) h
    · have hins : (uset_insert st.processed t) = (st.processed ++ [t], true) := by
        simp [uset_insert, ht]
      simp only [hins, if_true] at h
      have hnone : umap_find st.paths t = none := by
        cases h' : umap_find st.paths t with
        | none => rfl
        | some p => exact absurd ((hkeys t).2 ⟨p, h'⟩) ht
      have hext : ∀ x p, umap_find st.paths x = some p →
          umap_find (umap_assign st.paths t state) x = some p := by
        intro x p hx
        rw [umap_find_assign]
        have : x ≠ t := by
          rintro rfl
          rw [hnone] at hx
          cases hx
        simp [this, hx]
      obtain ⟨a, ha⟩ := htg t (List.mem_cons_self _ _)
      have hne : state ≠ t := by
        rintro rfl
        exact ht hstate
      have hs1 : RootedLen A (umap_assign st.paths t state) state ns := rooted_len_mono hs hext
      have ht1 : RootedLen A (umap_assign st.paths t state) t (ns + 1) :=
        RootedLen.step t state a ns (by simp [umap_find_assign]) hne ha hs1
      obtain ⟨k1, e1, p1, new, w1, n1, c1⟩ := ih
        { worklist := st.worklist ++ [t], processed := st.processed ++ [t],
          paths := umap_assign st.paths t state } st'
        (by
          intro q
          simp only [List.mem_append, List.mem_singleton, umap_find_assign]
          by_cases hq : q = t
          · subst hq
            simp
          · simp only [hq, or_false, if_false]
            exact hkeys q)
        hs1 (List.mem_append_left _ hstate)
        (fun t' ht' => htg t' (List.mem_cons_of_mem _ ht')) h
      simp only at e1 p1 w1 n1 c1
      refine ⟨k1, fun x p hx => e1 x p (hext x p hx),
        fun q hq => p1 q (List.mem_append_left _ hq), t :: new, ?_, ?_, ?_⟩
      · rw [w1]
        simp
      · intro q hq
        rcases List.mem_cons.1 hq with rfl | hq
        · exact ⟨ht, rooted_len_mono ht1 e1⟩
        · exact ⟨fun h' => (n1 q hq).1 (List.mem_append_left _ h'), (n1 q hq).2⟩
      · intro q hq
        rcases c1 q hq with h' | h'
        · rcases List.mem_append.1 h' with h' | h'
          · exact Or.inl h'
          · rw [List.mem_singleton] at h'
            subst h'
            exact Or.inr (List.mem_cons_self _ _)
        · exact Or.inr (List.mem_cons_of_mem _ h')

theorem is_lang_empty_scan_lev {A : Nfa} (state : State) (ns : Nat) (post : PostSymb) :
    ∀ (st st' : EmptyState),
      (∀ q, q ∈ st.processed ↔ ∃ p, umap_find st.paths q = some p) →
      RootedLen A st.paths state ns → state ∈ st.processed →
      (∀ e ∈ post, ∀ t ∈ e.2, ∃ a, A.has_trans ⟨state, a, t⟩ = true) →
      is_lang_empty_scan state post st = .ok st' →
      (∀ q, q ∈ st'.processed ↔ ∃ p, umap_find st'.paths q = some p) ∧
      (∀ x p, umap_find st.paths x = some p → umap_find st'.paths x = some p) ∧
      (∀ q ∈ st.processed, q ∈ st'.processed) ∧
      ∃ new, st'.worklist = st.worklist ++ new ∧
        (∀ q ∈ new, q ∉ st.processed ∧ RootedLen A st'.paths q (ns + 1)) ∧
        (∀ q ∈ st'.processed, q ∈ st.processed ∨ q ∈ new) := by
  induction post with
  | nil =>
    intro st st' hkeys _ _ _ h
    simp only [is_lang_empty_scan, Except.ok.injEq] at h
    subst h
    exact ⟨hkeys, fun _ _ h => h, fun _ h => h, [], by simp, by simp, fun q hq => Or.inl hq⟩
  | cons e post ih =>
    intro st st' hkeys hs hstate htg h
    unfold is_lang_empty_scan at h
    cases hp : is_lang_empty_push state e.2 st with
    | error f =>
      rw [hp] at h
      cases h
    | ok st1 =>
      rw [hp] at h
      simp only at h
      obtain ⟨k1, e1, p1, new1, w1, n1, c1⟩ := is_lang_empty_push_lev state ns e.2 st st1
        hkeys hs hstate (htg e (List.mem_cons_self _ _)) hp
      obtain ⟨k2, e2, p2, new2, w2, n2, c2⟩ := ih st1 st' k1 (rooted_len_mono hs e1) (p1 _ hstate)
        (fun e' he' => htg e' (List.mem_cons_of_mem _ he')) h
      refine ⟨k2, fun x p hx => e2 x p (e1 x p hx), fun q hq => p2 q (p1 q hq),
        new1 ++ new2, ?_, ?_, ?_⟩
      · rw [w2, w1, List.append_assoc]
      · intro q hq
        rcases List.mem_append.1 hq with hq | hq
        · exact ⟨(n1 q hq).1, rooted_len_mono (n1 q hq).2 e2⟩
        · exact ⟨fun h' => (n2 q hq).1 (p1 q h'), (n2 q hq).2⟩
      · intro q hq
        rcases c2 q hq with h' | h'
        · rcases c1 q h' with h'' | h''
          · exact Or.inl h''
          · exact Or.inr (List.mem_append_left _ h'')
        · exact Or.inr (List.mem_append_right _ h')

/-- A run from an initial state to a state that is not processed yet passes through the
worklist before its last step. -/
theorem run_hits_worklist {A : Nfa} {st : EmptyState} (hI : EmptyInv A st) (w : Word) :
    ∀ q0 r, q0 ∈ A.initialstates → A.reach q0 w r → r ∉ st.processed →
      ∃ x ∈ st.worklist, ∃ w₁ w₂, w = w₁ ++ w₂ ∧ A.reach q0 w₁ x ∧ w₂ ≠ [] := by
  induction w using List.reverseRecOn with
  | nil =>
    intro q0 r hq0 hr hnot
    rw [Nfa.reach_nil] at hr
    subst hr
    exact absurd (hI.init_sub q0 hq0) hnot
  | append_singleton w a ih =>
    intro q0 r hq0 hr hnot
    obtain ⟨p, hp, r', har, hr'⟩ := Reach_append_iff.1 hr
    have : r' = r := hr'
    subst this
    by_cases hpp : p ∈ st.processed
    · by_cases hpw : p ∈ st.worklist
      · exact ⟨p, hpw, w, [a], rfl, hp, by simp⟩
      · exact absurd ((hI.done p hpp hpw).2 a r' har) hnot
    · obtain ⟨x, hx, w₁, w₂, e, h1, _⟩ := ih q0 p hq0 hp hpp
      exact ⟨x, hx, w₁, w₂ ++ [a], by rw [e, List.append_assoc], h1, by simp⟩

/-- The states in the worklist have chains at least as long as the chain of its head. -/
theorem worklist_levels {A : Nfa} {st : EmptyState} (hL : EmptyLevInv A st) {s : State}
    {rest : List State} (hw : st.worklist = s :: rest) {ns : Nat}
    (hs : RootedLen A st.paths s ns) :
    ∀ x ∈ st.worklist, ∃ nx, RootedLen A st.paths x nx ∧ ns ≤ nx := by
  obtain ⟨k, l₁, l₂, e, h1, h2⟩ := hL.queue
  intro x hx
  rw [e] at hx
  cases l₁ with
  | nil =>
    simp only [List.nil_append] at e hx
    have hs' : RootedLen A st.paths s (k + 1) := h2 s (by rw [← e, hw]; simp)
    have := rooted_len_unique hs hs'
    exact ⟨k + 1, h2 x hx, by omega⟩
  | cons y l₁ =>
    have hy : y = s := by
      rw [hw] at e
      simp only [List.cons_append, List.cons.injEq] at e
      exact e.1.symm
    subst hy
    have := rooted_len_unique hs (h1 y (List.mem_cons_self _ _))
    rcases List.mem_append.1 hx with hx | hx
    · exact ⟨k, h1 x hx, by omega⟩
    · exact ⟨k + 1, h2 x hx, by omega⟩

/-- While the head of the worklist has a chain of `ns` steps, every run from an initial
state to a state in the worklist has at least `ns` steps, and every run to a state that is
not processed has more. -/
theorem run_length_bound {A : Nfa} {st : EmptyState} (hI : EmptyInv A st)
    (hL : EmptyLevInv A st) {s : State} {rest : List State} (hw : st.worklist = s :: rest)
    {ns : Nat} (hs : RootedLen A st.paths s ns) {q0 r : State} {w : Word}
    (hq0 : q0 ∈ A.initialstates) (hr : A.reach q0 w r) :
    (r ∈ st.worklist → ns ≤ w.length) ∧ (r ∉ st.processed → ns + 1 ≤ w.length) := by
  have key : ∀ x ∈ st.worklist, ∀ v, A.reach q0 v x → ns ≤ v.length := by
    intro x hx v hv
    obtain ⟨nx, h1, h2⟩ := worklist_levels hL hw hs x hx
    obtain ⟨n, g1, g2⟩ := hL.lev x (hI.wl_sub x hx)
    have := rooted_len_unique h1 g1
    have := g2 q0 hq0 v hv
    omega
  refine ⟨fun h => key r h w hr, fun h => ?_⟩
  obtain ⟨x, hx, w₁, w₂, e, h1, h2⟩ := run_hits_worklist hI w q0 r hq0 hr h
  have := key x hx w₁ h1
  have : 0 < w₂.length := List.length_pos.2 h2
  rw [e, List.length_append]
  omega

/-- One iteration of the loop of `is_lang_empty` keeps the breadth-first part of the
invariant. -/
theorem is_lang_empty_body_lev {A : Nfa} (hA : A.WF) (st st' : EmptyState)
    (hI : EmptyInv A st) (hL : EmptyLevInv A st) (hc : (!st.worklist.isEmpty) = true)
    (hb : is_lang_empty_body A st = .ok st') : EmptyLevInv A st' := by
  obtain ⟨state, rest, hw⟩ : ∃ state rest, st.worklist = state :: rest := by
    cases hwl : st.worklist with
    | nil => simp [hwl] at hc
    | cons x xs => exact ⟨x, xs, rfl⟩
  have hstate : state ∈ st.processed := hI.wl_sub state (by rw [hw]; simp)
  obtain ⟨ns, hs, _⟩ := hL.lev state hstate
  unfold is_lang_empty_body at hb
  rw [hw] at hb
  simp only at hb
  split_ifs at hb with hfin
  cases hsc : is_lang_empty_scan state (A.index state)
      { worklist := rest, processed := st.processed, paths := st.paths } with
  | error f =>
    rw [hsc] at hb
    cases hb
  | ok st1 =>
    rw [hsc] at hb
    simp only [Except.ok.injEq] at hb
    subst hb
    obtain ⟨_, e1, p1, new, w1, n1, c1⟩ := is_lang_empty_scan_lev (A := A) state ns
      (A.index state) { worklist := rest, processed := st.processed, paths := st.paths } st1
      hI.keys_iff hs hstate
      (fun e he t ht => ⟨e.1, has_trans_of_mem_index hA (a := e.1) he ht⟩) hsc
    simp only at e1 p1 w1 n1 c1
    refine ⟨?_, ?_⟩
    · intro q hq
      rcases c1 q hq with h | h
      · obtain ⟨n, g1, g2⟩ := hL.lev q h
        exact ⟨n, rooted_len_mono g1 e1, g2⟩
      · refine ⟨ns + 1, (n1 q h).2, ?_⟩
        intro q0 hq0 w hr
        exact (run_length_bound hI hL hw hs hq0 hr).2 (n1 q h).1
    · obtain ⟨k, l₁, l₂, e, h1, h2⟩ := hL.queue
      cases l₁ with
      | nil =>
        simp only [List.nil_append] at e
        have hs' : RootedLen A st.paths state (k + 1) := h2 state (by rw [← e, hw]; simp)
        have hk := rooted_len_unique hs hs'
        refine ⟨k + 1, rest, new, w1, ?_, ?_⟩
        · intro q hq
          exact rooted_len_mono (h2 q (by rw [← e, hw]; exact List.mem_cons_of_mem _ hq)) e1
        · intro q hq
          rw [← hk]
          exact (n1 q hq).2
      | cons y l₁ =>
        have hy : y = state ∧ rest = l₁ ++ l₂ := by
          rw [hw] at e
          simp only [List.cons_append, List.cons.injEq] at e
          exact ⟨e.1.symm, e.2⟩
        obtain ⟨rfl, hrest⟩ := hy
        have hk := rooted_len_unique hs (h1 y (List.mem_cons_self _ _))
        refine ⟨k, l₁, l₂ ++ new, by rw [w1, hrest, List.append_assoc], ?_, ?_⟩
        · intro q hq
          exact rooted_len_mono (h1 q (List.mem_cons_of_mem _ hq)) e1
        · intro q hq
          rcases List.mem_append.1 hq with hq | hq
          · exact rooted_len_mono (h2 q hq) e1
          · rw [← hk]
            exact (n1 q hq).2

theorem is_lang_empty_init_lev (A : Nfa) :
    EmptyLevInv A
      { worklist := A.initialstates, processed := uset_insert_all A.initialstates [],
        paths := A.initialstates.foldl (fun paths s => umap_assign paths s s) [] } := by
  have hroot : ∀ q ∈ A.initialstates, RootedLen A
      (A.initialstates.foldl (fun paths s => umap_assign paths s s) []) q 0 :=
    fun q hq => RootedLen.root q (by rw [paths_init_find]; simp [hq]) hq
  refine ⟨fun q hq => ?_, 0, A.initialstates, [], by simp, hroot, by simp⟩
  rw [mem_uset_insert_all] at hq
  simp only [List.not_mem_nil, or_false] at hq
  exact ⟨0, hroot q hq, fun _ _ _ _ => Nat.zero_le _⟩

end Vata2

namespace Vata2

/-- Total correctness of `is_lang_empty` with the length of the witness: when some word is
accepted the function answers `false` and stores a sequence of states that is no longer
than any run from an initial to a final state has states. -/
theorem is_lang_empty_shortest_spec {A : Nfa} (hA : A.WF) (cex : Path) :
    ((∀ w, ¬ A.accepts w) ∧
      ∃ fuel, ∀ n, fuel ≤ n → is_lang_empty n A (some cex) = some (.ok (true, some cex))) ∨
    (∃ path, (∃ fuel, ∀ n, fuel ≤ n →
        is_lang_empty n A (some cex) = some (.ok (false, some path))) ∧
      ∀ q0 ∈ A.initialstates, ∀ qf ∈ A.finalstates, ∀ w, A.reach q0 w qf →
        path.length ≤ w.length + 1) := by
  have hstep : ∀ s s', (EmptyInv A s ∧ EmptyLevInv A s) → (!s.worklist.isEmpty) = true →
      is_lang_empty_body A s = .ok s' → (EmptyInv A s' ∧ EmptyLevInv A s') := by
    intro s s' hI hc hb
    refine ⟨?_, is_lang_empty_body_lev hA s s' hI.1 hI.2 hc hb⟩
    rcases is_lang_empty_body_spec hA s hI.1 hc with ⟨state, _, _, hb'⟩ | ⟨s'', hb', hI', _⟩
    · rw [hb] at hb'
      cases hb'
    · rw [hb] at hb'
      cases hb'
      exact hI'
  have hdec : ∀ s s', (EmptyInv A s ∧ EmptyLevInv A s) → (!s.worklist.isEmpty) = true →
      is_lang_empty_body A s = .ok s' →
      s'.worklist.length + (A.state_list.length - s'.processed.length) <
        s.worklist.length + (A.state_list.length - s.processed.length) := by
    intro s s' hI hc hb
    rcases is_lang_empty_body_spec hA s hI.1 hc with ⟨state, _, _, hb'⟩ | ⟨s'', hb', _, hlt⟩
    · rw [hb] at hb'
      cases hb'
    · rw [hb] at hb'
      cases hb'
      exact hlt
  have hinit : EmptyInv A
      { worklist := A.initialstates, processed := uset_insert_all A.initialstates [],
        paths := A.initialstates.foldl (fun paths s => umap_assign paths s s) [] } ∧
      EmptyLevInv A
      { worklist := A.initialstates, processed := uset_insert_all A.initialstates [],
        paths := A.initialstates.foldl (fun paths s => umap_assign paths s s) [] } :=
    ⟨is_lang_empty_init_inv A, is_lang_empty_init_lev A⟩
  obtain ⟨fuel, r, hr⟩ : ∃ fuel r, while_loop_exit (fun st => !st.worklist.isEmpty)
      (is_lang_empty_body A) fuel
      { worklist := A.initialstates, processed := uset_insert_all A.initialstates [],
        paths := A.initialstates.foldl (fun paths s => umap_assign paths s s) [] } = some r :=
    ⟨_, @while_loop_exit_terminates _ _ (fun st => !st.worklist.isEmpty)
      (is_lang_empty_body A) (fun s => EmptyInv A s ∧ EmptyLevInv A s)
      (fun s => s.worklist.length + (A.state_list.length - s.processed.length))
      hstep hdec _ hinit _ (Nat.lt_succ_self _)⟩
  obtain ⟨hok, herr⟩ := while_loop_exit_inv (fun s => EmptyInv A s ∧ EmptyLevInv A s)
    hstep hinit hr
  cases r with
  | ok st =>
    left
    obtain ⟨⟨hI, _⟩, hc⟩ := hok st rfl
    have hwl : st.worklist = [] := by
      cases hwl : st.worklist with
      | nil => rfl
      | cons x xs => simp [hwl] at hc
    refine ⟨?_, fuel, fun n hn => ?_⟩
    · rintro w ⟨q0, hq0, qf, hqf, hreach⟩
      have hq : qf ∈ st.processed := by
        refine Reach_closed (fun q => q ∈ st.processed) ?_ (hI.init_sub q0 hq0) hreach
        intro q a r hq hT
        exact (hI.done q hq (by rw [hwl]; simp)).2 a r hT
      exact (hI.done qf hq (by rw [hwl]; simp)).1 hqf
    · unfold is_lang_empty
      simp only
      rw [while_loop_exit_mono hr hn]
  | error e =>
    obtain ⟨s₀, ⟨hI₀, hL₀⟩, hc₀, hb₀⟩ := herr e rfl
    obtain ⟨state, rest, hw⟩ : ∃ state rest, s₀.worklist = state :: rest := by
      cases hwl : s₀.worklist with
      | nil => simp [hwl] at hc₀
      | cons x xs => exact ⟨x, xs, rfl⟩
    have hstate : state ∈ s₀.processed := hI₀.wl_sub state (by rw [hw]; simp)
    obtain ⟨ns, hs, _⟩ := hL₀.lev state hstate
    rcases is_lang_empty_body_spec hA s₀ hI₀ hc₀ with ⟨state', hfin, _, hb'⟩ | ⟨s'', hb', _, _⟩
    · rw [hb₀] at hb'
      cases hb'
      have hst : state' = state := by
        unfold is_lang_empty_body at hb₀
        rw [hw] at hb₀
        simp only at hb₀
        split_ifs at hb₀
        · simp only [Except.error.injEq, Except.ok.injEq, Prod.mk.injEq] at hb₀
          exact hb₀.1.symm
        · split at hb₀ <;> cases hb₀
      subst hst
      right
      obtain ⟨l, root, hl, fuel', hf'⟩ := unwind_path_len hs
      refine ⟨(state' :: l).reverse, ⟨max fuel fuel', fun n hn => ?_⟩, ?_⟩
      · unfold is_lang_empty
        simp only
        rw [while_loop_exit_mono hr (le_trans (le_max_left _ _) hn)]
        simp only
        rw [hf' n (le_trans (le_max_right _ _) hn) [state']]
        rfl
      · intro q0 hq0 qf hqf w hreach
        simp only [List.length_reverse, List.length_cons, hl]
        have hb := run_length_bound hI₀ hL₀ hw hs hq0 hreach
        by_cases hp : qf ∈ s₀.processed
        · by_cases hpw : qf ∈ s₀.worklist
          · have := hb.1 hpw
            omega
          · exact absurd hqf (hI₀.done qf hp hpw).1
        · have := hb.2 hp
          omega
    · rw [hb₀] at hb'
      cases hb'

/-- C31: for every well-formed automaton `A` with a non-empty language,
`is_lang_empty(A, cex)` terminates with `false`, and the path written to `cex` is a shortest
one: no sequence of states that starts in an initial state, ends in a final state and
follows transitions of `A` has fewer states than the returned path. -/
theorem is_lang_empty_shortest (A : Nfa) (hA : A.WF) (cex : Path)
    (hne : ∃ w, is_in_lang A w = true) :
    ∃ path, (∃ fuel, ∀ n, fuel ≤ n →
        is_lang_empty n A (some cex) = some (.ok (false, some path))) ∧
      (∀ n r, is_lang_empty n A (some cex) = some r → r = .ok (false, some path)) ∧
      ∀ p q0 qf, p.head? = some q0 → q0 ∈ A.initialstates →
        p.getLast? = some qf → qf ∈ A.finalstates → A.is_path p →
        path.length ≤ p.length := by
  rcases is_lang_empty_shortest_spec hA cex with ⟨hemp, _⟩ | ⟨path, ⟨fuel, hf⟩, hmin⟩
  · obtain ⟨w, hw⟩ := hne
    exact absurd ((is_in_lang_iff A w).1 hw) (hemp w)
  · refine ⟨path, ⟨fuel, hf⟩, fun n r h => ?_, fun p q0 qf h0 hq0 hl hqf hp => ?_⟩
    · have e := is_lang_empty_mono h (le_max_left n fuel)
      rw [hf _ (le_max_right n fuel)] at e
      cases e
      rfl
    · obtain ⟨w, _, hlen, hreach⟩ := get_word_for_path_spec hA hp h0 hl
      have := hmin q0 hq0 qf hqf w hreach
      omega

theorem is_lang_empty_shortest_witness :
    nfa_S3_lhs.WF ∧ (∃ w, is_in_lang nfa_S3_lhs w = true) ∧
    is_lang_empty 4 nfa_S3_lhs (some []) = some (.ok (false, some [0, 1, 2])) ∧
    ∃ path, (∃ fuel, ∀ n, fuel ≤ n →
        is_lang_empty n nfa_S3_lhs (some []) = some (.ok (false, some path))) ∧
      (∀ n r, is_lang_empty n nfa_S3_lhs (some []) = some r → r = .ok (false, some path)) ∧
      ∀ p q0 qf, p.head? = some q0 → q0 ∈ nfa_S3_lhs.initialstates →
        p.getLast? = some qf → qf ∈ nfa_S3_lhs.finalstates → nfa_S3_lhs.is_path p →
        path.length ≤ p.length :=
  ⟨by decide, ⟨[0, 0], by decide⟩, rfl,
    is_lang_empty_shortest nfa_S3_lhs (by decide) [] ⟨[0, 0], by decide⟩⟩

end Vata2

namespace Vata2

/-! ## Runs of the automaton built by a worklist construction -/

section explore_reach
variable {κ : Type} [DecidableEq κ]

/-- A run of the automaton under construction is a run of the keys. -/
theorem explore_reach_sound {isFinal : κ → Bool} {succ : κ → List (Symbol × κ)}
    {inits U : List κ} {st : WorkState κ} (hI : ExploreInv isFinal succ inits U none st)
    {k : κ} {x y : State} {w : Word} (hk : umap_find st.map k = some x)
    (h : st.result.reach x w y) :
    ∃ k', Reach (fun k a k' => (a, k') ∈ succ k) k w k' ∧ umap_find st.map k' = some y := by
  refine Reach_sim (fun x k => umap_find st.map k = some x) ?_ hk h
  intro q a r k1 hS hT
  obtain ⟨k2, k3, h1, h2, h3⟩ := hI.trans_sound _ hT
  simp only at h1 h2 h3
  have := hI.id_inj k1 k2 q hS h1
  subst this
  exact ⟨k3, h3, h2⟩

/-- When the worklist is empty, a run of the keys is a run of the automaton built. -/
theorem explore_reach_complete {isFinal : κ → Bool} {succ : κ → List (Symbol × κ)}
    {inits U : List κ} {st : WorkState κ} (hI : ExploreInv isFinal succ inits U none st)
    (hwl : st.worklist = []) {k k' : κ} {x : State} {w : Word}
    (hk : umap_find st.map k = some x)
    (h : Reach (fun k a k' => (a, k') ∈ succ k) k w k') :
    ∃ y, st.result.reach x w y ∧ umap_find st.map k' = some y := by
  refine Reach_sim (fun k x => umap_find st.map k = some x) ?_ hk h
  intro q a r x1 hS hT
  obtain ⟨i', h1, h2⟩ := (hI.done q x1 hS (by rw [hwl]; simp) (by simp)).2 a r hT
  exact ⟨i', h2, h1⟩

end explore_reach

theorem sorted_eq_singleton {l : List Nat} (hs : l.Sorted (· < ·)) (x : Nat)
    (h : ∀ y, y ∈ l ↔ y = x) : l = [x] :=
  sorted_ext hs (List.sorted_singleton x) (fun y => by rw [h y, List.mem_singleton])

/-- The function `determinize` terminates on every well-formed automaton, and its result
and subset map have the properties collected in `DetFacts`. -/
theorem determinize_facts {aut : Nfa} (hA : aut.WF) :
    ∃ fuel D sm, (∀ n, fuel ≤ n → determinize n aut = some D) ∧ DetFacts aut D sm := by
  obtain ⟨fuel, st, h1, hI, hE, hwl⟩ := explore_spec_extra (determinize_univ hA) _
    (determinize_init_inv hA) (determinize_init_extra aut)
  obtain ⟨f1, f2, f3, f4, _⟩ := explore_map_facts hI hE hwl
  obtain ⟨x0, hx0, hlt⟩ := hE.init_lt aut.initialstates (List.mem_singleton_self _)
  have hinit : x0 = 0 := Nat.lt_one_iff.1 hlt
  subst hinit
  refine ⟨fuel, st.result, st.map, fun n hn => ?_, ?_⟩
  · unfold determinize determinize_into
    simp only [determinize_body_eq, umap_insert, umap_find_nil, List.nil_append]
    have := h1 n hn
    simp only [Nat.zero_add] at this ⊢
    rw [this]
    rfl
  · refine
      { wf := hI.wf
        init_eq := ?_
        init_key := hx0
        functional := ?_
        states := f2
        id_inj := f1
        sorted := ?_
        final_iff := ?_
        key_reach := ?_
        sound := fun S x w y hk h => explore_reach_sound hI hk h
        complete := fun S x w S' hk h => explore_reach_complete hI hwl hk h }
    · apply sorted_eq_singleton hI.wf.2.2.1
      intro y
      rw [hI.init_iff]
      constructor
      · rintro ⟨k, hk, hy⟩
        rw [List.mem_singleton] at hk
        subst hk
        rw [hx0] at hy
        cases hy
        rfl
      · rintro rfl
        exact ⟨_, List.mem_singleton_self _, hx0⟩
    · intro s a t t' ht ht'
      obtain ⟨k, k', e1, e2, e3⟩ := hI.trans_sound _ ht
      obtain ⟨k₂, k₂', g1, g2, g3⟩ := hI.trans_sound _ ht'
      simp only at e1 e2 e3 g1 g2 g3
      have hk : k = k₂ := hI.id_inj k k₂ s e1 g1
      subst hk
      have hk' : k' = k₂' := determinize_post_symb_functional hA e3 g3
      subst hk'
      rw [e2] at g2
      cases g2
      rfl
    · intro S x hk
      obtain ⟨k0, hk0, w, hw⟩ := f4 S x hk
      rw [List.mem_singleton] at hk0
      subst hk0
      cases w using List.reverseRecOn with
      | nil =>
        simp only [Reach_nil] at hw
        subst hw
        exact hA.2.2.1
      | append_singleton w a =>
        obtain ⟨S1, _, S2, h2, h3⟩ := Reach_append_iff.1 hw
        have : S2 = S := h3
        subst this
        exact ((mem_determinize_post_symb hA S1 a S2).1 h2).2.1
    · intro S x hk
      rw [f3 S x hk]
      simp only [Bool.not_eq_true', are_disjoint_eq_false_iff]
    · intro S x hk
      obtain ⟨k0, hk0, w, hw⟩ := f4 S x hk
      rw [List.mem_singleton] at hk0
      subst hk0
      exact ⟨w, hw⟩

end Vata2

namespace Vata2

/-! ## Minimality of the result of `minimize` -/

theorem functional_reach_unique {D : Nfa}
    (hf : ∀ s a t t', D.has_trans ⟨s, a, t⟩ = true → D.has_trans ⟨s, a, t'⟩ = true → t = t')
    {q r r' : State} {w : Word} (h : D.reach q w r) (h' : D.reach q w r') : r = r' := by
  induction w generalizing q with
  | nil =>
    rw [Nfa.reach_nil] at h h'
    rw [← h, ← h']
  | cons a w ih =>
    rw [Nfa.reach_cons] at h h'
    obtain ⟨p, hp, hr⟩ := h
    obtain ⟨p', hp', hr'⟩ := h'
    have := hf q a p p' hp hp'
    subst this
    exact ih hr hr'

theorem revert_reach {aut : Nfa} (h : aut.WF) (q r : State) (w : Word) :
    (revert aut).reach q w r ↔ aut.reach r w.reverse q :=
  Reach_reverse (fun q a r => revert_has_trans h q a r) q r w

/-- From the empty set of states the subset construction makes no step. -/
theorem Reach_subset_nil {aut : Nfa} (hA : aut.WF) {S : StateSet} {w : Word}
    (h : Reach (fun k a k' => (a, k') ∈ determinize_post_symb aut k) [] w S) : S = [] := by
  cases w with
  | nil =>
    simp only [Reach_nil] at h
    exact h.symm
  | cons a w =>
    obtain ⟨S₁, h1, _⟩ := h
    obtain ⟨hne, _, hm⟩ := (mem_determinize_post_symb hA [] a S₁).1 h1
    obtain ⟨t, ht⟩ := List.exists_mem_of_ne_nil _ hne
    obtain ⟨s, hs, _⟩ := (hm t).1 ht
    exact absurd hs (List.not_mem_nil _)

/-- A set of states reached by the subset construction from a non-empty set is
non-empty. -/
theorem Reach_subset_ne_nil {aut : Nfa} (hA : aut.WF) {S₀ S : StateSet} {w : Word}
    (h0 : S₀ ≠ [])
    (h : Reach (fun k a k' => (a, k') ∈ determinize_post_symb aut k) S₀ w S) : S ≠ [] := by
  cases w using List.reverseRecOn with
  | nil =>
    simp only [Reach_nil] at h
    subst h
    exact h0
  | append_singleton w a =>
    obtain ⟨S₁, _, S₂, h2, h3⟩ := Reach_append_iff.1 h
    have : S₂ = S := h3
    subst this
    exact ((mem_determinize_post_symb hA S₁ a S₂).1 h2).1

/-- Every state of a determinized automaton is reachable from its initial state `0`. -/
theorem det_state_reachable {X B : Nfa} {sm : SubsetMap} (hB : DetFacts X B sm) {b : State}
    (h : B.has_state b) : ∃ u, B.reach 0 u b := by
  obtain ⟨S, hS⟩ := (hB.states b).1 h
  obtain ⟨w, hw⟩ := hB.key_reach S b hS
  obtain ⟨y, hy, hy'⟩ := hB.complete _ _ w S hB.init_key hw
  rw [hS] at hy'
  cases hy'
  exact ⟨w, hy⟩

/-- The members of a set reached by the subset construction on the reverted automaton from
its initial set are states of the automaton. -/
theorem mem_subset_has_state {B : Nfa} (hB : B.WF) {S : StateSet} {w : Word}
    (h : Reach (fun k a k' => (a, k') ∈ determinize_post_symb (revert B) k)
      (revert B).initialstates w S) {b : State} (hb : b ∈ S) : B.has_state b := by
  obtain ⟨s, hs, hr⟩ := (Reach_subset (revert_wf hB) h b).1 hb
  rw [revert_initialstates] at hs
  rw [revert_reach hB] at hr
  cases hv : w.reverse with
  | nil =>
    rw [hv, Nfa.reach_nil] at hr
    subst hr
    exact Or.inr (Or.inl hs)
  | cons a v =>
    rw [hv, Nfa.reach_cons] at hr
    obtain ⟨r, har, _⟩ := hr
    exact Or.inr (Or.inr ⟨_, har, Or.inl rfl⟩)

/-- In the automaton `M` determinized from the reversal of the determinized automaton `B`,
the state of a set that contains `b` accepts the reversal of every word that leads `B` to
`b`. -/
theorem brzozowski_accepts {X B M : Nfa} {sm₁ sm₂ : SubsetMap} (hB : DetFacts X B sm₁)
    (hM : DetFacts (revert B) M sm₂) {S : StateSet} {x b : State} {u : Word}
    (hk : umap_find sm₂ S = some x) (hb : b ∈ S) (hu : B.reach 0 u b) :
    ∃ y ∈ M.finalstates, M.reach x u.reverse y := by
  have hr : (revert B).reach b u.reverse 0 := by
    rw [revert_reach hB.wf, List.reverse_reverse]
    exact hu
  obtain ⟨S', h1, h2⟩ := Reach_subset_exists (revert_wf hB.wf) hb hr
  obtain ⟨y, hy, hy'⟩ := hM.complete S x _ S' hk h1
  refine ⟨y, ?_, hy⟩
  rw [hM.final_iff S' y hy']
  exact ⟨0, h2, by rw [revert_finalstates, hB.init_eq]; exact List.mem_singleton_self _⟩

/-- The state of a set that does not contain `b` rejects the reversal of every word that
leads `B` to `b`. -/
theorem brzozowski_rejects {X B M : Nfa} {sm₁ sm₂ : SubsetMap} (hB : DetFacts X B sm₁)
    (hM : DetFacts (revert B) M sm₂) {S : StateSet} {x b : State} {u : Word}
    (hk : umap_find sm₂ S = some x) (hb : b ∉ S) (hu : B.reach 0 u b) :
    ¬ ∃ y ∈ M.finalstates, M.reach x u.reverse y := by
  rintro ⟨y, hy, hr⟩
  obtain ⟨S', h1, h2⟩ := hM.sound S x _ y hk hr
  obtain ⟨q, hq, hqf⟩ := (hM.final_iff S' y h2).1 hy
  rw [revert_finalstates, hB.init_eq, List.mem_singleton] at hqf
  subst hqf
  obtain ⟨s, hs, hsr⟩ := (Reach_subset (revert_wf hB.wf) h1 0).1 hq
  rw [revert_reach hB.wf, List.reverse_reverse] at hsr
  have := functional_reach_unique hB.functional hu hsr
  subst this
  exact hb hs

/-- Two states of `M` whose sets differ by `b` cannot be led to by words that lead a
deterministic automaton with the same language to one state. -/
theorem brzozowski_distinguish {X B M : Nfa} {sm₁ sm₂ : SubsetMap} (hB : DetFacts X B sm₁)
    (hM : DetFacts (revert B) M sm₂) {D : Nfa} {d0 : State}
    (hDi : D.initialstates = [d0])
    (hDf : ∀ s a t t', D.has_trans ⟨s, a, t⟩ = true → D.has_trans ⟨s, a, t'⟩ = true →
      t = t')
    (hlang : ∀ w, D.accepts w ↔ M.accepts w)
    {S S' : StateSet} {q q' b d : State} {w w' : Word}
    (hk : umap_find sm₂ S = some q) (hk' : umap_find sm₂ S' = some q')
    (hw : M.reach 0 w q) (hw' : M.reach 0 w' q')
    (hd : D.reach d0 w d) (hd' : D.reach d0 w' d)
    (hS : Reach (fun k a k' => (a, k') ∈ determinize_post_symb (revert B) k)
      (revert B).initialstates w S)
    (hb : b ∈ S) (hb' : b ∉ S') : False := by
  obtain ⟨u, hu⟩ := det_state_reachable hB (mem_subset_has_state hB.wf hS hb)
  obtain ⟨y, hy, hr⟩ := brzozowski_accepts hB hM hk hb hu
  apply brzozowski_rejects hB hM hk' hb' hu
  have h1 : M.accepts (w ++ u.reverse) :=
    ⟨0, by rw [hM.init_eq]; exact List.mem_singleton_self _, y, hy,
      Reach_append_iff.2 ⟨q, hw, hr⟩⟩
  obtain ⟨e0, he0, ef, hef, her⟩ := (hlang _).2 h1
  rw [hDi, List.mem_singleton] at he0
  subst he0
  obtain ⟨d1, hd1, hd2⟩ := Reach_append_iff.1 her
  have := functional_reach_unique hDf hd hd1
  subst this
  have h2 : D.accepts (w' ++ u.reverse) :=
    ⟨e0, by rw [hDi]; exact List.mem_singleton_self _, ef, hef,
      Reach_append_iff.2 ⟨d, hd', hd2⟩⟩
  obtain ⟨m0, hm0, mf, hmf, hmr⟩ := (hlang _).1 h2
  rw [hM.init_eq, List.mem_singleton] at hm0
  subst hm0
  obtain ⟨q1, hq1, hq2⟩ := Reach_append_iff.1 hmr
  have := functional_reach_unique hM.functional hw' hq1
  subst this
  exact ⟨mf, hmf, hq2⟩

/-- Brzozowski: the automaton determinized from the reversal of a determinized automaton
has no more states than any deterministic automaton with the same language. -/
theorem brzozowski_minimal {X B M : Nfa} {sm₁ sm₂ : SubsetMap} (hB : DetFacts X B sm₁)
    (hM : DetFacts (revert B) M sm₂) (D : Nfa) (hDi : D.initialstates.length = 1)
    (hDf : ∀ s a t t', D.has_trans ⟨s, a, t⟩ = true → D.has_trans ⟨s, a, t'⟩ = true →
      t = t')
    (hlang : ∀ w, D.accepts w ↔ M.accepts w) (lM lD : List State) (hnd : lM.Nodup)
    (hlM : ∀ q ∈ lM, M.has_state q) (hlD : ∀ q, D.has_state q → q ∈ lD) :
    lM.length ≤ lD.length := by
  obtain ⟨d0, hd0⟩ : ∃ d0, D.initialstates = [d0] := by
    match hi : D.initialstates, hDi with
    | [x], _ => exact ⟨x, rfl⟩
  have hd0D : d0 ∈ lD := hlD d0 (Or.inl (by rw [hd0]; exact List.mem_singleton_self _))
  have hXwf := revert_wf hB.wf
  by_cases hemp : (revert B).initialstates = []
  · have hall : ∀ q ∈ lM, q = 0 := by
      intro q hq
      obtain ⟨S, hS⟩ := (hM.states q).1 (hlM q hq)
      obtain ⟨w, hw⟩ := hM.key_reach S q hS
      rw [hemp] at hw
      have hSn := Reach_subset_nil hXwf hw
      subst hSn
      have h0 := hM.init_key
      rw [hemp, hS] at h0
      cases h0
      rfl
    have h1 := length_le_one_of_all_eq hnd 0 hall
    have h2 : 0 < lD.length := List.length_pos_of_mem hd0D
    omega
  · have hex : ∀ q, q ∈ lM → ∃ d, ∃ S w, umap_find sm₂ S = some q ∧
        Reach (fun k a k' => (a, k') ∈ determinize_post_symb (revert B) k)
          (revert B).initialstates w S ∧
        M.reach 0 w q ∧ D.reach d0 w d := by
      intro q hq
      obtain ⟨S, hS⟩ := (hM.states q).1 (hlM q hq)
      obtain ⟨w, hw⟩ := hM.key_reach S q hS
      obtain ⟨y, hy, hy'⟩ := hM.complete _ _ w S hM.init_key hw
      rw [hS] at hy'
      cases hy'
      obtain ⟨b, hb⟩ := List.exists_mem_of_ne_nil _ (Reach_subset_ne_nil hXwf hemp hw)
      obtain ⟨u, hu⟩ := det_state_reachable hB (mem_subset_has_state hB.wf hw hb)
      obtain ⟨z, hz, hr⟩ := brzozowski_accepts hB hM hS hb hu
      have h1 : M.accepts (w ++ u.reverse) :=
        ⟨0, by rw [hM.init_eq]; exact List.mem_singleton_self _, z, hz,
          Reach_append_iff.2 ⟨q, hy, hr⟩⟩
      obtain ⟨e0, he0, ef, _, her⟩ := (hlang _).2 h1
      rw [hd0, List.mem_singleton] at he0
      subst he0
      obtain ⟨d1, hd1, _⟩ := Reach_append_iff.1 her
      exact ⟨d1, S, w, hS, hw, hy, hd1⟩
    choose! φ hφ using hex
    have hinj : ∀ q ∈ lM, ∀ q' ∈ lM, φ q = φ q' → q = q' := by
      intro q hq q' hq' he
      obtain ⟨S, w, hS, hw, hr, hd⟩ := hφ q hq
      obtain ⟨S', w', hS', hw', hr', hd'⟩ := hφ q' hq'
      by_contra hne
      have hSS : S ≠ S' := by
        rintro rfl
        rw [hS] at hS'
        cases hS'
        exact hne rfl
      have hdiff : ¬ ∀ b, b ∈ S ↔ b ∈ S' :=
        fun h => hSS (sorted_ext (hM.sorted S q hS) (hM.sorted S' q' hS') h)
      rw [not_forall] at hdiff
      obtain ⟨b, hb⟩ := hdiff
      by_cases hbS : b ∈ S
      · have hbS' : b ∉ S' := fun h => hb ⟨fun _ => h, fun _ => hbS⟩
        exact brzozowski_distinguish hB hM hd0 hDf hlang hS hS' hr hr' hd (he ▸ hd') hw
          hbS hbS'
      · have hbS' : b ∈ S' := by
          by_contra h
          exact hb ⟨fun h' => absurd h' hbS, fun h' => absurd h' h⟩
        exact brzozowski_distinguish hB hM hd0 hDf hlang hS' hS hr' hr hd' (he ▸ hd) hw'
          hbS' hbS
    have hnd' : (lM.map φ).Nodup := List.Nodup.map_on hinj hnd
    have hsub : ∀ x ∈ lM.map φ, x ∈ lD := by
      intro x hx
      obtain ⟨q, hq, rfl⟩ := List.mem_map.1 hx
      obtain ⟨S, w, _, _, _, hd⟩ := hφ q hq
      exact hlD _ (reachable_has_state (by rw [hd0]; exact List.mem_singleton_self _) hd)
    have := length_le_of_nodup_subset hnd' hsub
    simpa using this

end Vata2

namespace Vata2

/-- What the answer `true` of `is_deterministic` says about a well-formed automaton. -/
theorem is_deterministic_true_elim {D : Nfa} (hD : D.WF)
    (h : is_deterministic D = .ok true) :
    D.initialstates.length = 1 ∧
      ∀ s a t t', D.has_trans ⟨s, a, t⟩ = true → D.has_trans ⟨s, a, t'⟩ = true → t = t' := by
  unfold is_deterministic at h
  by_cases hi : D.initialstates.length = 1
  · simp only [hi, bne_self_eq_false, Bool.false_eq_true, if_false] at h
    obtain ⟨b, hb, hiff⟩ := is_deterministic_loop_spec hD D.trans_list
      (fun t ht => (Nfa.mem_trans_list_iff hD t).1 ht)
    rw [h] at hb
    simp only [Except.ok.injEq] at hb
    subst hb
    have hall := hiff.1 rfl
    refine ⟨hi, fun s a t t' h1 h2 => ?_⟩
    exact hall ⟨s, a, t'⟩ ((Nfa.mem_trans_list_iff hD _).2 h2) t h1
  · rw [if_pos (by simpa using hi)] at h
    cases h

/-- C35: for every well-formed automaton `A`, `minimize(A)` terminates, `is_deterministic`
returns `true` on the result, and the result is minimal: every well-formed automaton `D` on
which `is_deterministic` returns `true` and which accepts exactly the words that `A`
accepts has at least as many states as the result (every duplicate-free list of states of
the result is at most as long as every list that contains all states of `D`). -/
theorem minimize_minimal (A : Nfa) (hA : A.WF) (params : List (String × String)) :
    ∃ M, (∃ fuel, ∀ n, fuel ≤ n → minimize n A params = some M) ∧
      (∀ n M', minimize n A params = some M' → M' = M) ∧
      is_deterministic M = .ok true ∧
      ∀ D, D.WF → is_deterministic D = .ok true →
        (∀ w, is_in_lang D w = is_in_lang A w) →
        ∀ lM lD : List State, lM.Nodup → (∀ q ∈ lM, M.has_state q) →
          (∀ q, D.has_state q → q ∈ lD) → lM.length ≤ lD.length := by
  obtain ⟨f1, B, sm₁, h1, hB⟩ := determinize_facts (revert_wf hA)
  obtain ⟨f2, M, sm₂, h2, hM⟩ := determinize_facts (revert_wf hB.wf)
  have hmin : ∀ n, max f1 f2 ≤ n → minimize n A params = some M := by
    intro n hn
    unfold minimize
    rw [h1 n (le_trans (le_max_left _ _) hn)]
    exact h2 n (le_trans (le_max_right _ _) hn)
  have huniq : ∀ n M', minimize n A params = some M' → M' = M := by
    intro n M' h
    have e := minimize_mono h (le_max_left n (max f1 f2))
    rw [hmin _ (le_max_right n (max f1 f2))] at e
    cases e
    rfl
  have hlangM : ∀ w, M.accepts w ↔ A.accepts w := by
    obtain ⟨f3, M', h3, _, h5⟩ := minimize_spec hA params
    have := huniq f3 M' (h3 f3 (le_refl _))
    subst this
    exact h5
  refine ⟨M, ⟨_, hmin⟩, huniq,
    is_deterministic_of_functional hM.wf (by rw [hM.init_eq]; rfl) hM.functional, ?_⟩
  intro D hD hdet hlang lM lD hnd hlM hlD
  obtain ⟨hDi, hDf⟩ := is_deterministic_true_elim hD hdet
  refine brzozowski_minimal hB hM D hDi hDf (fun w => ?_) lM lD hnd hlM hlD
  rw [hlangM, ← is_in_lang_iff, ← is_in_lang_iff, hlang w]

theorem minimize_minimal_witness :
    nfa_S6.WF ∧
    minimize 4 nfa_S6 [] = some ⟨[(0, [(0, [1]), (1, [1])])], [0], [1]⟩ ∧
    ∃ M, (∃ fuel, ∀ n, fuel ≤ n → minimize n nfa_S6 [] = some M) ∧
      (∀ n M', minimize n nfa_S6 [] = some M' → M' = M) ∧
      is_deterministic M = .ok true ∧
      ∀ D, D.WF → is_deterministic D = .ok true →
        (∀ w, is_in_lang D w = is_in_lang nfa_S6 w) →
        ∀ lM lD : List State, lM.Nodup → (∀ q ∈ lM, M.has_state q) →
          (∀ q, D.has_state q → q ∈ lD) → lM.length ≤ lD.length :=
  ⟨by decide, by decide, minimize_minimal nfa_S6 (by decide) []⟩

end Vata2
